import Mathlib

/-!
HotStuff replica: fetch/delivery engine, command pipeline and wire framing

A shallow embedding of `src/src/hotstuff.cpp` (class `HotStuffBase` and the
message classes) and of the client interface of `src/src/hotstuff_app.cpp`
(class `HotStuffApp`).  The replica runs on a single-threaded event loop, so
every handler body is a function on the replica state.  Promises are kept in
an explicit heap; the lambdas of the source are the constructors of `Callback`.
-/

namespace HotStuff

/-! ## Entities -/

/-- Block and command hashes (`uint256_t`), used as map keys. -/
abbrev Hash := Nat

/-- Network address of a peer (`NetAddr`). -/
abbrev NetAddr := Nat

/-- Replica identifier (`ReplicaID`). -/
abbrev ReplicaID := Nat

/-- Handle of a promise in the promise heap (`promise_t` is a shared handle). -/
abbrev PId := Nat

/-- Client command (`command_t`): an opaque payload with a stable hash. -/
structure Command where
  hash : Hash
  payload : Nat
deriving DecidableEq, Repr

/-- Block (`block_t`): parent hashes, commands, and the hash of the block the
quorum certificate refers to (`qc->get_blk_hash()`), `none` for a null QC. -/
structure Block where
  hash : Hash
  parent_hashes : List Hash
  cmds : List Command
  qc : Option Hash
deriving DecidableEq, Repr

/-- Finality record, fields in the order of the constructor call
`Finality(rid, decision, cmd_idx, cmd_height, cmd_hash, blk_hash)`. -/
structure Finality where
  rid : ReplicaID
  decision : Int
  cmd_idx : Nat
  cmd_height : Nat
  cmd_hash : Hash
  blk_hash : Hash
deriving DecidableEq, Repr

/-- Proposal `(B, proposer, bqc_hash)`. -/
structure Proposal where
  proposer : ReplicaID
  bqc_hash : Hash
  blk : Block
deriving DecidableEq, Repr

/-- Vote `(voter, bqc_hash, blk_hash)`; the signature plays no role here. -/
structure Vote where
  voter : ReplicaID
  bqc_hash : Hash
  blk_hash : Hash
deriving DecidableEq, Repr

/-! ## Block store -/

/-- Modelled from the spec: the block store (`EntityStorage`, declared in a
header that is not among the sources).  It maps hashes to blocks and commands
and records which blocks carry the delivered flag. -/
structure EntityStorage where
  blk_cache : List Block
  delivered : List Hash
  cmd_cache : List Command
deriving DecidableEq, Repr

namespace EntityStorage

/-- Modelled from the spec: `find_blk(h)` returns the canonical block or a
not-found signal. -/
def find_blk (st : EntityStorage) (h : Hash) : Option Block :=
  st.blk_cache.find? (fun b => b.hash == h)

/-- Modelled from the spec: `is_blk_fetched(h)`, a pure membership query. -/
def is_blk_fetched (st : EntityStorage) (h : Hash) : Bool :=
  (st.find_blk h).isSome

/-- Modelled from the spec: `is_blk_delivered(h)`, a pure membership query. -/
def is_blk_delivered (st : EntityStorage) (h : Hash) : Bool :=
  decide (h ∈ st.delivered)

/-- Modelled from the spec: `add_blk(B)`: if `H(B)` exists, returns the stored
instance; else stores and returns `B`. -/
def add_blk (st : EntityStorage) (b : Block) : EntityStorage × Block :=
  match st.find_blk b.hash with
  | some c => (st, c)
  | none => ({ st with blk_cache := st.blk_cache ++ [b] }, b)

/-- Modelled from the spec: `find_cmd(h)`. -/
def find_cmd (st : EntityStorage) (h : Hash) : Option Command :=
  st.cmd_cache.find? (fun c => c.hash == h)

/-- Modelled from the spec: `add_cmd(c)`, same contract as `add_blk`. -/
def add_cmd (st : EntityStorage) (c : Command) : EntityStorage × Command :=
  match st.find_cmd c.hash with
  | some d => (st, d)
  | none => ({ st with cmd_cache := st.cmd_cache ++ [c] }, c)

/-- Modelled from the spec: the effect of a successful
`HotStuffCore::on_deliver_blk` on the store: the delivered flag of the block
is set (and never cleared). -/
def mark_blk_delivered (st : EntityStorage) (h : Hash) : EntityStorage :=
  { st with delivered := h :: st.delivered }

end EntityStorage

/-! ## Promises -/

/-- Value a promise is resolved with. -/
inductive Value where
  | null
  | blk (b : Block)
  | values (bs : List Block)
  | fin (f : Finality)
deriving DecidableEq, Repr

/-- State of a promise. -/
inductive PromiseState where
  | pending
  | resolved (v : Value)
  | rejected
deriving DecidableEq, Repr

/-- Outcome handed to a callback when its promise settles. -/
inductive Outcome where
  | fulfilled (v : Value)
  | rejected
deriving DecidableEq, Repr

/-- The continuations registered with `then` in the sources, by line of
`hotstuff.cpp`, together with the per-element continuation of `promise::all`. -/
inductive Callback where
  /-- Line 226: runs when the block of an `async_deliver_blk` is fetched. -/
  | deliver_fetched (replica_id : NetAddr)
  /-- Line 235: `on_deliver_blk(blk)` once QC referent and parents are ready. -/
  | deliver_ready (blk : Block)
  /-- Element continuation of `promise::all`, reporting to the joint promise. -/
  | all_part (ret : PId)
  /-- Line 250: `on_receive_proposal(prop)`. -/
  | receive_proposal (prop : Proposal)
  /-- Line 262: `on_receive_vote(vote)`. -/
  | receive_vote (vote : Vote)
  /-- Line 273: send `MsgRespBlock` to the requesting replica. -/
  | send_resp_blk (replica : NetAddr)
  /-- Line 84: `on_propose(cmds, pmaker->get_parents())`. -/
  | propose (cmds : List Command)
  /-- Lines 279 and 288 of `hotstuff_app.cpp`: send `MsgRespCmd` to the client. -/
  | send_resp_cmd (addr : NetAddr)
deriving DecidableEq, Repr

/-- What a promise was created for.  No operation reads this field; it is
bookkeeping for the statements about the engine. -/
inductive Purpose where
  | fetch (h : Hash)
  | deliver (h : Hash)
  | all
  | other
deriving DecidableEq, Repr

/-- Cell of the promise heap. -/
structure Promise where
  state : PromiseState
  callbacks : List Callback
  parts : List PId
  purpose : Purpose
deriving DecidableEq, Repr

/-- Block fetch context (`BlockFetchContext`): its promise and the candidate
replicas added with `add_replica`. -/
structure BlockFetchContext where
  pm : PId
  replica_ids : List NetAddr
deriving DecidableEq, Repr

/-- Observable calls made by the replica, oldest first.  The events for
`on_deliver_blk`, `on_receive_proposal` and `on_receive_vote` carry the block
store as it is at the moment of the call. -/
inductive Event where
  | on_deliver_blk (blk : Block) (store : EntityStorage)
  | on_receive_proposal (prop : Proposal) (store : EntityStorage)
  | on_receive_vote (vote : Vote) (store : EntityStorage)
  | send_resp_blk (blks : List Block) (replica : NetAddr)
  | on_propose (cmds : List Command)
  | send_resp_cmd (fin : Finality) (addr : NetAddr)
  | async_fetch_blk (blk_hash : Hash) (replica_id : Option NetAddr)
deriving DecidableEq, Repr

/-! ## Replica state -/

/-- State of `HotStuffBase` (fields named as in the class), the block store,
the promise heap and the pacemaker's current proposer. -/
structure HotStuffBase where
  id : ReplicaID
  blk_size : Nat
  proposer : ReplicaID
  storage : EntityStorage
  cmd_pending : List Command
  blk_fetch_waiting : List (Hash × BlockFetchContext)
  blk_delivery_waiting : List (Hash × PId)
  cmd_fetch_waiting : List (Hash × PId)
  decision_waiting : List (Hash × PId)
  unconfirmed : List (Hash × PId)
  beat_waiting : List PId
  fetched : Nat
  delivered : Nat
  part_parent_size : Nat
  part_fetched : Nat
  part_delivered : Nat
  heap : PId → Promise
  next : PId
  trace : List Event

/-- Verdicts of code outside the sources: `Block::verify` against the replica
configuration and the return value of `HotStuffCore::on_deliver_blk`. -/
structure Env where
  verify : Block → Bool
  core_on_deliver_blk : EntityStorage → Block → Bool

/-! ## Promise heap -/

namespace HotStuffBase

/-- Overwrite the cell of promise `p`. -/
def set_promise (s : HotStuffBase) (p : PId) (c : Promise) : HotStuffBase :=
  { s with heap := fun q => if q = p then c else s.heap q }

/-- Create a promise; its handle is the next free index of the heap. -/
def new_promise (s : HotStuffBase) (c : Promise) : HotStuffBase × PId :=
  ({ s with heap := fun q => if q = s.next then c else s.heap q, next := s.next + 1 }, s.next)

/-- Append an event to the trace. -/
def log (s : HotStuffBase) (e : Event) : HotStuffBase :=
  { s with trace := s.trace ++ [e] }

end HotStuffBase

/-- Entry of a hash-keyed table (`unordered_map::find`). -/
def table_find {α : Type} (t : List (Hash × α)) (h : Hash) : Option α :=
  (t.find? (fun e => e.1 == h)).map Prod.snd

/-- Removal of the entry of a hash (`unordered_map::erase`). -/
def table_erase {α : Type} (t : List (Hash × α)) (h : Hash) : List (Hash × α) :=
  t.filter (fun e => !(e.1 == h))

/-- A loop `for (x : xs) out.push_back(f(x))` over a call `f` that changes the
state: the final state and the values pushed, in order. -/
def collect {α β σ : Type} (f : α → σ → σ × β) : List α → σ → σ × List β
  | [], s => (s, [])
  | a :: l, s => ((collect f l (f a s).1).1, (f a s).2 :: (collect f l (f a s).1).2)

/-- State a promise takes with an outcome. -/
def Outcome.to_state : Outcome → PromiseState
  | .fulfilled v => .resolved v
  | .rejected => .rejected

/-- Modelled from the spec: settling a promise (`promise.hpp` is not among the
sources).  A pending promise takes the outcome and its callbacks run in the
order they were registered, synchronously; a settled promise is left alone.
`run` is the interpreter of callbacks. -/
def settle (run : Callback → Outcome → HotStuffBase → HotStuffBase)
    (p : PId) (o : Outcome) (s : HotStuffBase) : HotStuffBase :=
  match (s.heap p).state with
  | .pending =>
    let s1 := s.set_promise p { s.heap p with state := o.to_state, callbacks := [] }
    (s.heap p).callbacks.foldl (fun acc k => run k o acc) s1
  | _ => s

/-- Modelled from the spec: `pm.then(k)`: on a pending promise the callback
is queued, on a settled one it runs at once with the outcome. -/
def promise_then (run : Callback → Outcome → HotStuffBase → HotStuffBase)
    (p : PId) (k : Callback) (s : HotStuffBase) : HotStuffBase :=
  match (s.heap p).state with
  | .pending =>
    s.set_promise p { s.heap p with callbacks := (s.heap p).callbacks ++ [k] }
  | .resolved v => run k (.fulfilled v) s
  | .rejected => run k .rejected s

/-- Whether a promise is resolved. -/
def is_resolved (s : HotStuffBase) (p : PId) : Bool :=
  match (s.heap p).state with
  | .resolved _ => true
  | _ => false

/-- Blocks the parts of a joint promise were resolved with. -/
def part_values (s : HotStuffBase) (ps : List PId) : List Block :=
  ps.filterMap (fun q => match (s.heap q).state with
    | .resolved (.blk b) => some b
    | _ => none)

/-- Modelled from the spec: the step of `promise::all` taken when one of its
parts resolves: "when all resolve", the joint promise resolves with the values
of the parts. -/
def all_check (run : Callback → Outcome → HotStuffBase → HotStuffBase)
    (ret : PId) (s : HotStuffBase) : HotStuffBase :=
  if (s.heap ret).parts.all (is_resolved s) then
    settle run ret (.fulfilled (.values (part_values s (s.heap ret).parts))) s
  else s

/-- Modelled from the spec: `promise::all(pms)`: a joint promise that resolves
when all of `pms` have resolved and is rejected as soon as one of them is. -/
def promise_all (run : Callback → Outcome → HotStuffBase → HotStuffBase)
    (pms : List PId) (s : HotStuffBase) : HotStuffBase × PId :=
  let r := s.new_promise { state := .pending, callbacks := [], parts := pms, purpose := .all }
  let s2 := pms.foldl (fun acc pm => promise_then run pm (.all_part r.2) acc) r.1
  (all_check run r.2 s2, r.2)

/-! ## The fetch / delivery engine (`hotstuff.cpp`) -/

/-- Modelled from the spec: `FetchContext::add_replica`: the hinted peer joins
the candidate set of the context. -/
def BlockFetchContext.add_replica (c : BlockFetchContext) (r : NetAddr) : BlockFetchContext :=
  if r ∈ c.replica_ids then c else { c with replica_ids := c.replica_ids ++ [r] }

/-- Body of `HotStuffBase::async_fetch_blk` (lines 173-194).  The call itself
is recorded in the trace. -/
def async_fetch_blk (blk_hash : Hash) (replica_id : Option NetAddr)
    (s0 : HotStuffBase) : HotStuffBase × PId :=
  let s := s0.log (.async_fetch_blk blk_hash replica_id)
  match s.storage.find_blk blk_hash with
  | some b =>
    s.new_promise { state := .resolved (.blk b), callbacks := [], parts := [],
                    purpose := .fetch blk_hash }
  | none =>
    let r : HotStuffBase × BlockFetchContext :=
      match table_find s.blk_fetch_waiting blk_hash with
      | some ctx => (s, ctx)
      | none =>
        let a := s.new_promise { state := .pending, callbacks := [], parts := [],
                                 purpose := .fetch blk_hash }
        ({ a.1 with blk_fetch_waiting :=
              a.1.blk_fetch_waiting ++ [(blk_hash, { pm := a.2, replica_ids := [] })] },
         { pm := a.2, replica_ids := [] })
    match replica_id with
    | some rid =>
      ({ r.1 with blk_fetch_waiting := r.1.blk_fetch_waiting.map (fun e =>
            if e.1 == blk_hash then (e.1, e.2.add_replica rid) else e) }, r.2.pm)
    | none => (r.1, r.2.pm)

/-- Body of `HotStuffBase::on_fetch_cmd` (lines 121-129). -/
def on_fetch_cmd (run : Callback → Outcome → HotStuffBase → HotStuffBase)
    (cmd : Command) (s : HotStuffBase) : HotStuffBase :=
  match table_find s.cmd_fetch_waiting cmd.hash with
  | some pm =>
    let s1 := settle run pm (.fulfilled .null) s
    { s1 with cmd_fetch_waiting := table_erase s1.cmd_fetch_waiting cmd.hash }
  | none => s

/-- Body of `HotStuffBase::on_fetch_blk` (lines 104-119). -/
def on_fetch_blk (run : Callback → Outcome → HotStuffBase → HotStuffBase)
    (blk : Block) (s0 : HotStuffBase) : HotStuffBase :=
  let s1 := { s0 with part_fetched := s0.part_fetched + 1, fetched := s0.fetched + 1 }
  let s2 := blk.cmds.foldl (fun acc cmd => on_fetch_cmd run cmd acc) s1
  match table_find s2.blk_fetch_waiting blk.hash with
  | some ctx =>
    let s3 := settle run ctx.pm (.fulfilled (.blk blk)) s2
    { s3 with blk_fetch_waiting := table_erase s3.blk_fetch_waiting blk.hash }
  | none => s2

/-- Body of `HotStuffBase::on_deliver_blk` (lines 131-171).  The call is
recorded with the store as it is on entry, which is the store the assertion
of lines 135-136 reads.  The timing statistics are left out. -/
def on_deliver_blk (env : Env) (run : Callback → Outcome → HotStuffBase → HotStuffBase)
    (blk : Block) (s0 : HotStuffBase) : HotStuffBase :=
  let s := s0.log (.on_deliver_blk blk s0.storage)
  let valid := env.core_on_deliver_blk s.storage blk
  let s1 :=
    if valid then
      { s with storage := s.storage.mark_blk_delivered blk.hash,
               part_parent_size := s.part_parent_size + blk.parent_hashes.length,
               part_delivered := s.part_delivered + 1,
               delivered := s.delivered + 1 }
    else s
  match table_find s1.blk_delivery_waiting blk.hash with
  | some pm =>
    let s2 := if valid then settle run pm (.fulfilled (.blk blk)) s1
              else settle run pm .rejected s1
    { s2 with blk_delivery_waiting := table_erase s2.blk_delivery_waiting blk.hash }
  | none => s1

/-- Body of `HotStuffBase::async_deliver_blk` (lines 214-240). -/
def async_deliver_blk (run : Callback → Outcome → HotStuffBase → HotStuffBase)
    (blk_hash : Hash) (replica_id : NetAddr) (s : HotStuffBase) : HotStuffBase × PId :=
  if s.storage.is_blk_delivered blk_hash then
    s.new_promise
      { state := .resolved (match s.storage.find_blk blk_hash with
                            | some b => .blk b
                            | none => .null),
        callbacks := [], parts := [], purpose := .deliver blk_hash }
  else
    match table_find s.blk_delivery_waiting blk_hash with
    | some pm => (s, pm)
    | none =>
      let a := s.new_promise { state := .pending, callbacks := [], parts := [],
                               purpose := .deliver blk_hash }
      let s1 := { a.1 with blk_delivery_waiting := a.1.blk_delivery_waiting ++ [(blk_hash, a.2)] }
      let f := async_fetch_blk blk_hash (some replica_id) s1
      (promise_then run f.2 (.deliver_fetched replica_id) f.1, a.2)

/-- Lines 228-235 of the continuation of `async_deliver_blk`: the promises
for the QC referent (fetched) and for the parents (delivered), and their
joint promise. -/
def deliver_deps (run : Callback → Outcome → HotStuffBase → HotStuffBase)
    (blk : Block) (replica_id : NetAddr) (s : HotStuffBase) : HotStuffBase × PId :=
  let q : HotStuffBase × List PId :=
    match blk.qc with
    | some h => ((async_fetch_blk h (some replica_id) s).1,
                 [(async_fetch_blk h (some replica_id) s).2])
    | none => (s, [])
  let r := collect (fun phash acc => async_deliver_blk run phash replica_id acc)
    blk.parent_hashes q.1
  promise_all run (q.2 ++ r.2) r.1

/-- Interpreter of callbacks.  The first argument bounds the nesting depth of
synchronous callback runs; at depth `0` the callback is not run. -/
def run_callback (env : Env) : Nat → Callback → Outcome → HotStuffBase → HotStuffBase
  | 0, _, _, s => s
  | n + 1, .deliver_fetched replica_id, .fulfilled (.blk blk), s =>
    promise_then (run_callback env n)
      (deliver_deps (run_callback env n) blk replica_id s).2 (.deliver_ready blk)
      (deliver_deps (run_callback env n) blk replica_id s).1
  | n + 1, .deliver_ready blk, .fulfilled _, s =>
    on_deliver_blk env (run_callback env n) blk s
  | n + 1, .all_part ret, .fulfilled _, s => all_check (run_callback env n) ret s
  | n + 1, .all_part ret, .rejected, s => settle (run_callback env n) ret .rejected s
  | _ + 1, .receive_proposal prop, .fulfilled _, s => s.log (.on_receive_proposal prop s.storage)
  | _ + 1, .receive_vote vote, .fulfilled _, s => s.log (.on_receive_vote vote s.storage)
  | _ + 1, .send_resp_blk replica, .fulfilled (.values blks), s =>
    s.log (.send_resp_blk blks replica)
  | _ + 1, .propose cmds, .fulfilled _, s => s.log (.on_propose cmds)
  | _ + 1, .send_resp_cmd addr, .fulfilled (.fin f), s => s.log (.send_resp_cmd f addr)
  | _ + 1, _, _, s => s

/-! ## Message handlers -/

/-- Body of `MsgRespBlock::postponed_parse` (lines 47-64) on the blocks read
from the payload: one entry per block, `none` for the null pointer. -/
def MsgRespBlock.postponed_parse (env : Env) (payload : List Block)
    (s : HotStuffBase) : HotStuffBase × List (Option Block) :=
  collect (fun _blk (acc : HotStuffBase) =>
    if !env.verify _blk then
      ({ acc with storage := (acc.storage.add_blk _blk).1 }, some (acc.storage.add_blk _blk).2)
    else
      (acc, none)) payload s

/-- Body of `HotStuffBase::resp_blk_handler` (lines 284-288). -/
def resp_blk_handler (env : Env) (fuel : Nat) (payload : List Block)
    (s : HotStuffBase) : HotStuffBase :=
  let m := MsgRespBlock.postponed_parse env payload s
  m.2.foldl (fun acc blk =>
    match blk with
    | some b => on_fetch_blk (run_callback env fuel) b acc
    | none => acc) m.1

/-- Body of `HotStuffBase::req_blk_handler` (lines 267-282). -/
def req_blk_handler (env : Env) (fuel : Nat) (blk_hashes : List Hash) (replica : NetAddr)
    (s : HotStuffBase) : HotStuffBase :=
  let r := collect (fun h acc => async_fetch_blk h none acc) blk_hashes s
  let a := promise_all (run_callback env fuel) r.2 r.1
  promise_then (run_callback env fuel) a.2 (.send_resp_blk replica) a.1

/-- Body of `HotStuffBase::propose_handler` (lines 242-253).  Modelled from
the spec: `msg.postponed_parse` reconstitutes the block of the proposal via
the block store. -/
def propose_handler (env : Env) (fuel : Nat) (prop0 : Proposal) (peer : NetAddr)
    (s0 : HotStuffBase) : HotStuffBase :=
  let r := s0.storage.add_blk prop0.blk
  let s : HotStuffBase := { s0 with storage := r.1 }
  let prop : Proposal := { prop0 with blk := r.2 }
  let d1 := async_deliver_blk (run_callback env fuel) prop.bqc_hash peer s
  let d2 := async_deliver_blk (run_callback env fuel) prop.blk.hash peer d1.1
  let a := promise_all (run_callback env fuel) [d1.2, d2.2] d2.1
  promise_then (run_callback env fuel) a.2 (.receive_proposal prop) a.1

/-- Body of `HotStuffBase::vote_handler` (lines 255-265). -/
def vote_handler (env : Env) (fuel : Nat) (vote : Vote) (peer : NetAddr)
    (s : HotStuffBase) : HotStuffBase :=
  let d1 := async_deliver_blk (run_callback env fuel) vote.bqc_hash peer s
  let d2 := async_deliver_blk (run_callback env fuel) vote.blk_hash peer d1.1
  let a := promise_all (run_callback env fuel) [d1.2, d2.2] d2.1
  promise_then (run_callback env fuel) a.2 (.receive_vote vote) a.1

/-! ## Command pipeline -/

/-- The loop of lines 79-83: `n` times, the front of the queue is appended to
`cmds` and popped.  (The front of an empty queue is never taken: the loop is
entered with at least `blk_size` queued commands.) -/
def drain_pending : Nat → List Command → List Command → List Command × List Command
  | 0, cmds, queue => (cmds, queue)
  | _ + 1, cmds, [] => (cmds, [])
  | n + 1, cmds, c :: queue => drain_pending n (cmds ++ [c]) queue

/-- Body of `HotStuffBase::exec_command` (lines 66-95).  Modelled from the
spec: `pmaker->beat()` hands out a promise that the pacemaker resolves when
this replica may propose; it is kept in `beat_waiting`, and the continuation
of line 84 is its callback. -/
def exec_command (cmd : Command) (s : HotStuffBase) : HotStuffBase × PId :=
  let cmd_hash := cmd.hash
  let proposer := s.proposer
  if proposer != s.id then
    s.new_promise { state := .resolved (.fin (Finality.mk proposer (-1) 0 0 cmd_hash 0)),
                    callbacks := [], parts := [], purpose := .other }
  else
    let c := s.storage.add_cmd cmd
    let s1 : HotStuffBase := { s with storage := c.1, cmd_pending := s.cmd_pending ++ [c.2] }
    let s2 : HotStuffBase :=
      if s1.cmd_pending.length ≥ s1.blk_size then
        let r := drain_pending s1.blk_size [] s1.cmd_pending
        let b := ({ s1 with cmd_pending := r.2 }).new_promise
          { state := .pending, callbacks := [.propose r.1], parts := [], purpose := .other }
        { b.1 with beat_waiting := b.1.beat_waiting ++ [b.2] }
      else s1
    match table_find s2.decision_waiting cmd_hash with
    | some pm => (s2, pm)
    | none =>
      let d := s2.new_promise { state := .pending, callbacks := [], parts := [],
                                purpose := .other }
      ({ d.1 with decision_waiting := d.1.decision_waiting ++ [(cmd_hash, d.2)] }, d.2)

/-- The pacemaker lets the replica propose: the oldest promise handed out by
`beat()` resolves, which runs the continuation of line 84. -/
def beat_fire (env : Env) (fuel : Nat) (s : HotStuffBase) : HotStuffBase :=
  match s.beat_waiting with
  | [] => s
  | pm :: rest =>
    settle (run_callback env fuel) pm (.fulfilled .null) { s with beat_waiting := rest }

/-! ## Wire framing of `MsgReqBlock` -/

/-- Byte order of the machine the replica runs on. -/
structure Host where
  big_endian : Bool
deriving DecidableEq, Repr

/-- The `n` low bytes of `x`, least significant first. -/
def le_bytes : Nat → Nat → List Nat
  | 0, _ => []
  | n + 1, x => x % 256 :: le_bytes n (x / 256)

/-- The number whose bytes, least significant first, are `bs`. -/
def of_le_bytes : List Nat → Nat
  | [] => 0
  | b :: bs => b + 256 * of_le_bytes bs

/-- Memory image of an `n`-byte unsigned integer on the host, which is what
`DataStream << x` appends for an integral `x`. -/
def raw_bytes (host : Host) (n : Nat) (x : Nat) : List Nat :=
  if host.big_endian then (le_bytes n x).reverse else le_bytes n x

/-- The unsigned integer with the given memory image on the host
(`DataStream >> x`). -/
def of_raw_bytes (host : Host) (bs : List Nat) : Nat :=
  if host.big_endian then of_le_bytes bs.reverse else of_le_bytes bs

/-- Modelled from the spec: `htole` on an `n`-byte unsigned integer (the
endianness helpers are not among the sources): the identity on a
little-endian host, the byte swap on a big-endian one.  `letoh` is the same
function. -/
def htole (host : Host) (n : Nat) (x : Nat) : Nat :=
  if host.big_endian then of_le_bytes (le_bytes n x).reverse else x % 2 ^ (8 * n)

/-- Modelled from the spec: a hash on the wire is 32 bytes. -/
def put_hash (h : Hash) : List Nat := le_bytes 32 h

/-- Constructor `MsgReqBlock(const std::vector<uint256_t> &)` (lines 27-31):
`htole` is applied to `blk_hashes.size()`, a 64-bit `size_t`, and the result
is cast to `uint32_t`. -/
def MsgReqBlock.serialize (host : Host) (blk_hashes : List Hash) : List Nat :=
  blk_hashes.foldl (fun serialized h => serialized ++ put_hash h)
    (raw_bytes host 4 (htole host 8 (blk_hashes.length % 2 ^ 64) % 2 ^ 32))

/-- The loop of line 38: `n` hashes are read from the stream; reading past
the end of the stream fails. -/
def get_hashes : Nat → List Nat → Option (List Hash)
  | 0, _ => some []
  | n + 1, s =>
    if s.length < 32 then none
    else (get_hashes n (s.drop 32)).map (fun hs => of_le_bytes (s.take 32) :: hs)

/-- Constructor `MsgReqBlock(DataStream &&)` (lines 33-39). -/
def MsgReqBlock.parse (host : Host) (s : List Nat) : Option (List Hash) :=
  if s.length < 4 then none
  else
    let size := of_raw_bytes host (s.take 4)
    let size := htole host 4 size
    get_hashes size (s.drop 4)

/-! ## Executions -/

/-- Replica as built by the constructor of `HotStuffBase`: empty tables and
queues, counters at zero, no promise yet.  The block store is handed in (it
holds at least the pre-delivered genesis block). -/
def HotStuffBase.init (id : ReplicaID) (blk_size : Nat) (proposer : ReplicaID)
    (storage : EntityStorage) : HotStuffBase :=
  { id := id, blk_size := blk_size, proposer := proposer, storage := storage,
    cmd_pending := [], blk_fetch_waiting := [], blk_delivery_waiting := [],
    cmd_fetch_waiting := [], decision_waiting := [], unconfirmed := [],
    beat_waiting := [], fetched := 0, delivered := 0, part_parent_size := 0,
    part_fetched := 0, part_delivered := 0,
    heap := fun _ => { state := .pending, callbacks := [], parts := [], purpose := .other },
    next := 0, trace := [] }

/-- What the event loop can hand to the replica: a message from a peer, a
direct call of `async_deliver_blk`, a client command, a beat of the
pacemaker, or a change of proposer. -/
inductive Input where
  | propose (prop : Proposal) (peer : NetAddr)
  | vote (vote : Vote) (peer : NetAddr)
  | req_blk (blk_hashes : List Hash) (replica : NetAddr)
  | resp_blk (payload : List Block)
  | deliver (blk_hash : Hash) (replica_id : NetAddr)
  | command (cmd : Command)
  | beat
  | set_proposer (proposer : ReplicaID)
deriving DecidableEq, Repr

/-- One turn of the event loop.  `fuel` bounds the nesting of callback runs
within the turn. -/
def step (env : Env) (fuel : Nat) (s : HotStuffBase) : Input → HotStuffBase
  | .propose prop peer => propose_handler env fuel prop peer s
  | .vote vote peer => vote_handler env fuel vote peer s
  | .req_blk blk_hashes replica => req_blk_handler env fuel blk_hashes replica s
  | .resp_blk payload => resp_blk_handler env fuel payload s
  | .deliver blk_hash replica_id => (async_deliver_blk (run_callback env fuel) blk_hash replica_id s).1
  | .command cmd => (exec_command cmd s).1
  | .beat => beat_fire env fuel s
  | .set_proposer proposer => { s with proposer := proposer }

/-- A run of the event loop over a list of inputs. -/
def run_inputs (env : Env) (fuel : Nat) (s : HotStuffBase) (inputs : List Input) : HotStuffBase :=
  inputs.foldl (step env fuel) s

/-! ## Sample data -/

/-- The genesis block: no parents, no commands, null QC. -/
def genesis : Block := { hash := 0, parent_hashes := [], cmds := [], qc := none }

/-- A store that holds the pre-delivered genesis block only. -/
def genesis_store : EntityStorage := { blk_cache := [genesis], delivered := [0], cmd_cache := [] }

/-- Replica 0 of a system whose proposer is replica 0, with `blk_size = 2`. -/
def sample_proposer : HotStuffBase := HotStuffBase.init 0 2 0 genesis_store

/-- Replica 2 of a system whose proposer is replica 0, with `blk_size = 2`. -/
def sample_follower : HotStuffBase := HotStuffBase.init 2 2 0 genesis_store

/-- A block on top of genesis whose QC refers to genesis. -/
def sample_blk1 : Block := { hash := 1, parent_hashes := [0], cmds := [], qc := some 0 }

/-- Another block on top of genesis. -/
def sample_blk3 : Block := { hash := 3, parent_hashes := [0], cmds := [], qc := some 0 }

/-- An environment in which `Block::verify` accepts the block of hash 1 and
no other, and `HotStuffCore::on_deliver_blk` accepts every block. -/
def sample_env : Env := { verify := fun b => b.hash == 1, core_on_deliver_blk := fun _ _ => true }

/-- An environment in which `Block::verify` fails for every block and
`HotStuffCore::on_deliver_blk` finds the block of hash 1 invalid. -/
def reject1_env : Env :=
  { verify := fun _ => false, core_on_deliver_blk := fun _ b => !(b.hash == 1) }

/-! ## Invariants of the engine -/

/-- The identity of promises is stable and settled promises stay settled; the
store only grows. -/
structure Ext (s t : HotStuffBase) : Prop where
  next_le : s.next ≤ t.next
  purpose_eq : ∀ p, p < s.next → (t.heap p).purpose = (s.heap p).purpose
  parts_eq : ∀ p, p < s.next → (t.heap p).parts = (s.heap p).parts
  settled : ∀ p, p < s.next → (s.heap p).state ≠ .pending → (t.heap p).state = (s.heap p).state
  delivered_sub : ∀ h, h ∈ s.storage.delivered → h ∈ t.storage.delivered
  blk_kept : ∀ h b, s.storage.find_blk h = some b → t.storage.find_blk h = some b

/-- Every delivered block is stored and its parents are delivered. -/
def ClosedStore (st : EntityStorage) : Prop :=
  ∀ h ∈ st.delivered, ∃ b, st.find_blk h = some b ∧ ∀ ph ∈ b.parent_hashes, ph ∈ st.delivered

/-- What a recorded call must satisfy: `on_deliver_blk(B)` is entered with the
stored instance of `B`, all parents of `B` delivered and the QC referent of
`B` fetched; `on_receive_proposal(P)` is entered with both blocks of `P`
delivered.  `C` stands for the assumption that the store was closed at the
start. -/
def TraceOK (C : Prop) : Event → Prop
  | .on_deliver_blk b st =>
    st.find_blk b.hash = some b
      ∧ (∀ ph ∈ b.parent_hashes, st.is_blk_delivered ph = true)
      ∧ (∀ h, b.qc = some h → st.is_blk_fetched h = true)
      ∧ (C → ClosedStore st)
  | .on_receive_proposal prop st =>
    st.is_blk_delivered prop.bqc_hash = true ∧ st.is_blk_delivered prop.blk.hash = true
  | _ => True

/-- What a callback registered on promise `p` relies on. -/
def Attached (s : HotStuffBase) (p : PId) : Callback → Prop
  | .deliver_ready b =>
    (s.heap p).purpose = .all ∧ s.storage.find_blk b.hash = some b
      ∧ (∀ ph ∈ b.parent_hashes, ∃ q ∈ (s.heap p).parts, (s.heap q).purpose = .deliver ph)
      ∧ (∀ h, b.qc = some h → ∃ q ∈ (s.heap p).parts, (s.heap q).purpose = .fetch h)
  | .receive_proposal prop =>
    (s.heap p).purpose = .all
      ∧ (∃ q ∈ (s.heap p).parts, (s.heap q).purpose = .deliver prop.bqc_hash)
      ∧ (∃ q ∈ (s.heap p).parts, (s.heap q).purpose = .deliver prop.blk.hash)
  | .all_part ret => ret < s.next ∧ (s.heap ret).purpose = .all
  | .deliver_fetched _ => ∃ h, (s.heap p).purpose = .fetch h
  | _ => True

/-- What must hold when a callback is run with an outcome. -/
def Pre (s : HotStuffBase) : Callback → Outcome → Prop
  | .deliver_ready b, .fulfilled _ =>
    s.storage.find_blk b.hash = some b
      ∧ (∀ ph ∈ b.parent_hashes, ph ∈ s.storage.delivered)
      ∧ (∀ h, b.qc = some h → s.storage.is_blk_fetched h = true)
  | .receive_proposal prop, .fulfilled _ =>
    prop.bqc_hash ∈ s.storage.delivered ∧ prop.blk.hash ∈ s.storage.delivered
  | .all_part ret, _ => ret < s.next ∧ (s.heap ret).purpose = .all
  | .deliver_fetched _, .fulfilled (.blk b) => s.storage.find_blk b.hash = some b
  | _, _ => True

/-- The invariant of the fetch/delivery engine.  It holds between any two
steps of a handler, also in the middle of a cascade of callbacks. -/
structure Inv (C : Prop) (s : HotStuffBase) : Prop where
  parts_lt : ∀ p, p < s.next → ∀ q ∈ (s.heap p).parts, q < s.next
  deliver_ok : ∀ p h, p < s.next → (s.heap p).purpose = .deliver h →
    is_resolved s p = true → h ∈ s.storage.delivered
  fetch_ok : ∀ p h v, p < s.next → (s.heap p).purpose = .fetch h →
    (s.heap p).state = .resolved v → ∃ b, v = .blk b ∧ s.storage.find_blk h = some b
  all_ok : ∀ p, p < s.next → (s.heap p).purpose = .all → is_resolved s p = true →
    ∀ q ∈ (s.heap p).parts, is_resolved s q = true
  attached : ∀ p, p < s.next → ∀ k ∈ (s.heap p).callbacks, Attached s p k
  fetch_tbl : ∀ e ∈ s.blk_fetch_waiting,
    e.2.pm < s.next ∧ (s.heap e.2.pm).purpose = .fetch e.1
  deliv_tbl : ∀ e ∈ s.blk_delivery_waiting, e.2 < s.next ∧ (s.heap e.2).purpose = .deliver e.1
  cmd_tbl : ∀ e ∈ s.cmd_fetch_waiting, e.2 < s.next ∧ (s.heap e.2).purpose = .other
  beat_tbl : ∀ p ∈ s.beat_waiting, p < s.next ∧ (s.heap p).purpose = .other
  closed : C → ClosedStore s.storage
  trace_ok : ∀ e ∈ s.trace, TraceOK C e

/-- Condition under which a promise may take an outcome. -/
def SettleOK (s : HotStuffBase) (p : PId) : Outcome → Prop
  | .fulfilled v =>
    (∀ h, (s.heap p).purpose = .deliver h → h ∈ s.storage.delivered)
      ∧ (∀ h, (s.heap p).purpose = .fetch h → ∃ b, v = .blk b ∧ s.storage.find_blk h = some b)
      ∧ ((s.heap p).purpose = .all → ∀ q ∈ (s.heap p).parts, is_resolved s q = true)
  | .rejected => True

/-- A callback interpreter that keeps the invariant. -/
def RunOK (C : Prop) (run : Callback → Outcome → HotStuffBase → HotStuffBase) : Prop :=
  ∀ k o s, Inv C s → Pre s k o → Inv C (run k o s) ∧ Ext s (run k o s)

/-- Ancestors of a block in a store: its parents, and the ancestors of the
stored blocks of its parents. -/
inductive Ancestor (st : EntityStorage) : Hash → Block → Prop where
  | parent {h : Hash} {b : Block} : h ∈ b.parent_hashes → Ancestor st h b
  | step {h ph : Hash} {pb b : Block} : ph ∈ b.parent_hashes → st.find_blk ph = some pb →
      Ancestor st h pb → Ancestor st h b

/-- A block whose parent (hash 9) is unknown to the sample replicas. -/
def sample_blk5 : Block := { hash := 5, parent_hashes := [9], cmds := [], qc := none }

/-- A block on top of genesis whose QC refers to `sample_blk5`. -/
def sample_blk6 : Block := { hash := 6, parent_hashes := [0], cmds := [], qc := some 5 }

/-! ## Delivery tokens

A delivery context that was created by `async_deliver_blk` leads to at most
one call of `on_deliver_blk`: the right to make that call is held by the
continuation of line 226 while the block is being fetched, then by the
continuation of line 235 while the dependencies are awaited. -/

/-- Hash whose delivery a callback registered on a promise of the given
purpose stands for, if any. -/
def tok_static (pu : Purpose) : Callback → Option Hash
  | .deliver_fetched _ =>
    match pu with
    | .fetch h => some h
    | _ => none
  | .deliver_ready b => some b.hash
  | _ => none

/-- Hashes whose delivery the callbacks of a promise stand for. -/
def cell_toks (c : Promise) : List Hash :=
  c.callbacks.filterMap (tok_static c.purpose)

/-- Hashes whose delivery some registered callback stands for, with
multiplicity. -/
def all_toks (s : HotStuffBase) : List Hash :=
  (List.range s.next).flatMap (fun p => cell_toks (s.heap p))

/-- Hash whose delivery a callback stands for when it runs with an outcome. -/
def tok_run : Callback → Outcome → List Hash
  | .deliver_fetched _, .fulfilled (.blk b) => [b.hash]
  | .deliver_ready b, .fulfilled _ => [b.hash]
  | _, _ => []

/-- A delivery in progress: the block is not delivered and has a delivery
context. -/
def Live (s : HotStuffBase) (h : Hash) : Prop :=
  h ∉ s.storage.delivered ∧ table_find s.blk_delivery_waiting h ≠ none

/-- Relation between an earlier and a later recorded call: if both are calls
of `on_deliver_blk` for the same hash, the earlier one found the block
invalid. -/
def Once (env : Env) (e1 e2 : Event) : Prop :=
  ∀ b1 st1 b2 st2, e1 = .on_deliver_blk b1 st1 → e2 = .on_deliver_blk b2 st2 →
    b1.hash = b2.hash → env.core_on_deliver_blk st1 b1 = false

/-- The at-most-once invariant.  `H` lists the hashes whose delivery is held
by callbacks that are running at the moment (they are on the call stack, not
in the heap). -/
structure InvU (env : Env) (H : List Hash) (s : HotStuffBase) : Prop where
  nodup : (all_toks s ++ H).Nodup
  live : ∀ h ∈ all_toks s ++ H, Live s h
  trace_fresh : ∀ b st, Event.on_deliver_blk b st ∈ s.trace → b.hash ∉ st.delivered
  trace_valid : ∀ b st, Event.on_deliver_blk b st ∈ s.trace →
    env.core_on_deliver_blk st b = true → b.hash ∈ s.storage.delivered
  trace_once : s.trace.Pairwise (Once env)

/-- A callback interpreter that keeps the at-most-once invariant. -/
def RunU (env : Env) (C : Prop) (run : Callback → Outcome → HotStuffBase → HotStuffBase) : Prop :=
  ∀ H k o s, Inv C s → Pre s k o → InvU env (tok_run k o ++ H) s → InvU env H (run k o s)

/-- The store snapshots of the calls of `on_deliver_blk` recorded in a trace
for the block of hash `h`, in the order of the calls. -/
def deliver_calls (h : Hash) (tr : List Event) : List EntityStorage :=
  tr.filterMap fun e =>
    match e with
    | .on_deliver_blk b st => if b.hash = h then some st else none
    | _ => none

/-! ## Membership and start-up -/

/-- What `HotStuffBase::start` logs and calls, in order. -/
inductive StartEvent where
  /-- The warning of line 432. -/
  | warn_too_few_replicas
  /-- Line 433: `pmaker->init(this)`. -/
  | pmaker_init
  /-- Line 434: `on_init(nfaulty)`. -/
  | on_init (nfaulty : Nat)
  /-- Line 436: `eb.dispatch()`. -/
  | dispatch
deriving DecidableEq, Repr

/-- The members of `HotStuffBase` that `add_replica` and `start` work on: the
listen address, the replicas handed to the core, the peers of the replica
network `pn`, and what `start` has logged and called.  The engine and the
command pipeline read none of them. -/
structure ReplicaNet where
  listen_addr : NetAddr
  replicas : List (ReplicaID × NetAddr)
  peers : List NetAddr
  started : List StartEvent
deriving DecidableEq, Repr

/-- Modelled from the spec: `pn.add_peer(addr)`: the address joins the peers
of the replica network, which holds every peer once. -/
def add_peer (peers : List NetAddr) (addr : NetAddr) : List NetAddr :=
  if addr ∈ peers then peers else peers ++ [addr]

/-- Body of `HotStuffBase::add_replica` (lines 97-102).  Of
`HotStuffCore::add_replica` only the record of the replica is kept; public
keys play no role here. -/
def HotStuffBase.add_replica (idx : ReplicaID) (addr : NetAddr) (s : ReplicaNet) : ReplicaNet :=
  let s1 := { s with replicas := s.replicas ++ [(idx, addr)] }
  if addr != s1.listen_addr then { s1 with peers := add_peer s1.peers addr } else s1

/-- The loop of calls of `add_replica`, one per configured replica. -/
def add_replicas (rs : List (ReplicaID × NetAddr)) (s : ReplicaNet) : ReplicaNet :=
  rs.foldl (fun acc r => HotStuffBase.add_replica r.1 r.2 acc) s

/-- Body of `HotStuffBase::start` (lines 428-437).  `nfaulty` is a
`uint32_t`: the quotient of the `size_t` peer count is narrowed to 32 bits. -/
def HotStuffBase.start (eb_loop : Bool) (s : ReplicaNet) : ReplicaNet :=
  let nfaulty := (s.peers.length / 3) % 2 ^ 32
  let s1 := if nfaulty == 0 then { s with started := s.started ++ [StartEvent.warn_too_few_replicas] } else s
  let s2 := { s1 with started := s1.started ++ [StartEvent.pmaker_init] }
  let s3 := { s2 with started := s2.started ++ [StartEvent.on_init nfaulty] }
  if eb_loop then { s3 with started := s3.started ++ [StartEvent.dispatch] } else s3

/-- A replica network as the constructor leaves it: no replica added, nothing
started. -/
def ReplicaNet.init (listen_addr : NetAddr) : ReplicaNet :=
  { listen_addr := listen_addr, replicas := [], peers := [], started := [] }

/-- A configuration of `n` replicas with the addresses `0, …, n - 1`; the
identifiers wrap at 16 bits. -/
def sample_replicas (n : Nat) : List (ReplicaID × NetAddr) :=
  (List.range n).map (fun i => (i % 65536, i))

/-! ## Accounting of deliveries -/

/-- Whether a recorded event is a call of `on_deliver_blk` that found its
block valid. -/
def Event.valid_call (env : Env) : Event → Bool
  | .on_deliver_blk b st => env.core_on_deliver_blk st b
  | _ => false

/-- Number of parents of the block of a call of `on_deliver_blk` that found
its block valid; `0` for any other event. -/
def Event.valid_parents (env : Env) : Event → Nat
  | .on_deliver_blk b st => if env.core_on_deliver_blk st b then b.parent_hashes.length else 0
  | _ => 0

/-- Hash of the block of a call of `on_deliver_blk`. -/
def Event.called_hash : Event → Option Hash
  | .on_deliver_blk b _ => some b.hash
  | _ => none

/-- Number of calls of `on_deliver_blk` among the events that found their
block valid. -/
def valid_calls (env : Env) (evs : List Event) : Nat :=
  evs.countP (Event.valid_call env)

/-- Sum of the parent counts of the blocks found valid among the events. -/
def valid_parents (env : Env) (evs : List Event) : Nat :=
  (evs.map (Event.valid_parents env)).sum

/-- Hashes `on_deliver_blk` was called for among the events. -/
def called_hashes (evs : List Event) : List Hash :=
  evs.filterMap Event.called_hash

/-- Account of a piece of the engine that recorded the events `evs`: promise
handles stay, settled promises keep their state, the batch size and the
command queue are untouched, the delivery counters grow by what the valid
calls among `evs` account for, and a delivery context is kept unless
`on_deliver_blk` was called for its hash. -/
structure Acct (env : Env) (evs : List Event) (s t : HotStuffBase) : Prop where
  next_le : s.next ≤ t.next
  settled : ∀ p, p < s.next → (s.heap p).state ≠ .pending → (t.heap p).state = (s.heap p).state
  blk_size_eq : t.blk_size = s.blk_size
  cmd_pending_eq : t.cmd_pending = s.cmd_pending
  trace_eq : t.trace = s.trace ++ evs
  delivered_eq : t.delivered = s.delivered + valid_calls env evs
  part_delivered_eq : t.part_delivered = s.part_delivered + valid_calls env evs
  part_parent_size_eq : t.part_parent_size = s.part_parent_size + valid_parents env evs
  waiting_kept : ∀ h pm, table_find s.blk_delivery_waiting h = some pm →
    table_find t.blk_delivery_waiting h = some pm ∨ h ∈ called_hashes evs

/-- An account for some list of recorded events. -/
def Acc (env : Env) (s t : HotStuffBase) : Prop := ∃ evs, Acct env evs s t

/-- A callback interpreter every run of which has an account. -/
def RunA (env : Env) (run : Callback → Outcome → HotStuffBase → HotStuffBase) : Prop :=
  ∀ k o s, Acc env s (run k o s)

/-- Promise handles stay and settled promises keep their state. -/
def Stay (s t : HotStuffBase) : Prop :=
  s.next ≤ t.next
    ∧ ∀ p, p < s.next → (s.heap p).state ≠ .pending → (t.heap p).state = (s.heap p).state

/-- Nothing but the promise heap differs. -/
structure Quiet (s t : HotStuffBase) : Prop where
  next_eq : t.next = s.next
  storage_eq : t.storage = s.storage
  trace_eq : t.trace = s.trace
  delivered_eq : t.delivered = s.delivered
  part_delivered_eq : t.part_delivered = s.part_delivered
  part_parent_size_eq : t.part_parent_size = s.part_parent_size
  waiting_eq : t.blk_delivery_waiting = s.blk_delivery_waiting
  settled : ∀ p, (s.heap p).state ≠ .pending → (t.heap p).state = (s.heap p).state

/-- An environment in which `Block::verify` fails for every block, so that
`resp_blk_handler` stores what it receives, and `HotStuffCore::on_deliver_blk`
accepts every block. -/
def accept_env : Env := { verify := fun _ => false, core_on_deliver_blk := fun _ _ => true }

/-- A block on top of `sample_blk1`, with a null QC. -/
def sample_blk2 : Block := { hash := 2, parent_hashes := [1], cmds := [], qc := none }

/-- The follower after `async_deliver_blk(2)` and the arrival of block 2: the
delivery of block 2 waits for the delivery future of its parent, block 1. -/
def waiting_for_blk1 : HotStuffBase :=
  run_inputs accept_env 6 sample_follower [.deliver 2 7, .resp_blk [sample_blk2]]

/-- The state `waiting_for_blk1` with block 1 in the store, as it is when
`on_deliver_blk` is called for block 1. -/
def blk1_ready : HotStuffBase :=
  { waiting_for_blk1 with storage := (waiting_for_blk1.storage.add_blk sample_blk1).1 }

/-! ## Client interface (`hotstuff_app.cpp`) -/

/-- Body of `HotStuffApp::state_machine_execute` (lines 98-109 of
`hotstuff_app.cpp`).  The impeachment timer and the log line are left out. -/
def state_machine_execute (run : Callback → Outcome → HotStuffBase → HotStuffBase)
    (fin : Finality) (s : HotStuffBase) : HotStuffBase :=
  match table_find s.unconfirmed fin.cmd_hash with
  | some pm =>
    let s1 := settle run pm (.fulfilled (.fin fin)) s
    { s1 with unconfirmed := table_erase s1.unconfirmed fin.cmd_hash }
  | none => s

/-- Body of `HotStuffApp::client_request_cmd_handler` (lines 270-292 of
`hotstuff_app.cpp`), on the command parsed from the message and the address
of the client connection.  At the proposer the source hands `exec_command`
the hash of the command it has just stored; here it is handed the command. -/
def client_request_cmd_handler (run : Callback → Outcome → HotStuffBase → HotStuffBase)
    (cmd : Command) (addr : NetAddr) (s0 : HotStuffBase) : HotStuffBase :=
  let cmd_hash := cmd.hash
  let s : HotStuffBase := { s0 with storage := (s0.storage.add_cmd cmd).1 }
  if s.proposer == s.id then
    let r := exec_command cmd s
    promise_then run r.2 (.send_resp_cmd addr) r.1
  else
    let r : HotStuffBase × PId :=
      match table_find s.unconfirmed cmd_hash with
      | some pm => (s, pm)
      | none =>
        let a := s.new_promise { state := .pending, callbacks := [], parts := [],
                                 purpose := .other }
        ({ a.1 with unconfirmed := a.1.unconfirmed ++ [(cmd_hash, a.2)] }, a.2)
    promise_then run r.2 (.send_resp_cmd addr) r.1

/-- A finality record of the command of hash 5, decided in the block of
hash 1. -/
def sample_fin : Finality :=
  { rid := 2, decision := 1, cmd_idx := 0, cmd_height := 1, cmd_hash := 5, blk_hash := 1 }

/-! ## Fetch promises are never rejected -/

/-- No fetch promise is rejected: rejections start at delivery promises and
spread through joint promises only. -/
def NoRej (s : HotStuffBase) : Prop :=
  ∀ p h, p < s.next → (s.heap p).purpose = .fetch h → (s.heap p).state ≠ .rejected

/-- A callback interpreter that rejects no fetch promise. -/
def RunN (C : Prop) (run : Callback → Outcome → HotStuffBase → HotStuffBase) : Prop :=
  ∀ k o s, Inv C s → Pre s k o → NoRej s → NoRej (run k o s)

/-! ## A request for blocks whose reply is outstanding -/

/-- A `MsgReqBlock` that `req_blk_handler` has taken: the requesting replica,
the hashes asked for, the fetch contexts the reply waits for (hash and
promise), the length of the trace when the handler returned, and the joint
promise of line 272. -/
structure ReqCtx where
  replica : NetAddr
  hashes : List Hash
  ctxs : List (Hash × PId)
  base : Nat
  ret : PId

/-- A fetch context the request waits for is either settled or still in
`blk_fetch_waiting` under its hash. -/
def Pinned (s : HotStuffBase) (e : Hash × PId) : Prop :=
  (s.heap e.2).state ≠ .pending
    ∨ ∃ c, table_find s.blk_fetch_waiting e.1 = some c ∧ c.pm = e.2

/-- The reply to the request has been sent after the handler returned: the
joint promise is resolved with the stored blocks of the requested hashes, in
the order of the request, and `MsgRespBlock` with these blocks went to the
requesting replica. -/
def Replied (r : ReqCtx) (s : HotStuffBase) : Prop :=
  ∃ bs pre post, (s.heap r.ret).state = .resolved (.values bs)
    ∧ s.trace = pre ++ Event.send_resp_blk bs r.replica :: post
    ∧ r.base ≤ pre.length
    ∧ List.Forall₂ (fun h b => s.storage.find_blk h = some b) r.hashes bs

/-- The reply to the request is still to come: the joint promise is pending
with the continuation of line 273 as its only callback, and each of its parts
is resolved or is a pending fetch context that reports to the joint promise.
Unless a report is `owed` (a part has just been resolved and its callbacks
are being run), some part is unresolved. -/
def Waiting (r : ReqCtx) (owed : Bool) (s : HotStuffBase) : Prop :=
  (s.heap r.ret).state = .pending
    ∧ (s.heap r.ret).callbacks = [.send_resp_blk r.replica]
    ∧ (∀ q ∈ (s.heap r.ret).parts, is_resolved s q = true
        ∨ ((s.heap q).state = .pending ∧ Callback.all_part r.ret ∈ (s.heap q).callbacks
            ∧ ∃ h, (h, q) ∈ r.ctxs))
    ∧ (owed = false → ∃ q ∈ (s.heap r.ret).parts, is_resolved s q = false)

/-- The invariant of a request between the return of `req_blk_handler` and
the reply. -/
structure Reg (r : ReqCtx) (owed : Bool) (s : HotStuffBase) : Prop where
  ret_lt : r.ret < s.next
  purpose : (s.heap r.ret).purpose = .all
  parts : List.Forall₂ (fun h q => q < s.next ∧ (s.heap q).purpose = .fetch h)
    r.hashes (s.heap r.ret).parts
  only_parts : ∀ p, p < s.next → Callback.all_part r.ret ∈ (s.heap p).callbacks →
    p ∈ (s.heap r.ret).parts
  base_le : r.base ≤ s.trace.length
  ctxs_lt : ∀ e ∈ r.ctxs, e.2 < s.next
  pins : ∀ e ∈ r.ctxs, Pinned s e
  status : Replied r s ∨ Waiting r owed s

/-- A callback interpreter that keeps the invariant of a request, as long as
it is not asked to run the report of a part of that request. -/
def RunR (C : Prop) (r : ReqCtx) (run : Callback → Outcome → HotStuffBase → HotStuffBase) :
    Prop :=
  ∀ k o s owed, Inv C s → Pre s k o → k ≠ .all_part r.ret → Reg r owed s →
    Reg r owed (run k o s)

/-- State of `promise::all(l)` called on state `s`, while the report is being
attached to the parts: nothing but the heap has changed; the joint promise is
pending without callbacks; the other promises keep state and purpose, and the
report to the joint promise is attached to parts only. -/
structure Joining (l : List PId) (s acc : HotStuffBase) : Prop where
  trace_eq : acc.trace = s.trace
  storage_eq : acc.storage = s.storage
  tbl_eq : acc.blk_fetch_waiting = s.blk_fetch_waiting
  next_eq : acc.next = s.next + 1
  cell : acc.heap s.next = Promise.mk .pending [] l .all
  state_eq : ∀ p, p ≠ s.next → (acc.heap p).state = (s.heap p).state
  purpose_eq : ∀ p, p ≠ s.next → (acc.heap p).purpose = (s.heap p).purpose
  report : ∀ p, p ≠ s.next → Callback.all_part s.next ∈ (acc.heap p).callbacks →
    p ∈ l ∨ Callback.all_part s.next ∈ (s.heap p).callbacks

/-- The block of hash `h` is stored and no fetch context waits for it. -/
def Gone (h : Hash) (s : HotStuffBase) : Prop :=
  s.storage.is_blk_fetched h = true ∧ table_find s.blk_fetch_waiting h = none

/-- A callback interpreter that creates no fetch context for a stored block. -/
def RunG (C : Prop) (h : Hash) (run : Callback → Outcome → HotStuffBase → HotStuffBase) :
    Prop :=
  ∀ k o s, Inv C s → Pre s k o → Gone h s → Gone h (run k o s)

/-! # Theorems -/

/-! ## Wire framing -/

theorem of_le_bytes_le_bytes (n x : Nat) : of_le_bytes (le_bytes n x) = x % 256 ^ n := by
  induction n generalizing x with
  | zero => simp [le_bytes, of_le_bytes, Nat.mod_one]
  | succ n ih =>
    simp only [le_bytes, of_le_bytes, ih]
    rw [pow_succ, Nat.mul_comm (256 ^ n) 256, Nat.mod_mul]

theorem le_bytes_length (n x : Nat) : (le_bytes n x).length = n := by
  induction n generalizing x with
  | zero => rfl
  | succ n ih => simp [le_bytes, ih]

theorem foldl_put_hash (hs : List Hash) (init : List Nat) :
    hs.foldl (fun serialized h => serialized ++ put_hash h) init
      = init ++ (hs.map put_hash).flatten := by
  induction hs generalizing init with
  | nil => simp
  | cons h t ih => simp [ih, List.append_assoc]

theorem flatten_put_hash_length (hs : List Hash) :
    ((hs.map put_hash).flatten).length = 32 * hs.length := by
  induction hs with
  | nil => rfl
  | cons h t ih =>
    simp only [List.map_cons, List.flatten_cons, List.length_append, ih, put_hash,
      le_bytes_length, List.length_cons]
    omega

theorem get_hashes_flatten (hs : List Hash) (hh : ∀ h ∈ hs, h < 2 ^ 256) :
    get_hashes hs.length ((hs.map put_hash).flatten) = some hs := by
  induction hs with
  | nil => rfl
  | cons h t ih =>
    have hlen : (put_hash h).length = 32 := le_bytes_length 32 h
    have h1 : ¬ ((put_hash h).length + ((t.map put_hash).flatten).length < 32) := by omega
    have htake : List.take 32 (put_hash h ++ (t.map put_hash).flatten) = put_hash h := by
      rw [List.take_append_of_le_length (by omega), List.take_of_length_le (by omega)]
    have hdrop : List.drop 32 (put_hash h ++ (t.map put_hash).flatten)
        = (t.map put_hash).flatten := by
      rw [List.drop_append_of_le_length (by omega), List.drop_of_length_le (by omega)]
      simp
    have hval : of_le_bytes (put_hash h) = h := by
      rw [put_hash, of_le_bytes_le_bytes]
      have : (256 : Nat) ^ 32 = 2 ^ 256 := by norm_num
      rw [this]
      exact Nat.mod_eq_of_lt (hh h (List.mem_cons_self _ _))
    simp only [List.length_cons, get_hashes, List.map_cons, List.flatten_cons,
      List.length_append, h1, if_false, htake, hdrop, hval,
      ih (fun x hx => hh x (List.mem_cons_of_mem _ hx))]
    rfl

/-- On a little-endian host the constructor of `MsgReqBlock` writes the
4-byte little-endian count followed by the hashes in order, `4 + 32 * count`
bytes in all, and the parsing constructor gives the list back. -/
theorem MsgReqBlock_roundtrip_little_endian (blk_hashes : List Hash)
    (hlen : blk_hashes.length < 2 ^ 32) (hh : ∀ h ∈ blk_hashes, h < 2 ^ 256) :
    MsgReqBlock.serialize ⟨false⟩ blk_hashes
        = le_bytes 4 blk_hashes.length ++ (blk_hashes.map put_hash).flatten
      ∧ (MsgReqBlock.serialize ⟨false⟩ blk_hashes).length = 4 + 32 * blk_hashes.length
      ∧ MsgReqBlock.parse ⟨false⟩ (MsgReqBlock.serialize ⟨false⟩ blk_hashes)
        = some blk_hashes := by
  have hser : MsgReqBlock.serialize ⟨false⟩ blk_hashes
      = le_bytes 4 blk_hashes.length ++ (blk_hashes.map put_hash).flatten := by
    simp only [MsgReqBlock.serialize, foldl_put_hash, raw_bytes, htole, Bool.false_eq_true,
      if_false]
    have h1 : blk_hashes.length % 2 ^ 64 = blk_hashes.length :=
      Nat.mod_eq_of_lt (by omega)
    have h2 : blk_hashes.length % 2 ^ (8 * 8) = blk_hashes.length :=
      Nat.mod_eq_of_lt (by norm_num; omega)
    have h3 : blk_hashes.length % 2 ^ 32 = blk_hashes.length := Nat.mod_eq_of_lt hlen
    rw [h1, h2, h3]
  refine ⟨hser, ?_, ?_⟩
  · rw [hser, List.length_append, le_bytes_length, flatten_put_hash_length]
  · rw [hser]
    have hl4 : (le_bytes 4 blk_hashes.length).length = 4 := le_bytes_length 4 _
    have htake : List.take 4 (le_bytes 4 blk_hashes.length ++ (blk_hashes.map put_hash).flatten)
        = le_bytes 4 blk_hashes.length := by
      rw [List.take_append_of_le_length (by omega), List.take_of_length_le (by omega)]
    have hdrop : List.drop 4 (le_bytes 4 blk_hashes.length ++ (blk_hashes.map put_hash).flatten)
        = (blk_hashes.map put_hash).flatten := by
      rw [List.drop_append_of_le_length (by omega), List.drop_of_length_le (by omega)]
      simp
    have hnot : ¬ ((le_bytes 4 blk_hashes.length).length
        + ((blk_hashes.map put_hash).flatten).length < 4) := by omega
    have hsz : of_le_bytes (le_bytes 4 blk_hashes.length) % 2 ^ (8 * 4) = blk_hashes.length := by
      rw [of_le_bytes_le_bytes]
      have : (256 : Nat) ^ 4 = 2 ^ 32 := by norm_num
      have h8 : (2 : Nat) ^ (8 * 4) = 2 ^ 32 := by norm_num
      rw [this, h8, Nat.mod_mod, Nat.mod_eq_of_lt hlen]
    simp only [MsgReqBlock.parse, List.length_append, hnot, if_false, htake, hdrop,
      of_raw_bytes, htole, Bool.false_eq_true, hsz]
    exact get_hashes_flatten blk_hashes hh

/-- C10, on a big-endian host with a 64-bit `size_t`: for the one-element
list `[1]` the constructor of `MsgReqBlock` writes the count field
`00 00 00 00` (the byte swap of line 28 is applied to the 64-bit size before
the cast to `uint32_t`), not the little-endian length `01 00 00 00`, and the
parsing constructor reads the empty list back from that payload. -/
theorem MsgReqBlock_big_endian_count_lost :
    MsgReqBlock.serialize ⟨true⟩ [1] = [0, 0, 0, 0] ++ put_hash 1
      ∧ MsgReqBlock.serialize ⟨true⟩ [1] ≠ le_bytes 4 1 ++ put_hash 1
      ∧ MsgReqBlock.parse ⟨true⟩ (MsgReqBlock.serialize ⟨true⟩ [1]) = some [] := by
  decide

/-! ## Command pipeline -/

theorem drain_pending_eq (n : Nat) (cmds queue : List Command) :
    drain_pending n cmds queue = (cmds ++ queue.take n, queue.drop n) := by
  induction n generalizing cmds queue with
  | zero => simp [drain_pending]
  | succ n ih =>
    cases queue with
    | nil => simp [drain_pending]
    | cons c q => simp [drain_pending, ih, List.append_assoc]

theorem find_cmd_add_cmd (st : EntityStorage) (c : Command) :
    (st.add_cmd c).1.find_cmd c.hash = some (st.add_cmd c).2 := by
  unfold EntityStorage.add_cmd
  cases hf : st.find_cmd c.hash with
  | some d => simpa using hf
  | none =>
    simp only [EntityStorage.find_cmd] at hf ⊢
    simp [List.find?_append, hf]

/-- C4: on a replica that is not the current proposer, `exec_command` returns
a promise that is already resolved with `Finality(proposer, -1, 0, 0, H(c), 0)`;
the queue, the decision table, the store and the pending beats are unchanged,
no other promise is touched and the returned one carries no callback (no
batch is formed). -/
theorem exec_command_not_proposer (cmd : Command) (s : HotStuffBase)
    (h : s.proposer ≠ s.id) :
    ((exec_command cmd s).1.heap (exec_command cmd s).2).state
        = .resolved (.fin { rid := s.proposer, decision := -1, cmd_idx := 0, cmd_height := 0,
                            cmd_hash := cmd.hash, blk_hash := 0 })
      ∧ ((exec_command cmd s).1.heap (exec_command cmd s).2).callbacks = []
      ∧ (exec_command cmd s).1.cmd_pending = s.cmd_pending
      ∧ (exec_command cmd s).1.decision_waiting = s.decision_waiting
      ∧ (exec_command cmd s).1.storage = s.storage
      ∧ (exec_command cmd s).1.beat_waiting = s.beat_waiting
      ∧ (exec_command cmd s).1.trace = s.trace
      ∧ ∀ p, p ≠ (exec_command cmd s).2 → (exec_command cmd s).1.heap p = s.heap p := by
  have hne : (s.proposer != s.id) = true := by simpa using h
  have he : exec_command cmd s
      = s.new_promise { state := .resolved (.fin (Finality.mk s.proposer (-1) 0 0 cmd.hash 0)),
                        callbacks := [], parts := [], purpose := .other } := by
    simp only [exec_command, hne, if_true]
  rw [he]
  refine ⟨by simp [HotStuffBase.new_promise], by simp [HotStuffBase.new_promise],
    rfl, rfl, rfl, rfl, rfl, ?_⟩
  intro p hp
  have hp2 : p ≠ s.next := hp
  simp [HotStuffBase.new_promise, hp2]

/-- C5: at the proposer, `exec_command` appends the canonical stored command
to the back of `cmd_pending`.  If the queue then holds at least `blk_size`
commands, its first `blk_size` commands, in queue order, become the batch of
the continuation registered on the beat promise (which calls `on_propose`
with that batch when it runs) and the queue keeps the rest; otherwise the
queue is left as it is, no beat is requested and no promise gains a
callback. -/
theorem exec_command_proposer (cmd : Command) (s : HotStuffBase)
    (h : s.proposer = s.id) :
    (s.blk_size ≤ (s.cmd_pending ++ [(s.storage.add_cmd cmd).2]).length →
        (exec_command cmd s).1.cmd_pending
            = (s.cmd_pending ++ [(s.storage.add_cmd cmd).2]).drop s.blk_size
          ∧ (exec_command cmd s).1.beat_waiting = s.beat_waiting ++ [s.next]
          ∧ ((exec_command cmd s).1.heap s.next).state = .pending
          ∧ ((exec_command cmd s).1.heap s.next).callbacks
            = [.propose ((s.cmd_pending ++ [(s.storage.add_cmd cmd).2]).take s.blk_size)]
          ∧ ((s.cmd_pending ++ [(s.storage.add_cmd cmd).2]).take s.blk_size).length = s.blk_size
          ∧ (s.cmd_pending ++ [(s.storage.add_cmd cmd).2]).take s.blk_size
              ++ (exec_command cmd s).1.cmd_pending
            = s.cmd_pending ++ [(s.storage.add_cmd cmd).2])
      ∧ ((s.cmd_pending ++ [(s.storage.add_cmd cmd).2]).length < s.blk_size →
        (exec_command cmd s).1.cmd_pending = s.cmd_pending ++ [(s.storage.add_cmd cmd).2]
          ∧ (exec_command cmd s).1.beat_waiting = s.beat_waiting
          ∧ ∀ p cmds, Callback.propose cmds ∈ ((exec_command cmd s).1.heap p).callbacks →
              Callback.propose cmds ∈ (s.heap p).callbacks)
      ∧ (exec_command cmd s).1.storage.find_cmd cmd.hash = some (s.storage.add_cmd cmd).2
      ∧ ∀ (env : Env) (n : Nat) (v : Value) (cmds : List Command) (t : HotStuffBase),
          (run_callback env (n + 1) (.propose cmds) (.fulfilled v) t).trace
            = t.trace ++ [.on_propose cmds] := by
  have hne : (s.proposer != s.id) = false := by simp [h]
  have hlen : (s.cmd_pending ++ [(s.storage.add_cmd cmd).2]).length = s.cmd_pending.length + 1 := by
    simp
  refine ⟨?_, ?_, ?_, ?_⟩
  · intro hle
    have hle2 : s.blk_size ≤ s.cmd_pending.length + 1 := by omega
    simp only [exec_command, hne, Bool.false_eq_true, if_false, ge_iff_le, List.length_append,
      List.length_singleton, hle2, if_true, drain_pending_eq, List.nil_append,
      HotStuffBase.new_promise]
    refine ⟨?_, ?_, ?_, ?_, ?_, ?_⟩
    · split <;> rfl
    · split <;> rfl
    · split <;> simp
    · split <;> simp
    · rw [List.length_take]; omega
    · split <;> simp
  · intro hlt
    have hlt2 : ¬ s.blk_size ≤ s.cmd_pending.length + 1 := by omega
    simp only [exec_command, hne, Bool.false_eq_true, if_false, ge_iff_le, List.length_append,
      List.length_singleton, hlt2, HotStuffBase.new_promise]
    refine ⟨?_, ?_, ?_⟩
    · split <;> rfl
    · split <;> rfl
    · intro p cmds
      split
      · exact id
      · by_cases hp : p = s.next <;> simp [hp]
  · have hst : (exec_command cmd s).1.storage = (s.storage.add_cmd cmd).1 := by
      simp only [exec_command, hne, Bool.false_eq_true, if_false, HotStuffBase.new_promise]
      split <;> split <;> rfl
    rw [hst]
    exact find_cmd_add_cmd s.storage cmd
  · intro env n v cmds t
    simp [run_callback, HotStuffBase.log]

/-- Witness of C4: replica 2 is not the proposer (replica 0) and gets the
resolved sentinel for a command of hash 5. -/
theorem exec_command_not_proposer_witness :
    sample_follower.proposer ≠ sample_follower.id
      ∧ ((exec_command ⟨5, 0⟩ sample_follower).1.heap (exec_command ⟨5, 0⟩ sample_follower).2).state
        = .resolved (.fin { rid := 0, decision := -1, cmd_idx := 0, cmd_height := 0,
                            cmd_hash := 5, blk_hash := 0 }) :=
  ⟨by decide, (exec_command_not_proposer ⟨5, 0⟩ sample_follower (by decide)).1⟩

/-- Witness of C5: at the proposer with `blk_size = 2`, the second command
fills the queue and the batch of both commands is formed, the queue being
empty afterwards. -/
theorem exec_command_proposer_witness :
    (exec_command ⟨6, 0⟩ sample_proposer).1.proposer = (exec_command ⟨6, 0⟩ sample_proposer).1.id
      ∧ (exec_command ⟨7, 0⟩ (exec_command ⟨6, 0⟩ sample_proposer).1).1.cmd_pending = []
      ∧ ((exec_command ⟨7, 0⟩ (exec_command ⟨6, 0⟩ sample_proposer).1).1.heap 1).callbacks
        = [.propose [⟨6, 0⟩, ⟨7, 0⟩]] :=
  ⟨by decide,
   ((exec_command_proposer ⟨7, 0⟩ (exec_command ⟨6, 0⟩ sample_proposer).1 (by decide)).1
      (by decide)).1.trans (by decide),
   ((exec_command_proposer ⟨7, 0⟩ (exec_command ⟨6, 0⟩ sample_proposer).1 (by decide)).1
      (by decide)).2.2.2.1.trans (by decide)⟩

/-! ## Block responses -/

/-- C2, evaluated on a replica that waits for the blocks of hash 1 and 3, in
an environment where `Block::verify` accepts exactly the block of hash 1: a
`RESP_BLOCK` carrying the verified block 1 leaves the store without it and
its fetch context pending in `blk_fetch_waiting`; a `RESP_BLOCK` carrying
block 3, which fails verification, adds it to the store, resolves its fetch
context with it and removes the context. -/
theorem resp_blk_handler_verify_inverted :
    (resp_blk_handler sample_env 4 [sample_blk1]
        (run_inputs sample_env 4 sample_proposer [.deliver 1 7, .deliver 3 7])).storage.find_blk 1
        = none
      ∧ table_find (resp_blk_handler sample_env 4 [sample_blk1]
          (run_inputs sample_env 4 sample_proposer [.deliver 1 7, .deliver 3 7])).blk_fetch_waiting 1
        = some { pm := 1, replica_ids := [7] }
      ∧ ((resp_blk_handler sample_env 4 [sample_blk1]
          (run_inputs sample_env 4 sample_proposer [.deliver 1 7, .deliver 3 7])).heap 1).state
        = .pending
      ∧ (resp_blk_handler sample_env 4 [sample_blk3]
          (run_inputs sample_env 4 sample_proposer [.deliver 1 7, .deliver 3 7])).storage.find_blk 3
        = some sample_blk3
      ∧ table_find (resp_blk_handler sample_env 4 [sample_blk3]
          (run_inputs sample_env 4 sample_proposer [.deliver 1 7, .deliver 3 7])).blk_fetch_waiting 3
        = none
      ∧ ((resp_blk_handler sample_env 4 [sample_blk3]
          (run_inputs sample_env 4 sample_proposer [.deliver 1 7, .deliver 3 7])).heap 3).state
        = .resolved (.blk sample_blk3) := by
  decide

/-! ## Tables -/

theorem table_find_eq_none {α : Type} (t : List (Hash × α)) (h : Hash) :
    table_find t h = none ↔ ∀ e ∈ t, e.1 ≠ h := by
  simp [table_find, List.find?_eq_none]

theorem table_find_append_new {α : Type} (t : List (Hash × α)) (h : Hash) (x : α)
    (hn : table_find t h = none) : table_find (t ++ [(h, x)]) h = some x := by
  simp only [table_find, Option.map_eq_none'] at hn
  simp [table_find, List.find?_append, hn]

theorem table_filter_append_new {α : Type} (t : List (Hash × α)) (h : Hash) (x : α)
    (hn : table_find t h = none) :
    (t ++ [(h, x)]).filter (fun e => e.1 == h) = [(h, x)] := by
  have h0 : t.filter (fun e => e.1 == h) = [] := by
    rw [List.filter_eq_nil_iff]
    intro e he
    simpa using (table_find_eq_none t h).1 hn e he
  simp [List.filter_append, h0]

/-! ## Coalescing of deliveries -/

theorem async_deliver_blk_waiting (run : Callback → Outcome → HotStuffBase → HotStuffBase)
    (blk_hash : Hash) (r : NetAddr) (s : HotStuffBase) (pm : PId)
    (hd : s.storage.is_blk_delivered blk_hash = false)
    (hw : table_find s.blk_delivery_waiting blk_hash = some pm) :
    async_deliver_blk run blk_hash r s = (s, pm) := by
  simp [async_deliver_blk, hd, hw]

/-- C6: for a hash that is neither delivered nor fetched and has no waiting
context, two consecutive calls of `async_deliver_blk` return the same promise;
the second call changes nothing at all; afterwards each table holds exactly
one context for the hash, the fetch context has the first peer as its only
candidate, and `async_fetch_blk` was called once (for the first call). -/
theorem async_deliver_blk_twice (run : Callback → Outcome → HotStuffBase → HotStuffBase)
    (blk_hash : Hash) (p1 p2 : NetAddr) (s : HotStuffBase)
    (hd : s.storage.is_blk_delivered blk_hash = false)
    (hf : s.storage.is_blk_fetched blk_hash = false)
    (hdw : table_find s.blk_delivery_waiting blk_hash = none)
    (hfw : table_find s.blk_fetch_waiting blk_hash = none) :
    (async_deliver_blk run blk_hash p2 (async_deliver_blk run blk_hash p1 s).1).2
        = (async_deliver_blk run blk_hash p1 s).2
      ∧ (async_deliver_blk run blk_hash p2 (async_deliver_blk run blk_hash p1 s).1).1
        = (async_deliver_blk run blk_hash p1 s).1
      ∧ (async_deliver_blk run blk_hash p1 s).1.blk_delivery_waiting.filter
          (fun e => e.1 == blk_hash) = [(blk_hash, s.next)]
      ∧ (async_deliver_blk run blk_hash p1 s).1.blk_fetch_waiting.filter
          (fun e => e.1 == blk_hash) = [(blk_hash, { pm := s.next + 1, replica_ids := [p1] })]
      ∧ (async_deliver_blk run blk_hash p1 s).1.trace
        = s.trace ++ [.async_fetch_blk blk_hash (some p1)] := by
  have hf2 : s.storage.find_blk blk_hash = none := by
    simpa [EntityStorage.is_blk_fetched] using hf
  have h1 : (async_deliver_blk run blk_hash p1 s).2 = s.next := by
    simp [async_deliver_blk, hd, hdw, HotStuffBase.new_promise]
  have hdel : (async_deliver_blk run blk_hash p1 s).1.blk_delivery_waiting
      = s.blk_delivery_waiting ++ [(blk_hash, s.next)] := by
    simp [async_deliver_blk, hd, hdw, HotStuffBase.new_promise, async_fetch_blk, hf2, hfw,
      HotStuffBase.log, promise_then, HotStuffBase.set_promise]
  have hfet : (async_deliver_blk run blk_hash p1 s).1.blk_fetch_waiting
      = s.blk_fetch_waiting.map (fun e =>
            if e.1 == blk_hash then (e.1, e.2.add_replica p1) else e)
          ++ [(blk_hash, { pm := s.next + 1, replica_ids := [p1] })] := by
    simp [async_deliver_blk, hd, hdw, HotStuffBase.new_promise, async_fetch_blk, hf2, hfw,
      HotStuffBase.log, promise_then, HotStuffBase.set_promise, BlockFetchContext.add_replica]
  have hsto : (async_deliver_blk run blk_hash p1 s).1.storage = s.storage := by
    simp [async_deliver_blk, hd, hdw, HotStuffBase.new_promise, async_fetch_blk, hf2, hfw,
      HotStuffBase.log, promise_then, HotStuffBase.set_promise]
  have htr : (async_deliver_blk run blk_hash p1 s).1.trace
      = s.trace ++ [.async_fetch_blk blk_hash (some p1)] := by
    simp [async_deliver_blk, hd, hdw, HotStuffBase.new_promise, async_fetch_blk, hf2, hfw,
      HotStuffBase.log, promise_then, HotStuffBase.set_promise]
  have hmapid : s.blk_fetch_waiting.map (fun e =>
      if e.1 == blk_hash then (e.1, e.2.add_replica p1) else e) = s.blk_fetch_waiting := by
    conv_rhs => rw [← List.map_id s.blk_fetch_waiting]
    apply List.map_congr_left
    intro e he
    have := (table_find_eq_none _ _).1 hfw e he
    simp [this]
  have hfind : table_find (async_deliver_blk run blk_hash p1 s).1.blk_delivery_waiting blk_hash
      = some s.next := by
    rw [hdel]; exact table_find_append_new _ _ _ hdw
  have h2 := async_deliver_blk_waiting run blk_hash p2 (async_deliver_blk run blk_hash p1 s).1
    s.next (by rw [hsto]; exact hd) hfind
  refine ⟨?_, ?_, ?_, ?_, htr⟩
  · rw [h2, h1]
  · rw [h2]
  · rw [hdel]; exact table_filter_append_new _ _ _ hdw
  · rw [hfet, hmapid]; exact table_filter_append_new _ _ _ hfw

/-- Witness of C6: on the sample replica the block of hash 1 is unknown, and
two deliveries asked from peers 7 and 8 share one promise. -/
theorem async_deliver_blk_twice_witness :
    sample_proposer.storage.is_blk_delivered 1 = false
      ∧ (async_deliver_blk (run_callback sample_env 3) 1 8
          (async_deliver_blk (run_callback sample_env 3) 1 7 sample_proposer).1).2
        = (async_deliver_blk (run_callback sample_env 3) 1 7 sample_proposer).2 :=
  ⟨by decide,
   (async_deliver_blk_twice (run_callback sample_env 3) 1 7 8 sample_proposer
      (by decide) (by decide) (by decide) (by decide)).1⟩

/-! ## The engine invariant -/

theorem is_resolved_iff (s : HotStuffBase) (p : PId) :
    is_resolved s p = true ↔ ∃ v, (s.heap p).state = .resolved v := by
  unfold is_resolved
  cases (s.heap p).state <;> simp

theorem find_blk_hash {st : EntityStorage} {h : Hash} {b : Block}
    (hf : st.find_blk h = some b) : b.hash = h := by
  have := List.find?_some hf
  simpa using this

theorem Ext.refl (s : HotStuffBase) : Ext s s :=
  ⟨Nat.le_refl _, fun _ _ => rfl, fun _ _ => rfl, fun _ _ _ => rfl, fun _ h => h,
   fun _ _ h => h⟩

theorem Ext.trans {s t u : HotStuffBase} (h1 : Ext s t) (h2 : Ext t u) : Ext s u where
  next_le := Nat.le_trans h1.next_le h2.next_le
  purpose_eq p hp := by
    rw [h2.purpose_eq p (Nat.lt_of_lt_of_le hp h1.next_le), h1.purpose_eq p hp]
  parts_eq p hp := by
    rw [h2.parts_eq p (Nat.lt_of_lt_of_le hp h1.next_le), h1.parts_eq p hp]
  settled p hp hs := by
    have e1 := h1.settled p hp hs
    rw [h2.settled p (Nat.lt_of_lt_of_le hp h1.next_le) (by rw [e1]; exact hs), e1]
  delivered_sub h hh := h2.delivered_sub h (h1.delivered_sub h hh)
  blk_kept h b hb := h2.blk_kept h b (h1.blk_kept h b hb)

theorem Ext.resolved {s t : HotStuffBase} (h : Ext s t) {p : PId} (hp : p < s.next)
    (hr : is_resolved s p = true) : is_resolved t p = true := by
  rw [is_resolved_iff] at hr ⊢
  obtain ⟨v, hv⟩ := hr
  exact ⟨v, by rw [h.settled p hp (by rw [hv]; simp), hv]⟩

theorem Pre_mono {s t : HotStuffBase} (h : Ext s t) {k : Callback} {o : Outcome}
    (hp : Pre s k o) : Pre t k o := by
  cases k with
  | deliver_ready b =>
    cases o with
    | fulfilled v =>
      obtain ⟨h1, h2, h3⟩ := hp
      refine ⟨h.blk_kept _ _ h1, fun ph hph => h.delivered_sub _ (h2 ph hph), ?_⟩
      intro x hx
      have := h3 x hx
      simp only [EntityStorage.is_blk_fetched, Option.isSome_iff_exists] at this ⊢
      obtain ⟨b', hb'⟩ := this
      exact ⟨b', h.blk_kept _ _ hb'⟩
    | rejected => trivial
  | receive_proposal prop =>
    cases o with
    | fulfilled v => exact ⟨h.delivered_sub _ hp.1, h.delivered_sub _ hp.2⟩
    | rejected => trivial
  | all_part ret =>
    have hp' : ret < s.next ∧ (s.heap ret).purpose = .all := by cases o <;> exact hp
    have : ret < t.next ∧ (t.heap ret).purpose = .all :=
      ⟨Nat.lt_of_lt_of_le hp'.1 h.next_le, by rw [h.purpose_eq _ hp'.1]; exact hp'.2⟩
    cases o <;> exact this
  | deliver_fetched r =>
    cases o with
    | fulfilled v =>
      cases v with
      | blk b => exact h.blk_kept _ _ hp
      | _ => trivial
    | rejected => trivial
  | receive_vote v => cases o <;> trivial
  | send_resp_blk r => cases o <;> trivial
  | propose c => cases o <;> trivial
  | send_resp_cmd a => cases o <;> trivial

theorem Attached_mono {C : Prop} {s t : HotStuffBase} (hi : Inv C s) (h : Ext s t) {p : PId}
    (hp : p < s.next) {k : Callback} (ha : Attached s p k) : Attached t p k := by
  cases k with
  | deliver_ready b =>
    obtain ⟨h1, h2, h3, h4⟩ := ha
    refine ⟨by rw [h.purpose_eq p hp]; exact h1, h.blk_kept _ _ h2, ?_, ?_⟩
    · intro ph hph
      obtain ⟨q, hq, hq2⟩ := h3 ph hph
      exact ⟨q, by rw [h.parts_eq p hp]; exact hq,
        by rw [h.purpose_eq q (hi.parts_lt p hp q hq)]; exact hq2⟩
    · intro x hx
      obtain ⟨q, hq, hq2⟩ := h4 x hx
      exact ⟨q, by rw [h.parts_eq p hp]; exact hq,
        by rw [h.purpose_eq q (hi.parts_lt p hp q hq)]; exact hq2⟩
  | receive_proposal prop =>
    obtain ⟨h1, ⟨q, hq, hq2⟩, ⟨r, hr, hr2⟩⟩ := ha
    refine ⟨by rw [h.purpose_eq p hp]; exact h1, ?_, ?_⟩
    · exact ⟨q, by rw [h.parts_eq p hp]; exact hq,
        by rw [h.purpose_eq q (hi.parts_lt p hp q hq)]; exact hq2⟩
    · exact ⟨r, by rw [h.parts_eq p hp]; exact hr,
        by rw [h.purpose_eq r (hi.parts_lt p hp r hr)]; exact hr2⟩
  | all_part ret =>
    exact ⟨Nat.lt_of_lt_of_le ha.1 h.next_le, by rw [h.purpose_eq _ ha.1]; exact ha.2⟩
  | deliver_fetched r =>
    obtain ⟨x, hx⟩ := ha
    exact ⟨x, by rw [h.purpose_eq p hp]; exact hx⟩
  | receive_vote v => trivial
  | send_resp_blk r => trivial
  | propose c => trivial
  | send_resp_cmd a => trivial

theorem Attached_pre {C : Prop} {s : HotStuffBase} (hi : Inv C s) {p : PId} (hp : p < s.next)
    {k : Callback} (ha : Attached s p k) (o : Outcome)
    (ho : ∀ v, o = .fulfilled v → (s.heap p).state = .resolved v) : Pre s k o := by
  cases k with
  | deliver_ready b =>
    cases o with
    | fulfilled v =>
      obtain ⟨h1, h2, h3, h4⟩ := ha
      have hres : is_resolved s p = true := (is_resolved_iff s p).2 ⟨v, ho v rfl⟩
      have hall := hi.all_ok p hp h1 hres
      refine ⟨h2, ?_, ?_⟩
      · intro ph hph
        obtain ⟨q, hq, hq2⟩ := h3 ph hph
        exact hi.deliver_ok q ph (hi.parts_lt p hp q hq) hq2 (hall q hq)
      · intro x hx
        obtain ⟨q, hq, hq2⟩ := h4 x hx
        obtain ⟨w, hw⟩ := (is_resolved_iff s q).1 (hall q hq)
        obtain ⟨b', _, hb'⟩ := hi.fetch_ok q x w (hi.parts_lt p hp q hq) hq2 hw
        simp [EntityStorage.is_blk_fetched, hb']
    | rejected => trivial
  | receive_proposal prop =>
    cases o with
    | fulfilled v =>
      obtain ⟨h1, ⟨q, hq, hq2⟩, ⟨r, hr, hr2⟩⟩ := ha
      have hres : is_resolved s p = true := (is_resolved_iff s p).2 ⟨v, ho v rfl⟩
      have hall := hi.all_ok p hp h1 hres
      exact ⟨hi.deliver_ok q _ (hi.parts_lt p hp q hq) hq2 (hall q hq),
        hi.deliver_ok r _ (hi.parts_lt p hp r hr) hr2 (hall r hr)⟩
    | rejected => trivial
  | all_part ret => cases o <;> exact ha
  | deliver_fetched r =>
    cases o with
    | fulfilled v =>
      obtain ⟨x, hx⟩ := ha
      obtain ⟨b, hb, hb2⟩ := hi.fetch_ok p x v hp hx (ho v rfl)
      subst hb
      have := find_blk_hash hb2
      show s.storage.find_blk b.hash = some b
      rw [this]; exact hb2
    | rejected => trivial
  | receive_vote v => cases o <;> trivial
  | send_resp_blk r => cases o <;> trivial
  | propose c => cases o <;> trivial
  | send_resp_cmd a => cases o <;> trivial

theorem Ext.by_frame {s t : HotStuffBase} (hheap : t.heap = s.heap) (hnext : t.next = s.next)
    (hdel : ∀ h, h ∈ s.storage.delivered → h ∈ t.storage.delivered)
    (hblk : ∀ h b, s.storage.find_blk h = some b → t.storage.find_blk h = some b) :
    Ext s t :=
  ⟨by rw [hnext], fun _ _ => by rw [hheap], fun _ _ => by rw [hheap],
   fun _ _ _ => by rw [hheap], hdel, hblk⟩

theorem Inv.frame {C : Prop} {s t : HotStuffBase} (hi : Inv C s)
    (hheap : t.heap = s.heap) (hnext : t.next = s.next)
    (hdel : ∀ h, h ∈ s.storage.delivered → h ∈ t.storage.delivered)
    (hblk : ∀ h b, s.storage.find_blk h = some b → t.storage.find_blk h = some b)
    (hcl : C → ClosedStore t.storage)
    (hft : ∀ e ∈ t.blk_fetch_waiting, e.2.pm < s.next ∧ (s.heap e.2.pm).purpose = .fetch e.1)
    (hdt : ∀ e ∈ t.blk_delivery_waiting, e.2 < s.next ∧ (s.heap e.2).purpose = .deliver e.1)
    (hct : ∀ e ∈ t.cmd_fetch_waiting, e.2 < s.next ∧ (s.heap e.2).purpose = .other)
    (hbt : ∀ p ∈ t.beat_waiting, p < s.next ∧ (s.heap p).purpose = .other)
    (htr : ∀ e ∈ t.trace, TraceOK C e) : Inv C t := by
  have hext : Ext s t := Ext.by_frame hheap hnext hdel hblk
  have hres : ∀ p, is_resolved t p = is_resolved s p := by
    intro p; simp only [is_resolved, hheap]
  refine ⟨?_, ?_, ?_, ?_, ?_, ?_, ?_, ?_, ?_, hcl, htr⟩
  · intro p hp q hq
    rw [hnext] at hp ⊢; rw [hheap] at hq
    exact hi.parts_lt p hp q hq
  · intro p h hp hpu hr
    rw [hnext] at hp; rw [hheap] at hpu; rw [hres] at hr
    exact hdel _ (hi.deliver_ok p h hp hpu hr)
  · intro p h v hp hpu hs
    rw [hnext] at hp; rw [hheap] at hpu hs
    obtain ⟨b, hb, hb2⟩ := hi.fetch_ok p h v hp hpu hs
    exact ⟨b, hb, hblk _ _ hb2⟩
  · intro p hp hpu hr q hq
    rw [hnext] at hp; rw [hheap] at hpu hq; rw [hres] at hr ⊢
    exact hi.all_ok p hp hpu hr q hq
  · intro p hp k hk
    rw [hnext] at hp; rw [hheap] at hk
    exact Attached_mono hi hext hp (hi.attached p hp k hk)
  · intro e he
    rw [hnext, hheap]; exact hft e he
  · intro e he
    rw [hnext, hheap]; exact hdt e he
  · intro e he
    rw [hnext, hheap]; exact hct e he
  · intro p hp
    rw [hnext, hheap]; exact hbt p hp

theorem Ext.by_log (s : HotStuffBase) (e : Event) : Ext s (s.log e) :=
  Ext.by_frame rfl rfl (fun _ h => h) (fun _ _ h => h)

theorem Inv.log {C : Prop} {s : HotStuffBase} (hi : Inv C s) {e : Event} (he : TraceOK C e) :
    Inv C (s.log e) := by
  refine hi.frame rfl rfl (fun _ h => h) (fun _ _ h => h) hi.closed hi.fetch_tbl hi.deliv_tbl
    hi.cmd_tbl hi.beat_tbl ?_
  intro x hx
  simp only [HotStuffBase.log, List.mem_append, List.mem_singleton] at hx
  rcases hx with hx | hx
  · exact hi.trace_ok x hx
  · rw [hx]; exact he

theorem Ext.by_new_promise (s : HotStuffBase) (c : Promise) : Ext s (s.new_promise c).1 := by
  refine ⟨Nat.le_succ _, ?_, ?_, ?_, fun _ h => h, fun _ _ h => h⟩
  · intro p hp
    have : p ≠ s.next := Nat.ne_of_lt hp
    simp [HotStuffBase.new_promise, this]
  · intro p hp
    have : p ≠ s.next := Nat.ne_of_lt hp
    simp [HotStuffBase.new_promise, this]
  · intro p hp _
    have : p ≠ s.next := Nat.ne_of_lt hp
    simp [HotStuffBase.new_promise, this]

theorem new_promise_heap_old (s : HotStuffBase) (c : Promise) {p : PId} (hp : p < s.next) :
    (s.new_promise c).1.heap p = s.heap p := by
  have : p ≠ s.next := Nat.ne_of_lt hp
  simp [HotStuffBase.new_promise, this]

theorem new_promise_heap_new (s : HotStuffBase) (c : Promise) :
    (s.new_promise c).1.heap (s.new_promise c).2 = c := by
  simp [HotStuffBase.new_promise]

theorem new_promise_next (s : HotStuffBase) (c : Promise) :
    (s.new_promise c).1.next = s.next + 1 := rfl

theorem new_promise_snd (s : HotStuffBase) (c : Promise) : (s.new_promise c).2 = s.next := rfl

theorem is_resolved_new_old (s : HotStuffBase) (c : Promise) {p : PId} (hp : p < s.next) :
    is_resolved (s.new_promise c).1 p = is_resolved s p := by
  simp only [is_resolved, new_promise_heap_old s c hp]

/-- A fresh promise keeps the invariant when its cell is consistent: a
resolved delivery promise is for a delivered block, a resolved fetch promise
carries the stored block, a joint promise starts pending over existing
promises, and no callback is attached yet other than one that needs nothing. -/
theorem Inv.new_promise {C : Prop} {s : HotStuffBase} (hi : Inv C s) (c : Promise)
    (hparts : ∀ q ∈ c.parts, q < s.next)
    (hd : ∀ h, c.purpose = .deliver h → c.state ≠ .pending → h ∈ s.storage.delivered)
    (hf : ∀ h v, c.purpose = .fetch h → c.state = .resolved v →
      ∃ b, v = .blk b ∧ s.storage.find_blk h = some b)
    (ha : c.purpose = .all → c.state = .pending)
    (hk : ∀ k ∈ c.callbacks, ∃ cmds, k = .propose cmds) : Inv C (s.new_promise c).1 := by
  have hext := Ext.by_new_promise s c
  have hcases : ∀ p, p < s.next + 1 → p < s.next ∨ p = s.next := by
    intro p hp; exact Nat.lt_succ_iff_lt_or_eq.1 hp
  refine ⟨?_, ?_, ?_, ?_, ?_, ?_, ?_, ?_, ?_, hi.closed, hi.trace_ok⟩
  · intro p hp q hq
    rw [new_promise_next] at hp ⊢
    rcases hcases p hp with h1 | h1
    · rw [new_promise_heap_old s c h1] at hq
      exact Nat.lt_succ_of_lt (hi.parts_lt p h1 q hq)
    · subst h1
      have := new_promise_heap_new s c
      rw [new_promise_snd] at this; rw [this] at hq
      exact Nat.lt_succ_of_lt (hparts q hq)
  · intro p h hp hpu hr
    rw [new_promise_next] at hp
    rcases hcases p hp with h1 | h1
    · rw [new_promise_heap_old s c h1] at hpu
      rw [is_resolved_new_old s c h1] at hr
      exact hi.deliver_ok p h h1 hpu hr
    · subst h1
      have hc := new_promise_heap_new s c
      rw [new_promise_snd] at hc
      rw [hc] at hpu
      obtain ⟨v, hv⟩ := (is_resolved_iff _ _).1 hr
      rw [hc] at hv
      exact hd h hpu (by rw [hv]; simp)
  · intro p h v hp hpu hs
    rw [new_promise_next] at hp
    rcases hcases p hp with h1 | h1
    · rw [new_promise_heap_old s c h1] at hpu hs
      exact hi.fetch_ok p h v h1 hpu hs
    · subst h1
      have hc := new_promise_heap_new s c
      rw [new_promise_snd] at hc
      rw [hc] at hpu hs
      exact hf h v hpu hs
  · intro p hp hpu hr q hq
    rw [new_promise_next] at hp
    rcases hcases p hp with h1 | h1
    · rw [new_promise_heap_old s c h1] at hpu hq
      rw [is_resolved_new_old s c h1] at hr
      rw [is_resolved_new_old s c (hi.parts_lt p h1 q hq)]
      exact hi.all_ok p h1 hpu hr q hq
    · subst h1
      have hc := new_promise_heap_new s c
      rw [new_promise_snd] at hc
      rw [hc] at hpu
      obtain ⟨v, hv⟩ := (is_resolved_iff _ _).1 hr
      rw [hc, ha hpu] at hv
      cases hv
  · intro p hp k hk'
    rw [new_promise_next] at hp
    rcases hcases p hp with h1 | h1
    · rw [new_promise_heap_old s c h1] at hk'
      exact Attached_mono hi hext h1 (hi.attached p h1 k hk')
    · subst h1
      have hc := new_promise_heap_new s c
      rw [new_promise_snd] at hc
      rw [hc] at hk'
      obtain ⟨cmds, rfl⟩ := hk k hk'
      trivial
  · intro e he
    obtain ⟨h1, h2⟩ := hi.fetch_tbl e he
    exact ⟨Nat.lt_succ_of_lt h1, by rw [new_promise_heap_old s c h1]; exact h2⟩
  · intro e he
    obtain ⟨h1, h2⟩ := hi.deliv_tbl e he
    exact ⟨Nat.lt_succ_of_lt h1, by rw [new_promise_heap_old s c h1]; exact h2⟩
  · intro e he
    obtain ⟨h1, h2⟩ := hi.cmd_tbl e he
    exact ⟨Nat.lt_succ_of_lt h1, by rw [new_promise_heap_old s c h1]; exact h2⟩
  · intro p hp
    obtain ⟨h1, h2⟩ := hi.beat_tbl p hp
    exact ⟨Nat.lt_succ_of_lt h1, by rw [new_promise_heap_old s c h1]; exact h2⟩

theorem set_promise_heap_self (s : HotStuffBase) (p : PId) (c : Promise) :
    (s.set_promise p c).heap p = c := by
  simp [HotStuffBase.set_promise]

theorem set_promise_heap_other (s : HotStuffBase) (p : PId) (c : Promise) {q : PId}
    (hq : q ≠ p) : (s.set_promise p c).heap q = s.heap q := by
  simp [HotStuffBase.set_promise, hq]

theorem Ext.by_set_promise (s : HotStuffBase) (p : PId) (c : Promise)
    (hpu : c.purpose = (s.heap p).purpose) (hpa : c.parts = (s.heap p).parts)
    (hst : (s.heap p).state ≠ .pending → c.state = (s.heap p).state) :
    Ext s (s.set_promise p c) := by
  refine ⟨Nat.le_refl _, ?_, ?_, ?_, fun _ h => h, fun _ _ h => h⟩
  · intro q _
    by_cases hq : q = p
    · subst hq; rw [set_promise_heap_self]; exact hpu
    · rw [set_promise_heap_other s p c hq]
  · intro q _
    by_cases hq : q = p
    · subst hq; rw [set_promise_heap_self]; exact hpa
    · rw [set_promise_heap_other s p c hq]
  · intro q _ hs
    by_cases hq : q = p
    · subst hq; rw [set_promise_heap_self]; exact hst hs
    · rw [set_promise_heap_other s p c hq]

/-- Rewriting the cell of an existing promise keeps the invariant when purpose
and parts stay, the state changes only from pending and only to an outcome the
promise may take, and every callback of the new cell is attached. -/
theorem Inv.set_promise {C : Prop} {s : HotStuffBase} (hi : Inv C s) (p : PId) (c : Promise)
    (hp : p < s.next)
    (hpu : c.purpose = (s.heap p).purpose) (hpa : c.parts = (s.heap p).parts)
    (hst : c.state = (s.heap p).state
      ∨ ((s.heap p).state = .pending ∧ ∀ v, c.state = .resolved v → SettleOK s p (.fulfilled v)))
    (hk : ∀ k ∈ c.callbacks, Attached s p k) : Inv C (s.set_promise p c) := by
  have hext : Ext s (s.set_promise p c) := by
    refine Ext.by_set_promise s p c hpu hpa ?_
    intro hne
    rcases hst with h1 | h1
    · exact h1
    · exact absurd h1.1 hne
  have hnext : (s.set_promise p c).next = s.next := rfl
  have hsto : (s.set_promise p c).storage = s.storage := rfl
  have hnew : ∀ v, c.state = .resolved v → (s.heap p).state ≠ .resolved v →
      SettleOK s p (.fulfilled v) := by
    intro v hv hne
    rcases hst with h1 | h1
    · rw [h1] at hv; exact absurd hv hne
    · exact h1.2 v hv
  refine ⟨?_, ?_, ?_, ?_, ?_, ?_, ?_, ?_, ?_, hi.closed, hi.trace_ok⟩
  · intro q hq r hr
    rw [hext.parts_eq q hq] at hr
    exact hi.parts_lt q hq r hr
  · intro q h hq hqu hr
    rw [hext.purpose_eq q hq] at hqu
    by_cases hqp : q = p
    · subst hqp
      obtain ⟨v, hv⟩ := (is_resolved_iff _ _).1 hr
      rw [set_promise_heap_self] at hv
      by_cases hold : (s.heap q).state = .resolved v
      · exact hi.deliver_ok q h hq hqu ((is_resolved_iff _ _).2 ⟨v, hold⟩)
      · exact (hnew v hv hold).1 h hqu
    · have : is_resolved (s.set_promise p c) q = is_resolved s q := by
        simp only [is_resolved, set_promise_heap_other s p c hqp]
      rw [this] at hr
      exact hi.deliver_ok q h hq hqu hr
  · intro q h v hq hqu hs
    rw [hext.purpose_eq q hq] at hqu
    by_cases hqp : q = p
    · subst hqp
      rw [set_promise_heap_self] at hs
      by_cases hold : (s.heap q).state = .resolved v
      · exact hi.fetch_ok q h v hq hqu hold
      · exact (hnew v hs hold).2.1 h hqu
    · rw [set_promise_heap_other s p c hqp] at hs
      exact hi.fetch_ok q h v hq hqu hs
  · intro q hq hqu hr r hr2
    rw [hext.purpose_eq q hq] at hqu
    rw [hext.parts_eq q hq] at hr2
    have hrlt := hi.parts_lt q hq r hr2
    by_cases hqp : q = p
    · subst hqp
      obtain ⟨v, hv⟩ := (is_resolved_iff _ _).1 hr
      rw [set_promise_heap_self] at hv
      by_cases hold : (s.heap q).state = .resolved v
      · exact hext.resolved hrlt
          (hi.all_ok q hq hqu ((is_resolved_iff _ _).2 ⟨v, hold⟩) r hr2)
      · exact hext.resolved hrlt ((hnew v hv hold).2.2 hqu r hr2)
    · have : is_resolved (s.set_promise p c) q = is_resolved s q := by
        simp only [is_resolved, set_promise_heap_other s p c hqp]
      rw [this] at hr
      exact hext.resolved hrlt (hi.all_ok q hq hqu hr r hr2)
  · intro q hq k hk2
    by_cases hqp : q = p
    · subst hqp
      rw [set_promise_heap_self] at hk2
      exact Attached_mono hi hext hq (hk k hk2)
    · rw [set_promise_heap_other s p c hqp] at hk2
      exact Attached_mono hi hext hq (hi.attached q hq k hk2)
  · intro e he
    obtain ⟨h1, h2⟩ := hi.fetch_tbl e he
    exact ⟨h1, by rw [hext.purpose_eq _ h1]; exact h2⟩
  · intro e he
    obtain ⟨h1, h2⟩ := hi.deliv_tbl e he
    exact ⟨h1, by rw [hext.purpose_eq _ h1]; exact h2⟩
  · intro e he
    obtain ⟨h1, h2⟩ := hi.cmd_tbl e he
    exact ⟨h1, by rw [hext.purpose_eq _ h1]; exact h2⟩
  · intro q hq
    obtain ⟨h1, h2⟩ := hi.beat_tbl q hq
    exact ⟨h1, by rw [hext.purpose_eq _ h1]; exact h2⟩

theorem settle_fold_ok {C : Prop} {run : Callback → Outcome → HotStuffBase → HotStuffBase}
    (hrun : RunOK C run) (p : PId) (o : Outcome) (cbs : List Callback) :
    ∀ acc : HotStuffBase, Inv C acc → p < acc.next →
      (∀ v, o = .fulfilled v → (acc.heap p).state = .resolved v) →
      (∀ k ∈ cbs, Attached acc p k) →
      Inv C (cbs.foldl (fun a k => run k o a) acc)
        ∧ Ext acc (cbs.foldl (fun a k => run k o a) acc) := by
  induction cbs with
  | nil => intro acc hi _ _ _; exact ⟨hi, Ext.refl _⟩
  | cons k rest ih =>
    intro acc hi hp ho ha
    have hpre : Pre acc k o := Attached_pre hi hp (ha k (List.mem_cons_self _ _)) o ho
    obtain ⟨hi2, he2⟩ := hrun k o acc hi hpre
    have hp2 : p < (run k o acc).next := Nat.lt_of_lt_of_le hp he2.next_le
    have ho2 : ∀ v, o = .fulfilled v → ((run k o acc).heap p).state = .resolved v := by
      intro v hv
      rw [he2.settled p hp (by rw [ho v hv]; simp)]
      exact ho v hv
    have ha2 : ∀ k' ∈ rest, Attached (run k o acc) p k' := fun k' hk' =>
      Attached_mono hi he2 hp (ha k' (List.mem_cons_of_mem _ hk'))
    obtain ⟨hi3, he3⟩ := ih (run k o acc) hi2 hp2 ho2 ha2
    exact ⟨hi3, he2.trans he3⟩

theorem settle_ok {C : Prop} {run : Callback → Outcome → HotStuffBase → HotStuffBase}
    (hrun : RunOK C run) {s : HotStuffBase} (hi : Inv C s) {p : PId} (hp : p < s.next)
    {o : Outcome} (hs : SettleOK s p o) :
    Inv C (settle run p o s) ∧ Ext s (settle run p o s) := by
  unfold settle
  cases hst : (s.heap p).state with
  | pending =>
    simp only
    have hi1 : Inv C (s.set_promise p { s.heap p with
        state := o.to_state, callbacks := [] }) := by
      refine hi.set_promise p _ hp rfl rfl (Or.inr ⟨hst, ?_⟩) (by simp)
      intro v hv
      cases o with
      | fulfilled w =>
        simp only [Outcome.to_state, PromiseState.resolved.injEq] at hv
        subst hv; exact hs
      | rejected => simp [Outcome.to_state] at hv
    have he1 : Ext s (s.set_promise p { s.heap p with
        state := o.to_state, callbacks := [] }) :=
      Ext.by_set_promise s p _ rfl rfl (fun h => absurd hst h)
    have := settle_fold_ok hrun p o (s.heap p).callbacks _ hi1 hp
      (by
        intro v hv
        subst hv
        rw [set_promise_heap_self]; rfl)
      (fun k hk => Attached_mono hi he1 hp (hi.attached p hp k hk))
    exact ⟨this.1, he1.trans this.2⟩
  | resolved v => exact ⟨hi, Ext.refl _⟩
  | rejected => exact ⟨hi, Ext.refl _⟩

theorem promise_then_ok {C : Prop} {run : Callback → Outcome → HotStuffBase → HotStuffBase}
    (hrun : RunOK C run) {s : HotStuffBase} (hi : Inv C s) {p : PId} (hp : p < s.next)
    {k : Callback} (ha : Attached s p k) :
    Inv C (promise_then run p k s) ∧ Ext s (promise_then run p k s) := by
  unfold promise_then
  cases hst : (s.heap p).state with
  | pending =>
    simp only
    refine ⟨hi.set_promise p _ hp rfl rfl (Or.inl rfl) ?_,
      Ext.by_set_promise s p _ rfl rfl (fun _ => rfl)⟩
    intro k' hk'
    simp only [List.mem_append, List.mem_singleton] at hk'
    rcases hk' with h1 | h1
    · exact hi.attached p hp k' h1
    · rw [h1]; exact ha
  | resolved v =>
    exact hrun k _ s hi (Attached_pre hi hp ha _ (by intro w hw; cases hw; exact hst))
  | rejected =>
    exact hrun k _ s hi (Attached_pre hi hp ha _ (by intro w hw; cases hw))

theorem all_check_ok {C : Prop} {run : Callback → Outcome → HotStuffBase → HotStuffBase}
    (hrun : RunOK C run) {s : HotStuffBase} (hi : Inv C s) {ret : PId} (hp : ret < s.next)
    (hpu : (s.heap ret).purpose = .all) :
    Inv C (all_check run ret s) ∧ Ext s (all_check run ret s) := by
  unfold all_check
  split
  · rename_i hall
    refine settle_ok hrun hi hp ⟨?_, ?_, ?_⟩
    · intro h hh; rw [hpu] at hh; cases hh
    · intro h hh; rw [hpu] at hh; cases hh
    · intro _ q hq
      exact List.all_eq_true.1 hall q hq
  · exact ⟨hi, Ext.refl _⟩

theorem promise_all_fold_ok {C : Prop} {run : Callback → Outcome → HotStuffBase → HotStuffBase}
    (hrun : RunOK C run) (ret : PId) (pms : List PId) :
    ∀ acc : HotStuffBase, Inv C acc → ret < acc.next → (acc.heap ret).purpose = .all →
      (∀ q ∈ pms, q < acc.next) →
      Inv C (pms.foldl (fun a pm => promise_then run pm (.all_part ret) a) acc)
        ∧ Ext acc (pms.foldl (fun a pm => promise_then run pm (.all_part ret) a) acc) := by
  induction pms with
  | nil => intro acc hi _ _ _; exact ⟨hi, Ext.refl _⟩
  | cons pm rest ih =>
    intro acc hi hr hpu hq
    obtain ⟨hi2, he2⟩ := promise_then_ok hrun hi (hq pm (List.mem_cons_self _ _))
      (k := .all_part ret) ⟨hr, hpu⟩
    obtain ⟨hi3, he3⟩ := ih _ hi2 (Nat.lt_of_lt_of_le hr he2.next_le)
      (by rw [he2.purpose_eq ret hr]; exact hpu)
      (fun q hq' => Nat.lt_of_lt_of_le (hq q (List.mem_cons_of_mem _ hq')) he2.next_le)
    exact ⟨hi3, he2.trans he3⟩

theorem promise_all_ok {C : Prop} {run : Callback → Outcome → HotStuffBase → HotStuffBase}
    (hrun : RunOK C run) {s : HotStuffBase} (hi : Inv C s) {l : List PId}
    (hq : ∀ q ∈ l, q < s.next) :
    Inv C (promise_all run l s).1 ∧ Ext s (promise_all run l s).1
      ∧ (promise_all run l s).2 < (promise_all run l s).1.next
      ∧ ((promise_all run l s).1.heap (promise_all run l s).2).purpose = .all
      ∧ ((promise_all run l s).1.heap (promise_all run l s).2).parts = l := by
  have hi1 : Inv C (s.new_promise
      { state := .pending, callbacks := [], parts := l, purpose := .all }).1 :=
    hi.new_promise _ hq (by intro h hh; cases hh) (by intro h v hh; cases hh) (fun _ => rfl)
      (by simp)
  have he1 := Ext.by_new_promise s { state := .pending, callbacks := [], parts := l, purpose := .all }
  have hlt : s.next < (s.new_promise
      { state := .pending, callbacks := [], parts := l, purpose := .all }).1.next :=
    Nat.lt_succ_self _
  have hcell := new_promise_heap_new s
    { state := .pending, callbacks := [], parts := l, purpose := .all }
  rw [new_promise_snd] at hcell
  obtain ⟨hi2, he2⟩ := promise_all_fold_ok hrun s.next l _ hi1 hlt (by rw [hcell])
    (fun q hq' => Nat.lt_of_lt_of_le (hq q hq') he1.next_le)
  have hlt2 := Nat.lt_of_lt_of_le hlt he2.next_le
  have hpu2 := he2.purpose_eq s.next hlt
  rw [hcell] at hpu2
  obtain ⟨hi3, he3⟩ := all_check_ok hrun hi2 hlt2 hpu2
  have he23 := he2.trans he3
  refine ⟨hi3, he1.trans he23, Nat.lt_of_lt_of_le hlt he23.next_le, ?_, ?_⟩
  · have := he23.purpose_eq s.next hlt
    rw [hcell] at this; exact this
  · have := he23.parts_eq s.next hlt
    rw [hcell] at this; exact this

theorem table_find_some_mem {α : Type} {t : List (Hash × α)} {h : Hash} {x : α}
    (hf : table_find t h = some x) : (h, x) ∈ t := by
  simp only [table_find, Option.map_eq_some'] at hf
  obtain ⟨e, he, hx⟩ := hf
  have h1 := List.find?_some he
  have h2 := List.mem_of_find?_eq_some he
  have h3 : e.1 = h := by simpa using h1
  have : e = (h, x) := by
    cases e; simp only [Prod.mk.injEq]; exact ⟨h3, hx⟩
  rw [← this]; exact h2

theorem table_erase_mem {α : Type} {t : List (Hash × α)} {h : Hash} {e : Hash × α}
    (he : e ∈ table_erase t h) : e ∈ t :=
  (List.mem_filter.1 he).1

theorem collect_ok {C : Prop} {α β : Type} (f : α → HotStuffBase → HotStuffBase × β)
    (Q : α → HotStuffBase → β → Prop)
    (hmono : ∀ a s t b, Inv C s → Ext s t → Q a s b → Q a t b)
    (hf : ∀ a s, Inv C s → Inv C (f a s).1 ∧ Ext s (f a s).1 ∧ Q a (f a s).1 (f a s).2)
    (l : List α) : ∀ s : HotStuffBase, Inv C s →
      Inv C (collect f l s).1 ∧ Ext s (collect f l s).1
        ∧ List.Forall₂ (fun a b => Q a (collect f l s).1 b) l (collect f l s).2 := by
  induction l with
  | nil => intro s hi; exact ⟨hi, Ext.refl _, List.Forall₂.nil⟩
  | cons a rest ih =>
    intro s hi
    obtain ⟨h1, h2, h3⟩ := hf a s hi
    obtain ⟨h4, h5, h6⟩ := ih (f a s).1 h1
    refine ⟨h4, h2.trans h5, ?_⟩
    exact List.Forall₂.cons (hmono a _ _ _ h1 h5 h3) h6

theorem forall₂_mem {α β : Type} {R : α → β → Prop} {l : List α} {m : List β}
    (h : List.Forall₂ R l m) :
    (∀ a ∈ l, ∃ b ∈ m, R a b) ∧ (∀ b ∈ m, ∃ a ∈ l, R a b) := by
  induction h with
  | nil => simp
  | cons hab _ ih =>
    constructor
    · intro a ha
      rcases List.mem_cons.1 ha with ha | ha
      · subst ha; exact ⟨_, List.mem_cons_self _ _, hab⟩
      · obtain ⟨b, hb, hr⟩ := ih.1 a ha
        exact ⟨b, List.mem_cons_of_mem _ hb, hr⟩
    · intro b hb
      rcases List.mem_cons.1 hb with hb | hb
      · subst hb; exact ⟨_, List.mem_cons_self _ _, hab⟩
      · obtain ⟨a, ha, hr⟩ := ih.2 b hb
        exact ⟨a, List.mem_cons_of_mem _ ha, hr⟩

theorem async_fetch_blk_ok {C : Prop} {s : HotStuffBase} (hi : Inv C s) (h : Hash)
    (rid : Option NetAddr) :
    Inv C (async_fetch_blk h rid s).1 ∧ Ext s (async_fetch_blk h rid s).1
      ∧ (async_fetch_blk h rid s).2 < (async_fetch_blk h rid s).1.next
      ∧ ((async_fetch_blk h rid s).1.heap (async_fetch_blk h rid s).2).purpose = .fetch h := by
  have hi0 : Inv C (s.log (.async_fetch_blk h rid)) := hi.log trivial
  have he0 : Ext s (s.log (.async_fetch_blk h rid)) := Ext.by_log s _
  unfold async_fetch_blk
  simp only
  cases hfb : (s.log (.async_fetch_blk h rid)).storage.find_blk h with
  | some b =>
    simp only
    refine ⟨hi0.new_promise _ (by simp) (by intro x hx; cases hx) ?_ (by intro hx; cases hx)
      (by simp), he0.trans (Ext.by_new_promise _ _), Nat.lt_succ_self _, ?_⟩
    · intro x v hx hv
      simp only [Purpose.fetch.injEq] at hx
      simp only [PromiseState.resolved.injEq] at hv
      subst hx; subst hv
      exact ⟨b, rfl, hfb⟩
    · rw [new_promise_heap_new]
  | none =>
    simp only
    -- the context, found or created
    have key : ∀ r : HotStuffBase × BlockFetchContext,
        r = (match table_find (s.log (.async_fetch_blk h rid)).blk_fetch_waiting h with
          | some ctx => ((s.log (.async_fetch_blk h rid)), ctx)
          | none =>
            ({ ((s.log (.async_fetch_blk h rid)).new_promise
                  { state := .pending, callbacks := [], parts := [], purpose := .fetch h }).1 with
                blk_fetch_waiting :=
                  ((s.log (.async_fetch_blk h rid)).new_promise
                    { state := .pending, callbacks := [], parts := [],
                      purpose := .fetch h }).1.blk_fetch_waiting
                    ++ [(h, { pm := ((s.log (.async_fetch_blk h rid)).new_promise
                      { state := .pending, callbacks := [], parts := [],
                        purpose := .fetch h }).2, replica_ids := [] })] },
             { pm := ((s.log (.async_fetch_blk h rid)).new_promise
                      { state := .pending, callbacks := [], parts := [],
                        purpose := .fetch h }).2, replica_ids := [] })) →
        Inv C r.1 ∧ Ext s r.1 ∧ r.2.pm < r.1.next ∧ (r.1.heap r.2.pm).purpose = .fetch h := by
      intro r hr
      cases htf : table_find (s.log (.async_fetch_blk h rid)).blk_fetch_waiting h with
      | some ctx =>
        rw [htf] at hr
        subst hr
        have := hi0.fetch_tbl _ (table_find_some_mem htf)
        exact ⟨hi0, he0, this.1, this.2⟩
      | none =>
        rw [htf] at hr
        subst hr
        have hi1 := hi0.new_promise
          { state := .pending, callbacks := [], parts := [], purpose := .fetch h }
          (by simp) (by intro x hx; cases hx) (by intro x v _ hv; cases hv)
          (by intro hx; cases hx) (by simp)
        have hc := new_promise_heap_new (s.log (.async_fetch_blk h rid))
          { state := .pending, callbacks := [], parts := [], purpose := .fetch h }
        refine ⟨?_, ?_, Nat.lt_succ_self _, ?_⟩
        · refine hi1.frame rfl rfl (fun _ hh => hh) (fun _ _ hh => hh) hi1.closed ?_
            hi1.deliv_tbl hi1.cmd_tbl hi1.beat_tbl hi1.trace_ok
          intro e he
          simp only [List.mem_append, List.mem_singleton] at he
          rcases he with he | he
          · exact hi1.fetch_tbl e he
          · subst he
            exact ⟨Nat.lt_succ_self _, by rw [hc]⟩
        · exact (he0.trans (Ext.by_new_promise _ _)).trans
            (Ext.by_frame rfl rfl (fun _ hh => hh) (fun _ _ hh => hh))
        · exact congrArg Promise.purpose hc
    obtain ⟨k1, k2, k3, k4⟩ := key _ rfl
    cases rid with
    | none => exact ⟨k1, k2, k3, k4⟩
    | some r =>
      simp only
      refine ⟨?_, k2.trans (Ext.by_frame rfl rfl (fun _ hh => hh) (fun _ _ hh => hh)), k3, k4⟩
      refine k1.frame rfl rfl (fun _ hh => hh) (fun _ _ hh => hh) k1.closed ?_
        k1.deliv_tbl k1.cmd_tbl k1.beat_tbl k1.trace_ok
      intro e he
      simp only [List.mem_map] at he
      obtain ⟨e0, he0', rfl⟩ := he
      have := k1.fetch_tbl e0 he0'
      split
      · simp only [BlockFetchContext.add_replica]
        split <;> exact this
      · exact this

theorem Inv.insert_delivery {C : Prop} {s : HotStuffBase} (hi : Inv C s) {h : Hash} {q : PId}
    (hlt : q < s.next) (hpu : (s.heap q).purpose = .deliver h) :
    Inv C { s with blk_delivery_waiting := s.blk_delivery_waiting ++ [(h, q)] } := by
  refine hi.frame rfl rfl (fun _ hh => hh) (fun _ _ hh => hh) hi.closed hi.fetch_tbl ?_
    hi.cmd_tbl hi.beat_tbl hi.trace_ok
  intro e he
  simp only [List.mem_append, List.mem_singleton] at he
  rcases he with he | he
  · exact hi.deliv_tbl e he
  · subst he
    exact ⟨hlt, hpu⟩

theorem Ext.by_insert_delivery (s : HotStuffBase) (h : Hash) (pm : PId) :
    Ext s { s with blk_delivery_waiting := s.blk_delivery_waiting ++ [(h, pm)] } :=
  Ext.by_frame rfl rfl (fun _ hh => hh) (fun _ _ hh => hh)

theorem async_deliver_blk_ok {C : Prop} {run : Callback → Outcome → HotStuffBase → HotStuffBase}
    (hrun : RunOK C run) {s : HotStuffBase} (hi : Inv C s) (h : Hash) (r : NetAddr) :
    Inv C (async_deliver_blk run h r s).1 ∧ Ext s (async_deliver_blk run h r s).1
      ∧ (async_deliver_blk run h r s).2 < (async_deliver_blk run h r s).1.next
      ∧ ((async_deliver_blk run h r s).1.heap (async_deliver_blk run h r s).2).purpose
        = .deliver h := by
  unfold async_deliver_blk
  by_cases hd : s.storage.is_blk_delivered h = true
  · simp only [hd, if_true]
    refine ⟨hi.new_promise _ (by simp) ?_ (by intro x v hx; cases hx) (by intro hx; cases hx)
      (by simp), Ext.by_new_promise _ _, Nat.lt_succ_self _, ?_⟩
    · intro x hx _
      simp only [Purpose.deliver.injEq] at hx
      subst hx
      simpa [EntityStorage.is_blk_delivered] using hd
    · rw [new_promise_heap_new]
  · simp only [hd, if_false, Bool.false_eq_true]
    cases htf : table_find s.blk_delivery_waiting h with
    | some pm =>
      have := hi.deliv_tbl _ (table_find_some_mem htf)
      exact ⟨hi, Ext.refl _, this.1, this.2⟩
    | none =>
      simp only
      have hi1 := hi.new_promise
        { state := .pending, callbacks := [], parts := [], purpose := .deliver h }
        (by simp) (by intro x _ hx; exact absurd rfl hx) (by intro x v hx; cases hx)
        (by intro hx; cases hx) (by simp)
      have he1 := Ext.by_new_promise s
        { state := .pending, callbacks := [], parts := [], purpose := .deliver h }
      have hc := new_promise_heap_new s
        { state := .pending, callbacks := [], parts := [], purpose := .deliver h }
      have hi2 := hi1.insert_delivery (h := h) (q := s.next) (Nat.lt_succ_self _)
        (by rw [← new_promise_snd s, hc])
      have he2 := Ext.by_insert_delivery (s.new_promise
        { state := .pending, callbacks := [], parts := [], purpose := .deliver h }).1 h s.next
      obtain ⟨hi3, he3, hlt3, hpu3⟩ := async_fetch_blk_ok hi2 h (some r)
      obtain ⟨hi4, he4⟩ := promise_then_ok hrun hi3 hlt3 (k := .deliver_fetched r) ⟨h, hpu3⟩
      have he24 := (he2.trans he3).trans he4
      have hlt : s.next < (s.new_promise
          { state := .pending, callbacks := [], parts := [], purpose := .deliver h }).1.next :=
        Nat.lt_succ_self _
      refine ⟨hi4, he1.trans he24, Nat.lt_of_lt_of_le hlt he24.next_le, ?_⟩
      have := he24.purpose_eq s.next hlt
      rw [new_promise_snd] at hc
      rw [hc] at this
      exact this

theorem on_deliver_blk_ok {C : Prop} {run : Callback → Outcome → HotStuffBase → HotStuffBase}
    (env : Env) (hrun : RunOK C run) {s : HotStuffBase} (hi : Inv C s) {blk : Block}
    (hb : s.storage.find_blk blk.hash = some blk)
    (hpar : ∀ ph ∈ blk.parent_hashes, ph ∈ s.storage.delivered)
    (hqc : ∀ h, blk.qc = some h → s.storage.is_blk_fetched h = true) :
    Inv C (on_deliver_blk env run blk s) ∧ Ext s (on_deliver_blk env run blk s) := by
  have hi0 : Inv C (s.log (.on_deliver_blk blk s.storage)) := by
    refine hi.log ⟨hb, ?_, hqc, hi.closed⟩
    intro ph hph
    simpa [EntityStorage.is_blk_delivered] using hpar ph hph
  have he0 : Ext s (s.log (.on_deliver_blk blk s.storage)) := Ext.by_log _ _
  -- after the verdict of the core
  have key : ∀ s1 : HotStuffBase, Inv C s1 → Ext s s1 →
      (env.core_on_deliver_blk (s.log (.on_deliver_blk blk s.storage)).storage blk = true →
        blk.hash ∈ s1.storage.delivered) →
      Inv C (match table_find s1.blk_delivery_waiting blk.hash with
        | some pm =>
          { (if env.core_on_deliver_blk (s.log (.on_deliver_blk blk s.storage)).storage blk
              then settle run pm (.fulfilled (.blk blk)) s1
              else settle run pm .rejected s1) with
            blk_delivery_waiting := table_erase
              (if env.core_on_deliver_blk (s.log (.on_deliver_blk blk s.storage)).storage blk
                then settle run pm (.fulfilled (.blk blk)) s1
                else settle run pm .rejected s1).blk_delivery_waiting blk.hash }
        | none => s1)
      ∧ Ext s (match table_find s1.blk_delivery_waiting blk.hash with
        | some pm =>
          { (if env.core_on_deliver_blk (s.log (.on_deliver_blk blk s.storage)).storage blk
              then settle run pm (.fulfilled (.blk blk)) s1
              else settle run pm .rejected s1) with
            blk_delivery_waiting := table_erase
              (if env.core_on_deliver_blk (s.log (.on_deliver_blk blk s.storage)).storage blk
                then settle run pm (.fulfilled (.blk blk)) s1
                else settle run pm .rejected s1).blk_delivery_waiting blk.hash }
        | none => s1) := by
    intro s1 hi1 he1 hv
    cases htf : table_find s1.blk_delivery_waiting blk.hash with
    | none => exact ⟨hi1, he1⟩
    | some pm =>
      simp only
      have hpm := hi1.deliv_tbl _ (table_find_some_mem htf)
      have hset : Inv C (if env.core_on_deliver_blk
            (s.log (.on_deliver_blk blk s.storage)).storage blk
          then settle run pm (.fulfilled (.blk blk)) s1
          else settle run pm .rejected s1)
          ∧ Ext s1 (if env.core_on_deliver_blk
            (s.log (.on_deliver_blk blk s.storage)).storage blk
          then settle run pm (.fulfilled (.blk blk)) s1
          else settle run pm .rejected s1) := by
        split
        · rename_i hval
          refine settle_ok hrun hi1 hpm.1 ⟨?_, ?_, ?_⟩
          · intro x hx
            rw [hpm.2] at hx
            simp only [Purpose.deliver.injEq] at hx
            rw [← hx]; exact hv hval
          · intro x hx; rw [hpm.2] at hx; cases hx
          · intro hx; rw [hpm.2] at hx; cases hx
        · exact settle_ok hrun hi1 hpm.1 trivial
      obtain ⟨hi2, he2⟩ := hset
      refine ⟨?_, (he1.trans he2).trans (Ext.by_frame rfl rfl (fun _ hh => hh) (fun _ _ hh => hh))⟩
      exact hi2.frame rfl rfl (fun _ hh => hh) (fun _ _ hh => hh) hi2.closed hi2.fetch_tbl
        (fun e he => hi2.deliv_tbl e (table_erase_mem he)) hi2.cmd_tbl hi2.beat_tbl hi2.trace_ok
  unfold on_deliver_blk
  simp only
  by_cases hval : env.core_on_deliver_blk (s.log (.on_deliver_blk blk s.storage)).storage blk
      = true
  · simp only [hval, if_true]
    have hi1 : Inv C { (s.log (.on_deliver_blk blk s.storage)) with
        storage := (s.log (.on_deliver_blk blk s.storage)).storage.mark_blk_delivered blk.hash,
        part_parent_size := (s.log (.on_deliver_blk blk s.storage)).part_parent_size
          + blk.parent_hashes.length,
        part_delivered := (s.log (.on_deliver_blk blk s.storage)).part_delivered + 1,
        delivered := (s.log (.on_deliver_blk blk s.storage)).delivered + 1 } := by
      refine hi0.frame rfl rfl (fun _ hh => List.mem_cons_of_mem _ hh) (fun _ _ hh => hh) ?_
        hi0.fetch_tbl hi0.deliv_tbl hi0.cmd_tbl hi0.beat_tbl hi0.trace_ok
      intro hC x hx
      simp only [EntityStorage.mark_blk_delivered, List.mem_cons] at hx
      rcases hx with hx | hx
      · subst hx
        exact ⟨blk, hb, fun ph hph => List.mem_cons_of_mem _ (hpar ph hph)⟩
      · obtain ⟨b', hb1, hb2⟩ := hi.closed hC x hx
        exact ⟨b', hb1, fun ph hph => List.mem_cons_of_mem _ (hb2 ph hph)⟩
    have he1 : Ext s { (s.log (.on_deliver_blk blk s.storage)) with
        storage := (s.log (.on_deliver_blk blk s.storage)).storage.mark_blk_delivered blk.hash,
        part_parent_size := (s.log (.on_deliver_blk blk s.storage)).part_parent_size
          + blk.parent_hashes.length,
        part_delivered := (s.log (.on_deliver_blk blk s.storage)).part_delivered + 1,
        delivered := (s.log (.on_deliver_blk blk s.storage)).delivered + 1 } :=
      Ext.by_frame rfl rfl (fun _ hh => List.mem_cons_of_mem _ hh) (fun _ _ hh => hh)
    have := key _ hi1 he1 (fun _ => List.mem_cons_self _ _)
    simpa only [hval, if_true] using this
  · have hval2 : env.core_on_deliver_blk (s.log (.on_deliver_blk blk s.storage)).storage blk
        = false := by simpa using hval
    simp only [hval2, Bool.false_eq_true, if_false]
    have := key _ hi0 he0 (fun h => by rw [hval2] at h; cases h)
    simpa only [hval2, Bool.false_eq_true, if_false] using this

theorem on_fetch_cmd_ok {C : Prop} {run : Callback → Outcome → HotStuffBase → HotStuffBase}
    (hrun : RunOK C run) {s : HotStuffBase} (hi : Inv C s) (cmd : Command) :
    Inv C (on_fetch_cmd run cmd s) ∧ Ext s (on_fetch_cmd run cmd s) := by
  unfold on_fetch_cmd
  cases htf : table_find s.cmd_fetch_waiting cmd.hash with
  | none => exact ⟨hi, Ext.refl _⟩
  | some pm =>
    simp only
    have hpm := hi.cmd_tbl _ (table_find_some_mem htf)
    have hso : SettleOK s pm (.fulfilled .null) := by
      refine ⟨?_, ?_, ?_⟩
      · intro x hx; rw [hpm.2] at hx; cases hx
      · intro x hx; rw [hpm.2] at hx; cases hx
      · intro hx; rw [hpm.2] at hx; cases hx
    obtain ⟨hi2, he2⟩ := settle_ok hrun hi hpm.1 hso
    refine ⟨?_, he2.trans (Ext.by_frame rfl rfl (fun _ hh => hh) (fun _ _ hh => hh))⟩
    exact hi2.frame rfl rfl (fun _ hh => hh) (fun _ _ hh => hh) hi2.closed hi2.fetch_tbl
      hi2.deliv_tbl (fun e he => hi2.cmd_tbl e (table_erase_mem he)) hi2.beat_tbl hi2.trace_ok

theorem on_fetch_cmd_fold_ok {C : Prop} {run : Callback → Outcome → HotStuffBase → HotStuffBase}
    (hrun : RunOK C run) (cmds : List Command) : ∀ s : HotStuffBase, Inv C s →
      Inv C (cmds.foldl (fun acc cmd => on_fetch_cmd run cmd acc) s)
        ∧ Ext s (cmds.foldl (fun acc cmd => on_fetch_cmd run cmd acc) s) := by
  induction cmds with
  | nil => intro s hi; exact ⟨hi, Ext.refl _⟩
  | cons c rest ih =>
    intro s hi
    obtain ⟨h1, h2⟩ := on_fetch_cmd_ok hrun hi c
    obtain ⟨h3, h4⟩ := ih _ h1
    exact ⟨h3, h2.trans h4⟩

theorem on_fetch_blk_ok {C : Prop} {run : Callback → Outcome → HotStuffBase → HotStuffBase}
    (hrun : RunOK C run) {s : HotStuffBase} (hi : Inv C s) {blk : Block}
    (hb : s.storage.find_blk blk.hash = some blk) :
    Inv C (on_fetch_blk run blk s) ∧ Ext s (on_fetch_blk run blk s) := by
  unfold on_fetch_blk
  simp only
  have hi1 : Inv C { s with part_fetched := s.part_fetched + 1, fetched := s.fetched + 1 } :=
    hi.frame rfl rfl (fun _ hh => hh) (fun _ _ hh => hh) hi.closed hi.fetch_tbl hi.deliv_tbl
      hi.cmd_tbl hi.beat_tbl hi.trace_ok
  have he1 : Ext s { s with part_fetched := s.part_fetched + 1, fetched := s.fetched + 1 } :=
    Ext.by_frame rfl rfl (fun _ hh => hh) (fun _ _ hh => hh)
  obtain ⟨hi2, he2⟩ := on_fetch_cmd_fold_ok hrun blk.cmds _ hi1
  have he12 := he1.trans he2
  cases htf : table_find (blk.cmds.foldl (fun acc cmd => on_fetch_cmd run cmd acc)
      { s with part_fetched := s.part_fetched + 1, fetched := s.fetched + 1 }).blk_fetch_waiting
      blk.hash with
  | none => exact ⟨hi2, he12⟩
  | some ctx =>
    simp only
    have hpm := hi2.fetch_tbl _ (table_find_some_mem htf)
    have hso : SettleOK (blk.cmds.foldl (fun acc cmd => on_fetch_cmd run cmd acc)
        { s with part_fetched := s.part_fetched + 1, fetched := s.fetched + 1 }) ctx.pm
        (.fulfilled (.blk blk)) := by
      refine ⟨?_, ?_, ?_⟩
      · intro x hx; rw [hpm.2] at hx; cases hx
      · intro x hx
        rw [hpm.2] at hx
        simp only [Purpose.fetch.injEq] at hx
        subst hx
        exact ⟨blk, rfl, he12.blk_kept _ _ hb⟩
      · intro hx; rw [hpm.2] at hx; cases hx
    obtain ⟨hi3, he3⟩ := settle_ok hrun hi2 hpm.1 hso
    refine ⟨?_, (he12.trans he3).trans (Ext.by_frame rfl rfl (fun _ hh => hh) (fun _ _ hh => hh))⟩
    exact hi3.frame rfl rfl (fun _ hh => hh) (fun _ _ hh => hh) hi3.closed
      (fun e he => hi3.fetch_tbl e (table_erase_mem he)) hi3.deliv_tbl hi3.cmd_tbl hi3.beat_tbl
      hi3.trace_ok

/-- The dependencies of a fetched block: the joint promise is over a fetch
promise for the QC referent and delivery promises for all parents, so the
continuation of line 235 may be attached to it. -/
theorem deliver_deps_ok {C : Prop} {run : Callback → Outcome → HotStuffBase → HotStuffBase}
    (hrun : RunOK C run) {s : HotStuffBase} (hi : Inv C s) {b : Block}
    (hb : s.storage.find_blk b.hash = some b) (r : NetAddr) :
    Inv C (deliver_deps run b r s).1 ∧ Ext s (deliver_deps run b r s).1
      ∧ (deliver_deps run b r s).2 < (deliver_deps run b r s).1.next
      ∧ Attached (deliver_deps run b r s).1 (deliver_deps run b r s).2 (.deliver_ready b) := by
  unfold deliver_deps
  simp only
  -- the QC referent
  have hq : ∀ q : HotStuffBase × List PId,
      q = (match b.qc with
        | some h => ((async_fetch_blk h (some r) s).1, [(async_fetch_blk h (some r) s).2])
        | none => (s, [])) →
      Inv C q.1 ∧ Ext s q.1 ∧ (∀ x ∈ q.2, x < q.1.next)
        ∧ (∀ h, b.qc = some h → ∃ x ∈ q.2, (q.1.heap x).purpose = .fetch h) := by
    intro q hq
    cases hqc : b.qc with
    | none =>
      rw [hqc] at hq; subst hq
      exact ⟨hi, Ext.refl _, by simp, by simp⟩
    | some h =>
      rw [hqc] at hq; subst hq
      obtain ⟨h1, h2, h3, h4⟩ := async_fetch_blk_ok hi h (some r)
      refine ⟨h1, h2, by simpa using h3, ?_⟩
      intro h' hh'
      simp only [Option.some.injEq] at hh'
      subst hh'
      exact ⟨_, List.mem_singleton_self _, h4⟩
  obtain ⟨q1, q2, q3, q4⟩ := hq _ rfl
  -- the parents
  obtain ⟨c1, c2, c3⟩ := collect_ok (C := C)
    (fun phash acc => async_deliver_blk run phash r acc)
    (fun ph t x => x < t.next ∧ (t.heap x).purpose = .deliver ph)
    (fun a s t x _ he hx => ⟨Nat.lt_of_lt_of_le hx.1 he.next_le,
      by rw [he.purpose_eq x hx.1]; exact hx.2⟩)
    (fun a s hs => by
      obtain ⟨h1, h2, h3, h4⟩ := async_deliver_blk_ok hrun hs a r
      exact ⟨h1, h2, h3, h4⟩)
    b.parent_hashes _ q1
  obtain ⟨m1, m2⟩ := forall₂_mem c3
  obtain ⟨a1, a2, a3, a4, a5⟩ := promise_all_ok hrun c1 (l := _ ++ _) (by
    intro x hx
    rcases List.mem_append.1 hx with hx | hx
    · exact Nat.lt_of_lt_of_le (q3 x hx) c2.next_le
    · obtain ⟨a, _, ha⟩ := m2 x hx
      exact ha.1)
  refine ⟨a1, (q2.trans c2).trans a2, a3, a4,
    a2.blk_kept _ _ (c2.blk_kept _ _ (q2.blk_kept _ _ hb)), ?_, ?_⟩
  · intro ph hph
    obtain ⟨x, hx, hx1, hx2⟩ := m1 ph hph
    refine ⟨x, by rw [a5]; exact List.mem_append_right _ hx, ?_⟩
    rw [a2.purpose_eq _ hx1]
    exact hx2
  · intro h hh
    obtain ⟨x, hx, hx2⟩ := q4 h hh
    refine ⟨x, by rw [a5]; exact List.mem_append_left _ hx, ?_⟩
    rw [a2.purpose_eq _ (Nat.lt_of_lt_of_le (q3 x hx) c2.next_le),
      c2.purpose_eq _ (q3 x hx)]
    exact hx2

theorem run_callback_zero (env : Env) (k : Callback) (o : Outcome) (s : HotStuffBase) :
    run_callback env 0 k o s = s := by
  simp [run_callback]

/-- The callback interpreter keeps the engine invariant at every depth. -/
theorem run_callback_ok {C : Prop} (env : Env) : ∀ n, RunOK C (run_callback env n) := by
  intro n
  induction n with
  | zero =>
    intro k o s hi _
    rw [run_callback_zero]
    exact ⟨hi, Ext.refl _⟩
  | succ n ih =>
    intro k o s hi hpre
    cases k with
    | deliver_fetched r =>
      cases o with
      | rejected => simp only [run_callback]; exact ⟨hi, Ext.refl _⟩
      | fulfilled v =>
        cases v with
        | null => simp only [run_callback]; exact ⟨hi, Ext.refl _⟩
        | values bs => simp only [run_callback]; exact ⟨hi, Ext.refl _⟩
        | fin f => simp only [run_callback]; exact ⟨hi, Ext.refl _⟩
        | blk b =>
          have hb : s.storage.find_blk b.hash = some b := hpre
          simp only [run_callback]
          obtain ⟨a1, a2, a3, a4⟩ := deliver_deps_ok ih hi hb r
          obtain ⟨t1, t2⟩ := promise_then_ok ih a1 a3 a4
          exact ⟨t1, a2.trans t2⟩
    | deliver_ready b =>
      cases o with
      | rejected => simp only [run_callback]; exact ⟨hi, Ext.refl _⟩
      | fulfilled v =>
        simp only [run_callback]
        exact on_deliver_blk_ok env ih hi hpre.1 hpre.2.1 hpre.2.2
    | all_part ret =>
      have hp : ret < s.next ∧ (s.heap ret).purpose = .all := by cases o <;> exact hpre
      cases o with
      | rejected =>
        simp only [run_callback]
        exact settle_ok ih hi hp.1 trivial
      | fulfilled v =>
        simp only [run_callback]
        exact all_check_ok ih hi hp.1 hp.2
    | receive_proposal prop =>
      cases o with
      | rejected => simp only [run_callback]; exact ⟨hi, Ext.refl _⟩
      | fulfilled v =>
        simp only [run_callback]
        refine ⟨hi.log ?_, Ext.by_log _ _⟩
        exact ⟨by simpa [EntityStorage.is_blk_delivered] using hpre.1,
          by simpa [EntityStorage.is_blk_delivered] using hpre.2⟩
    | receive_vote vote =>
      cases o with
      | rejected => simp only [run_callback]; exact ⟨hi, Ext.refl _⟩
      | fulfilled v =>
        simp only [run_callback]
        exact ⟨hi.log trivial, Ext.by_log _ _⟩
    | send_resp_blk replica =>
      cases o with
      | rejected => simp only [run_callback]; exact ⟨hi, Ext.refl _⟩
      | fulfilled v =>
        cases v with
        | values bs => simp only [run_callback]; exact ⟨hi.log trivial, Ext.by_log _ _⟩
        | null => simp only [run_callback]; exact ⟨hi, Ext.refl _⟩
        | blk b => simp only [run_callback]; exact ⟨hi, Ext.refl _⟩
        | fin f => simp only [run_callback]; exact ⟨hi, Ext.refl _⟩
    | propose cmds =>
      cases o with
      | rejected => simp only [run_callback]; exact ⟨hi, Ext.refl _⟩
      | fulfilled v =>
        simp only [run_callback]
        exact ⟨hi.log trivial, Ext.by_log _ _⟩
    | send_resp_cmd addr =>
      cases o with
      | rejected => simp only [run_callback]; exact ⟨hi, Ext.refl _⟩
      | fulfilled v =>
        cases v with
        | fin f => simp only [run_callback]; exact ⟨hi.log trivial, Ext.by_log _ _⟩
        | null => simp only [run_callback]; exact ⟨hi, Ext.refl _⟩
        | blk b => simp only [run_callback]; exact ⟨hi, Ext.refl _⟩
        | values bs => simp only [run_callback]; exact ⟨hi, Ext.refl _⟩

theorem add_blk_kept (st : EntityStorage) (b : Block) {h : Hash} {c : Block}
    (hc : st.find_blk h = some c) : (st.add_blk b).1.find_blk h = some c := by
  unfold EntityStorage.add_blk
  cases hf : st.find_blk b.hash with
  | some d => exact hc
  | none =>
    simp only [EntityStorage.find_blk] at hc ⊢
    simp [List.find?_append, hc]

theorem add_blk_canonical (st : EntityStorage) (b : Block) :
    (st.add_blk b).1.find_blk (st.add_blk b).2.hash = some (st.add_blk b).2 := by
  unfold EntityStorage.add_blk
  cases hf : st.find_blk b.hash with
  | some d =>
    simp only
    rw [find_blk_hash hf]; exact hf
  | none =>
    simp only [EntityStorage.find_blk] at hf ⊢
    simp [List.find?_append, hf]

theorem add_blk_delivered (st : EntityStorage) (b : Block) :
    (st.add_blk b).1.delivered = st.delivered := by
  unfold EntityStorage.add_blk
  cases st.find_blk b.hash <;> rfl

theorem Inv.add_blk {C : Prop} {s : HotStuffBase} (hi : Inv C s) (b : Block) :
    Inv C { s with storage := (s.storage.add_blk b).1 }
      ∧ Ext s { s with storage := (s.storage.add_blk b).1 } := by
  have hd : ∀ h, h ∈ s.storage.delivered → h ∈ (s.storage.add_blk b).1.delivered := by
    intro h hh; rw [add_blk_delivered]; exact hh
  refine ⟨hi.frame rfl rfl hd (fun _ _ hh => add_blk_kept _ _ hh) ?_ hi.fetch_tbl hi.deliv_tbl
    hi.cmd_tbl hi.beat_tbl hi.trace_ok, Ext.by_frame rfl rfl hd (fun _ _ hh => add_blk_kept _ _ hh)⟩
  intro hC x hx
  have hx' : x ∈ (s.storage.add_blk b).1.delivered := hx
  rw [add_blk_delivered] at hx'
  obtain ⟨c, hc1, hc2⟩ := hi.closed hC x hx'
  refine ⟨c, add_blk_kept _ _ hc1, ?_⟩
  intro ph hph
  show ph ∈ (s.storage.add_blk b).1.delivered
  rw [add_blk_delivered]; exact hc2 ph hph

theorem init_ok {C : Prop} (id : ReplicaID) (blk_size : Nat) (proposer : ReplicaID)
    (st : EntityStorage) (hst : C → ClosedStore st) :
    Inv C (HotStuffBase.init id blk_size proposer st) := by
  refine ⟨?_, ?_, ?_, ?_, ?_, ?_, ?_, ?_, ?_, hst, ?_⟩
  all_goals first
    | (intro p hp; exact absurd hp (Nat.not_lt_zero _))
    | (intro p h hp; exact absurd hp (Nat.not_lt_zero _))
    | (intro p h v hp; exact absurd hp (Nat.not_lt_zero _))
    | (intro e he; simp [HotStuffBase.init] at he)

theorem join_two_ok {C : Prop} (env : Env) (fuel : Nat) {s : HotStuffBase} (hi : Inv C s)
    (h1 h2 : Hash) (peer : NetAddr) (k : Callback)
    (hk : ∀ t p, (t.heap p).purpose = .all →
      (∃ q ∈ (t.heap p).parts, (t.heap q).purpose = .deliver h1) →
      (∃ q ∈ (t.heap p).parts, (t.heap q).purpose = .deliver h2) → Attached t p k) :
    Inv C (promise_then (run_callback env fuel)
        (promise_all (run_callback env fuel)
          [(async_deliver_blk (run_callback env fuel) h1 peer s).2,
           (async_deliver_blk (run_callback env fuel) h2 peer
              (async_deliver_blk (run_callback env fuel) h1 peer s).1).2]
          (async_deliver_blk (run_callback env fuel) h2 peer
              (async_deliver_blk (run_callback env fuel) h1 peer s).1).1).2 k
        (promise_all (run_callback env fuel)
          [(async_deliver_blk (run_callback env fuel) h1 peer s).2,
           (async_deliver_blk (run_callback env fuel) h2 peer
              (async_deliver_blk (run_callback env fuel) h1 peer s).1).2]
          (async_deliver_blk (run_callback env fuel) h2 peer
              (async_deliver_blk (run_callback env fuel) h1 peer s).1).1).1) := by
  have hrun := run_callback_ok (C := C) env fuel
  obtain ⟨d1, e1, l1, p1⟩ := async_deliver_blk_ok hrun hi h1 peer
  obtain ⟨d2, e2, l2, p2⟩ := async_deliver_blk_ok hrun d1 h2 peer
  obtain ⟨a1, a2, a3, a4, a5⟩ := promise_all_ok hrun d2
    (l := [(async_deliver_blk (run_callback env fuel) h1 peer s).2,
      (async_deliver_blk (run_callback env fuel) h2 peer
        (async_deliver_blk (run_callback env fuel) h1 peer s).1).2]) (by
      intro q hq
      simp only [List.mem_cons, List.mem_singleton, List.mem_nil_iff, or_false] at hq
      rcases hq with hq | hq
      · rw [hq]; exact Nat.lt_of_lt_of_le l1 e2.next_le
      · rw [hq]; exact l2)
  refine (promise_then_ok hrun a1 a3 (hk _ _ a4 ?_ ?_)).1
  · refine ⟨_, by rw [a5]; exact List.mem_cons_self _ _, ?_⟩
    rw [a2.purpose_eq _ (Nat.lt_of_lt_of_le l1 e2.next_le), e2.purpose_eq _ l1]
    exact p1
  · refine ⟨_, by rw [a5]; exact List.mem_cons_of_mem _ (List.mem_singleton_self _), ?_⟩
    rw [a2.purpose_eq _ l2]
    exact p2

theorem propose_handler_ok {C : Prop} (env : Env) (fuel : Nat) {s : HotStuffBase}
    (hi : Inv C s) (prop : Proposal) (peer : NetAddr) :
    Inv C (propose_handler env fuel prop peer s) := by
  unfold propose_handler
  simp only
  exact join_two_ok env fuel (hi.add_blk prop.blk).1 _ _ peer _
    (fun t p h1 h2 h3 => ⟨h1, h2, h3⟩)

theorem vote_handler_ok {C : Prop} (env : Env) (fuel : Nat) {s : HotStuffBase}
    (hi : Inv C s) (vote : Vote) (peer : NetAddr) :
    Inv C (vote_handler env fuel vote peer s) := by
  unfold vote_handler
  simp only
  exact join_two_ok env fuel hi _ _ peer _ (fun t p _ _ _ => trivial)

theorem req_blk_handler_ok {C : Prop} (env : Env) (fuel : Nat) {s : HotStuffBase}
    (hi : Inv C s) (blk_hashes : List Hash) (replica : NetAddr) :
    Inv C (req_blk_handler env fuel blk_hashes replica s) := by
  have hrun := run_callback_ok (C := C) env fuel
  unfold req_blk_handler
  simp only
  obtain ⟨c1, c2, c3⟩ := collect_ok (C := C)
    (fun h acc => async_fetch_blk h none acc)
    (fun _ t x => x < t.next)
    (fun a s t x _ he hx => Nat.lt_of_lt_of_le hx he.next_le)
    (fun a s hs => by
      obtain ⟨h1, h2, h3, _⟩ := async_fetch_blk_ok hs a none
      exact ⟨h1, h2, h3⟩)
    blk_hashes s hi
  obtain ⟨a1, a2, a3, a4, a5⟩ := promise_all_ok hrun c1 (l := _) (by
    intro x hx
    obtain ⟨a, _, ha⟩ := (forall₂_mem c3).2 x hx
    exact ha)
  exact (promise_then_ok hrun a1 a3 (k := .send_resp_blk replica) trivial).1

theorem on_fetch_blk_fold_ok {C : Prop} {run : Callback → Outcome → HotStuffBase → HotStuffBase}
    (hrun : RunOK C run) (l : List (Option Block)) : ∀ s : HotStuffBase, Inv C s →
      (∀ b, some b ∈ l → s.storage.find_blk b.hash = some b) →
      Inv C (l.foldl (fun acc blk =>
        match blk with
        | some b => on_fetch_blk run b acc
        | none => acc) s) := by
  induction l with
  | nil => intro s hi _; exact hi
  | cons x rest ih =>
    intro s hi hb
    cases x with
    | none =>
      exact ih s hi (fun b hb' => hb b (List.mem_cons_of_mem _ hb'))
    | some b =>
      obtain ⟨h1, h2⟩ := on_fetch_blk_ok hrun hi (hb b (List.mem_cons_self _ _))
      exact ih _ h1 (fun b' hb' => h2.blk_kept _ _ (hb b' (List.mem_cons_of_mem _ hb')))

theorem resp_blk_handler_ok {C : Prop} (env : Env) (fuel : Nat) {s : HotStuffBase}
    (hi : Inv C s) (payload : List Block) :
    Inv C (resp_blk_handler env fuel payload s) := by
  have hrun := run_callback_ok (C := C) env fuel
  unfold resp_blk_handler MsgRespBlock.postponed_parse
  simp only
  obtain ⟨c1, c2, c3⟩ := collect_ok (C := C)
    (fun _blk (acc : HotStuffBase) =>
      if !env.verify _blk then
        ({ acc with storage := (acc.storage.add_blk _blk).1 },
          some (acc.storage.add_blk _blk).2)
      else
        (acc, none))
    (fun _ t x => ∀ b, x = some b → t.storage.find_blk b.hash = some b)
    (fun a s t x _ he hx b hb => he.blk_kept _ _ (hx b hb))
    (fun a s hs => by
      by_cases hv : env.verify a = true
      · simp only [hv, Bool.not_true, Bool.false_eq_true, if_false]
        exact ⟨hs, Ext.refl _, by simp⟩
      · have hv2 : env.verify a = false := by simpa using hv
        simp only [hv2, Bool.not_false, if_true]
        refine ⟨(hs.add_blk a).1, (hs.add_blk a).2, ?_⟩
        intro b hb
        simp only [Option.some.injEq] at hb
        subst hb
        exact add_blk_canonical _ _)
    payload s hi
  refine on_fetch_blk_fold_ok hrun _ _ c1 ?_
  intro b hb
  obtain ⟨a, _, ha⟩ := (forall₂_mem c3).2 _ hb
  exact ha b rfl

theorem find_cmd_add_blk_cache (st : EntityStorage) (c : Command) :
    (st.add_cmd c).1.blk_cache = st.blk_cache ∧ (st.add_cmd c).1.delivered = st.delivered := by
  unfold EntityStorage.add_cmd
  cases st.find_cmd c.hash <;> exact ⟨rfl, rfl⟩

theorem Inv.add_cmd {C : Prop} {s : HotStuffBase} (hi : Inv C s) (cmd : Command)
    (q : List Command) :
    Inv C { s with storage := (s.storage.add_cmd cmd).1, cmd_pending := q } := by
  have hsto := find_cmd_add_blk_cache s.storage cmd
  have hfb : ∀ h, (s.storage.add_cmd cmd).1.find_blk h = s.storage.find_blk h := by
    intro h; simp only [EntityStorage.find_blk, hsto.1]
  refine hi.frame rfl rfl (fun h hh => by rw [hsto.2]; exact hh)
    (fun h b hb => by rw [hfb]; exact hb) ?_ hi.fetch_tbl hi.deliv_tbl hi.cmd_tbl hi.beat_tbl
    hi.trace_ok
  intro hC x hx
  have hx' : x ∈ (s.storage.add_cmd cmd).1.delivered := hx
  rw [hsto.2] at hx'
  obtain ⟨c, hc1, hc2⟩ := hi.closed hC x hx'
  refine ⟨c, by rw [hfb]; exact hc1, ?_⟩
  intro ph hph
  show ph ∈ (s.storage.add_cmd cmd).1.delivered
  rw [hsto.2]; exact hc2 ph hph

theorem Inv.new_beat {C : Prop} {s : HotStuffBase} (hi : Inv C s) (cmds : List Command) :
    Inv C { (s.new_promise (Promise.mk .pending [.propose cmds] [] .other)).1 with
      beat_waiting := (s.new_promise (Promise.mk .pending [.propose cmds] [] .other)).1.beat_waiting
        ++ [(s.new_promise (Promise.mk .pending [.propose cmds] [] .other)).2] } := by
  have hi3 := hi.new_promise (Promise.mk .pending [.propose cmds] [] .other)
    (by simp) (by intro x hx; cases hx) (by intro x v hx; cases hx)
    (by intro hx; cases hx) (by simp)
  have hc := new_promise_heap_new s (Promise.mk .pending [.propose cmds] [] .other)
  refine hi3.frame rfl rfl (fun _ hh => hh) (fun _ _ hh => hh) hi3.closed hi3.fetch_tbl
      hi3.deliv_tbl hi3.cmd_tbl ?_ hi3.trace_ok
  intro p hp
  simp only [List.mem_append, List.mem_singleton] at hp
  rcases hp with hp | hp
  · exact hi3.beat_tbl p hp
  · subst hp
    exact ⟨Nat.lt_succ_self _, by rw [hc]⟩

theorem Inv.new_decision {C : Prop} {s : HotStuffBase} (hi : Inv C s) (h : Hash) :
    Inv C (match table_find s.decision_waiting h with
      | some pm => (s, pm)
      | none =>
        ({ (s.new_promise (Promise.mk .pending [] [] .other)).1 with
            decision_waiting :=
              (s.new_promise (Promise.mk .pending [] [] .other)).1.decision_waiting
                ++ [(h, (s.new_promise (Promise.mk .pending [] [] .other)).2)] },
         (s.new_promise (Promise.mk .pending [] [] .other)).2)).1 := by
  split
  · exact hi
  · have hi3 := hi.new_promise (Promise.mk .pending [] [] .other)
      (by simp) (by intro x hx; cases hx) (by intro x v hx; cases hx)
      (by intro hx; cases hx) (by simp)
    exact hi3.frame rfl rfl (fun _ hh => hh) (fun _ _ hh => hh) hi3.closed hi3.fetch_tbl
      hi3.deliv_tbl hi3.cmd_tbl hi3.beat_tbl hi3.trace_ok

theorem exec_command_ok {C : Prop} {s : HotStuffBase} (hi : Inv C s) (cmd : Command) :
    Inv C (exec_command cmd s).1 := by
  unfold exec_command
  simp only
  split
  · exact hi.new_promise _ (by simp) (by intro x hx; cases hx) (by intro x v hx; cases hx)
      (by intro hx; cases hx) (by simp)
  · apply Inv.new_decision
    split
    · exact (hi.add_cmd cmd _).new_beat _
    · exact hi.add_cmd cmd _

theorem beat_fire_ok {C : Prop} (env : Env) (fuel : Nat) {s : HotStuffBase} (hi : Inv C s) :
    Inv C (beat_fire env fuel s) := by
  have hrun := run_callback_ok (C := C) env fuel
  unfold beat_fire
  cases hb : s.beat_waiting with
  | nil => exact hi
  | cons pm rest =>
    simp only
    have hpm := hi.beat_tbl pm (by rw [hb]; exact List.mem_cons_self _ _)
    have hi1 : Inv C { s with beat_waiting := rest } :=
      hi.frame rfl rfl (fun _ hh => hh) (fun _ _ hh => hh) hi.closed hi.fetch_tbl hi.deliv_tbl
        hi.cmd_tbl (fun p hp => hi.beat_tbl p (by rw [hb]; exact List.mem_cons_of_mem _ hp))
        hi.trace_ok
    refine (settle_ok hrun hi1 hpm.1 (o := .fulfilled .null) ⟨?_, ?_, ?_⟩).1
    · intro x hx
      have : (s.heap pm).purpose = .deliver x := hx
      rw [hpm.2] at this; cases this
    · intro x hx
      have : (s.heap pm).purpose = .fetch x := hx
      rw [hpm.2] at this; cases this
    · intro hx
      have : (s.heap pm).purpose = .all := hx
      rw [hpm.2] at this; cases this

theorem step_ok {C : Prop} (env : Env) (fuel : Nat) {s : HotStuffBase} (hi : Inv C s)
    (i : Input) : Inv C (step env fuel s i) := by
  cases i with
  | propose prop peer => exact propose_handler_ok env fuel hi prop peer
  | vote vote peer => exact vote_handler_ok env fuel hi vote peer
  | req_blk hs r => exact req_blk_handler_ok env fuel hi hs r
  | resp_blk payload => exact resp_blk_handler_ok env fuel hi payload
  | deliver h r => exact (async_deliver_blk_ok (run_callback_ok env fuel) hi h r).1
  | command cmd => exact exec_command_ok hi cmd
  | beat => exact beat_fire_ok env fuel hi
  | set_proposer p =>
    exact hi.frame rfl rfl (fun _ hh => hh) (fun _ _ hh => hh) hi.closed hi.fetch_tbl
      hi.deliv_tbl hi.cmd_tbl hi.beat_tbl hi.trace_ok

theorem run_inputs_ok {C : Prop} (env : Env) (fuel : Nat) (inputs : List Input) :
    ∀ s : HotStuffBase, Inv C s → Inv C (run_inputs env fuel s inputs) := by
  induction inputs with
  | nil => intro s hi; exact hi
  | cons i rest ih => intro s hi; exact ih _ (step_ok env fuel hi i)

/-! ## Ordering guarantees of the engine -/

theorem genesis_store_closed : ClosedStore genesis_store := by
  intro h hh
  have h0 : h = 0 := by simpa [genesis_store] using hh
  subst h0
  exact ⟨genesis, rfl, by simp [genesis]⟩

theorem ancestor_delivered {st : EntityStorage} (hcl : ClosedStore st) {h : Hash} {b : Block}
    (ha : Ancestor st h b) :
    (∀ ph ∈ b.parent_hashes, ph ∈ st.delivered) → h ∈ st.delivered := by
  induction ha with
  | parent hp => intro hpar; exact hpar _ hp
  | step hp hf _ ih =>
    intro hpar
    obtain ⟨c, hc1, hc2⟩ := hcl _ (hpar _ hp)
    rw [hf] at hc1
    cases hc1
    exact ih hc2

/-- C1: in every run of the event loop from a freshly constructed replica
(any store, any inputs, any verdicts of the core, any bound on callback
nesting), each call of `on_deliver_blk(B)` finds `is_blk_delivered(h)` true for
every parent hash `h` of `B`: the assertion of lines 135-136 never fails. -/
theorem on_deliver_blk_parents_delivered (env : Env) (fuel : Nat) (id : ReplicaID)
    (blk_size : Nat) (proposer : ReplicaID) (st : EntityStorage) (inputs : List Input)
    (blk : Block) (store : EntityStorage)
    (hev : Event.on_deliver_blk blk store
      ∈ (run_inputs env fuel (HotStuffBase.init id blk_size proposer st) inputs).trace) :
    ∀ h ∈ blk.parent_hashes, store.is_blk_delivered h = true := by
  have hi := run_inputs_ok (C := False) env fuel inputs _
    (init_ok id blk_size proposer st (fun hf => hf.elim))
  exact (hi.trace_ok _ hev).2.1

/-- Witness of C1: the follower receives a proposal for a block on top of
genesis; `on_deliver_blk` is called for it and its parent is delivered. -/
theorem on_deliver_blk_parents_delivered_witness :
    Event.on_deliver_blk sample_blk1
        { blk_cache := [genesis, sample_blk1], delivered := [0], cmd_cache := [] }
        ∈ (run_inputs sample_env 2 (HotStuffBase.init 2 2 0 genesis_store)
            [.propose ⟨0, 0, sample_blk1⟩ 7]).trace
      ∧ ∀ h ∈ sample_blk1.parent_hashes,
          EntityStorage.is_blk_delivered
            { blk_cache := [genesis, sample_blk1], delivered := [0], cmd_cache := [] } h = true :=
  ⟨by decide,
   on_deliver_blk_parents_delivered sample_env 2 2 2 0 genesis_store
     [.propose ⟨0, 0, sample_blk1⟩ 7] sample_blk1 _ (by decide)⟩

/-- C3: in every run of the event loop, `on_receive_proposal(P)` is called
only with both `bqc_hash` and `H(B)` delivered.  The continuation that calls
it waits on a joint promise over the delivery promises of both hashes; a joint
promise is resolved only when all its parts are, and a delivery promise is
resolved only when its block is delivered, so a delivery that is rejected or
stays pending keeps `on_receive_proposal(P)` from being called. -/
theorem on_receive_proposal_after_delivery (env : Env) (fuel : Nat) (id : ReplicaID)
    (blk_size : Nat) (proposer : ReplicaID) (st : EntityStorage) (inputs : List Input) :
    (∀ prop store, Event.on_receive_proposal prop store
        ∈ (run_inputs env fuel (HotStuffBase.init id blk_size proposer st) inputs).trace →
        store.is_blk_delivered prop.bqc_hash = true
          ∧ store.is_blk_delivered prop.blk.hash = true)
      ∧ (∀ p prop, p < (run_inputs env fuel (HotStuffBase.init id blk_size proposer st) inputs).next →
        Callback.receive_proposal prop
          ∈ ((run_inputs env fuel (HotStuffBase.init id blk_size proposer st) inputs).heap p).callbacks →
        ((run_inputs env fuel (HotStuffBase.init id blk_size proposer st) inputs).heap p).purpose = .all
          ∧ (∃ q ∈ ((run_inputs env fuel (HotStuffBase.init id blk_size proposer st)
                inputs).heap p).parts,
              ((run_inputs env fuel (HotStuffBase.init id blk_size proposer st)
                inputs).heap q).purpose = .deliver prop.bqc_hash)
          ∧ (∃ q ∈ ((run_inputs env fuel (HotStuffBase.init id blk_size proposer st)
                inputs).heap p).parts,
              ((run_inputs env fuel (HotStuffBase.init id blk_size proposer st)
                inputs).heap q).purpose = .deliver prop.blk.hash))
      ∧ (∀ p, p < (run_inputs env fuel (HotStuffBase.init id blk_size proposer st) inputs).next →
        ((run_inputs env fuel (HotStuffBase.init id blk_size proposer st) inputs).heap p).purpose = .all →
        is_resolved (run_inputs env fuel (HotStuffBase.init id blk_size proposer st) inputs) p = true →
        ∀ q ∈ ((run_inputs env fuel (HotStuffBase.init id blk_size proposer st) inputs).heap p).parts,
          is_resolved (run_inputs env fuel (HotStuffBase.init id blk_size proposer st) inputs) q
            = true)
      ∧ (∀ p h, p < (run_inputs env fuel (HotStuffBase.init id blk_size proposer st) inputs).next →
        ((run_inputs env fuel (HotStuffBase.init id blk_size proposer st) inputs).heap p).purpose
          = .deliver h →
        is_resolved (run_inputs env fuel (HotStuffBase.init id blk_size proposer st) inputs) p = true →
        (run_inputs env fuel (HotStuffBase.init id blk_size proposer st)
          inputs).storage.is_blk_delivered h = true) := by
  have hi := run_inputs_ok (C := False) env fuel inputs _
    (init_ok id blk_size proposer st (fun hf => hf.elim))
  refine ⟨fun prop store hev => hi.trace_ok _ hev, ?_, hi.all_ok, ?_⟩
  · intro p prop hp hk
    exact hi.attached p hp _ hk
  · intro p h hp hpu hr
    simpa [EntityStorage.is_blk_delivered] using hi.deliver_ok p h hp hpu hr

/-- Witness of C3: the follower receives a proposal for a block on top of
genesis; `on_receive_proposal` is called once both blocks are delivered. -/
theorem on_receive_proposal_after_delivery_witness :
    Event.on_receive_proposal ⟨0, 0, sample_blk1⟩
        { blk_cache := [genesis, sample_blk1], delivered := [1, 0], cmd_cache := [] }
        ∈ (run_inputs sample_env 2 (HotStuffBase.init 2 2 0 genesis_store)
            [.propose ⟨0, 0, sample_blk1⟩ 7]).trace
      ∧ EntityStorage.is_blk_delivered
          { blk_cache := [genesis, sample_blk1], delivered := [1, 0], cmd_cache := [] } 1 = true :=
  ⟨by decide,
   ((on_receive_proposal_after_delivery sample_env 2 2 2 0 genesis_store
     [.propose ⟨0, 0, sample_blk1⟩ 7]).1 ⟨0, 0, sample_blk1⟩ _ (by decide)).2⟩

/-- Counterexample to C8: the follower receives a proposal for block 5, whose
parent is unknown, and then a proposal for block 6, whose QC refers to block 5.
`on_deliver_blk` is called for block 6 while block 5 is fetched but not
delivered, and `on_deliver_blk` is never called for block 5. -/
theorem on_deliver_blk_qc_referent_not_delivered :
    (run_inputs sample_env 3 (HotStuffBase.init 2 2 0 genesis_store)
        [.propose ⟨0, 0, sample_blk5⟩ 7, .propose ⟨0, 0, sample_blk6⟩ 7]).trace
      = [.async_fetch_blk 5 (some 7), .async_fetch_blk 9 (some 7),
         .async_fetch_blk 6 (some 7), .async_fetch_blk 5 (some 7),
         .on_deliver_blk sample_blk6
           { blk_cache := [genesis, sample_blk5, sample_blk6], delivered := [0], cmd_cache := [] },
         .on_receive_proposal ⟨0, 0, sample_blk6⟩
           { blk_cache := [genesis, sample_blk5, sample_blk6], delivered := [6, 0],
             cmd_cache := [] }]
      ∧ sample_blk6.qc = some 5
      ∧ EntityStorage.is_blk_fetched
          { blk_cache := [genesis, sample_blk5, sample_blk6], delivered := [0], cmd_cache := [] } 5
        = true
      ∧ EntityStorage.is_blk_delivered
          { blk_cache := [genesis, sample_blk5, sample_blk6], delivered := [0], cmd_cache := [] } 5
        = false := by
  decide

/-- C8 as amended: in every run of the event loop from a replica whose store
is closed (every delivered block is stored and its parents are delivered),
each call of `on_deliver_blk(B)` finds the block referenced by the QC of `B`
fetched (in the store; it need not be delivered) and every ancestor of `B`
delivered. -/
theorem on_deliver_blk_qc_fetched_ancestors_delivered (env : Env) (fuel : Nat) (id : ReplicaID)
    (blk_size : Nat) (proposer : ReplicaID) (st : EntityStorage) (inputs : List Input)
    (hst : ClosedStore st) (blk : Block) (store : EntityStorage)
    (hev : Event.on_deliver_blk blk store
      ∈ (run_inputs env fuel (HotStuffBase.init id blk_size proposer st) inputs).trace) :
    (∀ h, blk.qc = some h → store.is_blk_fetched h = true)
      ∧ (∀ h, Ancestor store h blk → store.is_blk_delivered h = true) := by
  have hi := run_inputs_ok (C := True) env fuel inputs _
    (init_ok id blk_size proposer st (fun _ => hst))
  obtain ⟨_, h2, h3, h4⟩ := hi.trace_ok _ hev
  refine ⟨h3, ?_⟩
  intro h ha
  have := ancestor_delivered (h4 trivial) ha
    (fun ph hph => by simpa [EntityStorage.is_blk_delivered] using h2 ph hph)
  simpa [EntityStorage.is_blk_delivered] using this

/-- Witness of C8 as amended: in the run of the counterexample the genesis
store is closed, `on_deliver_blk` is called for block 6, and its QC referent
(block 5) is fetched. -/
theorem on_deliver_blk_qc_fetched_ancestors_delivered_witness :
    ClosedStore genesis_store
      ∧ Event.on_deliver_blk sample_blk6
          { blk_cache := [genesis, sample_blk5, sample_blk6], delivered := [0], cmd_cache := [] }
        ∈ (run_inputs sample_env 3 (HotStuffBase.init 2 2 0 genesis_store)
            [.propose ⟨0, 0, sample_blk5⟩ 7, .propose ⟨0, 0, sample_blk6⟩ 7]).trace
      ∧ EntityStorage.is_blk_fetched
          { blk_cache := [genesis, sample_blk5, sample_blk6], delivered := [0], cmd_cache := [] } 5
        = true :=
  ⟨genesis_store_closed, by decide,
   (on_deliver_blk_qc_fetched_ancestors_delivered sample_env 3 2 2 0 genesis_store
     [.propose ⟨0, 0, sample_blk5⟩ 7, .propose ⟨0, 0, sample_blk6⟩ 7] genesis_store_closed
     sample_blk6 _ (by decide)).1 5 rfl⟩

/-! ## Block requests -/

theorem async_fetch_blk_found (h : Hash) (rid : Option NetAddr) (s : HotStuffBase) (b : Block)
    (hb : s.storage.find_blk h = some b) :
    async_fetch_blk h rid s
      = ((s.log (.async_fetch_blk h rid)).new_promise (Promise.mk (.resolved (.blk b)) [] []
          (.fetch h))) := by
  have : (s.log (.async_fetch_blk h rid)).storage.find_blk h = some b := hb
  simp only [async_fetch_blk, this]

theorem part_values_congr (s t : HotStuffBase) (l : List PId)
    (h : ∀ q ∈ l, t.heap q = s.heap q) : part_values t l = part_values s l := by
  unfold part_values
  induction l with
  | nil => rfl
  | cons q rest ih =>
    have hq := h q (List.mem_cons_self _ _)
    have hr := ih (fun x hx => h x (List.mem_cons_of_mem _ hx))
    simp only [List.filterMap_cons, hq, hr]

theorem is_resolved_congr (s t : HotStuffBase) (q : PId) (h : t.heap q = s.heap q) :
    is_resolved t q = is_resolved s q := by
  simp only [is_resolved, h]

/-- When every requested hash is stored, the loop of lines 271-272 makes one
resolved promise per hash and changes neither store nor tables. -/
theorem collect_fetch_found (hashes : List Hash) : ∀ s : HotStuffBase,
    (∀ h ∈ hashes, s.storage.is_blk_fetched h = true) →
    (collect (fun h acc => async_fetch_blk h none acc) hashes s).1.trace
        = s.trace ++ hashes.map (fun h => Event.async_fetch_blk h none)
      ∧ (collect (fun h acc => async_fetch_blk h none acc) hashes s).1.storage = s.storage
      ∧ (collect (fun h acc => async_fetch_blk h none acc) hashes s).1.blk_fetch_waiting
        = s.blk_fetch_waiting
      ∧ (collect (fun h acc => async_fetch_blk h none acc) hashes s).1.blk_delivery_waiting
        = s.blk_delivery_waiting
      ∧ s.next ≤ (collect (fun h acc => async_fetch_blk h none acc) hashes s).1.next
      ∧ (∀ p, p < s.next →
          (collect (fun h acc => async_fetch_blk h none acc) hashes s).1.heap p = s.heap p)
      ∧ (∀ q ∈ (collect (fun h acc => async_fetch_blk h none acc) hashes s).2,
          q < (collect (fun h acc => async_fetch_blk h none acc) hashes s).1.next
            ∧ is_resolved (collect (fun h acc => async_fetch_blk h none acc) hashes s).1 q = true)
      ∧ part_values (collect (fun h acc => async_fetch_blk h none acc) hashes s).1
          (collect (fun h acc => async_fetch_blk h none acc) hashes s).2
        = hashes.filterMap s.storage.find_blk := by
  induction hashes with
  | nil => intro s _; simp [collect, part_values]
  | cons h rest ih =>
    intro s hall
    have hh := hall h (List.mem_cons_self _ _)
    obtain ⟨b, hb⟩ := Option.isSome_iff_exists.1 hh
    have hstep := async_fetch_blk_found h none s b hb
    have hsto1 : (async_fetch_blk h none s).1.storage = s.storage := by rw [hstep]; rfl
    have hnext1 : (async_fetch_blk h none s).1.next = s.next + 1 := by rw [hstep]; rfl
    have hsnd : (async_fetch_blk h none s).2 = s.next := by rw [hstep]; rfl
    have hcell : (async_fetch_blk h none s).1.heap s.next
        = Promise.mk (.resolved (.blk b)) [] [] (.fetch h) := by
      rw [hstep]
      exact new_promise_heap_new (s.log (.async_fetch_blk h none)) _
    have hold : ∀ p, p < s.next → (async_fetch_blk h none s).1.heap p = s.heap p := by
      intro p hp
      rw [hstep]
      exact new_promise_heap_old _ _ hp
    obtain ⟨i1, i2, i3, i4, i5, i6, i7, i8⟩ := ih (async_fetch_blk h none s).1 (by
      intro x hx
      rw [hsto1]
      exact hall x (List.mem_cons_of_mem _ hx))
    have hlt : s.next < (async_fetch_blk h none s).1.next := by
      rw [hnext1]; exact Nat.lt_succ_self _
    have hfin : (collect (fun h acc => async_fetch_blk h none acc) rest
        (async_fetch_blk h none s).1).1.heap s.next
        = Promise.mk (.resolved (.blk b)) [] [] (.fetch h) := by
      rw [i6 _ hlt, hcell]
    simp only [collect]
    refine ⟨?_, ?_, ?_, ?_, ?_, ?_, ?_, ?_⟩
    · rw [i1, hstep]
      simp [HotStuffBase.new_promise, HotStuffBase.log]
    · rw [i2, hsto1]
    · rw [i3, hstep]; rfl
    · rw [i4, hstep]; rfl
    · exact Nat.le_trans (Nat.le_of_lt hlt) i5
    · intro p hp
      rw [i6 p (Nat.lt_trans hp hlt)]
      exact hold p hp
    · intro q hq
      rcases List.mem_cons.1 hq with hq | hq
      · rw [hq, hsnd]
        refine ⟨Nat.lt_of_lt_of_le hlt i5, ?_⟩
        simp [is_resolved, hfin]
      · exact i7 q hq
    · rw [hsnd]
      have : part_values (collect (fun h acc => async_fetch_blk h none acc) rest
          (async_fetch_blk h none s).1).1
          (s.next :: (collect (fun h acc => async_fetch_blk h none acc) rest
            (async_fetch_blk h none s).1).2)
          = b :: part_values (collect (fun h acc => async_fetch_blk h none acc) rest
              (async_fetch_blk h none s).1).1
              (collect (fun h acc => async_fetch_blk h none acc) rest
                (async_fetch_blk h none s).1).2 := by
        simp [part_values, hfin]
      rw [this, i8, hsto1]
      simp [List.filterMap_cons, hb]

theorem all_check_fire (run : Callback → Outcome → HotStuffBase → HotStuffBase) (ret : PId)
    (s : HotStuffBase) (hparts : (s.heap ret).parts.all (is_resolved s) = true)
    (hpend : (s.heap ret).state = .pending) (hcb : (s.heap ret).callbacks = []) :
    all_check run ret s
      = s.set_promise ret { s.heap ret with
          state := .resolved (.values (part_values s (s.heap ret).parts)), callbacks := [] } := by
  simp only [all_check, hparts, if_true, settle, hpend, hcb, List.foldl_nil, Outcome.to_state]

theorem all_check_done (run : Callback → Outcome → HotStuffBase → HotStuffBase) (ret : PId)
    (s : HotStuffBase) (v : Value) (h : (s.heap ret).state = .resolved v) :
    all_check run ret s = s := by
  unfold all_check
  split
  · simp only [settle, h]
  · rfl

theorem run_all_part_fulfilled (env : Env) (n : Nat) (ret : PId) (v : Value)
    (s : HotStuffBase) :
    run_callback env (n + 1) (.all_part ret) (.fulfilled v) s
      = all_check (run_callback env n) ret s := by
  simp only [run_callback]

/-- When all parts are resolved already, `promise::all` returns a promise
that is resolved with their values, and nothing else changes. -/
theorem promise_all_resolved (env : Env) (n : Nat) (l : List PId) (s : HotStuffBase)
    (hl : ∀ q ∈ l, q < s.next ∧ is_resolved s q = true) :
    promise_all (run_callback env (n + 1)) l s
      = (((s.new_promise (Promise.mk .pending [] l .all)).1.set_promise s.next
            (Promise.mk (.resolved (.values (part_values s l))) [] l .all)), s.next) := by
  have hold : ∀ q ∈ l, (s.new_promise (Promise.mk .pending [] l .all)).1.heap q = s.heap q :=
    fun q hq => new_promise_heap_old _ _ (hl q hq).1
  have hcell : (s.new_promise (Promise.mk .pending [] l .all)).1.heap s.next
      = Promise.mk .pending [] l .all := new_promise_heap_new s _
  have hpv : part_values (s.new_promise (Promise.mk .pending [] l .all)).1 l = part_values s l :=
    part_values_congr _ _ _ hold
  have hres1 : l.all (is_resolved (s.new_promise (Promise.mk .pending [] l .all)).1) = true := by
    rw [List.all_eq_true]
    intro q hq
    rw [is_resolved_congr _ _ _ (hold q hq)]
    exact (hl q hq).2
  -- the state once the joint promise has resolved
  have hfire : ∀ run, all_check run s.next (s.new_promise (Promise.mk .pending [] l .all)).1
      = (s.new_promise (Promise.mk .pending [] l .all)).1.set_promise s.next
          (Promise.mk (.resolved (.values (part_values s l))) [] l .all) := by
    intro run
    rw [all_check_fire run s.next _ (by rw [hcell]; exact hres1) (by rw [hcell])
      (by rw [hcell])]
    rw [hcell, hpv]
  have hcell2 : ((s.new_promise (Promise.mk .pending [] l .all)).1.set_promise s.next
      (Promise.mk (.resolved (.values (part_values s l))) [] l .all)).heap s.next
      = Promise.mk (.resolved (.values (part_values s l))) [] l .all :=
    set_promise_heap_self _ _ _
  have hdone : ∀ run, all_check run s.next
      ((s.new_promise (Promise.mk .pending [] l .all)).1.set_promise s.next
        (Promise.mk (.resolved (.values (part_values s l))) [] l .all))
      = (s.new_promise (Promise.mk .pending [] l .all)).1.set_promise s.next
        (Promise.mk (.resolved (.values (part_values s l))) [] l .all) :=
    fun run => all_check_done run s.next _ _ (by rw [hcell2])
  have hstep1 : ∀ q ∈ l, promise_then (run_callback env (n + 1)) q (.all_part s.next)
      (s.new_promise (Promise.mk .pending [] l .all)).1
      = (s.new_promise (Promise.mk .pending [] l .all)).1.set_promise s.next
        (Promise.mk (.resolved (.values (part_values s l))) [] l .all) := by
    intro q hq
    obtain ⟨v, hv⟩ := (is_resolved_iff s q).1 (hl q hq).2
    have : ((s.new_promise (Promise.mk .pending [] l .all)).1.heap q).state = .resolved v := by
      rw [hold q hq]; exact hv
    simp only [promise_then, this, run_all_part_fulfilled]
    exact hfire _
  have hstep2 : ∀ q ∈ l, promise_then (run_callback env (n + 1)) q (.all_part s.next)
      ((s.new_promise (Promise.mk .pending [] l .all)).1.set_promise s.next
        (Promise.mk (.resolved (.values (part_values s l))) [] l .all))
      = (s.new_promise (Promise.mk .pending [] l .all)).1.set_promise s.next
        (Promise.mk (.resolved (.values (part_values s l))) [] l .all) := by
    intro q hq
    obtain ⟨v, hv⟩ := (is_resolved_iff s q).1 (hl q hq).2
    have hne : q ≠ s.next := Nat.ne_of_lt (hl q hq).1
    have : (((s.new_promise (Promise.mk .pending [] l .all)).1.set_promise s.next
        (Promise.mk (.resolved (.values (part_values s l))) [] l .all)).heap q).state
        = .resolved v := by
      rw [set_promise_heap_other _ _ _ hne, hold q hq]; exact hv
    simp only [promise_then, this, run_all_part_fulfilled]
    exact hdone _
  have hfold2 : ∀ m : List PId, (∀ q ∈ m, q ∈ l) →
      m.foldl (fun a pm => promise_then (run_callback env (n + 1)) pm (.all_part s.next) a)
        ((s.new_promise (Promise.mk .pending [] l .all)).1.set_promise s.next
          (Promise.mk (.resolved (.values (part_values s l))) [] l .all))
      = (s.new_promise (Promise.mk .pending [] l .all)).1.set_promise s.next
          (Promise.mk (.resolved (.values (part_values s l))) [] l .all) := by
    intro m
    induction m with
    | nil => intro _; rfl
    | cons q rest ih =>
      intro hm
      rw [List.foldl_cons, hstep2 q (hm q (List.mem_cons_self _ _))]
      exact ih (fun x hx => hm x (List.mem_cons_of_mem _ hx))
  simp only [promise_all, new_promise_snd]
  refine Prod.ext ?_ rfl
  simp only
  cases hl' : l with
  | nil =>
    subst hl'
    rw [List.foldl_nil]
    exact hfire _
  | cons q rest =>
    rw [← hl']
    have hq : q ∈ l := by rw [hl']; exact List.mem_cons_self _ _
    have : l.foldl (fun a pm => promise_then (run_callback env (n + 1)) pm (.all_part s.next) a)
        (s.new_promise (Promise.mk .pending [] l .all)).1
        = (s.new_promise (Promise.mk .pending [] l .all)).1.set_promise s.next
          (Promise.mk (.resolved (.values (part_values s l))) [] l .all) := by
      conv_lhs => rw [hl', List.foldl_cons, ← hl']
      rw [hstep1 q hq]
      exact hfold2 rest (fun x hx => by rw [hl']; exact List.mem_cons_of_mem _ hx)
    rw [this]
    exact hdone _

theorem table_find_append_old {α : Type} (t : List (Hash × α)) (e : Hash × α) (h : Hash) (x : α)
    (hx : table_find t h = some x) : table_find (t ++ [e]) h = some x := by
  simp only [table_find, Option.map_eq_some'] at hx ⊢
  obtain ⟨a, ha, hax⟩ := hx
  exact ⟨a, by simp [List.find?_append, ha], hax⟩

theorem run_all_part (env : Env) (fuel : Nat) (ret : PId) (o : Outcome) (s : HotStuffBase) :
    run_callback env fuel (.all_part ret) o s = s
      ∨ (∃ n v, o = .fulfilled v
          ∧ run_callback env fuel (.all_part ret) o s = all_check (run_callback env n) ret s)
      ∨ (∃ n, o = .rejected
          ∧ run_callback env fuel (.all_part ret) o s
            = settle (run_callback env n) ret .rejected s) := by
  cases fuel with
  | zero => exact Or.inl (run_callback_zero _ _ _ _)
  | succ n =>
    cases o with
    | fulfilled v => exact Or.inr (Or.inl ⟨n, v, rfl, by simp only [run_callback]⟩)
    | rejected => exact Or.inr (Or.inr ⟨n, rfl, by simp only [run_callback]⟩)

theorem filterMap_find_blk_hash (st : EntityStorage) (hashes : List Hash)
    (hall : ∀ h ∈ hashes, st.is_blk_fetched h = true) :
    (hashes.filterMap st.find_blk).map Block.hash = hashes := by
  induction hashes with
  | nil => rfl
  | cons h rest ih =>
    obtain ⟨b, hb⟩ := Option.isSome_iff_exists.1 (hall h (List.mem_cons_self _ _))
    simp only [List.filterMap_cons, hb, List.map_cons, find_blk_hash hb,
      ih (fun x hx => hall x (List.mem_cons_of_mem _ hx))]

theorem run_send_resp_blk (env : Env) (n : Nat) (r : NetAddr) (bs : List Block)
    (s : HotStuffBase) :
    run_callback env (n + 1) (.send_resp_blk r) (.fulfilled (.values bs)) s
      = s.log (.send_resp_blk bs r) := by
  simp only [run_callback]

/-- Counterexample to C7: the sample replica stores genesis only and is asked
for the hashes 0 and 1.  The handler sends no reply and creates a fetch
context for hash 1; the reply is sent when block 1 arrives, and it carries
both blocks. -/
theorem req_blk_handler_waits_for_unknown :
    (req_blk_handler reject1_env 3 [0, 1] 7 sample_proposer).trace
        = [.async_fetch_blk 0 none, .async_fetch_blk 1 none]
      ∧ (req_blk_handler reject1_env 3 [0, 1] 7 sample_proposer).blk_fetch_waiting
        = [(1, { pm := 1, replica_ids := [] })]
      ∧ sample_proposer.blk_fetch_waiting = []
      ∧ (resp_blk_handler reject1_env 3 [sample_blk1]
          (req_blk_handler reject1_env 3 [0, 1] 7 sample_proposer)).trace
        = [.async_fetch_blk 0 none, .async_fetch_blk 1 none,
           .send_resp_blk [genesis, sample_blk1] 7] := by
  decide

/-! ## At most one delivery per context -/

theorem all_toks_congr {s t : HotStuffBase} (hheap : t.heap = s.heap) (hnext : t.next = s.next) :
    all_toks t = all_toks s := by
  simp only [all_toks, hheap, hnext]

theorem all_toks_new (s : HotStuffBase) (c : Promise) :
    all_toks (s.new_promise c).1 = all_toks s ++ cell_toks c := by
  have h1 : (List.range s.next).flatMap (fun p => cell_toks ((s.new_promise c).1.heap p))
      = (List.range s.next).flatMap (fun p => cell_toks (s.heap p)) := by
    apply List.flatMap_congr
    intro p hp
    rw [new_promise_heap_old s c (List.mem_range.1 hp)]
  have h2 := new_promise_heap_new s c
  rw [new_promise_snd] at h2
  simp only [all_toks, new_promise_next, List.range_succ, List.flatMap_append, List.flatMap_cons,
    List.flatMap_nil, List.append_nil, h1, h2]

theorem rest_toks_set (s : HotStuffBase) (p : PId) (c : Promise) :
    ((List.range s.next).erase p).flatMap (fun q => cell_toks ((s.set_promise p c).heap q))
      = ((List.range s.next).erase p).flatMap (fun q => cell_toks (s.heap q)) := by
  apply List.flatMap_congr
  intro q hq
  have hne : q ≠ p := by
    intro h
    subst h
    exact (List.Nodup.not_mem_erase (List.nodup_range s.next)) hq
  rw [set_promise_heap_other s p c hne]

theorem all_toks_perm (s : HotStuffBase) (p : PId) (hp : p < s.next) :
    (all_toks s).Perm (cell_toks (s.heap p)
      ++ ((List.range s.next).erase p).flatMap (fun q => cell_toks (s.heap q))) := by
  have h1 := List.perm_cons_erase (List.mem_range.2 hp)
  have h2 := List.Perm.flatMap_right (fun q => cell_toks (s.heap q)) h1
  simpa [all_toks] using h2

theorem all_toks_set_perm (s : HotStuffBase) (p : PId) (c : Promise) (hp : p < s.next) :
    (all_toks (s.set_promise p c)).Perm (cell_toks c
      ++ ((List.range s.next).erase p).flatMap (fun q => cell_toks (s.heap q))) := by
  have h := all_toks_perm (s.set_promise p c) p hp
  rw [set_promise_heap_self] at h
  have h2 := rest_toks_set s p c
  have hn : (s.set_promise p c).next = s.next := rfl
  rw [hn] at h
  rw [h2] at h
  exact h

/-- Replacing the callbacks of a promise: the tokens change by those of the
cell. -/
theorem all_toks_set_append (s : HotStuffBase) (p : PId) (c : Promise) (hp : p < s.next)
    (L : List Hash) (hc : (cell_toks c ++ L).Perm (cell_toks (s.heap p))) :
    (all_toks (s.set_promise p c) ++ L).Perm (all_toks s) := by
  have h1 := all_toks_set_perm s p c hp
  have h2 := all_toks_perm s p hp
  refine List.Perm.trans ?_ h2.symm
  refine List.Perm.trans (List.Perm.append_right L h1) ?_
  rw [List.append_assoc]
  refine List.Perm.trans (List.Perm.append_left _ List.perm_append_comm) ?_
  rw [← List.append_assoc]
  exact List.Perm.append_right _ hc

theorem InvU.perm {env : Env} {s : HotStuffBase} {H K : List Hash} (hu : InvU env H s)
    (hp : K.Perm H) : InvU env K s := by
  have hp2 : (all_toks s ++ K).Perm (all_toks s ++ H) := List.Perm.append_left _ hp
  exact ⟨(hp2.nodup_iff).2 hu.nodup, fun h hh => hu.live h ((hp2.mem_iff).1 hh), hu.trace_fresh,
    hu.trace_valid, hu.trace_once⟩

theorem InvU.drop {env : Env} {s : HotStuffBase} {H : List Hash} (L : List Hash)
    (hu : InvU env (L ++ H) s) : InvU env H s := by
  have hsub : (all_toks s ++ H).Sublist (all_toks s ++ (L ++ H)) :=
    List.Sublist.append_left (List.sublist_append_right L H) _
  exact ⟨hu.nodup.sublist hsub, fun h hh => hu.live h (hsub.subset hh), hu.trace_fresh,
    hu.trace_valid, hu.trace_once⟩

/-- Moving tokens between the heap and the call stack: the invariant only
looks at their union. -/
theorem InvU.move {env : Env} {s t : HotStuffBase} {H K : List Hash} (hu : InvU env H s)
    (hperm : (all_toks t ++ K).Perm (all_toks s ++ H))
    (hdel : t.storage.delivered = s.storage.delivered)
    (htbl : ∀ h, table_find s.blk_delivery_waiting h ≠ none →
      table_find t.blk_delivery_waiting h ≠ none)
    (htr : t.trace = s.trace) : InvU env K t := by
  refine ⟨(hperm.nodup_iff).2 hu.nodup, ?_, ?_, ?_, ?_⟩
  · intro h hh
    obtain ⟨h1, h2⟩ := hu.live h ((hperm.mem_iff).1 hh)
    exact ⟨by rw [hdel]; exact h1, htbl h h2⟩
  · intro b st hb
    rw [htr] at hb
    exact hu.trace_fresh b st hb
  · intro b st hb hv
    rw [htr] at hb
    rw [hdel]
    exact hu.trace_valid b st hb hv
  · rw [htr]; exact hu.trace_once

theorem InvU.reframe {env : Env} {s t : HotStuffBase} {H : List Hash} (hu : InvU env H s)
    (hheap : t.heap = s.heap) (hnext : t.next = s.next)
    (hdel : t.storage.delivered = s.storage.delivered)
    (htbl : ∀ h, table_find s.blk_delivery_waiting h ≠ none →
      table_find t.blk_delivery_waiting h ≠ none)
    (htr : t.trace = s.trace) : InvU env H t :=
  hu.move (by rw [all_toks_congr hheap hnext]) hdel htbl htr

theorem InvU.log_other {env : Env} {s : HotStuffBase} {H : List Hash} (hu : InvU env H s)
    (e : Event) (he : ∀ b st, e ≠ .on_deliver_blk b st) : InvU env H (s.log e) := by
  refine ⟨?_, ?_, ?_, ?_, ?_⟩
  · exact hu.nodup
  · intro h hh
    exact hu.live h hh
  · intro b st hb
    simp only [HotStuffBase.log, List.mem_append, List.mem_singleton] at hb
    rcases hb with hb | hb
    · exact hu.trace_fresh b st hb
    · exact absurd hb.symm (he b st)
  · intro b st hb hv
    simp only [HotStuffBase.log, List.mem_append, List.mem_singleton] at hb
    rcases hb with hb | hb
    · exact hu.trace_valid b st hb hv
    · exact absurd hb.symm (he b st)
  · simp only [HotStuffBase.log]
    rw [List.pairwise_append]
    refine ⟨hu.trace_once, List.pairwise_singleton _ _, ?_⟩
    intro a _ b hb b1 st1 b2 st2 _ h2 _
    rw [List.mem_singleton] at hb
    rw [hb] at h2
    exact absurd h2 (he b2 st2)

theorem InvU.new_cell {env : Env} {s : HotStuffBase} {H : List Hash} (hu : InvU env H s)
    (c : Promise) (hc : cell_toks c = []) : InvU env H (s.new_promise c).1 :=
  hu.move (by rw [all_toks_new, hc, List.append_nil]) rfl (fun _ h => h) rfl

theorem table_find_erase_ne {α : Type} (t : List (Hash × α)) (h g : Hash) (hne : g ≠ h) :
    table_find (table_erase t h) g = table_find t g := by
  simp only [table_find, table_erase]
  congr 1
  induction t with
  | nil => rfl
  | cons e rest ih =>
    by_cases he : e.1 = h
    · have h1 : (e.1 == g) = false := by
        simp only [beq_eq_false_iff_ne, ne_eq]
        intro hh; exact hne (hh.symm.trans he)
      have h2 : (!(e.1 == h)) = false := by simp [he]
      simp only [List.filter_cons, h2, Bool.false_eq_true, if_false, List.find?_cons, h1]
      exact ih
    · have h1 : (!(e.1 == h)) = true := by simpa using he
      simp only [List.filter_cons, h1, if_true, List.find?_cons]
      cases hg : (e.1 == g)
      · simpa using ih
      · rfl

theorem InvU.erase {env : Env} {s : HotStuffBase} {H : List Hash} (hu : InvU env H s)
    (h : Hash) (hn : h ∉ all_toks s ++ H) :
    InvU env H { s with blk_delivery_waiting := table_erase s.blk_delivery_waiting h } := by
  refine ⟨hu.nodup, ?_, hu.trace_fresh, hu.trace_valid, hu.trace_once⟩
  intro x hx
  obtain ⟨h1, h2⟩ := hu.live x hx
  refine ⟨h1, ?_⟩
  have hne : x ≠ h := fun hh => hn (hh ▸ hx)
  show table_find (table_erase s.blk_delivery_waiting h) x ≠ none
  rw [table_find_erase_ne _ _ _ hne]
  exact h2

theorem InvU.insert {env : Env} {s : HotStuffBase} {H : List Hash} (hu : InvU env H s)
    (h : Hash) (q : PId) (hn : table_find s.blk_delivery_waiting h = none)
    (hd : h ∉ s.storage.delivered) :
    InvU env (h :: H) { s with blk_delivery_waiting := s.blk_delivery_waiting ++ [(h, q)] } := by
  have hnot : h ∉ all_toks s ++ H := fun hh => (hu.live h hh).2 hn
  have hperm : (all_toks s ++ h :: H).Perm (h :: (all_toks s ++ H)) := List.perm_middle
  refine ⟨?_, ?_, hu.trace_fresh, hu.trace_valid, hu.trace_once⟩
  · exact (hperm.nodup_iff).2 (List.nodup_cons.2 ⟨hnot, hu.nodup⟩)
  · intro x hx
    have hx' := (hperm.mem_iff).1 hx
    rcases List.mem_cons.1 hx' with hx' | hx'
    · subst hx'
      refine ⟨hd, ?_⟩
      show table_find (s.blk_delivery_waiting ++ [(x, q)]) x ≠ none
      rw [table_find_append_new _ _ _ hn]
      simp
    · obtain ⟨h1, h2⟩ := hu.live x hx'
      refine ⟨h1, ?_⟩
      show table_find (s.blk_delivery_waiting ++ [(h, q)]) x ≠ none
      cases hf : table_find s.blk_delivery_waiting x with
      | none => exact absurd hf h2
      | some y =>
        rw [table_find_append_old _ _ _ _ hf]
        simp

theorem all_toks_set_add (s : HotStuffBase) (p : PId) (c : Promise) (hp : p < s.next)
    (L : List Hash) (hc : (cell_toks c).Perm (cell_toks (s.heap p) ++ L)) :
    (all_toks (s.set_promise p c)).Perm (all_toks s ++ L) := by
  have h1 := all_toks_set_perm s p c hp
  have h2 := all_toks_perm s p hp
  refine List.Perm.trans h1 ?_
  refine List.Perm.trans (List.Perm.append_right _ hc) ?_
  rw [List.append_assoc]
  refine List.Perm.trans (List.Perm.append_left _ List.perm_append_comm) ?_
  rw [← List.append_assoc]
  exact List.Perm.append_right _ h2.symm

theorem filterMap_cons_toList {α β : Type} (f : α → Option β) (a : α) (l : List α) :
    (a :: l).filterMap f = (f a).toList ++ l.filterMap f := by
  rw [List.filterMap_cons]
  cases f a <;> rfl

/-- What a callback stands for when it runs agrees with what it stood for
while it was registered. -/
theorem tok_consistent {C : Prop} {s : HotStuffBase} (hi : Inv C s) {p : PId} (hp : p < s.next)
    {k : Callback} (ha : Attached s p k) (o : Outcome)
    (ho : ∀ v, o = .fulfilled v → (s.heap p).state = .resolved v) :
    tok_run k o = [] ∨ tok_run k o = (tok_static (s.heap p).purpose k).toList := by
  cases k with
  | deliver_fetched r =>
    cases o with
    | rejected => exact Or.inl rfl
    | fulfilled v =>
      cases v with
      | blk b =>
        obtain ⟨h, hh⟩ := ha
        obtain ⟨b', hb1, hb2⟩ := hi.fetch_ok p h _ hp hh (ho _ rfl)
        cases hb1
        right
        simp only [tok_run, tok_static, hh, Option.toList, find_blk_hash hb2]
      | null => exact Or.inl rfl
      | values bs => exact Or.inl rfl
      | fin f => exact Or.inl rfl
  | deliver_ready b =>
    cases o with
    | rejected => exact Or.inl rfl
    | fulfilled v => exact Or.inr rfl
  | all_part ret => cases o <;> exact Or.inl rfl
  | receive_proposal prop => cases o <;> exact Or.inl rfl
  | receive_vote v => cases o <;> exact Or.inl rfl
  | send_resp_blk r => cases o <;> exact Or.inl rfl
  | propose c => cases o <;> exact Or.inl rfl
  | send_resp_cmd a => cases o <;> exact Or.inl rfl

theorem InvU.to_run {env : Env} {C : Prop} {s : HotStuffBase} {H : List Hash} (hi : Inv C s)
    {p : PId} (hp : p < s.next) {k : Callback} (ha : Attached s p k) (o : Outcome)
    (ho : ∀ v, o = .fulfilled v → (s.heap p).state = .resolved v)
    (hu : InvU env ((tok_static (s.heap p).purpose k).toList ++ H) s) :
    InvU env (tok_run k o ++ H) s := by
  rcases tok_consistent hi hp ha o ho with h | h
  · rw [h]; exact hu.drop _
  · rw [h]; exact hu

theorem settle_fold_U {env : Env} {C : Prop}
    {run : Callback → Outcome → HotStuffBase → HotStuffBase}
    (hrun : RunOK C run) (hrunU : RunU env C run) (p : PId) (o : Outcome) (pu : Purpose)
    (cbs : List Callback) :
    ∀ (acc : HotStuffBase) (H : List Hash), Inv C acc → p < acc.next →
      (∀ v, o = .fulfilled v → (acc.heap p).state = .resolved v) →
      (∀ k ∈ cbs, Attached acc p k) → (acc.heap p).purpose = pu →
      InvU env (cbs.filterMap (tok_static pu) ++ H) acc →
      InvU env H (cbs.foldl (fun a k => run k o a) acc) := by
  induction cbs with
  | nil => intro acc H _ _ _ _ _ hu; exact hu
  | cons k rest ih =>
    intro acc H hi hp ho ha hpu hu
    have hatt := ha k (List.mem_cons_self _ _)
    have hpre : Pre acc k o := Attached_pre hi hp hatt o ho
    obtain ⟨hi2, he2⟩ := hrun k o acc hi hpre
    rw [filterMap_cons_toList, List.append_assoc, ← hpu] at hu
    have hu1 := hu.to_run hi hp hatt o ho
    have hu2 := hrunU _ k o acc hi hpre hu1
    rw [hpu] at hu2
    refine ih (run k o acc) H hi2 (Nat.lt_of_lt_of_le hp he2.next_le) ?_ ?_ ?_ hu2
    · intro v hv
      rw [he2.settled p hp (by rw [ho v hv]; simp)]
      exact ho v hv
    · exact fun k' hk' => Attached_mono hi he2 hp (ha k' (List.mem_cons_of_mem _ hk'))
    · rw [he2.purpose_eq p hp]; exact hpu

theorem settle_U {env : Env} {C : Prop} {run : Callback → Outcome → HotStuffBase → HotStuffBase}
    (hrun : RunOK C run) (hrunU : RunU env C run) {s : HotStuffBase} (hi : Inv C s) {p : PId}
    (hp : p < s.next) {o : Outcome} (hs : SettleOK s p o) {H : List Hash}
    (hu : InvU env H s) : InvU env H (settle run p o s) := by
  unfold settle
  cases hst : (s.heap p).state with
  | resolved v => exact hu
  | rejected => exact hu
  | pending =>
    simp only
    have hi1 : Inv C (s.set_promise p { s.heap p with
        state := o.to_state, callbacks := [] }) := by
      refine hi.set_promise p _ hp rfl rfl (Or.inr ⟨hst, ?_⟩) (by simp)
      intro v hv
      cases o with
      | fulfilled w =>
        simp only [Outcome.to_state, PromiseState.resolved.injEq] at hv
        subst hv; exact hs
      | rejected => simp [Outcome.to_state] at hv
    have he1 : Ext s (s.set_promise p { s.heap p with
        state := o.to_state, callbacks := [] }) :=
      Ext.by_set_promise s p _ rfl rfl (fun h => absurd hst h)
    have hu1 : InvU env ((s.heap p).callbacks.filterMap (tok_static (s.heap p).purpose) ++ H)
        (s.set_promise p { s.heap p with state := o.to_state, callbacks := [] }) := by
      refine hu.move ?_ rfl (fun _ h => h) rfl
      rw [← List.append_assoc]
      refine List.Perm.append_right H ?_
      exact all_toks_set_append s p _ hp _ (by simp [cell_toks])
    refine settle_fold_U hrun hrunU p o (s.heap p).purpose (s.heap p).callbacks _ H hi1 hp ?_ ?_
      ?_ hu1
    · intro v hv
      subst hv
      rw [set_promise_heap_self]; rfl
    · exact fun k hk => Attached_mono hi he1 hp (hi.attached p hp k hk)
    · rw [set_promise_heap_self]

theorem promise_then_U {env : Env} {C : Prop}
    {run : Callback → Outcome → HotStuffBase → HotStuffBase}
    (hrunU : RunU env C run) {s : HotStuffBase} (hi : Inv C s) {p : PId}
    (hp : p < s.next) {k : Callback} (ha : Attached s p k) {H : List Hash}
    (hu : InvU env ((tok_static (s.heap p).purpose k).toList ++ H) s) :
    InvU env H (promise_then run p k s) := by
  unfold promise_then
  cases hst : (s.heap p).state with
  | pending =>
    simp only
    refine hu.move ?_ rfl (fun _ h => h) rfl
    have := all_toks_set_add s p { s.heap p with callbacks := (s.heap p).callbacks ++ [k] } hp
      (tok_static (s.heap p).purpose k).toList (by
        simp only [cell_toks, List.filterMap_append]
        refine List.Perm.append_left _ ?_
        rw [filterMap_cons_toList]
        simp)
    refine List.Perm.trans (List.Perm.append_right H this) ?_
    rw [List.append_assoc]
  | resolved v =>
    have hpre := Attached_pre hi hp ha (.fulfilled v) (by intro w hw; cases hw; exact hst)
    exact hrunU H k _ s hi hpre
      (hu.to_run hi hp ha _ (by intro w hw; cases hw; exact hst))
  | rejected =>
    have hpre := Attached_pre hi hp ha .rejected (by intro w hw; cases hw)
    exact hrunU H k _ s hi hpre (hu.to_run hi hp ha _ (by intro w hw; cases hw))

theorem all_check_U {env : Env} {C : Prop}
    {run : Callback → Outcome → HotStuffBase → HotStuffBase}
    (hrun : RunOK C run) (hrunU : RunU env C run) {s : HotStuffBase} (hi : Inv C s) {ret : PId}
    (hp : ret < s.next) (hpu : (s.heap ret).purpose = .all) {H : List Hash}
    (hu : InvU env H s) : InvU env H (all_check run ret s) := by
  unfold all_check
  split
  · rename_i hall
    have hso : SettleOK s ret
        (.fulfilled (.values (part_values s (s.heap ret).parts))) := by
      refine ⟨?_, ?_, ?_⟩
      · intro h hh; rw [hpu] at hh; cases hh
      · intro h hh; rw [hpu] at hh; cases hh
      · intro _ q hq
        exact List.all_eq_true.1 hall q hq
    exact settle_U hrun hrunU hi hp hso hu
  · exact hu

theorem promise_all_fold_U {env : Env} {C : Prop}
    {run : Callback → Outcome → HotStuffBase → HotStuffBase}
    (hrun : RunOK C run) (hrunU : RunU env C run) (ret : PId) (H : List Hash) (l : List PId) :
    ∀ acc : HotStuffBase, Inv C acc → ret < acc.next → (acc.heap ret).purpose = .all →
      (∀ q ∈ l, q < acc.next) → InvU env H acc →
      InvU env H (l.foldl (fun a pm => promise_then run pm (.all_part ret) a) acc) := by
  induction l with
  | nil => intro acc _ _ _ _ hu; exact hu
  | cons pm rest ih =>
    intro acc hi hr hpu hq hu
    have hpm := hq pm (List.mem_cons_self _ _)
    obtain ⟨hi2, he2⟩ := promise_then_ok hrun hi hpm (k := .all_part ret) ⟨hr, hpu⟩
    have hu2 := promise_then_U hrunU hi hpm (k := .all_part ret) ⟨hr, hpu⟩ (H := H)
      (by simpa [tok_static] using hu)
    exact ih _ hi2 (Nat.lt_of_lt_of_le hr he2.next_le)
      (by rw [he2.purpose_eq ret hr]; exact hpu)
      (fun q hq' => Nat.lt_of_lt_of_le (hq q (List.mem_cons_of_mem _ hq')) he2.next_le) hu2

theorem promise_all_U {env : Env} {C : Prop}
    {run : Callback → Outcome → HotStuffBase → HotStuffBase}
    (hrun : RunOK C run) (hrunU : RunU env C run) {s : HotStuffBase} (hi : Inv C s)
    {l : List PId} (hq : ∀ q ∈ l, q < s.next) {H : List Hash} (hu : InvU env H s) :
    InvU env H (promise_all run l s).1 := by
  have hi1 : Inv C (s.new_promise (Promise.mk .pending [] l .all)).1 :=
    hi.new_promise _ hq (by intro h hh; cases hh) (by intro h v hh; cases hh) (fun _ => rfl)
      (by simp)
  have he1 := Ext.by_new_promise s (Promise.mk .pending [] l .all)
  have hu1 : InvU env H (s.new_promise (Promise.mk .pending [] l .all)).1 :=
    hu.new_cell _ rfl
  have hlt : s.next < (s.new_promise (Promise.mk .pending [] l .all)).1.next :=
    Nat.lt_succ_self _
  have hcell := new_promise_heap_new s (Promise.mk .pending [] l .all)
  rw [new_promise_snd] at hcell
  have hq1 : ∀ q ∈ l, q < (s.new_promise (Promise.mk .pending [] l .all)).1.next :=
    fun q hq' => Nat.lt_of_lt_of_le (hq q hq') he1.next_le
  obtain ⟨hi2, he2⟩ := promise_all_fold_ok hrun s.next l _ hi1 hlt (by rw [hcell]) hq1
  have hu2 := promise_all_fold_U hrun hrunU s.next H l _ hi1 hlt (by rw [hcell]) hq1 hu1
  have hlt2 := Nat.lt_of_lt_of_le hlt he2.next_le
  have hpu2 := he2.purpose_eq s.next hlt
  rw [hcell] at hpu2
  exact all_check_U hrun hrunU hi2 hlt2 hpu2 hu2

theorem async_fetch_blk_U {env : Env} {s : HotStuffBase} {H : List Hash} (hu : InvU env H s)
    (h : Hash) (rid : Option NetAddr) : InvU env H (async_fetch_blk h rid s).1 := by
  have hu0 : InvU env H (s.log (.async_fetch_blk h rid)) :=
    hu.log_other _ (by intro b st hb; cases hb)
  unfold async_fetch_blk
  simp only
  cases hfb : (s.log (.async_fetch_blk h rid)).storage.find_blk h with
  | some b => exact hu0.new_cell _ rfl
  | none =>
    simp only
    have key : ∀ r : HotStuffBase × BlockFetchContext,
        r = (match table_find (s.log (.async_fetch_blk h rid)).blk_fetch_waiting h with
          | some ctx => ((s.log (.async_fetch_blk h rid)), ctx)
          | none =>
            ({ ((s.log (.async_fetch_blk h rid)).new_promise
                  (Promise.mk .pending [] [] (.fetch h))).1 with
                blk_fetch_waiting :=
                  ((s.log (.async_fetch_blk h rid)).new_promise
                    (Promise.mk .pending [] [] (.fetch h))).1.blk_fetch_waiting
                    ++ [(h, BlockFetchContext.mk ((s.log (.async_fetch_blk h rid)).new_promise
                      (Promise.mk .pending [] [] (.fetch h))).2 [])] },
             BlockFetchContext.mk ((s.log (.async_fetch_blk h rid)).new_promise
                      (Promise.mk .pending [] [] (.fetch h))).2 [])) →
        InvU env H r.1 := by
      intro r hr
      cases htf : table_find (s.log (.async_fetch_blk h rid)).blk_fetch_waiting h with
      | some ctx =>
        rw [htf] at hr
        subst hr
        exact hu0
      | none =>
        rw [htf] at hr
        subst hr
        exact (hu0.new_cell (Promise.mk .pending [] [] (.fetch h)) rfl).reframe rfl rfl rfl
          (fun _ hh => hh) rfl
    have k1 := key _ rfl
    cases rid with
    | none => exact k1
    | some r => exact k1.reframe rfl rfl rfl (fun _ hh => hh) rfl

theorem async_deliver_blk_U {env : Env} {C : Prop}
    {run : Callback → Outcome → HotStuffBase → HotStuffBase}
    (hrunU : RunU env C run) {s : HotStuffBase} (hi : Inv C s)
    {H : List Hash} (hu : InvU env H s) (h : Hash) (r : NetAddr) :
    InvU env H (async_deliver_blk run h r s).1 := by
  unfold async_deliver_blk
  by_cases hd : s.storage.is_blk_delivered h = true
  · simp only [hd, if_true]
    exact hu.new_cell _ rfl
  · simp only [hd, if_false, Bool.false_eq_true]
    cases htf : table_find s.blk_delivery_waiting h with
    | some pm => exact hu
    | none =>
      simp only
      have hnd : h ∉ s.storage.delivered := by
        simpa [EntityStorage.is_blk_delivered] using hd
      have hi1 := hi.new_promise (Promise.mk .pending [] [] (.deliver h))
        (by simp) (by intro x _ hx; exact absurd rfl hx) (by intro x v hx; cases hx)
        (by intro hx; cases hx) (by simp)
      have hc := new_promise_heap_new s (Promise.mk .pending [] [] (.deliver h))
      have hi2 := hi1.insert_delivery (h := h) (q := s.next) (Nat.lt_succ_self _)
        (by rw [← new_promise_snd s, hc])
      have hu1 : InvU env H (s.new_promise (Promise.mk .pending [] [] (.deliver h))).1 :=
        hu.new_cell _ rfl
      have hu2 := hu1.insert h s.next htf hnd
      obtain ⟨hi3, he3, hlt3, hpu3⟩ := async_fetch_blk_ok hi2 h (some r)
      have hu3 := async_fetch_blk_U hu2 h (some r)
      exact promise_then_U hrunU hi3 hlt3 (k := .deliver_fetched r) ⟨h, hpu3⟩
        (by simpa [tok_static, hpu3] using hu3)

/-- Recording a call of `on_deliver_blk` that the core accepts: the block
becomes delivered and the token of the call is used up. -/
theorem InvU.deliver_valid {env : Env} {s t : HotStuffBase} {H : List Hash} {b : Block}
    (hu : InvU env (b.hash :: H) s) (hheap : t.heap = s.heap) (hnext : t.next = s.next)
    (hdel : t.storage.delivered = b.hash :: s.storage.delivered)
    (htbl : t.blk_delivery_waiting = s.blk_delivery_waiting)
    (htr : t.trace = s.trace ++ [.on_deliver_blk b s.storage]) : InvU env H t := by
  have hperm : (all_toks s ++ b.hash :: H).Perm (b.hash :: (all_toks s ++ H)) :=
    List.perm_middle
  have hnd := (hperm.nodup_iff).1 hu.nodup
  have hnot : b.hash ∉ all_toks s ++ H := (List.nodup_cons.1 hnd).1
  have hlive : Live s b.hash := hu.live _ ((hperm.mem_iff).2 (List.mem_cons_self _ _))
  refine ⟨?_, ?_, ?_, ?_, ?_⟩
  · rw [all_toks_congr hheap hnext]; exact (List.nodup_cons.1 hnd).2
  · intro x hx
    rw [all_toks_congr hheap hnext] at hx
    obtain ⟨h1, h2⟩ := hu.live x ((hperm.mem_iff).2 (List.mem_cons_of_mem _ hx))
    refine ⟨?_, by rw [htbl]; exact h2⟩
    rw [hdel]
    intro hmem
    rcases List.mem_cons.1 hmem with h3 | h3
    · exact hnot (h3 ▸ hx)
    · exact h1 h3
  · intro b' st hb
    rw [htr] at hb
    rcases List.mem_append.1 hb with hb | hb
    · exact hu.trace_fresh b' st hb
    · simp only [List.mem_singleton, Event.on_deliver_blk.injEq] at hb
      rw [hb.1, hb.2]; exact hlive.1
  · intro b' st hb hv
    rw [htr] at hb
    rw [hdel]
    rcases List.mem_append.1 hb with hb | hb
    · exact List.mem_cons_of_mem _ (hu.trace_valid b' st hb hv)
    · simp only [List.mem_singleton, Event.on_deliver_blk.injEq] at hb
      rw [hb.1]; exact List.mem_cons_self _ _
  · rw [htr, List.pairwise_append]
    refine ⟨hu.trace_once, List.pairwise_singleton _ _, ?_⟩
    intro e1 he1 e2 he2 b1 st1 b2 st2 h1 h2 hh
    rw [List.mem_singleton] at he2
    rw [he2] at h2
    simp only [Event.on_deliver_blk.injEq] at h2
    cases hv : env.core_on_deliver_blk st1 b1 with
    | false => rfl
    | true =>
      exfalso
      have := hu.trace_valid b1 st1 (h1 ▸ he1) hv
      rw [hh, ← h2.1] at this
      exact hlive.1 this

/-- Recording a call of `on_deliver_blk` that the core rejects: the token of
the call is still held. -/
theorem InvU.deliver_invalid {env : Env} {s : HotStuffBase} {H : List Hash} {b : Block}
    (hu : InvU env (b.hash :: H) s) (hv : env.core_on_deliver_blk s.storage b = false) :
    InvU env (b.hash :: H) (s.log (.on_deliver_blk b s.storage)) := by
  have hlive : Live s b.hash :=
    hu.live _ (List.mem_append_right _ (List.mem_cons_self _ _))
  refine ⟨hu.nodup, hu.live, ?_, ?_, ?_⟩
  · intro b' st hb
    simp only [HotStuffBase.log, List.mem_append, List.mem_singleton,
      Event.on_deliver_blk.injEq] at hb
    rcases hb with hb | hb
    · exact hu.trace_fresh b' st hb
    · rw [hb.1, hb.2]; exact hlive.1
  · intro b' st hb hv'
    simp only [HotStuffBase.log, List.mem_append, List.mem_singleton,
      Event.on_deliver_blk.injEq] at hb
    rcases hb with hb | hb
    · exact hu.trace_valid b' st hb hv'
    · rw [hb.1, hb.2, hv] at hv'; cases hv'
  · simp only [HotStuffBase.log]
    rw [List.pairwise_append]
    refine ⟨hu.trace_once, List.pairwise_singleton _ _, ?_⟩
    intro e1 he1 e2 he2 b1 st1 b2 st2 h1 h2 hh
    rw [List.mem_singleton] at he2
    rw [he2] at h2
    simp only [Event.on_deliver_blk.injEq] at h2
    cases hv1 : env.core_on_deliver_blk st1 b1 with
    | false => rfl
    | true =>
      exfalso
      have := hu.trace_valid b1 st1 (h1 ▸ he1) hv1
      rw [hh, ← h2.1] at this
      exact hlive.1 this

theorem InvU.not_held {env : Env} {s : HotStuffBase} {H : List Hash} {h : Hash}
    (hu : InvU env (h :: H) s) : h ∉ all_toks s ++ H := by
  have hperm : (all_toks s ++ h :: H).Perm (h :: (all_toks s ++ H)) := List.perm_middle
  exact (List.nodup_cons.1 ((hperm.nodup_iff).1 hu.nodup)).1

theorem SettleOK.of_deliver {s : HotStuffBase} {pm : PId} {h : Hash} (v : Value)
    (hpu : (s.heap pm).purpose = .deliver h) (hd : h ∈ s.storage.delivered) :
    SettleOK s pm (.fulfilled v) := by
  refine ⟨?_, ?_, ?_⟩
  · intro x hx
    rw [hpu] at hx
    simp only [Purpose.deliver.injEq] at hx
    rw [← hx]; exact hd
  · intro x hx; rw [hpu] at hx; cases hx
  · intro hx; rw [hpu] at hx; cases hx

theorem SettleOK.of_fetch {s : HotStuffBase} {pm : PId} {h : Hash} {b : Block}
    (hpu : (s.heap pm).purpose = .fetch h) (hb : s.storage.find_blk h = some b) :
    SettleOK s pm (.fulfilled (.blk b)) := by
  refine ⟨?_, ?_, ?_⟩
  · intro x hx; rw [hpu] at hx; cases hx
  · intro x hx
    rw [hpu] at hx
    simp only [Purpose.fetch.injEq] at hx
    subst hx
    exact ⟨b, rfl, hb⟩
  · intro hx; rw [hpu] at hx; cases hx

theorem on_deliver_blk_U {C : Prop} {run : Callback → Outcome → HotStuffBase → HotStuffBase}
    (env : Env) (hrun : RunOK C run) (hrunU : RunU env C run) {s : HotStuffBase}
    (hi : Inv C s) {blk : Block}
    (hb : s.storage.find_blk blk.hash = some blk)
    (hpar : ∀ ph ∈ blk.parent_hashes, ph ∈ s.storage.delivered)
    (hqc : ∀ h, blk.qc = some h → s.storage.is_blk_fetched h = true)
    {H : List Hash} (hu : InvU env (blk.hash :: H) s) :
    InvU env H (on_deliver_blk env run blk s) := by
  have hi0 : Inv C (s.log (.on_deliver_blk blk s.storage)) := by
    refine hi.log ⟨hb, ?_, hqc, hi.closed⟩
    intro ph hph
    simpa [EntityStorage.is_blk_delivered] using hpar ph hph
  unfold on_deliver_blk
  simp only
  by_cases hval : env.core_on_deliver_blk (s.log (.on_deliver_blk blk s.storage)).storage blk
      = true
  · simp only [hval, if_true]
    have hi1 : Inv C { (s.log (.on_deliver_blk blk s.storage)) with
        storage := (s.log (.on_deliver_blk blk s.storage)).storage.mark_blk_delivered blk.hash,
        part_parent_size := (s.log (.on_deliver_blk blk s.storage)).part_parent_size
          + blk.parent_hashes.length,
        part_delivered := (s.log (.on_deliver_blk blk s.storage)).part_delivered + 1,
        delivered := (s.log (.on_deliver_blk blk s.storage)).delivered + 1 } := by
      refine hi0.frame rfl rfl (fun _ hh => List.mem_cons_of_mem _ hh) (fun _ _ hh => hh) ?_
        hi0.fetch_tbl hi0.deliv_tbl hi0.cmd_tbl hi0.beat_tbl hi0.trace_ok
      intro hC x hx
      simp only [EntityStorage.mark_blk_delivered, List.mem_cons] at hx
      rcases hx with hx | hx
      · subst hx
        exact ⟨blk, hb, fun ph hph => List.mem_cons_of_mem _ (hpar ph hph)⟩
      · obtain ⟨b', hb1, hb2⟩ := hi.closed hC x hx
        exact ⟨b', hb1, fun ph hph => List.mem_cons_of_mem _ (hb2 ph hph)⟩
    have hu1 : InvU env H { (s.log (.on_deliver_blk blk s.storage)) with
        storage := (s.log (.on_deliver_blk blk s.storage)).storage.mark_blk_delivered blk.hash,
        part_parent_size := (s.log (.on_deliver_blk blk s.storage)).part_parent_size
          + blk.parent_hashes.length,
        part_delivered := (s.log (.on_deliver_blk blk s.storage)).part_delivered + 1,
        delivered := (s.log (.on_deliver_blk blk s.storage)).delivered + 1 } :=
      hu.deliver_valid rfl rfl rfl rfl rfl
    split
    · rename_i pm htf
      have hpm := hi1.deliv_tbl _ (table_find_some_mem htf)
      have hso := SettleOK.of_deliver (.blk blk) hpm.2 (List.mem_cons_self _ _)
      obtain ⟨hi2, he2⟩ := settle_ok hrun hi1 hpm.1 hso
      have hu2 := settle_U hrun hrunU hi1 hpm.1 hso hu1
      refine hu2.erase blk.hash ?_
      intro hmem
      exact (hu2.live _ hmem).1 (he2.delivered_sub _ (List.mem_cons_self _ _))
    · exact hu1
  · have hval2 : env.core_on_deliver_blk (s.log (.on_deliver_blk blk s.storage)).storage blk
        = false := by simpa using hval
    simp only [hval2, Bool.false_eq_true, if_false]
    have hu0 : InvU env (blk.hash :: H) (s.log (.on_deliver_blk blk s.storage)) :=
      hu.deliver_invalid hval2
    split
    · rename_i pm htf
      have hpm := hi0.deliv_tbl _ (table_find_some_mem htf)
      have hu2 := settle_U hrun hrunU hi0 hpm.1 (o := .rejected) trivial hu0
      exact (hu2.drop [blk.hash]).erase blk.hash hu2.not_held
    · exact hu0.drop [blk.hash]

theorem on_fetch_cmd_U {env : Env} {C : Prop}
    {run : Callback → Outcome → HotStuffBase → HotStuffBase}
    (hrun : RunOK C run) (hrunU : RunU env C run) {s : HotStuffBase} (hi : Inv C s)
    {H : List Hash} (hu : InvU env H s) (cmd : Command) :
    InvU env H (on_fetch_cmd run cmd s) := by
  unfold on_fetch_cmd
  cases htf : table_find s.cmd_fetch_waiting cmd.hash with
  | none => exact hu
  | some pm =>
    simp only
    have hpm := hi.cmd_tbl _ (table_find_some_mem htf)
    have hso : SettleOK s pm (.fulfilled .null) := by
      refine ⟨?_, ?_, ?_⟩
      · intro x hx; rw [hpm.2] at hx; cases hx
      · intro x hx; rw [hpm.2] at hx; cases hx
      · intro hx; rw [hpm.2] at hx; cases hx
    exact (settle_U hrun hrunU hi hpm.1 hso hu).reframe rfl rfl rfl (fun _ hh => hh) rfl

theorem on_fetch_cmd_fold_U {env : Env} {C : Prop}
    {run : Callback → Outcome → HotStuffBase → HotStuffBase}
    (hrun : RunOK C run) (hrunU : RunU env C run) (H : List Hash) (cmds : List Command) :
    ∀ s : HotStuffBase, Inv C s → InvU env H s →
      InvU env H (cmds.foldl (fun acc cmd => on_fetch_cmd run cmd acc) s) := by
  induction cmds with
  | nil => intro s _ hu; exact hu
  | cons c rest ih =>
    intro s hi hu
    exact ih _ (on_fetch_cmd_ok hrun hi c).1 (on_fetch_cmd_U hrun hrunU hi hu c)

theorem on_fetch_blk_U {env : Env} {C : Prop}
    {run : Callback → Outcome → HotStuffBase → HotStuffBase}
    (hrun : RunOK C run) (hrunU : RunU env C run) {s : HotStuffBase} (hi : Inv C s)
    {blk : Block} (hb : s.storage.find_blk blk.hash = some blk) {H : List Hash}
    (hu : InvU env H s) : InvU env H (on_fetch_blk run blk s) := by
  unfold on_fetch_blk
  simp only
  have hi1 : Inv C { s with part_fetched := s.part_fetched + 1, fetched := s.fetched + 1 } :=
    hi.frame rfl rfl (fun _ hh => hh) (fun _ _ hh => hh) hi.closed hi.fetch_tbl hi.deliv_tbl
      hi.cmd_tbl hi.beat_tbl hi.trace_ok
  have he1 : Ext s { s with part_fetched := s.part_fetched + 1, fetched := s.fetched + 1 } :=
    Ext.by_frame rfl rfl (fun _ hh => hh) (fun _ _ hh => hh)
  have hu1 : InvU env H { s with part_fetched := s.part_fetched + 1,
                                 fetched := s.fetched + 1 } :=
    hu.reframe rfl rfl rfl (fun _ hh => hh) rfl
  obtain ⟨hi2, he2⟩ := on_fetch_cmd_fold_ok hrun blk.cmds _ hi1
  have hu2 := on_fetch_cmd_fold_U hrun hrunU H blk.cmds _ hi1 hu1
  have he12 := he1.trans he2
  split
  · rename_i ctx htf
    have hpm := hi2.fetch_tbl _ (table_find_some_mem htf)
    have hso := SettleOK.of_fetch hpm.2 (he12.blk_kept _ _ hb)
    exact (settle_U hrun hrunU hi2 hpm.1 hso hu2).reframe rfl rfl rfl (fun _ hh => hh) rfl
  · exact hu2

theorem collect_keep {α β σ : Type} (f : α → σ → σ × β) (J : σ → Prop)
    (hf : ∀ a s, J s → J (f a s).1) (l : List α) : ∀ s, J s → J (collect f l s).1 := by
  induction l with
  | nil => intro s hs; exact hs
  | cons a rest ih => intro s hs; exact ih _ (hf a s hs)

theorem deliver_deps_U {env : Env} {C : Prop}
    {run : Callback → Outcome → HotStuffBase → HotStuffBase}
    (hrun : RunOK C run) (hrunU : RunU env C run) {s : HotStuffBase} (hi : Inv C s)
    {K : List Hash} (hu : InvU env K s) (b : Block) (r : NetAddr) :
    InvU env K (deliver_deps run b r s).1 := by
  unfold deliver_deps
  simp only
  have hq : ∀ q : HotStuffBase × List PId,
      q = (match b.qc with
        | some h => ((async_fetch_blk h (some r) s).1, [(async_fetch_blk h (some r) s).2])
        | none => (s, [])) →
      Inv C q.1 ∧ (∀ x ∈ q.2, x < q.1.next) ∧ InvU env K q.1 := by
    intro q hq
    cases hqc : b.qc with
    | none =>
      rw [hqc] at hq; subst hq
      exact ⟨hi, by simp, hu⟩
    | some h =>
      rw [hqc] at hq; subst hq
      obtain ⟨h1, _, h3, _⟩ := async_fetch_blk_ok hi h (some r)
      exact ⟨h1, by simpa using h3, async_fetch_blk_U hu h (some r)⟩
  obtain ⟨q1, q3, q4⟩ := hq _ rfl
  obtain ⟨c1, c2, c3⟩ := collect_ok (C := C)
    (fun phash acc => async_deliver_blk run phash r acc)
    (fun _ t x => x < t.next)
    (fun a s t x _ he hx => Nat.lt_of_lt_of_le hx he.next_le)
    (fun a s hs => by
      obtain ⟨h1, h2, h3, _⟩ := async_deliver_blk_ok hrun hs a r
      exact ⟨h1, h2, h3⟩)
    b.parent_hashes _ q1
  have c4 := collect_keep
    (fun phash acc => async_deliver_blk run phash r acc)
    (fun t => Inv C t ∧ InvU env K t)
    (fun a t ht => ⟨(async_deliver_blk_ok hrun ht.1 a r).1,
      async_deliver_blk_U hrunU ht.1 ht.2 a r⟩)
    b.parent_hashes _ ⟨q1, q4⟩
  obtain ⟨_, m2⟩ := forall₂_mem c3
  exact promise_all_U hrun hrunU c1 (l := _ ++ _) (by
    intro x hx
    rcases List.mem_append.1 hx with hx | hx
    · exact Nat.lt_of_lt_of_le (q3 x hx) c2.next_le
    · obtain ⟨a, _, ha⟩ := m2 x hx
      exact ha) c4.2

/-- The callback interpreter keeps the at-most-once invariant at every depth:
a callback that stands for the delivery of a hash either hands that right on
to another callback or makes the one call of `on_deliver_blk`. -/
theorem run_callback_U {C : Prop} (env : Env) : ∀ n, RunU env C (run_callback env n) := by
  intro n
  induction n with
  | zero =>
    intro H k o s _ _ hu
    rw [run_callback_zero]
    exact hu.drop _
  | succ n ih =>
    have ihA : RunOK C (run_callback env n) := run_callback_ok env n
    intro H k o s hi hpre hu
    cases k with
    | deliver_fetched r =>
      cases o with
      | rejected => simp only [run_callback]; exact hu
      | fulfilled v =>
        cases v with
        | null => simp only [run_callback]; exact hu
        | values bs => simp only [run_callback]; exact hu
        | fin f => simp only [run_callback]; exact hu
        | blk b =>
          have hb : s.storage.find_blk b.hash = some b := hpre
          have hu' : InvU env (b.hash :: H) s := hu
          simp only [run_callback]
          obtain ⟨a1, _, a3, a4⟩ := deliver_deps_ok ihA hi hb r
          have au := deliver_deps_U ihA ih hi hu' b r
          exact promise_then_U ih a1 a3 a4 (by simpa [tok_static, a4.1] using au)
    | deliver_ready b =>
      cases o with
      | rejected => simp only [run_callback]; exact hu
      | fulfilled v =>
        simp only [run_callback]
        exact on_deliver_blk_U env ihA ih hi hpre.1 hpre.2.1 hpre.2.2 hu
    | all_part ret =>
      have hp : ret < s.next ∧ (s.heap ret).purpose = .all := by cases o <;> exact hpre
      have hu' : InvU env H s := by cases o <;> exact hu
      cases o with
      | rejected =>
        simp only [run_callback]
        exact settle_U ihA ih hi hp.1 (o := .rejected) trivial hu'
      | fulfilled v =>
        simp only [run_callback]
        exact all_check_U ihA ih hi hp.1 hp.2 hu'
    | receive_proposal prop =>
      cases o with
      | rejected => simp only [run_callback]; exact hu
      | fulfilled v =>
        simp only [run_callback]
        exact InvU.log_other hu _ (by intro b st hb; cases hb)
    | receive_vote vote =>
      cases o with
      | rejected => simp only [run_callback]; exact hu
      | fulfilled v =>
        simp only [run_callback]
        exact InvU.log_other hu _ (by intro b st hb; cases hb)
    | send_resp_blk replica =>
      cases o with
      | rejected => simp only [run_callback]; exact hu
      | fulfilled v =>
        cases v with
        | values bs =>
          simp only [run_callback]
          exact InvU.log_other hu _ (by intro b st hb; cases hb)
        | null => simp only [run_callback]; exact hu
        | blk b => simp only [run_callback]; exact hu
        | fin f => simp only [run_callback]; exact hu
    | propose cmds =>
      cases o with
      | rejected => simp only [run_callback]; exact hu
      | fulfilled v =>
        simp only [run_callback]
        exact InvU.log_other hu _ (by intro b st hb; cases hb)
    | send_resp_cmd addr =>
      cases o with
      | rejected => simp only [run_callback]; exact hu
      | fulfilled v =>
        cases v with
        | fin f =>
          simp only [run_callback]
          exact InvU.log_other hu _ (by intro b st hb; cases hb)
        | null => simp only [run_callback]; exact hu
        | blk b => simp only [run_callback]; exact hu
        | values bs => simp only [run_callback]; exact hu

theorem init_U (env : Env) (id : ReplicaID) (blk_size : Nat) (proposer : ReplicaID)
    (st : EntityStorage) : InvU env [] (HotStuffBase.init id blk_size proposer st) := by
  refine ⟨?_, ?_, ?_, ?_, ?_⟩
  · simp [all_toks, HotStuffBase.init]
  · intro h hh
    simp [all_toks, HotStuffBase.init] at hh
  · intro b s hb
    simp [HotStuffBase.init] at hb
  · intro b s hb
    simp [HotStuffBase.init] at hb
  · simp [HotStuffBase.init]

theorem join_two_U {C : Prop} (env : Env) (fuel : Nat) {s : HotStuffBase} (hi : Inv C s)
    (hu : InvU env [] s) (h1 h2 : Hash) (peer : NetAddr) (k : Callback)
    (hk : ∀ t p, (t.heap p).purpose = .all →
      (∃ q ∈ (t.heap p).parts, (t.heap q).purpose = .deliver h1) →
      (∃ q ∈ (t.heap p).parts, (t.heap q).purpose = .deliver h2) → Attached t p k)
    (hkt : tok_static .all k = none) :
    InvU env [] (promise_then (run_callback env fuel)
        (promise_all (run_callback env fuel)
          [(async_deliver_blk (run_callback env fuel) h1 peer s).2,
           (async_deliver_blk (run_callback env fuel) h2 peer
              (async_deliver_blk (run_callback env fuel) h1 peer s).1).2]
          (async_deliver_blk (run_callback env fuel) h2 peer
              (async_deliver_blk (run_callback env fuel) h1 peer s).1).1).2 k
        (promise_all (run_callback env fuel)
          [(async_deliver_blk (run_callback env fuel) h1 peer s).2,
           (async_deliver_blk (run_callback env fuel) h2 peer
              (async_deliver_blk (run_callback env fuel) h1 peer s).1).2]
          (async_deliver_blk (run_callback env fuel) h2 peer
              (async_deliver_blk (run_callback env fuel) h1 peer s).1).1).1) := by
  have hrun := run_callback_ok (C := C) env fuel
  have hrunU := run_callback_U (C := C) env fuel
  obtain ⟨d1, e1, l1, p1⟩ := async_deliver_blk_ok hrun hi h1 peer
  have u1 := async_deliver_blk_U hrunU hi hu h1 peer
  obtain ⟨d2, e2, l2, p2⟩ := async_deliver_blk_ok hrun d1 h2 peer
  have u2 := async_deliver_blk_U hrunU d1 u1 h2 peer
  have hlt : ∀ q ∈ [(async_deliver_blk (run_callback env fuel) h1 peer s).2,
      (async_deliver_blk (run_callback env fuel) h2 peer
        (async_deliver_blk (run_callback env fuel) h1 peer s).1).2],
      q < (async_deliver_blk (run_callback env fuel) h2 peer
        (async_deliver_blk (run_callback env fuel) h1 peer s).1).1.next := by
    intro q hq
    simp only [List.mem_cons, List.mem_singleton, List.mem_nil_iff, or_false] at hq
    rcases hq with hq | hq
    · rw [hq]; exact Nat.lt_of_lt_of_le l1 e2.next_le
    · rw [hq]; exact l2
  obtain ⟨a1, a2, a3, a4, a5⟩ := promise_all_ok hrun d2 hlt
  have au := promise_all_U hrun hrunU d2 hlt u2
  refine promise_then_U hrunU a1 a3 (hk _ _ a4 ?_ ?_) (by rw [a4, hkt]; exact au)
  · refine ⟨_, by rw [a5]; exact List.mem_cons_self _ _, ?_⟩
    rw [a2.purpose_eq _ (Nat.lt_of_lt_of_le l1 e2.next_le), e2.purpose_eq _ l1]
    exact p1
  · refine ⟨_, by rw [a5]; exact List.mem_cons_of_mem _ (List.mem_singleton_self _), ?_⟩
    rw [a2.purpose_eq _ l2]
    exact p2

theorem propose_handler_U {C : Prop} (env : Env) (fuel : Nat) {s : HotStuffBase}
    (hi : Inv C s) (hu : InvU env [] s) (prop : Proposal) (peer : NetAddr) :
    InvU env [] (propose_handler env fuel prop peer s) := by
  unfold propose_handler
  simp only
  exact join_two_U env fuel (hi.add_blk prop.blk).1
    (hu.reframe rfl rfl (add_blk_delivered _ _) (fun _ hh => hh) rfl) _ _ peer _
    (fun t p h1 h2 h3 => ⟨h1, h2, h3⟩) rfl

theorem vote_handler_U {C : Prop} (env : Env) (fuel : Nat) {s : HotStuffBase}
    (hi : Inv C s) (hu : InvU env [] s) (vote : Vote) (peer : NetAddr) :
    InvU env [] (vote_handler env fuel vote peer s) := by
  unfold vote_handler
  simp only
  exact join_two_U env fuel hi hu _ _ peer _ (fun t p _ _ _ => trivial) rfl

theorem req_blk_handler_U {C : Prop} (env : Env) (fuel : Nat) {s : HotStuffBase}
    (hi : Inv C s) (hu : InvU env [] s) (blk_hashes : List Hash) (replica : NetAddr) :
    InvU env [] (req_blk_handler env fuel blk_hashes replica s) := by
  have hrun := run_callback_ok (C := C) env fuel
  have hrunU := run_callback_U (C := C) env fuel
  unfold req_blk_handler
  simp only
  obtain ⟨c1, c2, c3⟩ := collect_ok (C := C)
    (fun h acc => async_fetch_blk h none acc)
    (fun _ t x => x < t.next)
    (fun a s t x _ he hx => Nat.lt_of_lt_of_le hx he.next_le)
    (fun a s hs => by
      obtain ⟨h1, h2, h3, _⟩ := async_fetch_blk_ok hs a none
      exact ⟨h1, h2, h3⟩)
    blk_hashes s hi
  have c4 := collect_keep (fun h acc => async_fetch_blk h none acc)
    (fun t => InvU env [] t) (fun a t ht => async_fetch_blk_U ht a none) blk_hashes s hu
  have hlt : ∀ x ∈ (collect (fun h acc => async_fetch_blk h none acc) blk_hashes s).2,
      x < (collect (fun h acc => async_fetch_blk h none acc) blk_hashes s).1.next := by
    intro x hx
    obtain ⟨a, _, ha⟩ := (forall₂_mem c3).2 x hx
    exact ha
  obtain ⟨a1, a2, a3, a4, a5⟩ := promise_all_ok hrun c1 hlt
  have au := promise_all_U hrun hrunU c1 hlt c4
  exact promise_then_U hrunU a1 a3 (k := .send_resp_blk replica) trivial
    (by rw [a4]; exact au)

theorem on_fetch_blk_fold_U {env : Env} {C : Prop}
    {run : Callback → Outcome → HotStuffBase → HotStuffBase}
    (hrun : RunOK C run) (hrunU : RunU env C run) (l : List (Option Block)) :
    ∀ s : HotStuffBase, Inv C s → InvU env [] s →
      (∀ b, some b ∈ l → s.storage.find_blk b.hash = some b) →
      InvU env [] (l.foldl (fun acc blk =>
        match blk with
        | some b => on_fetch_blk run b acc
        | none => acc) s) := by
  induction l with
  | nil => intro s _ hu _; exact hu
  | cons x rest ih =>
    intro s hi hu hb
    cases x with
    | none =>
      exact ih s hi hu (fun b hb' => hb b (List.mem_cons_of_mem _ hb'))
    | some b =>
      obtain ⟨h1, h2⟩ := on_fetch_blk_ok hrun hi (hb b (List.mem_cons_self _ _))
      have u1 := on_fetch_blk_U hrun hrunU hi (hb b (List.mem_cons_self _ _)) hu
      exact ih _ h1 u1 (fun b' hb' => h2.blk_kept _ _ (hb b' (List.mem_cons_of_mem _ hb')))

theorem resp_blk_handler_U {C : Prop} (env : Env) (fuel : Nat) {s : HotStuffBase}
    (hi : Inv C s) (hu : InvU env [] s) (payload : List Block) :
    InvU env [] (resp_blk_handler env fuel payload s) := by
  have hrun := run_callback_ok (C := C) env fuel
  have hrunU := run_callback_U (C := C) env fuel
  unfold resp_blk_handler MsgRespBlock.postponed_parse
  simp only
  obtain ⟨c1, c2, c3⟩ := collect_ok (C := C)
    (fun _blk (acc : HotStuffBase) =>
      if !env.verify _blk then
        ({ acc with storage := (acc.storage.add_blk _blk).1 },
          some (acc.storage.add_blk _blk).2)
      else
        (acc, none))
    (fun _ t x => ∀ b, x = some b → t.storage.find_blk b.hash = some b)
    (fun a s t x _ he hx b hb => he.blk_kept _ _ (hx b hb))
    (fun a s hs => by
      by_cases hv : env.verify a = true
      · simp only [hv, Bool.not_true, Bool.false_eq_true, if_false]
        exact ⟨hs, Ext.refl _, by simp⟩
      · have hv2 : env.verify a = false := by simpa using hv
        simp only [hv2, Bool.not_false, if_true]
        refine ⟨(hs.add_blk a).1, (hs.add_blk a).2, ?_⟩
        intro b hb
        simp only [Option.some.injEq] at hb
        subst hb
        exact add_blk_canonical _ _)
    payload s hi
  have c4 := collect_keep
    (fun _blk (acc : HotStuffBase) =>
      if !env.verify _blk then
        ({ acc with storage := (acc.storage.add_blk _blk).1 },
          some (acc.storage.add_blk _blk).2)
      else
        (acc, none))
    (fun t => InvU env [] t)
    (fun a t ht => by
      by_cases hv : env.verify a = true
      · simp only [hv, Bool.not_true, Bool.false_eq_true, if_false]
        exact ht
      · have hv2 : env.verify a = false := by simpa using hv
        simp only [hv2, Bool.not_false, if_true]
        exact ht.reframe rfl rfl (add_blk_delivered _ _) (fun _ hh => hh) rfl)
    payload s hu
  refine on_fetch_blk_fold_U hrun hrunU _ _ c1 c4 ?_
  intro b hb
  obtain ⟨a, _, ha⟩ := (forall₂_mem c3).2 _ hb
  exact ha b rfl

theorem exec_command_U {env : Env} {s : HotStuffBase} (hu : InvU env [] s) (cmd : Command) :
    InvU env [] (exec_command cmd s).1 := by
  have hdel := (find_cmd_add_blk_cache s.storage cmd).2
  unfold exec_command
  simp only
  split
  · exact hu.new_cell _ rfl
  · have key : ∀ t : HotStuffBase, InvU env [] t →
        InvU env [] (match table_find t.decision_waiting cmd.hash with
          | some pm => (t, pm)
          | none =>
            ({ (t.new_promise (Promise.mk .pending [] [] .other)).1 with
                decision_waiting :=
                  (t.new_promise (Promise.mk .pending [] [] .other)).1.decision_waiting
                    ++ [(cmd.hash, (t.new_promise (Promise.mk .pending [] [] .other)).2)] },
             (t.new_promise (Promise.mk .pending [] [] .other)).2)).1 := by
      intro t ht
      split
      · exact ht
      · exact (ht.new_cell (Promise.mk .pending [] [] .other) rfl).reframe rfl rfl rfl
          (fun _ hh => hh) rfl
    apply key
    split
    · have h1 : InvU env [] { s with
          storage := (s.storage.add_cmd cmd).1,
          cmd_pending := (drain_pending s.blk_size []
            (s.cmd_pending ++ [(s.storage.add_cmd cmd).2])).2 } :=
        hu.reframe rfl rfl hdel (fun _ hh => hh) rfl
      exact (h1.new_cell (Promise.mk .pending [.propose (drain_pending s.blk_size []
            (s.cmd_pending ++ [(s.storage.add_cmd cmd).2])).1] [] .other) rfl).reframe rfl rfl rfl
          (fun _ hh => hh) rfl
    · exact hu.reframe rfl rfl hdel (fun _ hh => hh) rfl

theorem beat_fire_U {C : Prop} (env : Env) (fuel : Nat) {s : HotStuffBase} (hi : Inv C s)
    (hu : InvU env [] s) : InvU env [] (beat_fire env fuel s) := by
  have hrun := run_callback_ok (C := C) env fuel
  have hrunU := run_callback_U (C := C) env fuel
  unfold beat_fire
  cases hb : s.beat_waiting with
  | nil => exact hu
  | cons pm rest =>
    simp only
    have hpm := hi.beat_tbl pm (by rw [hb]; exact List.mem_cons_self _ _)
    have hi1 : Inv C { s with beat_waiting := rest } :=
      hi.frame rfl rfl (fun _ hh => hh) (fun _ _ hh => hh) hi.closed hi.fetch_tbl hi.deliv_tbl
        hi.cmd_tbl (fun p hp => hi.beat_tbl p (by rw [hb]; exact List.mem_cons_of_mem _ hp))
        hi.trace_ok
    have hu1 : InvU env [] { s with beat_waiting := rest } :=
      hu.reframe rfl rfl rfl (fun _ hh => hh) rfl
    have hso : SettleOK { s with beat_waiting := rest } pm (.fulfilled .null) := by
      refine ⟨?_, ?_, ?_⟩
      · intro x hx
        have : (s.heap pm).purpose = .deliver x := hx
        rw [hpm.2] at this; cases this
      · intro x hx
        have : (s.heap pm).purpose = .fetch x := hx
        rw [hpm.2] at this; cases this
      · intro hx
        have : (s.heap pm).purpose = .all := hx
        rw [hpm.2] at this; cases this
    exact settle_U hrun hrunU hi1 hpm.1 hso hu1

theorem step_U {C : Prop} (env : Env) (fuel : Nat) {s : HotStuffBase} (hi : Inv C s)
    (hu : InvU env [] s) (i : Input) : InvU env [] (step env fuel s i) := by
  cases i with
  | propose prop peer => exact propose_handler_U env fuel hi hu prop peer
  | vote vote peer => exact vote_handler_U env fuel hi hu vote peer
  | req_blk hs r => exact req_blk_handler_U env fuel hi hu hs r
  | resp_blk payload => exact resp_blk_handler_U env fuel hi hu payload
  | deliver h r => exact async_deliver_blk_U (run_callback_U env fuel) hi hu h r
  | command cmd => exact exec_command_U hu cmd
  | beat => exact beat_fire_U env fuel hi hu
  | set_proposer p => exact hu.reframe rfl rfl rfl (fun _ hh => hh) rfl

theorem run_inputs_U {C : Prop} (env : Env) (fuel : Nat) (inputs : List Input) :
    ∀ s : HotStuffBase, Inv C s → InvU env [] s → InvU env [] (run_inputs env fuel s inputs) := by
  induction inputs with
  | nil => intro s _ hu; exact hu
  | cons i rest ih => intro s hi hu; exact ih _ (step_ok env fuel hi i) (step_U env fuel hi hu i)

/-! ## At-most-once delivery -/

/-- Counterexample to C9 as stated: `HotStuffCore::on_deliver_blk` finds the
block of hash 1 invalid.  `async_deliver_blk(1)` is called, the block is
fetched, `on_deliver_blk` is called for it, rejects the delivery future and
erases the delivery context; the block stays fetched and not delivered.  A
second `async_deliver_blk(1)` then creates a new context and `on_deliver_blk`
is called for hash 1 a second time. -/
theorem on_deliver_blk_twice_after_invalid :
    deliver_calls 1
        (run_inputs reject1_env 3 sample_proposer
          [.deliver 1 7, .resp_blk [sample_blk1], .deliver 1 7]).trace
      = [{ blk_cache := [genesis, sample_blk1], delivered := [0], cmd_cache := [] },
         { blk_cache := [genesis, sample_blk1], delivered := [0], cmd_cache := [] }]
      ∧ deliver_calls 1
          (run_inputs reject1_env 3 sample_proposer
            [.deliver 1 7, .resp_blk [sample_blk1]]).trace
        = [{ blk_cache := [genesis, sample_blk1], delivered := [0], cmd_cache := [] }]
      ∧ table_find (run_inputs reject1_env 3 sample_proposer
            [.deliver 1 7, .resp_blk [sample_blk1]]).blk_delivery_waiting 1 = none
      ∧ (run_inputs reject1_env 3 sample_proposer
            [.deliver 1 7, .resp_blk [sample_blk1]]).storage.is_blk_delivered 1 = false := by
  decide

/-- C9 (as amended): in every run of the engine, from every initial store and
under every verdict function of the core, (1) `on_deliver_blk` is called for a
block only while its hash is not delivered; (2) of two calls of
`on_deliver_blk` for the same hash, the earlier one found the block invalid,
so no call for a hash follows a call that found the block valid, and at most
one call per hash finds it valid; (3) a call that found the block valid leaves
the hash delivered for the rest of the run. -/
theorem on_deliver_blk_once_valid (env : Env) (fuel : Nat) (id : ReplicaID)
    (blk_size : Nat) (proposer : ReplicaID) (st : EntityStorage) (inputs : List Input) :
    (∀ b store, Event.on_deliver_blk b store
        ∈ (run_inputs env fuel (HotStuffBase.init id blk_size proposer st) inputs).trace →
        store.is_blk_delivered b.hash = false)
      ∧ (∀ (i j : Nat) (b1 : Block) (st1 : EntityStorage) (b2 : Block) (st2 : EntityStorage),
          i < j →
          (run_inputs env fuel (HotStuffBase.init id blk_size proposer st) inputs).trace[i]?
            = some (Event.on_deliver_blk b1 st1) →
          (run_inputs env fuel (HotStuffBase.init id blk_size proposer st) inputs).trace[j]?
            = some (Event.on_deliver_blk b2 st2) →
          b1.hash = b2.hash → env.core_on_deliver_blk st1 b1 = false)
      ∧ (∀ b store, Event.on_deliver_blk b store
          ∈ (run_inputs env fuel (HotStuffBase.init id blk_size proposer st) inputs).trace →
          env.core_on_deliver_blk store b = true →
          (run_inputs env fuel (HotStuffBase.init id blk_size proposer st)
            inputs).storage.is_blk_delivered b.hash = true) := by
  have hi := run_inputs_ok (C := False) env fuel inputs _
    (init_ok id blk_size proposer st (fun hf => hf.elim))
  have hu := run_inputs_U (C := False) env fuel inputs _
    (init_ok id blk_size proposer st (fun hf => hf.elim)) (init_U env id blk_size proposer st)
  refine ⟨?_, ?_, ?_⟩
  · intro b store hev
    simpa [EntityStorage.is_blk_delivered] using hu.trace_fresh b store hev
  · intro i j b1 st1 b2 st2 hij h1 h2 hh
    obtain ⟨hi1, e1⟩ := List.getElem?_eq_some.1 h1
    obtain ⟨hj1, e2⟩ := List.getElem?_eq_some.1 h2
    exact List.pairwise_iff_getElem.1 hu.trace_once i j hi1 hj1 hij b1 st1 b2 st2 e1 e2 hh
  · intro b store hev hv
    simpa [EntityStorage.is_blk_delivered] using hu.trace_valid b store hev hv

/-- Witness of C9 as amended.  In the run of the counterexample the two calls
for hash 1 are the third and the sixth recorded event, and the earlier one
found the block invalid.  In a run where the core accepts the block, a second
`async_deliver_blk(1)` and a second proposal of the block call
`on_deliver_blk` no more: the one call found hash 1 not delivered and left it
delivered. -/
theorem on_deliver_blk_once_valid_witness :
    ((2 < 5
        ∧ (run_inputs reject1_env 3 (HotStuffBase.init 0 2 0 genesis_store)
            [.deliver 1 7, .resp_blk [sample_blk1], .deliver 1 7]).trace[2]?
          = some (Event.on_deliver_blk sample_blk1
              { blk_cache := [genesis, sample_blk1], delivered := [0], cmd_cache := [] })
        ∧ (run_inputs reject1_env 3 (HotStuffBase.init 0 2 0 genesis_store)
            [.deliver 1 7, .resp_blk [sample_blk1], .deliver 1 7]).trace[5]?
          = some (Event.on_deliver_blk sample_blk1
              { blk_cache := [genesis, sample_blk1], delivered := [0], cmd_cache := [] }))
      ∧ reject1_env.core_on_deliver_blk
          { blk_cache := [genesis, sample_blk1], delivered := [0], cmd_cache := [] }
          sample_blk1 = false)
    ∧ (Event.on_deliver_blk sample_blk1
          { blk_cache := [genesis, sample_blk1], delivered := [0], cmd_cache := [] }
        ∈ (run_inputs sample_env 3 (HotStuffBase.init 2 2 0 genesis_store)
            [.propose ⟨0, 0, sample_blk1⟩ 7, .deliver 1 7, .propose ⟨0, 0, sample_blk1⟩ 7]).trace
      ∧ deliver_calls 1
          (run_inputs sample_env 3 (HotStuffBase.init 2 2 0 genesis_store)
            [.propose ⟨0, 0, sample_blk1⟩ 7, .deliver 1 7, .propose ⟨0, 0, sample_blk1⟩ 7]).trace
        = [{ blk_cache := [genesis, sample_blk1], delivered := [0], cmd_cache := [] }]
      ∧ EntityStorage.is_blk_delivered
          { blk_cache := [genesis, sample_blk1], delivered := [0], cmd_cache := [] }
          sample_blk1.hash = false
      ∧ (run_inputs sample_env 3 (HotStuffBase.init 2 2 0 genesis_store)
            [.propose ⟨0, 0, sample_blk1⟩ 7, .deliver 1 7,
              .propose ⟨0, 0, sample_blk1⟩ 7]).storage.is_blk_delivered sample_blk1.hash
          = true) :=
  ⟨⟨⟨by decide, by decide, by decide⟩,
    (on_deliver_blk_once_valid reject1_env 3 0 2 0 genesis_store
      [.deliver 1 7, .resp_blk [sample_blk1], .deliver 1 7]).2.1 2 5
      sample_blk1 { blk_cache := [genesis, sample_blk1], delivered := [0], cmd_cache := [] }
      sample_blk1 { blk_cache := [genesis, sample_blk1], delivered := [0], cmd_cache := [] }
      (by decide) (by decide) (by decide) rfl⟩,
   by decide, by decide,
   (on_deliver_blk_once_valid sample_env 3 2 2 0 genesis_store
      [.propose ⟨0, 0, sample_blk1⟩ 7, .deliver 1 7, .propose ⟨0, 0, sample_blk1⟩ 7]).1
      sample_blk1 { blk_cache := [genesis, sample_blk1], delivered := [0], cmd_cache := [] } (by decide),
   (on_deliver_blk_once_valid sample_env 3 2 2 0 genesis_store
      [.propose ⟨0, 0, sample_blk1⟩ 7, .deliver 1 7, .propose ⟨0, 0, sample_blk1⟩ 7]).2.2
      sample_blk1 { blk_cache := [genesis, sample_blk1], delivered := [0], cmd_cache := [] } (by decide) rfl⟩

/-! ## Membership and start-up -/

theorem add_peer_fresh (peers : List NetAddr) (addr : NetAddr) (h : addr ∉ peers) :
    add_peer peers addr = peers ++ [addr] := by
  simp [add_peer, h]

theorem add_replicas_listen_addr (rs : List (ReplicaID × NetAddr)) :
    ∀ s : ReplicaNet, (add_replicas rs s).listen_addr = s.listen_addr
      ∧ (add_replicas rs s).started = s.started := by
  induction rs with
  | nil => intro s; exact ⟨rfl, rfl⟩
  | cons r rest ih =>
    intro s
    have h := ih (HotStuffBase.add_replica r.1 r.2 s)
    have h2 : (HotStuffBase.add_replica r.1 r.2 s).listen_addr = s.listen_addr
        ∧ (HotStuffBase.add_replica r.1 r.2 s).started = s.started := by
      unfold HotStuffBase.add_replica
      simp only
      split <;> exact ⟨rfl, rfl⟩
    simp only [add_replicas, List.foldl_cons] at h ⊢
    exact ⟨h.1.trans h2.1, h.2.trans h2.2⟩

/-- With pairwise distinct addresses, none of them a peer yet, the peers
after the calls are the old ones and the added addresses other than the
listen address. -/
theorem add_replicas_peers (rs : List (ReplicaID × NetAddr)) :
    ∀ s : ReplicaNet, (rs.map Prod.snd).Nodup → (∀ a ∈ rs.map Prod.snd, a ∉ s.peers) →
      (add_replicas rs s).peers
        = s.peers ++ (rs.map Prod.snd).filter (fun a => a != s.listen_addr) := by
  induction rs with
  | nil => intro s _ _; simp [add_replicas]
  | cons r rest ih =>
    intro s hd hn
    simp only [List.map_cons, List.nodup_cons] at hd
    have hr : r.2 ∉ s.peers := hn r.2 (by simp)
    have hl : (HotStuffBase.add_replica r.1 r.2 s).listen_addr = s.listen_addr := by
      unfold HotStuffBase.add_replica
      simp only
      split <;> rfl
    have hp : (HotStuffBase.add_replica r.1 r.2 s).peers
        = s.peers ++ [r.2].filter (fun a => a != s.listen_addr) := by
      unfold HotStuffBase.add_replica
      simp only
      by_cases hx : r.2 = s.listen_addr
      · simp [hx]
      · have hx2 : (r.2 != s.listen_addr) = true := by simpa using hx
        simp only [hx2, if_true, add_peer_fresh _ _ hr, List.filter_cons, List.filter_nil]
    have h := ih (HotStuffBase.add_replica r.1 r.2 s) hd.2 (by
      intro a ha
      rw [hp]
      simp only [List.mem_append, not_or]
      refine ⟨hn a (by simp [List.mem_map] at ha ⊢; exact Or.inr ha), ?_⟩
      intro hm
      have hm2 := List.mem_of_mem_filter hm
      simp only [List.mem_singleton] at hm2
      subst hm2
      exact hd.1 ha)
    simp only [add_replicas, List.foldl_cons] at h ⊢
    rw [h, hl, hp, List.append_assoc, List.map_cons, ← List.filter_append]
    rfl

/-- Of `n` pairwise distinct addresses one of which is `a`, `n - 1` differ
from `a`. -/
theorem length_filter_ne (l : List NetAddr) (a : NetAddr) (hd : l.Nodup) (ha : a ∈ l) :
    (l.filter (fun x => x != a)).length = l.length - 1 := by
  induction l with
  | nil => simp at ha
  | cons x rest ih =>
    simp only [List.nodup_cons] at hd
    by_cases hx : x = a
    · subst hx
      have : rest.filter (fun y => y != x) = rest := by
        rw [List.filter_eq_self]
        intro y hy
        have : y ≠ x := fun h => hd.1 (h ▸ hy)
        simpa using this
      simp [this]
    · have ha2 : a ∈ rest := by
        rcases List.mem_cons.1 ha with h | h
        · exact absurd h.symm hx
        · exact h
      have hx2 : (x != a) = true := by simpa using hx
      have hpos : 0 < rest.length := List.length_pos_of_mem ha2
      simp only [List.filter_cons, hx2, if_true, List.length_cons, ih hd.2 ha2]
      omega

/-- The peer count seen by `start`. -/
theorem add_replicas_peers_length (rs : List (ReplicaID × NetAddr)) (s : ReplicaNet)
    (hp : s.peers = []) (hd : (rs.map Prod.snd).Nodup)
    (hl : s.listen_addr ∈ rs.map Prod.snd) :
    (add_replicas rs s).peers.length = rs.length - 1 := by
  rw [add_replicas_peers rs s hd (by intro a _; rw [hp]; simp), hp, List.nil_append,
    length_filter_ne _ _ hd hl, List.length_map]

theorem sample_replicas_addrs (n : Nat) : (sample_replicas n).map Prod.snd = List.range n := by
  simp [sample_replicas, List.map_map, Function.comp_def]

/-- What `start` does when the narrowed quotient is zero. -/
theorem start_narrowed_zero (s : ReplicaNet) (h : (s.peers.length / 3) % 2 ^ 32 = 0) :
    (HotStuffBase.start false s).started
      = s.started ++ [.warn_too_few_replicas, .pmaker_init, .on_init 0] := by
  have h2 : s.peers.length / 3 % 4294967296 = 0 := h
  unfold HotStuffBase.start
  simp [h2]

/-- Counterexample to C11 as stated: `n = 3 * 2^32 + 1` replicas with the
addresses `0, …, 3 * 2^32`, the first being the listen address.  The peer
count is `3 * 2^32`, its third is `2^32`, and narrowed to `uint32_t` that is
`0`: the warning is logged and `on_init(0)` is called although `n > 3` and
`⌊(n - 1) / 3⌋ = 2^32`. -/
theorem start_nfaulty_narrowed :
    (HotStuffBase.start false
        (add_replicas (sample_replicas (3 * 2 ^ 32 + 1)) (ReplicaNet.init 0))).started
      = [.warn_too_few_replicas, .pmaker_init, .on_init 0]
      ∧ ((sample_replicas (3 * 2 ^ 32 + 1)).map Prod.snd).Nodup
      ∧ (ReplicaNet.init 0).listen_addr ∈ (sample_replicas (3 * 2 ^ 32 + 1)).map Prod.snd
      ∧ ¬ (sample_replicas (3 * 2 ^ 32 + 1)).length ≤ 3
      ∧ ((sample_replicas (3 * 2 ^ 32 + 1)).length - 1) / 3 = 2 ^ 32 := by
  have hd : ((sample_replicas (3 * 2 ^ 32 + 1)).map Prod.snd).Nodup := by
    rw [sample_replicas_addrs]; exact List.nodup_range _
  have hl : (ReplicaNet.init 0).listen_addr ∈ (sample_replicas (3 * 2 ^ 32 + 1)).map Prod.snd := by
    rw [sample_replicas_addrs]; exact List.mem_range.2 (Nat.succ_pos _)
  have hn : (sample_replicas (3 * 2 ^ 32 + 1)).length = 3 * 2 ^ 32 + 1 := by
    unfold sample_replicas
    rw [List.length_map, List.length_range]
  have hlen := add_replicas_peers_length _ (ReplicaNet.init 0) rfl hd hl
  have hst := (add_replicas_listen_addr (sample_replicas (3 * 2 ^ 32 + 1)) (ReplicaNet.init 0)).2
  refine ⟨?_, hd, hl, ?_, ?_⟩
  · have hq : ((add_replicas (sample_replicas (3 * 2 ^ 32 + 1)) (ReplicaNet.init 0)).peers.length
        / 3) % 2 ^ 32 = 0 := by
      rw [hlen, hn]; norm_num
    rw [start_narrowed_zero _ hq, hst]
    rfl
  · rw [hn]; norm_num
  · rw [hn]; norm_num

/-- C11 (as amended): after `add_replica` has been called for `n ≥ 1` replicas
with pairwise distinct addresses, one of which is the listen address, and with
`⌊(n - 1) / 3⌋ < 2^32`, `start` passes `nfaulty = ⌊(n - 1) / 3⌋` to `on_init`
(which is `f` when `n = 3 f + 1`), after `pmaker->init`, and logs the warning
before them exactly when `n ≤ 3`, in which case `nfaulty = 0`. -/
theorem start_nfaulty (s : ReplicaNet) (rs : List (ReplicaID × NetAddr)) (eb_loop : Bool)
    (hp : s.peers = []) (hd : (rs.map Prod.snd).Nodup)
    (hl : s.listen_addr ∈ rs.map Prod.snd) (hb : (rs.length - 1) / 3 < 2 ^ 32) :
    1 ≤ rs.length
      ∧ (HotStuffBase.start eb_loop (add_replicas rs s)).started
        = s.started ++ (if rs.length ≤ 3 then [.warn_too_few_replicas] else [])
            ++ [.pmaker_init, .on_init ((rs.length - 1) / 3)]
            ++ (if eb_loop then [.dispatch] else [])
      ∧ (rs.length ≤ 3 → (rs.length - 1) / 3 = 0)
      ∧ (∀ f, rs.length = 3 * f + 1 → (rs.length - 1) / 3 = f) := by
  have hlen := add_replicas_peers_length rs s hp hd hl
  have hst := (add_replicas_listen_addr rs s).2
  have hpos : 1 ≤ rs.length := by
    have := List.length_pos_of_mem hl
    simpa using this
  refine ⟨hpos, ?_, ?_, ?_⟩
  · unfold HotStuffBase.start
    simp only [hlen, hst, Nat.mod_eq_of_lt hb]
    by_cases h3 : rs.length ≤ 3
    · have h0 : (rs.length - 1) / 3 = 0 := by omega
      cases eb_loop <;> simp [h3, h0, hst]
    · have h0 : ¬ (rs.length - 1) / 3 = 0 := by omega
      cases eb_loop <;> simp [h3, h0, hst]
  · intro h3; omega
  · intro f hf; omega

/-- Witness of C11 as amended: four replicas tolerate one fault and no
warning is logged; a single replica starts with the warning and
`nfaulty = 0`. -/
theorem start_nfaulty_witness :
    ((HotStuffBase.start false (add_replicas (sample_replicas 4) (ReplicaNet.init 2))).started
        = [.pmaker_init, .on_init 1])
      ∧ ((HotStuffBase.start true (add_replicas (sample_replicas 1) (ReplicaNet.init 0))).started
        = [.warn_too_few_replicas, .pmaker_init, .on_init 0, .dispatch]) :=
  ⟨(start_nfaulty (ReplicaNet.init 2) (sample_replicas 4) false rfl (by decide) (by decide)
      (by decide)).2.1,
   (start_nfaulty (ReplicaNet.init 0) (sample_replicas 1) true rfl (by decide) (by decide)
      (by decide)).2.1⟩

/-! ## Accounting of deliveries -/

theorem valid_calls_append (env : Env) (a b : List Event) :
    valid_calls env (a ++ b) = valid_calls env a + valid_calls env b := by
  simp [valid_calls, List.countP_append]

theorem valid_parents_append (env : Env) (a b : List Event) :
    valid_parents env (a ++ b) = valid_parents env a + valid_parents env b := by
  simp [valid_parents, List.map_append, List.sum_append]

theorem called_hashes_append (a b : List Event) :
    called_hashes (a ++ b) = called_hashes a ++ called_hashes b := by
  simp [called_hashes, List.filterMap_append]

theorem Acct.append_events {env : Env} {e1 e2 : List Event} {s t u : HotStuffBase}
    (h1 : Acct env e1 s t) (h2 : Acct env e2 t u) : Acct env (e1 ++ e2) s u := by
  refine ⟨Nat.le_trans h1.next_le h2.next_le, ?_, h2.blk_size_eq.trans h1.blk_size_eq,
    h2.cmd_pending_eq.trans h1.cmd_pending_eq, ?_, ?_, ?_, ?_, ?_⟩
  · intro p hp hs
    have h := h1.settled p hp hs
    rw [← h]
    exact h2.settled p (Nat.lt_of_lt_of_le hp h1.next_le) (by rw [h]; exact hs)
  · rw [h2.trace_eq, h1.trace_eq, List.append_assoc]
  · rw [h2.delivered_eq, h1.delivered_eq, valid_calls_append, Nat.add_assoc]
  · rw [h2.part_delivered_eq, h1.part_delivered_eq, valid_calls_append, Nat.add_assoc]
  · rw [h2.part_parent_size_eq, h1.part_parent_size_eq, valid_parents_append, Nat.add_assoc]
  · intro h pm hf
    rw [called_hashes_append]
    rcases h1.waiting_kept h pm hf with hk | hk
    · rcases h2.waiting_kept h pm hk with hk2 | hk2
      · exact Or.inl hk2
      · exact Or.inr (List.mem_append_right _ hk2)
    · exact Or.inr (List.mem_append_left _ hk)

theorem Acc.same (env : Env) (s : HotStuffBase) : Acc env s s :=
  ⟨[], ⟨Nat.le_refl _, fun _ _ _ => rfl, rfl, rfl, (List.append_nil _).symm, rfl, rfl, rfl,
    fun _ _ hf => Or.inl hf⟩⟩

theorem Acc.seq {env : Env} {s t u : HotStuffBase} (h1 : Acc env s t) (h2 : Acc env t u) :
    Acc env s u := by
  obtain ⟨e1, a1⟩ := h1
  obtain ⟨e2, a2⟩ := h2
  exact ⟨e1 ++ e2, a1.append_events a2⟩

/-- A step that leaves the accounted fields alone. -/
theorem Acc.of_eq {env : Env} {s t : HotStuffBase} (hn : s.next ≤ t.next)
    (hh : ∀ p, p < s.next → (s.heap p).state ≠ .pending → (t.heap p).state = (s.heap p).state)
    (hb : t.blk_size = s.blk_size) (hc : t.cmd_pending = s.cmd_pending)
    (ht : t.trace = s.trace) (hd : t.delivered = s.delivered)
    (hpd : t.part_delivered = s.part_delivered)
    (hps : t.part_parent_size = s.part_parent_size)
    (hw : ∀ h pm, table_find s.blk_delivery_waiting h = some pm →
      table_find t.blk_delivery_waiting h = some pm) : Acc env s t :=
  ⟨[], ⟨hn, hh, hb, hc, by rw [ht, List.append_nil], by rw [hd]; rfl, by rw [hpd]; rfl,
    by rw [hps]; rfl, fun h pm hf => Or.inl (hw h pm hf)⟩⟩

theorem Acc.of_log {env : Env} (s : HotStuffBase) (e : Event)
    (he : ∀ b st, e ≠ .on_deliver_blk b st) : Acc env s (s.log e) := by
  have h1 : valid_calls env [e] = 0 := by
    cases e <;> first | rfl | exact absurd rfl (he _ _)
  have h2 : valid_parents env [e] = 0 := by
    cases e <;> first | rfl | exact absurd rfl (he _ _)
  exact ⟨[e], ⟨Nat.le_refl _, fun _ _ _ => rfl, rfl, rfl, rfl, by rw [h1]; rfl, by rw [h1]; rfl,
    by rw [h2]; rfl, fun _ _ hf => Or.inl hf⟩⟩

theorem Acc.of_new_promise {env : Env} (s : HotStuffBase) (c : Promise) :
    Acc env s (s.new_promise c).1 := by
  refine Acc.of_eq (Nat.le_succ _) ?_ rfl rfl rfl rfl rfl rfl (fun _ _ hf => hf)
  intro p hp _
  have hne : p ≠ s.next := Nat.ne_of_lt hp
  simp [HotStuffBase.new_promise, hne]

theorem Acc.of_set_promise {env : Env} (s : HotStuffBase) (p : PId) (c : Promise)
    (hc : (s.heap p).state ≠ .pending → c.state = (s.heap p).state) :
    Acc env s (s.set_promise p c) := by
  refine Acc.of_eq (Nat.le_refl _) ?_ rfl rfl rfl rfl rfl rfl (fun _ _ hf => hf)
  intro q _ hs
  by_cases hq : q = p
  · subst hq
    simp [HotStuffBase.set_promise, hc hs]
  · simp [HotStuffBase.set_promise, hq]

theorem settle_fold_A {env : Env} {run : Callback → Outcome → HotStuffBase → HotStuffBase}
    (hrun : RunA env run) (o : Outcome) (ks : List Callback) :
    ∀ s, Acc env s (ks.foldl (fun acc k => run k o acc) s) := by
  induction ks with
  | nil => intro s; exact Acc.same env s
  | cons k rest ih => intro s; exact (hrun k o s).seq (ih _)

theorem settle_A {env : Env} {run : Callback → Outcome → HotStuffBase → HotStuffBase}
    (hrun : RunA env run) (p : PId) (o : Outcome) (s : HotStuffBase) :
    Acc env s (settle run p o s) := by
  unfold settle
  cases hst : (s.heap p).state with
  | pending =>
    simp only
    exact (Acc.of_set_promise s p _ (fun h => absurd hst h)).seq (settle_fold_A hrun o _ _)
  | resolved v => exact Acc.same env s
  | rejected => exact Acc.same env s

/-- A pending promise below the next free handle has the outcome as its state
after `settle`. -/
theorem settle_state {env : Env} {run : Callback → Outcome → HotStuffBase → HotStuffBase}
    (hrun : RunA env run) (p : PId) (o : Outcome) (s : HotStuffBase) (hp : p < s.next)
    (hst : (s.heap p).state = .pending) :
    ((settle run p o s).heap p).state = o.to_state := by
  unfold settle
  simp only [hst]
  obtain ⟨evs, a⟩ := settle_fold_A hrun o (s.heap p).callbacks
    (s.set_promise p { s.heap p with state := o.to_state, callbacks := [] })
  have h := a.settled p hp (by
    simp only [HotStuffBase.set_promise, if_true]
    cases o <;> simp [Outcome.to_state])
  rw [h]
  simp [HotStuffBase.set_promise]

theorem promise_then_A {env : Env} {run : Callback → Outcome → HotStuffBase → HotStuffBase}
    (hrun : RunA env run) (p : PId) (k : Callback) (s : HotStuffBase) :
    Acc env s (promise_then run p k s) := by
  unfold promise_then
  cases hst : (s.heap p).state with
  | pending => exact Acc.of_set_promise s p _ (fun _ => rfl)
  | resolved v => exact hrun _ _ _
  | rejected => exact hrun _ _ _

theorem all_check_A {env : Env} {run : Callback → Outcome → HotStuffBase → HotStuffBase}
    (hrun : RunA env run) (ret : PId) (s : HotStuffBase) : Acc env s (all_check run ret s) := by
  unfold all_check
  split
  · exact settle_A hrun _ _ _
  · exact Acc.same env s

theorem promise_all_fold_A {env : Env} {run : Callback → Outcome → HotStuffBase → HotStuffBase}
    (hrun : RunA env run) (k : Callback) (l : List PId) :
    ∀ s, Acc env s (l.foldl (fun acc pm => promise_then run pm k acc) s) := by
  induction l with
  | nil => intro s; exact Acc.same env s
  | cons q rest ih => intro s; exact (promise_then_A hrun q k s).seq (ih _)

theorem promise_all_A {env : Env} {run : Callback → Outcome → HotStuffBase → HotStuffBase}
    (hrun : RunA env run) (l : List PId) (s : HotStuffBase) :
    Acc env s (promise_all run l s).1 := by
  unfold promise_all
  simp only
  exact ((Acc.of_new_promise s _).seq (promise_all_fold_A hrun _ l _)).seq
    (all_check_A hrun _ _)

theorem async_fetch_blk_A {env : Env} (h : Hash) (r : Option NetAddr) (s : HotStuffBase) :
    Acc env s (async_fetch_blk h r s).1 := by
  have h0 : Acc env s (s.log (.async_fetch_blk h r)) :=
    Acc.of_log s _ (fun _ _ hh => by cases hh)
  refine h0.seq ?_
  unfold async_fetch_blk
  simp only
  cases hf : (s.log (.async_fetch_blk h r)).storage.find_blk h with
  | some b => exact Acc.of_new_promise _ _
  | none =>
    simp only
    have h1 : Acc env (s.log (.async_fetch_blk h r))
        (match table_find (s.log (.async_fetch_blk h r)).blk_fetch_waiting h with
          | some ctx => ((s.log (.async_fetch_blk h r)), ctx)
          | none =>
            ({ ((s.log (.async_fetch_blk h r)).new_promise
                  (Promise.mk .pending [] [] (.fetch h))).1 with
                blk_fetch_waiting :=
                  ((s.log (.async_fetch_blk h r)).new_promise
                    (Promise.mk .pending [] [] (.fetch h))).1.blk_fetch_waiting
                  ++ [(h, BlockFetchContext.mk ((s.log (.async_fetch_blk h r)).new_promise
                    (Promise.mk .pending [] [] (.fetch h))).2 [])] },
             BlockFetchContext.mk ((s.log (.async_fetch_blk h r)).new_promise
                    (Promise.mk .pending [] [] (.fetch h))).2 [])).1 := by
      split
      · exact Acc.same env _
      · exact (Acc.of_new_promise _ _).seq
          (Acc.of_eq (Nat.le_refl _) (fun _ _ _ => rfl) rfl rfl rfl rfl rfl rfl
            (fun _ _ hh => hh))
    cases r with
    | none => exact h1
    | some rid =>
      exact h1.seq (Acc.of_eq (Nat.le_refl _) (fun _ _ _ => rfl) rfl rfl rfl rfl rfl rfl
        (fun _ _ hh => hh))

theorem async_deliver_blk_A {env : Env} {run : Callback → Outcome → HotStuffBase → HotStuffBase}
    (hrun : RunA env run) (h : Hash) (r : NetAddr) (s : HotStuffBase) :
    Acc env s (async_deliver_blk run h r s).1 := by
  unfold async_deliver_blk
  split
  · exact Acc.of_new_promise _ _
  · cases hf : table_find s.blk_delivery_waiting h with
    | some pm => exact Acc.same env s
    | none =>
      simp only
      have h1 : Acc env s
          { (s.new_promise (Promise.mk .pending [] [] (.deliver h))).1 with
            blk_delivery_waiting :=
              (s.new_promise (Promise.mk .pending [] [] (.deliver h))).1.blk_delivery_waiting
                ++ [(h, (s.new_promise (Promise.mk .pending [] [] (.deliver h))).2)] } :=
        (Acc.of_new_promise s _).seq
          (Acc.of_eq (Nat.le_refl _) (fun _ _ _ => rfl) rfl rfl rfl rfl rfl rfl
            (fun _ _ hh => table_find_append_old _ _ _ _ hh))
      exact (h1.seq (async_fetch_blk_A h (some r) _)).seq (promise_then_A hrun _ _ _)

theorem deliver_deps_A {env : Env} {run : Callback → Outcome → HotStuffBase → HotStuffBase}
    (hrun : RunA env run) (b : Block) (r : NetAddr) (s : HotStuffBase) :
    Acc env s (deliver_deps run b r s).1 := by
  unfold deliver_deps
  simp only
  have h1 : Acc env s (match b.qc with
      | some h => ((async_fetch_blk h (some r) s).1, [(async_fetch_blk h (some r) s).2])
      | none => (s, [])).1 := by
    cases b.qc with
    | none => exact Acc.same env s
    | some h => exact async_fetch_blk_A h (some r) s
  have h2 := collect_keep (fun phash acc => async_deliver_blk run phash r acc)
    (fun t => Acc env s t)
    (fun a t ht => ht.seq (async_deliver_blk_A hrun a r t)) b.parent_hashes _ h1
  exact h2.seq (promise_all_A hrun _ _)

theorem Acct.erase_called {env : Env} {evs : List Event} {s t : HotStuffBase} {h : Hash}
    (a : Acct env evs s t) (hc : h ∈ called_hashes evs) :
    Acct env evs s { t with blk_delivery_waiting := table_erase t.blk_delivery_waiting h } := by
  refine ⟨a.next_le, a.settled, a.blk_size_eq, a.cmd_pending_eq, a.trace_eq, a.delivered_eq,
    a.part_delivered_eq, a.part_parent_size_eq, ?_⟩
  intro g pm hf
  by_cases hg : g = h
  · subst hg; exact Or.inr hc
  · rcases a.waiting_kept g pm hf with hk | hk
    · left
      show table_find (table_erase t.blk_delivery_waiting h) g = some pm
      rw [table_find_erase_ne _ _ _ hg]; exact hk
    · exact Or.inr hk

/-- The part of `on_deliver_blk` before the delivery context is looked up:
the call is recorded and, for a valid block, the flag and the counters are
set. -/
theorem on_deliver_blk_head_A (env : Env) (blk : Block) (s : HotStuffBase) :
    Acct env [.on_deliver_blk blk s.storage] s
      (if env.core_on_deliver_blk s.storage blk then
        { (s.log (.on_deliver_blk blk s.storage)) with
          storage := s.storage.mark_blk_delivered blk.hash,
          part_parent_size := s.part_parent_size + blk.parent_hashes.length,
          part_delivered := s.part_delivered + 1,
          delivered := s.delivered + 1 }
      else s.log (.on_deliver_blk blk s.storage)) := by
  by_cases hv : env.core_on_deliver_blk s.storage blk = true
  · simp only [hv, if_true]
    exact ⟨Nat.le_refl _, fun _ _ _ => rfl, rfl, rfl, rfl,
      by simp [valid_calls, Event.valid_call, hv],
      by simp [valid_calls, Event.valid_call, hv],
      by simp [valid_parents, Event.valid_parents, hv], fun _ _ hf => Or.inl hf⟩
  · have hv2 : env.core_on_deliver_blk s.storage blk = false := by simpa using hv
    simp only [hv2, Bool.false_eq_true, if_false]
    exact ⟨Nat.le_refl _, fun _ _ _ => rfl, rfl, rfl, rfl,
      by simp [valid_calls, Event.valid_call, hv2, HotStuffBase.log],
      by simp [valid_calls, Event.valid_call, hv2, HotStuffBase.log],
      by simp [valid_parents, Event.valid_parents, hv2, HotStuffBase.log],
      fun _ _ hf => Or.inl hf⟩

theorem on_deliver_blk_A {env : Env} {run : Callback → Outcome → HotStuffBase → HotStuffBase}
    (hrun : RunA env run) (blk : Block) (s : HotStuffBase) :
    ∃ evs, Acct env (.on_deliver_blk blk s.storage :: evs) s (on_deliver_blk env run blk s) := by
  have h0 := on_deliver_blk_head_A env blk s
  have hc : blk.hash ∈ called_hashes [Event.on_deliver_blk blk s.storage] := by
    simp [called_hashes, Event.called_hash]
  have key : ∀ s1 : HotStuffBase, Acct env [.on_deliver_blk blk s.storage] s s1 →
      ∃ evs, Acct env (.on_deliver_blk blk s.storage :: evs) s
        (match table_find s1.blk_delivery_waiting blk.hash with
          | some pm =>
            { (if env.core_on_deliver_blk s.storage blk
                then settle run pm (.fulfilled (.blk blk)) s1
                else settle run pm .rejected s1) with
              blk_delivery_waiting := table_erase
                (if env.core_on_deliver_blk s.storage blk
                  then settle run pm (.fulfilled (.blk blk)) s1
                  else settle run pm .rejected s1).blk_delivery_waiting blk.hash }
          | none => s1) := by
    intro s1 a1
    cases htf : table_find s1.blk_delivery_waiting blk.hash with
    | none => exact ⟨[], a1⟩
    | some pm =>
      simp only
      have hs : Acc env s1 (if env.core_on_deliver_blk s.storage blk
          then settle run pm (.fulfilled (.blk blk)) s1
          else settle run pm .rejected s1) := by
        split
        · exact settle_A hrun _ _ _
        · exact settle_A hrun _ _ _
      obtain ⟨evs, a2⟩ := hs
      refine ⟨evs, (a1.append_events a2).erase_called ?_⟩
      rw [called_hashes_append]
      exact List.mem_append_left _ hc
  exact key _ h0

theorem on_deliver_blk_Acc {env : Env} {run : Callback → Outcome → HotStuffBase → HotStuffBase}
    (hrun : RunA env run) (blk : Block) (s : HotStuffBase) :
    Acc env s (on_deliver_blk env run blk s) := by
  obtain ⟨evs, a⟩ := on_deliver_blk_A hrun blk s
  exact ⟨_, a⟩

/-- Every run of the callback interpreter has an account, at every depth. -/
theorem run_callback_A (env : Env) : ∀ n, RunA env (run_callback env n) := by
  intro n
  induction n with
  | zero =>
    intro k o s
    rw [run_callback_zero]
    exact Acc.same env s
  | succ n ih =>
    intro k o s
    cases k with
    | deliver_fetched r =>
      cases o with
      | rejected => simp only [run_callback]; exact Acc.same env s
      | fulfilled v =>
        cases v with
        | null => simp only [run_callback]; exact Acc.same env s
        | values bs => simp only [run_callback]; exact Acc.same env s
        | fin f => simp only [run_callback]; exact Acc.same env s
        | blk b =>
          simp only [run_callback]
          exact (deliver_deps_A ih b r s).seq (promise_then_A ih _ _ _)
    | deliver_ready b =>
      cases o with
      | rejected => simp only [run_callback]; exact Acc.same env s
      | fulfilled v =>
        simp only [run_callback]
        exact on_deliver_blk_Acc ih b s
    | all_part ret =>
      cases o with
      | rejected => simp only [run_callback]; exact settle_A ih _ _ _
      | fulfilled v => simp only [run_callback]; exact all_check_A ih _ _
    | receive_proposal prop =>
      cases o with
      | rejected => simp only [run_callback]; exact Acc.same env s
      | fulfilled v =>
        simp only [run_callback]
        exact Acc.of_log s _ (fun _ _ hh => by cases hh)
    | receive_vote vote =>
      cases o with
      | rejected => simp only [run_callback]; exact Acc.same env s
      | fulfilled v =>
        simp only [run_callback]
        exact Acc.of_log s _ (fun _ _ hh => by cases hh)
    | send_resp_blk replica =>
      cases o with
      | rejected => simp only [run_callback]; exact Acc.same env s
      | fulfilled v =>
        cases v with
        | values bs =>
          simp only [run_callback]
          exact Acc.of_log s _ (fun _ _ hh => by cases hh)
        | null => simp only [run_callback]; exact Acc.same env s
        | blk b => simp only [run_callback]; exact Acc.same env s
        | fin f => simp only [run_callback]; exact Acc.same env s
    | propose cmds =>
      cases o with
      | rejected => simp only [run_callback]; exact Acc.same env s
      | fulfilled v =>
        simp only [run_callback]
        exact Acc.of_log s _ (fun _ _ hh => by cases hh)
    | send_resp_cmd addr =>
      cases o with
      | rejected => simp only [run_callback]; exact Acc.same env s
      | fulfilled v =>
        cases v with
        | fin f =>
          simp only [run_callback]
          exact Acc.of_log s _ (fun _ _ hh => by cases hh)
        | null => simp only [run_callback]; exact Acc.same env s
        | blk b => simp only [run_callback]; exact Acc.same env s
        | values bs => simp only [run_callback]; exact Acc.same env s

/-! ### Rejection leaves everything but the promise heap alone -/

theorem Quiet.unchanged (s : HotStuffBase) : Quiet s s :=
  ⟨rfl, rfl, rfl, rfl, rfl, rfl, rfl, fun _ _ => rfl⟩

theorem Quiet.chain {s t u : HotStuffBase} (h1 : Quiet s t) (h2 : Quiet t u) : Quiet s u := by
  refine ⟨h2.next_eq.trans h1.next_eq, h2.storage_eq.trans h1.storage_eq,
    h2.trace_eq.trans h1.trace_eq, h2.delivered_eq.trans h1.delivered_eq,
    h2.part_delivered_eq.trans h1.part_delivered_eq,
    h2.part_parent_size_eq.trans h1.part_parent_size_eq,
    h2.waiting_eq.trans h1.waiting_eq, ?_⟩
  intro p hs
  have h := h1.settled p hs
  rw [← h]
  exact h2.settled p (by rw [h]; exact hs)

theorem settle_rejected_quiet {run : Callback → Outcome → HotStuffBase → HotStuffBase}
    (hrun : ∀ k s, Quiet s (run k .rejected s)) (p : PId) (s : HotStuffBase) :
    Quiet s (settle run p .rejected s) := by
  unfold settle
  cases hst : (s.heap p).state with
  | resolved v => exact Quiet.unchanged s
  | rejected => exact Quiet.unchanged s
  | pending =>
    simp only
    have h1 : Quiet s (s.set_promise p
        { s.heap p with state := Outcome.rejected.to_state, callbacks := [] }) := by
      refine ⟨rfl, rfl, rfl, rfl, rfl, rfl, rfl, ?_⟩
      intro q hs
      by_cases hq : q = p
      · subst hq; exact absurd hst hs
      · simp [HotStuffBase.set_promise, hq]
    have h2 : ∀ (ks : List Callback) (t : HotStuffBase),
        Quiet t (ks.foldl (fun acc k => run k .rejected acc) t) := by
      intro ks
      induction ks with
      | nil => intro t; exact Quiet.unchanged t
      | cons k rest ih => intro t; exact (hrun k t).chain (ih _)
    exact h1.chain (h2 _ _)

/-- A callback that is handed a rejection changes nothing but the states of
promises, at every depth. -/
theorem run_callback_rejected_quiet (env : Env) :
    ∀ n k s, Quiet s (run_callback env n k .rejected s) := by
  intro n
  induction n with
  | zero => intro k s; rw [run_callback_zero]; exact Quiet.unchanged s
  | succ n ih =>
    intro k s
    cases k with
    | all_part ret =>
      simp only [run_callback]
      exact settle_rejected_quiet ih ret s
    | deliver_fetched r => simp only [run_callback]; exact Quiet.unchanged s
    | deliver_ready b => simp only [run_callback]; exact Quiet.unchanged s
    | receive_proposal prop => simp only [run_callback]; exact Quiet.unchanged s
    | receive_vote vote => simp only [run_callback]; exact Quiet.unchanged s
    | send_resp_blk replica => simp only [run_callback]; exact Quiet.unchanged s
    | propose cmds => simp only [run_callback]; exact Quiet.unchanged s
    | send_resp_cmd addr => simp only [run_callback]; exact Quiet.unchanged s

/-! ### Accounts of the handlers -/

theorem on_fetch_cmd_A {env : Env} {run : Callback → Outcome → HotStuffBase → HotStuffBase}
    (hrun : RunA env run) (cmd : Command) (s : HotStuffBase) :
    Acc env s (on_fetch_cmd run cmd s) := by
  unfold on_fetch_cmd
  cases table_find s.cmd_fetch_waiting cmd.hash with
  | none => exact Acc.same env s
  | some pm =>
    simp only
    exact (settle_A hrun pm _ s).seq
      (Acc.of_eq (Nat.le_refl _) (fun _ _ _ => rfl) rfl rfl rfl rfl rfl rfl (fun _ _ hh => hh))

theorem on_fetch_cmd_fold_A {env : Env} {run : Callback → Outcome → HotStuffBase → HotStuffBase}
    (hrun : RunA env run) (cmds : List Command) :
    ∀ s, Acc env s (cmds.foldl (fun acc cmd => on_fetch_cmd run cmd acc) s) := by
  induction cmds with
  | nil => intro s; exact Acc.same env s
  | cons c rest ih => intro s; exact (on_fetch_cmd_A hrun c s).seq (ih _)

theorem on_fetch_blk_A {env : Env} {run : Callback → Outcome → HotStuffBase → HotStuffBase}
    (hrun : RunA env run) (blk : Block) (s : HotStuffBase) :
    Acc env s (on_fetch_blk run blk s) := by
  have h1 : Acc env s { s with part_fetched := s.part_fetched + 1, fetched := s.fetched + 1 } :=
    Acc.of_eq (Nat.le_refl _) (fun _ _ _ => rfl) rfl rfl rfl rfl rfl rfl (fun _ _ hh => hh)
  have h2 := h1.seq (on_fetch_cmd_fold_A hrun blk.cmds _)
  unfold on_fetch_blk
  simp only
  cases table_find (blk.cmds.foldl (fun acc cmd => on_fetch_cmd run cmd acc)
      { s with part_fetched := s.part_fetched + 1,
               fetched := s.fetched + 1 }).blk_fetch_waiting blk.hash with
  | none => exact h2
  | some ctx =>
    simp only
    exact (h2.seq (settle_A hrun ctx.pm _ _)).seq
      (Acc.of_eq (Nat.le_refl _) (fun _ _ _ => rfl) rfl rfl rfl rfl rfl rfl (fun _ _ hh => hh))

theorem join_two_A (env : Env) (fuel : Nat) (s : HotStuffBase) (h1 h2 : Hash) (peer : NetAddr)
    (k : Callback) :
    Acc env s (promise_then (run_callback env fuel)
        (promise_all (run_callback env fuel)
          [(async_deliver_blk (run_callback env fuel) h1 peer s).2,
           (async_deliver_blk (run_callback env fuel) h2 peer
              (async_deliver_blk (run_callback env fuel) h1 peer s).1).2]
          (async_deliver_blk (run_callback env fuel) h2 peer
              (async_deliver_blk (run_callback env fuel) h1 peer s).1).1).2 k
        (promise_all (run_callback env fuel)
          [(async_deliver_blk (run_callback env fuel) h1 peer s).2,
           (async_deliver_blk (run_callback env fuel) h2 peer
              (async_deliver_blk (run_callback env fuel) h1 peer s).1).2]
          (async_deliver_blk (run_callback env fuel) h2 peer
              (async_deliver_blk (run_callback env fuel) h1 peer s).1).1).1) := by
  have hrun := run_callback_A env fuel
  exact (((async_deliver_blk_A hrun h1 peer s).seq (async_deliver_blk_A hrun h2 peer _)).seq
    (promise_all_A hrun _ _)).seq (promise_then_A hrun _ _ _)

theorem propose_handler_A (env : Env) (fuel : Nat) (prop : Proposal) (peer : NetAddr)
    (s : HotStuffBase) : Acc env s (propose_handler env fuel prop peer s) := by
  have h1 : Acc env s { s with storage := (s.storage.add_blk prop.blk).1 } :=
    Acc.of_eq (Nat.le_refl _) (fun _ _ _ => rfl) rfl rfl rfl rfl rfl rfl (fun _ _ hh => hh)
  unfold propose_handler
  simp only
  exact h1.seq (join_two_A env fuel _ _ _ peer _)

theorem vote_handler_A (env : Env) (fuel : Nat) (vote : Vote) (peer : NetAddr)
    (s : HotStuffBase) : Acc env s (vote_handler env fuel vote peer s) := by
  unfold vote_handler
  simp only
  exact join_two_A env fuel _ _ _ peer _

theorem req_blk_handler_A (env : Env) (fuel : Nat) (blk_hashes : List Hash) (replica : NetAddr)
    (s : HotStuffBase) : Acc env s (req_blk_handler env fuel blk_hashes replica s) := by
  have hrun := run_callback_A env fuel
  unfold req_blk_handler
  simp only
  have h1 := collect_keep (fun h acc => async_fetch_blk h none acc) (fun t => Acc env s t)
    (fun a t ht => ht.seq (async_fetch_blk_A a none t)) blk_hashes s (Acc.same env s)
  exact (h1.seq (promise_all_A hrun _ _)).seq (promise_then_A hrun _ _ _)

theorem on_fetch_blk_fold_A {env : Env} {run : Callback → Outcome → HotStuffBase → HotStuffBase}
    (hrun : RunA env run) (l : List (Option Block)) :
    ∀ s, Acc env s (l.foldl (fun acc blk =>
        match blk with
        | some b => on_fetch_blk run b acc
        | none => acc) s) := by
  induction l with
  | nil => intro s; exact Acc.same env s
  | cons x rest ih =>
    intro s
    cases x with
    | none => exact ih s
    | some b => exact (on_fetch_blk_A hrun b s).seq (ih _)

theorem resp_blk_handler_A (env : Env) (fuel : Nat) (payload : List Block) (s : HotStuffBase) :
    Acc env s (resp_blk_handler env fuel payload s) := by
  have hrun := run_callback_A env fuel
  unfold resp_blk_handler MsgRespBlock.postponed_parse
  simp only
  have h1 := collect_keep
    (fun _blk (acc : HotStuffBase) =>
      if !env.verify _blk then
        ({ acc with storage := (acc.storage.add_blk _blk).1 },
          some (acc.storage.add_blk _blk).2)
      else
        (acc, none))
    (fun t => Acc env s t)
    (fun a t ht => by
      by_cases hv : env.verify a = true
      · simp only [hv, Bool.not_true, Bool.false_eq_true, if_false]
        exact ht
      · have hv2 : env.verify a = false := by simpa using hv
        simp only [hv2, Bool.not_false, if_true]
        exact ht.seq (Acc.of_eq (Nat.le_refl _) (fun _ _ _ => rfl) rfl rfl rfl rfl rfl rfl
          (fun _ _ hh => hh)))
    payload s (Acc.same env s)
  exact h1.seq (on_fetch_blk_fold_A hrun _ _)

theorem beat_fire_A (env : Env) (fuel : Nat) (s : HotStuffBase) :
    Acc env s (beat_fire env fuel s) := by
  unfold beat_fire
  cases hb : s.beat_waiting with
  | nil => exact Acc.same env s
  | cons pm rest =>
    simp only
    have h1 : Acc env s { s with beat_waiting := rest } :=
      Acc.of_eq (Nat.le_refl _) (fun _ _ _ => rfl) rfl rfl rfl rfl rfl rfl (fun _ _ hh => hh)
    exact h1.seq (settle_A (run_callback_A env fuel) pm _ _)

/-! ### Settled promises over whole runs -/

theorem Stay.here (s : HotStuffBase) : Stay s s := ⟨Nat.le_refl _, fun _ _ _ => rfl⟩

theorem Stay.later {s t u : HotStuffBase} (h1 : Stay s t) (h2 : Stay t u) : Stay s u := by
  refine ⟨Nat.le_trans h1.1 h2.1, ?_⟩
  intro p hp hs
  have h := h1.2 p hp hs
  rw [← h]
  exact h2.2 p (Nat.lt_of_lt_of_le hp h1.1) (by rw [h]; exact hs)

theorem Acc.stay {env : Env} {s t : HotStuffBase} (h : Acc env s t) : Stay s t := by
  obtain ⟨evs, a⟩ := h
  exact ⟨a.next_le, a.settled⟩

theorem Stay.fresh_promise (s : HotStuffBase) (c : Promise) : Stay s (s.new_promise c).1 := by
  refine ⟨Nat.le_succ _, ?_⟩
  intro p hp _
  have hne : p ≠ s.next := Nat.ne_of_lt hp
  simp [HotStuffBase.new_promise, hne]

/-- The batch size is a constant of `exec_command`, and promises settled
before the call keep their state. -/
theorem exec_command_stay (cmd : Command) (s : HotStuffBase) :
    Stay s (exec_command cmd s).1 ∧ (exec_command cmd s).1.blk_size = s.blk_size := by
  have key : ∀ t : HotStuffBase, Stay s t → t.blk_size = s.blk_size →
      Stay s (match table_find t.decision_waiting cmd.hash with
        | some pm => (t, pm)
        | none =>
          ({ (t.new_promise (Promise.mk .pending [] [] .other)).1 with
              decision_waiting :=
                (t.new_promise (Promise.mk .pending [] [] .other)).1.decision_waiting
                  ++ [(cmd.hash, (t.new_promise (Promise.mk .pending [] [] .other)).2)] },
           (t.new_promise (Promise.mk .pending [] [] .other)).2)).1
      ∧ (match table_find t.decision_waiting cmd.hash with
        | some pm => (t, pm)
        | none =>
          ({ (t.new_promise (Promise.mk .pending [] [] .other)).1 with
              decision_waiting :=
                (t.new_promise (Promise.mk .pending [] [] .other)).1.decision_waiting
                  ++ [(cmd.hash, (t.new_promise (Promise.mk .pending [] [] .other)).2)] },
           (t.new_promise (Promise.mk .pending [] [] .other)).2)).1.blk_size = s.blk_size := by
    intro t ht hb
    split
    · exact ⟨ht, hb⟩
    · exact ⟨ht.later (Stay.fresh_promise t _), hb⟩
  unfold exec_command
  simp only
  split
  · exact ⟨Stay.fresh_promise s _, rfl⟩
  · apply key
    · split
      · exact Stay.fresh_promise
          { s with storage := (s.storage.add_cmd cmd).1,
                   cmd_pending := (drain_pending s.blk_size []
                     (s.cmd_pending ++ [(s.storage.add_cmd cmd).2])).2 } _
      · exact Stay.here s
    · split <;> rfl

theorem step_stay (env : Env) (fuel : Nat) (s : HotStuffBase) (i : Input) :
    Stay s (step env fuel s i) := by
  cases i with
  | propose prop peer => exact (propose_handler_A env fuel prop peer s).stay
  | vote vote peer => exact (vote_handler_A env fuel vote peer s).stay
  | req_blk hs r => exact (req_blk_handler_A env fuel hs r s).stay
  | resp_blk payload => exact (resp_blk_handler_A env fuel payload s).stay
  | deliver h r => exact (async_deliver_blk_A (run_callback_A env fuel) h r s).stay
  | command cmd => exact (exec_command_stay cmd s).1
  | beat => exact (beat_fire_A env fuel s).stay
  | set_proposer p => exact Stay.here s

theorem run_inputs_stay (env : Env) (fuel : Nat) (inputs : List Input) :
    ∀ s : HotStuffBase, Stay s (run_inputs env fuel s inputs) := by
  induction inputs with
  | nil => intro s; exact Stay.here s
  | cons i rest ih => intro s; exact (step_stay env fuel s i).later (ih _)

theorem table_find_erase_self {α : Type} (t : List (Hash × α)) (h : Hash) :
    table_find (table_erase t h) h = none := by
  rw [table_find_eq_none]
  intro e he
  have := (List.mem_filter.1 he).2
  simpa using this

/-- The invalid branch of `on_deliver_blk`, spelled out. -/
theorem on_deliver_blk_invalid_eq (env : Env)
    (run : Callback → Outcome → HotStuffBase → HotStuffBase) (blk : Block) (s : HotStuffBase)
    (hv : env.core_on_deliver_blk s.storage blk = false) :
    on_deliver_blk env run blk s
      = match table_find s.blk_delivery_waiting blk.hash with
        | some pm =>
          { settle run pm .rejected (s.log (.on_deliver_blk blk s.storage)) with
            blk_delivery_waiting := table_erase
              (settle run pm .rejected
                (s.log (.on_deliver_blk blk s.storage))).blk_delivery_waiting blk.hash }
        | none => s.log (.on_deliver_blk blk s.storage) := by
  have hv2 : env.core_on_deliver_blk (s.log (.on_deliver_blk blk s.storage)).storage blk
      = false := hv
  unfold on_deliver_blk
  simp only [hv2, Bool.false_eq_true, if_false]
  rfl

/-- The valid branch of `on_deliver_blk`, spelled out. -/
theorem on_deliver_blk_valid_eq (env : Env)
    (run : Callback → Outcome → HotStuffBase → HotStuffBase) (blk : Block) (s : HotStuffBase)
    (hv : env.core_on_deliver_blk s.storage blk = true) :
    on_deliver_blk env run blk s
      = match table_find s.blk_delivery_waiting blk.hash with
        | some pm =>
          { settle run pm (.fulfilled (.blk blk))
              { (s.log (.on_deliver_blk blk s.storage)) with
                storage := s.storage.mark_blk_delivered blk.hash,
                part_parent_size := s.part_parent_size + blk.parent_hashes.length,
                part_delivered := s.part_delivered + 1,
                delivered := s.delivered + 1 } with
            blk_delivery_waiting := table_erase
              (settle run pm (.fulfilled (.blk blk))
                { (s.log (.on_deliver_blk blk s.storage)) with
                  storage := s.storage.mark_blk_delivered blk.hash,
                  part_parent_size := s.part_parent_size + blk.parent_hashes.length,
                  part_delivered := s.part_delivered + 1,
                  delivered := s.delivered + 1 }).blk_delivery_waiting blk.hash }
        | none =>
          { (s.log (.on_deliver_blk blk s.storage)) with
            storage := s.storage.mark_blk_delivered blk.hash,
            part_parent_size := s.part_parent_size + blk.parent_hashes.length,
            part_delivered := s.part_delivered + 1,
            delivered := s.delivered + 1 } := by
  have hv2 : env.core_on_deliver_blk (s.log (.on_deliver_blk blk s.storage)).storage blk
      = true := hv
  unfold on_deliver_blk
  simp only [hv2, if_true]
  rfl

/-! ## Outcome of `on_deliver_blk` -/

/-- Counterexample to C13 as stated: the delivery of block 2 waits only for
the delivery future of its parent, block 1.  `on_deliver_blk` is called for
block 1 and finds it valid; resolving the future of block 1 runs the
continuation of the joint promise of block 2, which calls `on_deliver_blk`
for block 2 before the outer call returns.  Over the call for block 1,
`delivered` and `part_delivered` grow by two and the entry of hash 2 is
removed as well.  The same happens in the run in which block 1 arrives in a
`RESP_BLOCK`. -/
theorem on_deliver_blk_cascade :
    accept_env.core_on_deliver_blk blk1_ready.storage sample_blk1 = true
      ∧ blk1_ready.delivered = 0 ∧ blk1_ready.part_delivered = 0
      ∧ table_find blk1_ready.blk_delivery_waiting 1 = some 2
      ∧ table_find blk1_ready.blk_delivery_waiting 2 = some 0
      ∧ (on_deliver_blk accept_env (run_callback accept_env 3) sample_blk1 blk1_ready).delivered
          = 2
      ∧ (on_deliver_blk accept_env (run_callback accept_env 3) sample_blk1
          blk1_ready).part_delivered = 2
      ∧ table_find (on_deliver_blk accept_env (run_callback accept_env 3) sample_blk1
          blk1_ready).blk_delivery_waiting 2 = none
      ∧ waiting_for_blk1.delivered = 0
      ∧ (run_inputs accept_env 6 waiting_for_blk1 [.resp_blk [sample_blk1]]).delivered = 2
      ∧ called_hashes (run_inputs accept_env 6 waiting_for_blk1
          [.resp_blk [sample_blk1]]).trace = [1, 2] := by
  decide

/-- C13 (as amended): `on_deliver_blk(B)` leaves no entry for `H(B)` in
`blk_delivery_waiting`.  When the core reports `B` invalid, the counters
`delivered`, `part_delivered` and `part_parent_size` and the block store are
unchanged, the call records nothing but itself, the entries of other hashes
are unchanged, and a pending delivery future of `H(B)` is rejected and stays
rejected in every continuation of the run.  When `B` is valid, a pending
delivery future of `H(B)` is resolved with `B` and stays so, and `delivered`
and `part_delivered` grow by one for `B` and by one more for every call of
`on_deliver_blk` that the continuations of the future make within this call
and that finds its block valid (`part_parent_size` grows by the parent counts
of these blocks); the entry of another hash is kept unless such a call was
made for that hash. -/
theorem on_deliver_blk_outcome (env : Env) (fuel : Nat) (blk : Block) (s : HotStuffBase) :
    table_find (on_deliver_blk env (run_callback env fuel) blk s).blk_delivery_waiting blk.hash
        = none
      ∧ (env.core_on_deliver_blk s.storage blk = false →
          (on_deliver_blk env (run_callback env fuel) blk s).delivered = s.delivered
          ∧ (on_deliver_blk env (run_callback env fuel) blk s).part_delivered = s.part_delivered
          ∧ (on_deliver_blk env (run_callback env fuel) blk s).part_parent_size
              = s.part_parent_size
          ∧ (on_deliver_blk env (run_callback env fuel) blk s).storage = s.storage
          ∧ (on_deliver_blk env (run_callback env fuel) blk s).trace
              = s.trace ++ [.on_deliver_blk blk s.storage]
          ∧ (∀ h, h ≠ blk.hash →
              table_find (on_deliver_blk env (run_callback env fuel) blk s).blk_delivery_waiting h
                = table_find s.blk_delivery_waiting h)
          ∧ ∀ pm, table_find s.blk_delivery_waiting blk.hash = some pm → pm < s.next →
              (s.heap pm).state = .pending →
              ∀ (fuel2 : Nat) (inputs : List Input),
                ((run_inputs env fuel2 (on_deliver_blk env (run_callback env fuel) blk s)
                  inputs).heap pm).state = .rejected)
      ∧ (env.core_on_deliver_blk s.storage blk = true →
          ∃ evs, (on_deliver_blk env (run_callback env fuel) blk s).trace
              = s.trace ++ .on_deliver_blk blk s.storage :: evs
            ∧ (on_deliver_blk env (run_callback env fuel) blk s).delivered
                = s.delivered + 1 + valid_calls env evs
            ∧ (on_deliver_blk env (run_callback env fuel) blk s).part_delivered
                = s.part_delivered + 1 + valid_calls env evs
            ∧ (on_deliver_blk env (run_callback env fuel) blk s).part_parent_size
                = s.part_parent_size + blk.parent_hashes.length + valid_parents env evs
            ∧ (∀ h pm, h ≠ blk.hash → table_find s.blk_delivery_waiting h = some pm →
                table_find (on_deliver_blk env (run_callback env fuel) blk
                    s).blk_delivery_waiting h = some pm
                  ∨ h ∈ called_hashes evs)
            ∧ ∀ pm, table_find s.blk_delivery_waiting blk.hash = some pm → pm < s.next →
                (s.heap pm).state = .pending →
                ∀ (fuel2 : Nat) (inputs : List Input),
                  ((run_inputs env fuel2 (on_deliver_blk env (run_callback env fuel) blk s)
                    inputs).heap pm).state = .resolved (.blk blk)) := by
  have hrun := run_callback_A env fuel
  obtain ⟨evs, a⟩ := on_deliver_blk_A hrun blk s
  -- a settled future keeps its state in every continuation of the run
  have later : ∀ (pm : PId) (st : PromiseState), pm < s.next → st ≠ .pending →
      ((on_deliver_blk env (run_callback env fuel) blk s).heap pm).state = st →
      ∀ (fuel2 : Nat) (inputs : List Input),
        ((run_inputs env fuel2 (on_deliver_blk env (run_callback env fuel) blk s)
          inputs).heap pm).state = st := by
    intro pm st hlt hst hT fuel2 inputs
    have h := (run_inputs_stay env fuel2 inputs
      (on_deliver_blk env (run_callback env fuel) blk s)).2 pm
      (Nat.lt_of_lt_of_le hlt a.next_le) (by rw [hT]; exact hst)
    rw [h, hT]
  refine ⟨?_, ?_, ?_⟩
  · by_cases hv : env.core_on_deliver_blk s.storage blk = true
    · rw [on_deliver_blk_valid_eq env _ blk s hv]
      cases hf : table_find s.blk_delivery_waiting blk.hash with
      | none => exact hf
      | some pm => exact table_find_erase_self _ _
    · have hv2 : env.core_on_deliver_blk s.storage blk = false := by simpa using hv
      rw [on_deliver_blk_invalid_eq env _ blk s hv2]
      cases hf : table_find s.blk_delivery_waiting blk.hash with
      | none => exact hf
      | some pm => exact table_find_erase_self _ _
  · intro hv
    have hq : ∀ pm, Quiet (s.log (.on_deliver_blk blk s.storage))
        (settle (run_callback env fuel) pm .rejected (s.log (.on_deliver_blk blk s.storage))) :=
      fun pm => settle_rejected_quiet (run_callback_rejected_quiet env fuel) pm _
    have hstate : ∀ pm, table_find s.blk_delivery_waiting blk.hash = some pm → pm < s.next →
        (s.heap pm).state = .pending →
        ((on_deliver_blk env (run_callback env fuel) blk s).heap pm).state = .rejected := by
      intro pm hf hlt hp
      rw [on_deliver_blk_invalid_eq env _ blk s hv, hf]
      exact settle_state hrun pm .rejected (s.log (.on_deliver_blk blk s.storage)) hlt hp
    refine ⟨?_, ?_, ?_, ?_, ?_, ?_, ?_⟩
    · rw [on_deliver_blk_invalid_eq env _ blk s hv]
      cases hf : table_find s.blk_delivery_waiting blk.hash with
      | none => rfl
      | some pm => exact (hq pm).delivered_eq
    · rw [on_deliver_blk_invalid_eq env _ blk s hv]
      cases hf : table_find s.blk_delivery_waiting blk.hash with
      | none => rfl
      | some pm => exact (hq pm).part_delivered_eq
    · rw [on_deliver_blk_invalid_eq env _ blk s hv]
      cases hf : table_find s.blk_delivery_waiting blk.hash with
      | none => rfl
      | some pm => exact (hq pm).part_parent_size_eq
    · rw [on_deliver_blk_invalid_eq env _ blk s hv]
      cases hf : table_find s.blk_delivery_waiting blk.hash with
      | none => rfl
      | some pm => exact (hq pm).storage_eq
    · rw [on_deliver_blk_invalid_eq env _ blk s hv]
      cases hf : table_find s.blk_delivery_waiting blk.hash with
      | none => rfl
      | some pm => exact (hq pm).trace_eq
    · intro h hne
      rw [on_deliver_blk_invalid_eq env _ blk s hv]
      cases hf : table_find s.blk_delivery_waiting blk.hash with
      | none => rfl
      | some pm =>
        show table_find (table_erase (settle (run_callback env fuel) pm .rejected
          (s.log (.on_deliver_blk blk s.storage))).blk_delivery_waiting blk.hash) h = _
        rw [table_find_erase_ne _ _ _ hne, (hq pm).waiting_eq]
        rfl
    · intro pm hf hlt hp
      exact later pm .rejected hlt (by simp) (hstate pm hf hlt hp)
  · intro hv
    have h1 : valid_calls env (.on_deliver_blk blk s.storage :: evs)
        = 1 + valid_calls env evs := by
      simp [valid_calls, Event.valid_call, hv, List.countP_cons, Nat.add_comm]
    have h2 : valid_parents env (.on_deliver_blk blk s.storage :: evs)
        = blk.parent_hashes.length + valid_parents env evs := by
      simp [valid_parents, Event.valid_parents, hv]
    refine ⟨evs, a.trace_eq, ?_, ?_, ?_, ?_, ?_⟩
    · rw [a.delivered_eq, h1, Nat.add_assoc]
    · rw [a.part_delivered_eq, h1, Nat.add_assoc]
    · rw [a.part_parent_size_eq, h2, Nat.add_assoc]
    · intro h pm hne hf
      rcases a.waiting_kept h pm hf with hk | hk
      · exact Or.inl hk
      · right
        simp only [called_hashes, List.filterMap_cons, Event.called_hash, List.mem_cons] at hk
        rcases hk with hk | hk
        · exact absurd hk hne
        · exact hk
    · intro pm hf hlt hp
      refine later pm _ hlt (by simp) ?_
      rw [on_deliver_blk_valid_eq env _ blk s hv, hf]
      exact settle_state hrun pm (.fulfilled (.blk blk)) _ hlt hp

/-- Witness of C13 as amended.  With a core that rejects block 1, the call of
`on_deliver_blk` for block 1 in the state of the counterexample leaves the
counters at zero and the entry of hash 2 in place, and the future of block 1
is rejected, also after a further `async_deliver_blk(1)`.  With a core that
accepts every block the future is resolved with block 1 and stays so. -/
theorem on_deliver_blk_outcome_witness :
    (reject1_env.core_on_deliver_blk blk1_ready.storage sample_blk1 = false
      ∧ accept_env.core_on_deliver_blk blk1_ready.storage sample_blk1 = true
      ∧ table_find blk1_ready.blk_delivery_waiting sample_blk1.hash = some 2
      ∧ 2 < blk1_ready.next ∧ (blk1_ready.heap 2).state = .pending)
    ∧ ((on_deliver_blk reject1_env (run_callback reject1_env 3) sample_blk1 blk1_ready).delivered
          = blk1_ready.delivered
      ∧ table_find (on_deliver_blk reject1_env (run_callback reject1_env 3) sample_blk1
          blk1_ready).blk_delivery_waiting 2 = table_find blk1_ready.blk_delivery_waiting 2
      ∧ ((run_inputs reject1_env 3
            (on_deliver_blk reject1_env (run_callback reject1_env 3) sample_blk1 blk1_ready)
            [.deliver 1 7]).heap 2).state = .rejected)
    ∧ ((run_inputs accept_env 3
            (on_deliver_blk accept_env (run_callback accept_env 3) sample_blk1 blk1_ready)
            [.deliver 1 7]).heap 2).state = .resolved (.blk sample_blk1) := by
  have hr := (on_deliver_blk_outcome reject1_env 3 sample_blk1 blk1_ready).2.1 (by decide)
  obtain ⟨evs, _, _, _, _, _, ha⟩ :=
    (on_deliver_blk_outcome accept_env 3 sample_blk1 blk1_ready).2.2 (by decide)
  exact ⟨⟨by decide, by decide, by decide, by decide, by decide⟩,
    ⟨hr.1, hr.2.2.2.2.2.1 2 (by decide),
      hr.2.2.2.2.2.2 2 (by decide) (by decide) (by decide) 3 [.deliver 1 7]⟩,
    ha 2 (by decide) (by decide) (by decide) 3 [.deliver 1 7]⟩

/-! ## Bound on the command queue -/

theorem Acc.blk_size_eq {env : Env} {s t : HotStuffBase} (h : Acc env s t) :
    t.blk_size = s.blk_size := by
  obtain ⟨evs, a⟩ := h
  exact a.blk_size_eq

theorem Acc.cmd_pending_eq {env : Env} {s t : HotStuffBase} (h : Acc env s t) :
    t.cmd_pending = s.cmd_pending := by
  obtain ⟨evs, a⟩ := h
  exact a.cmd_pending_eq

/-- One call of `exec_command` keeps the queue shorter than the batch size. -/
theorem exec_command_pending_bound (cmd : Command) (s : HotStuffBase) (hb : 1 ≤ s.blk_size)
    (hlt : s.cmd_pending.length < s.blk_size) :
    (exec_command cmd s).1.cmd_pending.length < s.blk_size := by
  by_cases hp : s.proposer = s.id
  · have hne : (s.proposer != s.id) = false := by simp [hp]
    by_cases hle : s.blk_size ≤ s.cmd_pending.length + 1
    · have he : (exec_command cmd s).1.cmd_pending
          = (s.cmd_pending ++ [(s.storage.add_cmd cmd).2]).drop s.blk_size := by
        simp only [exec_command, hne, Bool.false_eq_true, if_false, ge_iff_le,
          List.length_append, List.length_singleton, hle, if_true, drain_pending_eq,
          List.nil_append, HotStuffBase.new_promise]
        split <;> rfl
      rw [he, List.length_drop, List.length_append, List.length_singleton]
      omega
    · have he : (exec_command cmd s).1.cmd_pending
          = s.cmd_pending ++ [(s.storage.add_cmd cmd).2] := by
        simp only [exec_command, hne, Bool.false_eq_true, if_false, ge_iff_le,
          List.length_append, List.length_singleton, hle, HotStuffBase.new_promise]
        split <;> rfl
      rw [he, List.length_append, List.length_singleton]
      omega
  · have hne : (s.proposer != s.id) = true := by simpa using hp
    have he : (exec_command cmd s).1.cmd_pending = s.cmd_pending := by
      simp only [exec_command, hne, if_true, HotStuffBase.new_promise]
    rw [he]; exact hlt

/-- With `blk_size = 1` and an empty queue, a command accepted by the
proposer leaves the queue empty and is the one command of the batch handed to
`on_propose`. -/
theorem exec_command_single_batch (cmd : Command) (s : HotStuffBase) (hp : s.proposer = s.id)
    (h1 : s.blk_size = 1) (h0 : s.cmd_pending = []) :
    (exec_command cmd s).1.cmd_pending = []
      ∧ (exec_command cmd s).1.beat_waiting = s.beat_waiting ++ [s.next]
      ∧ ((exec_command cmd s).1.heap s.next).state = .pending
      ∧ ((exec_command cmd s).1.heap s.next).callbacks
          = [.propose [(s.storage.add_cmd cmd).2]] := by
  have hne : (s.proposer != s.id) = false := by simp [hp]
  simp only [exec_command, hne, Bool.false_eq_true, if_false, ge_iff_le, h0, h1,
    List.nil_append, List.length_singleton, Nat.le_refl, if_true, drain_pending_eq,
    HotStuffBase.new_promise]
  refine ⟨?_, ?_, ?_, ?_⟩
  · split <;> rfl
  · split <;> rfl
  · split <;> simp
  · split <;> simp

theorem step_pending_bound (env : Env) (fuel : Nat) (s : HotStuffBase) (i : Input)
    (hb : 1 ≤ s.blk_size) (hlt : s.cmd_pending.length < s.blk_size) :
    (step env fuel s i).blk_size = s.blk_size
      ∧ (step env fuel s i).cmd_pending.length < s.blk_size := by
  have key : ∀ t : HotStuffBase, Acc env s t →
      t.blk_size = s.blk_size ∧ t.cmd_pending.length < s.blk_size := by
    intro t ht
    exact ⟨ht.blk_size_eq, by rw [ht.cmd_pending_eq]; exact hlt⟩
  cases i with
  | propose prop peer => exact key _ (propose_handler_A env fuel prop peer s)
  | vote vote peer => exact key _ (vote_handler_A env fuel vote peer s)
  | req_blk hs r => exact key _ (req_blk_handler_A env fuel hs r s)
  | resp_blk payload => exact key _ (resp_blk_handler_A env fuel payload s)
  | deliver h r => exact key _ (async_deliver_blk_A (run_callback_A env fuel) h r s)
  | command cmd => exact ⟨(exec_command_stay cmd s).2, exec_command_pending_bound cmd s hb hlt⟩
  | beat => exact key _ (beat_fire_A env fuel s)
  | set_proposer p => exact ⟨rfl, hlt⟩

theorem run_inputs_pending_bound (env : Env) (fuel : Nat) (inputs : List Input) :
    ∀ s : HotStuffBase, 1 ≤ s.blk_size → s.cmd_pending.length < s.blk_size →
      (run_inputs env fuel s inputs).blk_size = s.blk_size
        ∧ (run_inputs env fuel s inputs).cmd_pending.length < s.blk_size := by
  induction inputs with
  | nil => intro s _ hlt; exact ⟨rfl, hlt⟩
  | cons i rest ih =>
    intro s hb hlt
    obtain ⟨h1, h2⟩ := step_pending_bound env fuel s i hb hlt
    obtain ⟨h3, h4⟩ := ih (step env fuel s i) (by rw [h1]; exact hb) (by rw [h1]; exact h2)
    exact ⟨h3.trans h1, by rw [← h1]; exact h4⟩

/-- C14: from an empty queue and with `blk_size ≥ 1`, after every sequence of
turns of the event loop (calls of `exec_command` at the proposer and
elsewhere, changes of proposer, and the message handlers in any
interleaving) the queue `cmd_pending` is strictly shorter than `blk_size`,
which itself never changes.  With `blk_size = 1` the queue is empty after
every call, and a command accepted by the proposer is the single command of
the batch handed to `on_propose`. -/
theorem cmd_pending_below_blk_size (env : Env) (fuel : Nat) (s : HotStuffBase)
    (inputs : List Input) (hb : 1 ≤ s.blk_size) (h0 : s.cmd_pending = []) :
    (run_inputs env fuel s inputs).blk_size = s.blk_size
      ∧ (run_inputs env fuel s inputs).cmd_pending.length < s.blk_size
      ∧ (s.blk_size = 1 →
          (run_inputs env fuel s inputs).cmd_pending = []
          ∧ ∀ cmd, (run_inputs env fuel s inputs).proposer = (run_inputs env fuel s inputs).id →
              (exec_command cmd (run_inputs env fuel s inputs)).1.cmd_pending = []
              ∧ (exec_command cmd (run_inputs env fuel s inputs)).1.beat_waiting
                  = (run_inputs env fuel s inputs).beat_waiting
                    ++ [(run_inputs env fuel s inputs).next]
              ∧ ((exec_command cmd (run_inputs env fuel s inputs)).1.heap
                  (run_inputs env fuel s inputs).next).callbacks
                  = [.propose [((run_inputs env fuel s inputs).storage.add_cmd cmd).2]]) := by
  obtain ⟨h1, h2⟩ := run_inputs_pending_bound env fuel inputs s hb
    (by rw [h0]; exact hb)
  refine ⟨h1, h2, ?_⟩
  intro hone
  have hnil : (run_inputs env fuel s inputs).cmd_pending = [] := by
    apply List.eq_nil_of_length_eq_zero
    omega
  refine ⟨hnil, ?_⟩
  intro cmd hp
  obtain ⟨a, b, _, d⟩ := exec_command_single_batch cmd (run_inputs env fuel s inputs) hp
    (by rw [h1]; exact hone) hnil
  exact ⟨a, b, d⟩

/-- Witness of C14: the proposer with `blk_size = 2` has one command queued
after three commands; with `blk_size = 1` every command leaves the queue
empty and forms its own batch. -/
theorem cmd_pending_below_blk_size_witness :
    ((run_inputs sample_env 3 sample_proposer
          [.command ⟨5, 0⟩, .set_proposer 1, .command ⟨6, 0⟩, .set_proposer 0,
            .command ⟨7, 0⟩, .beat, .command ⟨8, 0⟩]).cmd_pending.length < 2)
      ∧ (run_inputs sample_env 3 (HotStuffBase.init 0 1 0 genesis_store)
          [.command ⟨5, 0⟩, .command ⟨6, 0⟩]).cmd_pending = []
      ∧ ((exec_command ⟨7, 0⟩ (run_inputs sample_env 3 (HotStuffBase.init 0 1 0 genesis_store)
            [.command ⟨5, 0⟩, .command ⟨6, 0⟩])).1.heap
          (run_inputs sample_env 3 (HotStuffBase.init 0 1 0 genesis_store)
            [.command ⟨5, 0⟩, .command ⟨6, 0⟩]).next).callbacks = [.propose [⟨7, 0⟩]] :=
  ⟨(cmd_pending_below_blk_size sample_env 3 sample_proposer _ (by decide) rfl).2.1,
   ((cmd_pending_below_blk_size sample_env 3 (HotStuffBase.init 0 1 0 genesis_store)
      [.command ⟨5, 0⟩, .command ⟨6, 0⟩] (by decide) rfl).2.2 rfl).1,
   (((cmd_pending_below_blk_size sample_env 3 (HotStuffBase.init 0 1 0 genesis_store)
      [.command ⟨5, 0⟩, .command ⟨6, 0⟩] (by decide) rfl).2.2 rfl).2 ⟨7, 0⟩ (by decide)).2.2⟩

/-! ## Client requests at a replica that is not the proposer -/

/-- The continuations of lines 279 and 288, run with a finality record, send
it to their clients in order and change nothing else. -/
theorem send_resp_cmd_fold (env : Env) (n : Nat) (fin : Finality) (l : List NetAddr) :
    ∀ t : HotStuffBase,
      ((l.map Callback.send_resp_cmd).foldl
          (fun acc k => run_callback env (n + 1) k (.fulfilled (.fin fin)) acc) t).trace
        = t.trace ++ l.map (fun a => Event.send_resp_cmd fin a)
      ∧ ((l.map Callback.send_resp_cmd).foldl
          (fun acc k => run_callback env (n + 1) k (.fulfilled (.fin fin)) acc) t).unconfirmed
        = t.unconfirmed
      ∧ ((l.map Callback.send_resp_cmd).foldl
          (fun acc k => run_callback env (n + 1) k (.fulfilled (.fin fin)) acc) t).heap
        = t.heap := by
  induction l with
  | nil => intro t; simp
  | cons a rest ih =>
    intro t
    have h := ih (t.log (.send_resp_cmd fin a))
    simp only [List.map_cons, List.foldl_cons, run_callback]
    refine ⟨?_, h.2.1, h.2.2⟩
    rw [h.1]
    simp [HotStuffBase.log]

/-- Resolution of an `unconfirmed` entry by `state_machine_execute`: every
client waiting on the entry is sent the finality record, the future is
resolved with it, and the entry is removed. -/
theorem state_machine_execute_sends (env : Env) (n : Nat) (fin : Finality) (u : HotStuffBase)
    (pm : PId) (l : List NetAddr) (hf : table_find u.unconfirmed fin.cmd_hash = some pm)
    (hp : (u.heap pm).state = .pending)
    (hc : (u.heap pm).callbacks = l.map Callback.send_resp_cmd) :
    (state_machine_execute (run_callback env (n + 1)) fin u).trace
        = u.trace ++ l.map (fun a => Event.send_resp_cmd fin a)
      ∧ table_find (state_machine_execute (run_callback env (n + 1)) fin u).unconfirmed
          fin.cmd_hash = none
      ∧ ((state_machine_execute (run_callback env (n + 1)) fin u).heap pm).state
          = .resolved (.fin fin) := by
  have h := send_resp_cmd_fold env n fin l
    (u.set_promise pm { u.heap pm with state := (Outcome.fulfilled (.fin fin)).to_state,
                                       callbacks := [] })
  have he : state_machine_execute (run_callback env (n + 1)) fin u
      = { ((l.map Callback.send_resp_cmd).foldl
            (fun acc k => run_callback env (n + 1) k (.fulfilled (.fin fin)) acc)
            (u.set_promise pm { u.heap pm with
              state := (Outcome.fulfilled (.fin fin)).to_state, callbacks := [] })) with
          unconfirmed := table_erase ((l.map Callback.send_resp_cmd).foldl
            (fun acc k => run_callback env (n + 1) k (.fulfilled (.fin fin)) acc)
            (u.set_promise pm { u.heap pm with
              state := (Outcome.fulfilled (.fin fin)).to_state,
              callbacks := [] })).unconfirmed fin.cmd_hash } := by
    simp only [state_machine_execute, hf, settle, hp, hc]
  rw [he]
  refine ⟨h.1, table_find_erase_self _ _, ?_⟩
  show ((((l.map Callback.send_resp_cmd).foldl
      (fun acc k => run_callback env (n + 1) k (.fulfilled (.fin fin)) acc)
      (u.set_promise pm { u.heap pm with
        state := (Outcome.fulfilled (.fin fin)).to_state, callbacks := [] })).heap) pm).state = _
  rw [h.2.2]
  simp [HotStuffBase.set_promise, Outcome.to_state]

/-- What the handler does at a replica that is not the proposer: nothing is
sent; the command is stored and the client's continuation joins the future of
`unconfirmed[H(c)]`, which is created when it is missing. -/
theorem client_request_registers (run : Callback → Outcome → HotStuffBase → HotStuffBase)
    (cmd : Command) (addr : NetAddr) (s : HotStuffBase) (l : List NetAddr)
    (hp : s.proposer ≠ s.id)
    (h1 : ∀ pm, table_find s.unconfirmed cmd.hash = some pm →
      (s.heap pm).state = .pending ∧ (s.heap pm).callbacks = l.map Callback.send_resp_cmd)
    (h2 : table_find s.unconfirmed cmd.hash = none → l = []) :
    (client_request_cmd_handler run cmd addr s).trace = s.trace
      ∧ (client_request_cmd_handler run cmd addr s).storage = (s.storage.add_cmd cmd).1
      ∧ ∃ pm, table_find (client_request_cmd_handler run cmd addr s).unconfirmed cmd.hash
            = some pm
          ∧ (∀ q, table_find s.unconfirmed cmd.hash = some q → pm = q)
          ∧ (table_find s.unconfirmed cmd.hash = none → pm = s.next)
          ∧ ((client_request_cmd_handler run cmd addr s).heap pm).state = .pending
          ∧ ((client_request_cmd_handler run cmd addr s).heap pm).callbacks
              = (l ++ [addr]).map Callback.send_resp_cmd := by
  have hne : (s.proposer == s.id) = false := by simpa using hp
  cases hf : table_find s.unconfirmed cmd.hash with
  | some q =>
    obtain ⟨hq1, hq2⟩ := h1 q hf
    have he : client_request_cmd_handler run cmd addr s
        = ({ s with storage := (s.storage.add_cmd cmd).1 } : HotStuffBase).set_promise q
            { s.heap q with callbacks := (s.heap q).callbacks ++ [.send_resp_cmd addr] } := by
      simp only [client_request_cmd_handler, hne, Bool.false_eq_true, if_false, hf,
        promise_then, hq1]
    rw [he]
    refine ⟨rfl, rfl, q, hf, ?_, ?_, ?_, ?_⟩
    · intro q2 hq; exact Option.some.inj hq
    · intro hq; cases hq
    · simp [HotStuffBase.set_promise, hq1]
    · simp [HotStuffBase.set_promise, hq2]
  | none =>
    have hl := h2 hf
    subst hl
    have he : client_request_cmd_handler run cmd addr s
        = ({ (({ s with storage := (s.storage.add_cmd cmd).1 } : HotStuffBase).new_promise
                (Promise.mk .pending [] [] .other)).1 with
              unconfirmed := s.unconfirmed ++ [(cmd.hash, s.next)] } : HotStuffBase).set_promise
            s.next (Promise.mk .pending [.send_resp_cmd addr] [] .other) := by
      simp only [client_request_cmd_handler, hne, Bool.false_eq_true, if_false, hf,
        promise_then, HotStuffBase.new_promise, if_true, List.nil_append]
    rw [he]
    refine ⟨rfl, rfl, s.next, ?_, ?_, ?_, ?_, ?_⟩
    · exact table_find_append_new _ _ _ hf
    · intro q hq; cases hq
    · intro _; rfl
    · simp [HotStuffBase.set_promise]
    · simp [HotStuffBase.set_promise]

/-- Counterexample to C12 as stated: replica 2 is not the proposer (replica
0); on a client request for a command of hash 5 from the client at address 9
it sends nothing, and in particular no `RESP_CMD` with `decision = -1`: the
request only registers `unconfirmed[5]`. -/
theorem client_request_sends_nothing :
    sample_follower.proposer ≠ sample_follower.id
      ∧ (client_request_cmd_handler (run_callback sample_env 3) ⟨5, 0⟩ 9 sample_follower).trace
          = []
      ∧ Event.send_resp_cmd
            { rid := 0, decision := -1, cmd_idx := 0, cmd_height := 0, cmd_hash := 5,
              blk_hash := 0 } 9
          ∉ (client_request_cmd_handler (run_callback sample_env 3) ⟨5, 0⟩ 9
              sample_follower).trace
      ∧ (client_request_cmd_handler (run_callback sample_env 3) ⟨5, 0⟩ 9
          sample_follower).unconfirmed = [(5, 0)] := by
  decide

/-- C12 (as amended): when `client_request_cmd_handler` receives a command
`c` from a client at a replica that is not the current proposer, it sends
nothing at that moment; it stores `c` and adds the client's continuation to
the future of `unconfirmed[H(c)]`, which it creates when the entry is missing
and reuses otherwise (`l` lists the clients already waiting on it).  When
`state_machine_execute` later runs for a finality record of `H(c)` on a state
in which the entry is pending, it sends that record in a `RESP_CMD` to every
client waiting on the entry, resolves the future and removes the entry. -/
theorem client_request_not_proposer (env : Env) (fuel : Nat) (cmd : Command) (addr : NetAddr)
    (s : HotStuffBase) (l : List NetAddr) (hp : s.proposer ≠ s.id)
    (h1 : ∀ pm, table_find s.unconfirmed cmd.hash = some pm →
      (s.heap pm).state = .pending ∧ (s.heap pm).callbacks = l.map Callback.send_resp_cmd)
    (h2 : table_find s.unconfirmed cmd.hash = none → l = []) :
    (client_request_cmd_handler (run_callback env fuel) cmd addr s).trace = s.trace
      ∧ (client_request_cmd_handler (run_callback env fuel) cmd addr s).storage
          = (s.storage.add_cmd cmd).1
      ∧ (∃ pm, table_find (client_request_cmd_handler (run_callback env fuel) cmd addr
              s).unconfirmed cmd.hash = some pm
          ∧ (∀ q, table_find s.unconfirmed cmd.hash = some q → pm = q)
          ∧ (table_find s.unconfirmed cmd.hash = none → pm = s.next)
          ∧ ((client_request_cmd_handler (run_callback env fuel) cmd addr s).heap pm).state
              = .pending
          ∧ ((client_request_cmd_handler (run_callback env fuel) cmd addr s).heap pm).callbacks
              = (l ++ [addr]).map Callback.send_resp_cmd)
      ∧ (∀ (fin : Finality) (n : Nat), fin.cmd_hash = cmd.hash →
          (state_machine_execute (run_callback env (n + 1)) fin
              (client_request_cmd_handler (run_callback env fuel) cmd addr s)).trace
            = s.trace ++ (l ++ [addr]).map (fun a => Event.send_resp_cmd fin a)
          ∧ table_find (state_machine_execute (run_callback env (n + 1)) fin
              (client_request_cmd_handler (run_callback env fuel) cmd addr s)).unconfirmed
              cmd.hash = none)
      ∧ (∀ (fin : Finality) (n : Nat) (u : HotStuffBase) (pm : PId) (w : List NetAddr),
          table_find u.unconfirmed fin.cmd_hash = some pm → (u.heap pm).state = .pending →
          (u.heap pm).callbacks = w.map Callback.send_resp_cmd →
          (state_machine_execute (run_callback env (n + 1)) fin u).trace
              = u.trace ++ w.map (fun a => Event.send_resp_cmd fin a)
            ∧ table_find (state_machine_execute (run_callback env (n + 1)) fin u).unconfirmed
                fin.cmd_hash = none
            ∧ ((state_machine_execute (run_callback env (n + 1)) fin u).heap pm).state
                = .resolved (.fin fin)) := by
  obtain ⟨a1, a2, pm, a3, a4, a5, a6, a7⟩ :=
    client_request_registers (run_callback env fuel) cmd addr s l hp h1 h2
  refine ⟨a1, a2, ⟨pm, a3, a4, a5, a6, a7⟩, ?_, ?_⟩
  · intro fin n hfin
    obtain ⟨b1, b2, _⟩ := state_machine_execute_sends env n fin _ pm (l ++ [addr])
      (by rw [hfin]; exact a3) a6 a7
    rw [a1] at b1
    rw [hfin] at b2
    exact ⟨b1, b2⟩
  · intro fin n u q w hf hq hc
    exact state_machine_execute_sends env n fin u q w hf hq hc

/-- Witness of C12 as amended: replica 2 is not the proposer.  A first client
(address 9) asks for the command of hash 5 and gets nothing; a second client
(address 8) asks for the same command and joins the same entry; when the
command is committed both are sent the finality record and the entry is
gone. -/
theorem client_request_not_proposer_witness :
    sample_follower.proposer ≠ sample_follower.id
      ∧ (client_request_cmd_handler (run_callback sample_env 3) ⟨5, 0⟩ 9 sample_follower).trace
          = []
      ∧ (state_machine_execute (run_callback sample_env 3) sample_fin
          (client_request_cmd_handler (run_callback sample_env 3) ⟨5, 0⟩ 8
            (client_request_cmd_handler (run_callback sample_env 3) ⟨5, 0⟩ 9
              sample_follower))).trace
          = [.send_resp_cmd sample_fin 9, .send_resp_cmd sample_fin 8]
      ∧ table_find (state_machine_execute (run_callback sample_env 3) sample_fin
          (client_request_cmd_handler (run_callback sample_env 3) ⟨5, 0⟩ 8
            (client_request_cmd_handler (run_callback sample_env 3) ⟨5, 0⟩ 9
              sample_follower))).unconfirmed 5 = none :=
  ⟨by decide,
   (client_request_not_proposer sample_env 3 ⟨5, 0⟩ 9 sample_follower [] (by decide)
      (by decide) (by intro _; rfl)).1,
   ((client_request_not_proposer sample_env 3 ⟨5, 0⟩ 8
      (client_request_cmd_handler (run_callback sample_env 3) ⟨5, 0⟩ 9 sample_follower) [9]
      (by decide) (by decide) (by decide)).2.2.2.1 sample_fin 2 rfl).1,
   ((client_request_not_proposer sample_env 3 ⟨5, 0⟩ 8
      (client_request_cmd_handler (run_callback sample_env 3) ⟨5, 0⟩ 9 sample_follower) [9]
      (by decide) (by decide) (by decide)).2.2.2.1 sample_fin 2 rfl).2⟩

/-! ## Fetch promises are never rejected -/

theorem NoRej.of_heap {s t : HotStuffBase} (hn : NoRej s) (hheap : t.heap = s.heap)
    (hnext : t.next = s.next) : NoRej t := by
  intro p h hp hpu
  rw [hheap] at hpu ⊢
  rw [hnext] at hp
  exact hn p h hp hpu

theorem NoRej.fresh_cell {s : HotStuffBase} (hn : NoRej s) (c : Promise)
    (hc : ∀ h, c.purpose = .fetch h → c.state ≠ .rejected) : NoRej (s.new_promise c).1 := by
  intro p h hp hpu
  rw [new_promise_next] at hp
  rcases Nat.lt_succ_iff_lt_or_eq.1 hp with hlt | heq
  · rw [new_promise_heap_old s c hlt] at hpu ⊢
    exact hn p h hlt hpu
  · subst heq
    have hcell := new_promise_heap_new s c
    rw [new_promise_snd] at hcell
    rw [hcell] at hpu ⊢
    exact hc h hpu

theorem NoRej.set_cell {s : HotStuffBase} (hn : NoRej s) (p : PId) (c : Promise)
    (hc : ∀ h, c.purpose = .fetch h → c.state ≠ .rejected) : NoRej (s.set_promise p c) := by
  intro q h hq hpu
  by_cases hqp : q = p
  · subst hqp
    rw [set_promise_heap_self] at hpu ⊢
    exact hc h hpu
  · rw [set_promise_heap_other s p c hqp] at hpu ⊢
    exact hn q h hq hpu

theorem settle_fold_N {C : Prop} {run : Callback → Outcome → HotStuffBase → HotStuffBase}
    (hrun : RunOK C run) (hrunN : RunN C run) (p : PId) (o : Outcome) (cbs : List Callback) :
    ∀ acc : HotStuffBase, Inv C acc → p < acc.next →
      (∀ v, o = .fulfilled v → (acc.heap p).state = .resolved v) →
      (∀ k ∈ cbs, Attached acc p k) → NoRej acc →
      NoRej (cbs.foldl (fun a k => run k o a) acc) := by
  induction cbs with
  | nil => intro acc _ _ _ _ hn; exact hn
  | cons k rest ih =>
    intro acc hi hp ho ha hn
    have hatt := ha k (List.mem_cons_self _ _)
    have hpre : Pre acc k o := Attached_pre hi hp hatt o ho
    obtain ⟨hi2, he2⟩ := hrun k o acc hi hpre
    refine ih (run k o acc) hi2 (Nat.lt_of_lt_of_le hp he2.next_le) ?_ ?_
      (hrunN k o acc hi hpre hn)
    · intro v hv
      rw [he2.settled p hp (by rw [ho v hv]; simp)]
      exact ho v hv
    · exact fun k' hk' => Attached_mono hi he2 hp (ha k' (List.mem_cons_of_mem _ hk'))

theorem settle_N {C : Prop} {run : Callback → Outcome → HotStuffBase → HotStuffBase}
    (hrun : RunOK C run) (hrunN : RunN C run) {s : HotStuffBase} (hi : Inv C s) {p : PId}
    (hp : p < s.next) {o : Outcome} (hs : SettleOK s p o)
    (hr : o = .rejected → ∀ h, (s.heap p).purpose ≠ .fetch h)
    (hn : NoRej s) : NoRej (settle run p o s) := by
  unfold settle
  cases hst : (s.heap p).state with
  | resolved v => exact hn
  | rejected => exact hn
  | pending =>
    simp only
    have hi1 : Inv C (s.set_promise p { s.heap p with
        state := o.to_state, callbacks := [] }) := by
      refine hi.set_promise p _ hp rfl rfl (Or.inr ⟨hst, ?_⟩) (by simp)
      intro v hv
      cases o with
      | fulfilled w =>
        simp only [Outcome.to_state, PromiseState.resolved.injEq] at hv
        subst hv; exact hs
      | rejected => simp [Outcome.to_state] at hv
    have he1 : Ext s (s.set_promise p { s.heap p with
        state := o.to_state, callbacks := [] }) :=
      Ext.by_set_promise s p _ rfl rfl (fun h => absurd hst h)
    have hn1 : NoRej (s.set_promise p { s.heap p with state := o.to_state, callbacks := [] }) := by
      refine hn.set_cell p _ ?_
      intro h hpu
      cases o with
      | fulfilled w => simp [Outcome.to_state]
      | rejected => exact absurd hpu (hr rfl h)
    refine settle_fold_N hrun hrunN p o (s.heap p).callbacks _ hi1 hp ?_ ?_ hn1
    · intro v hv
      subst hv
      rw [set_promise_heap_self]; rfl
    · exact fun k hk => Attached_mono hi he1 hp (hi.attached p hp k hk)

theorem promise_then_N {C : Prop} {run : Callback → Outcome → HotStuffBase → HotStuffBase}
    (hrunN : RunN C run) {s : HotStuffBase} (hi : Inv C s) {p : PId}
    (hp : p < s.next) {k : Callback} (ha : Attached s p k) (hn : NoRej s) :
    NoRej (promise_then run p k s) := by
  unfold promise_then
  cases hst : (s.heap p).state with
  | pending =>
    simp only
    refine hn.set_cell p _ ?_
    intro h hpu
    show (s.heap p).state ≠ .rejected
    rw [hst]; simp
  | resolved v =>
    have hpre := Attached_pre hi hp ha (.fulfilled v) (by intro w hw; cases hw; exact hst)
    exact hrunN k _ s hi hpre hn
  | rejected =>
    have hpre := Attached_pre hi hp ha .rejected (by intro w hw; cases hw)
    exact hrunN k _ s hi hpre hn

theorem all_check_N {C : Prop} {run : Callback → Outcome → HotStuffBase → HotStuffBase}
    (hrun : RunOK C run) (hrunN : RunN C run) {s : HotStuffBase} (hi : Inv C s) {ret : PId}
    (hp : ret < s.next) (hpu : (s.heap ret).purpose = .all) (hn : NoRej s) :
    NoRej (all_check run ret s) := by
  unfold all_check
  split
  · rename_i hall
    have hso : SettleOK s ret
        (.fulfilled (.values (part_values s (s.heap ret).parts))) := by
      refine ⟨?_, ?_, ?_⟩
      · intro h hh; rw [hpu] at hh; cases hh
      · intro h hh; rw [hpu] at hh; cases hh
      · intro _ q hq
        exact List.all_eq_true.1 hall q hq
    exact settle_N hrun hrunN hi hp hso (by intro h; cases h) hn
  · exact hn

theorem promise_all_fold_N {C : Prop} {run : Callback → Outcome → HotStuffBase → HotStuffBase}
    (hrun : RunOK C run) (hrunN : RunN C run) (ret : PId) (l : List PId) :
    ∀ acc : HotStuffBase, Inv C acc → ret < acc.next → (acc.heap ret).purpose = .all →
      (∀ q ∈ l, q < acc.next) → NoRej acc →
      NoRej (l.foldl (fun a pm => promise_then run pm (.all_part ret) a) acc) := by
  induction l with
  | nil => intro acc _ _ _ _ hn; exact hn
  | cons pm rest ih =>
    intro acc hi hr hpu hq hn
    have hpm := hq pm (List.mem_cons_self _ _)
    obtain ⟨hi2, he2⟩ := promise_then_ok hrun hi hpm (k := .all_part ret) ⟨hr, hpu⟩
    have hn2 := promise_then_N hrunN hi hpm (k := .all_part ret) ⟨hr, hpu⟩ hn
    exact ih _ hi2 (Nat.lt_of_lt_of_le hr he2.next_le)
      (by rw [he2.purpose_eq ret hr]; exact hpu)
      (fun q hq' => Nat.lt_of_lt_of_le (hq q (List.mem_cons_of_mem _ hq')) he2.next_le) hn2

theorem promise_all_N {C : Prop} {run : Callback → Outcome → HotStuffBase → HotStuffBase}
    (hrun : RunOK C run) (hrunN : RunN C run) {s : HotStuffBase} (hi : Inv C s)
    {l : List PId} (hq : ∀ q ∈ l, q < s.next) (hn : NoRej s) :
    NoRej (promise_all run l s).1 := by
  have hi1 : Inv C (s.new_promise (Promise.mk .pending [] l .all)).1 :=
    hi.new_promise _ hq (by intro h hh; cases hh) (by intro h v hh; cases hh) (fun _ => rfl)
      (by simp)
  have he1 := Ext.by_new_promise s (Promise.mk .pending [] l .all)
  have hn1 : NoRej (s.new_promise (Promise.mk .pending [] l .all)).1 :=
    hn.fresh_cell _ (by intro h hh; cases hh)
  have hlt : s.next < (s.new_promise (Promise.mk .pending [] l .all)).1.next :=
    Nat.lt_succ_self _
  have hcell := new_promise_heap_new s (Promise.mk .pending [] l .all)
  rw [new_promise_snd] at hcell
  have hq1 : ∀ q ∈ l, q < (s.new_promise (Promise.mk .pending [] l .all)).1.next :=
    fun q hq' => Nat.lt_of_lt_of_le (hq q hq') he1.next_le
  obtain ⟨hi2, he2⟩ := promise_all_fold_ok hrun s.next l _ hi1 hlt (by rw [hcell]) hq1
  have hn2 := promise_all_fold_N hrun hrunN s.next l _ hi1 hlt (by rw [hcell]) hq1 hn1
  have hlt2 := Nat.lt_of_lt_of_le hlt he2.next_le
  have hpu2 := he2.purpose_eq s.next hlt
  rw [hcell] at hpu2
  exact all_check_N hrun hrunN hi2 hlt2 hpu2 hn2

theorem async_fetch_blk_N {s : HotStuffBase} (hn : NoRej s) (h : Hash) (rid : Option NetAddr) :
    NoRej (async_fetch_blk h rid s).1 := by
  have hn0 : NoRej (s.log (.async_fetch_blk h rid)) := hn.of_heap rfl rfl
  unfold async_fetch_blk
  simp only
  cases hfb : (s.log (.async_fetch_blk h rid)).storage.find_blk h with
  | some b => exact hn0.fresh_cell _ (by intro x _; simp)
  | none =>
    simp only
    have key : ∀ r : HotStuffBase × BlockFetchContext,
        r = (match table_find (s.log (.async_fetch_blk h rid)).blk_fetch_waiting h with
          | some ctx => ((s.log (.async_fetch_blk h rid)), ctx)
          | none =>
            ({ ((s.log (.async_fetch_blk h rid)).new_promise
                  (Promise.mk .pending [] [] (.fetch h))).1 with
                blk_fetch_waiting :=
                  ((s.log (.async_fetch_blk h rid)).new_promise
                    (Promise.mk .pending [] [] (.fetch h))).1.blk_fetch_waiting
                    ++ [(h, BlockFetchContext.mk ((s.log (.async_fetch_blk h rid)).new_promise
                      (Promise.mk .pending [] [] (.fetch h))).2 [])] },
             BlockFetchContext.mk ((s.log (.async_fetch_blk h rid)).new_promise
                      (Promise.mk .pending [] [] (.fetch h))).2 [])) →
        NoRej r.1 := by
      intro r hr
      cases htf : table_find (s.log (.async_fetch_blk h rid)).blk_fetch_waiting h with
      | some ctx =>
        rw [htf] at hr
        subst hr
        exact hn0
      | none =>
        rw [htf] at hr
        subst hr
        exact (hn0.fresh_cell (Promise.mk .pending [] [] (.fetch h))
          (by intro x _; simp)).of_heap rfl rfl
    have k1 := key _ rfl
    cases rid with
    | none => exact k1
    | some r => exact k1.of_heap rfl rfl

theorem async_deliver_blk_N {C : Prop} {run : Callback → Outcome → HotStuffBase → HotStuffBase}
    (hrunN : RunN C run) {s : HotStuffBase} (hi : Inv C s) (hn : NoRej s) (h : Hash)
    (r : NetAddr) : NoRej (async_deliver_blk run h r s).1 := by
  unfold async_deliver_blk
  by_cases hd : s.storage.is_blk_delivered h = true
  · simp only [hd, if_true]
    exact hn.fresh_cell _ (by intro x hx; cases hx)
  · simp only [hd, if_false, Bool.false_eq_true]
    cases htf : table_find s.blk_delivery_waiting h with
    | some pm => exact hn
    | none =>
      simp only
      have hi1 := hi.new_promise (Promise.mk .pending [] [] (.deliver h))
        (by simp) (by intro x _ hx; exact absurd rfl hx) (by intro x v hx; cases hx)
        (by intro hx; cases hx) (by simp)
      have hc := new_promise_heap_new s (Promise.mk .pending [] [] (.deliver h))
      have hi2 := hi1.insert_delivery (h := h) (q := s.next) (Nat.lt_succ_self _)
        (by rw [← new_promise_snd s, hc])
      have hn1 : NoRej (s.new_promise (Promise.mk .pending [] [] (.deliver h))).1 :=
        hn.fresh_cell _ (by intro x hx; cases hx)
      have hn2 : NoRej { (s.new_promise (Promise.mk .pending [] [] (.deliver h))).1 with
          blk_delivery_waiting :=
            (s.new_promise (Promise.mk .pending [] [] (.deliver h))).1.blk_delivery_waiting
              ++ [(h, s.next)] } := hn1.of_heap rfl rfl
      obtain ⟨hi3, he3, hlt3, hpu3⟩ := async_fetch_blk_ok hi2 h (some r)
      have hn3 := async_fetch_blk_N hn2 h (some r)
      exact promise_then_N hrunN hi3 hlt3 (k := .deliver_fetched r) ⟨h, hpu3⟩ hn3

theorem on_deliver_blk_N {C : Prop} {run : Callback → Outcome → HotStuffBase → HotStuffBase}
    (env : Env) (hrun : RunOK C run) (hrunN : RunN C run) {s : HotStuffBase}
    (hi : Inv C s) {blk : Block}
    (hb : s.storage.find_blk blk.hash = some blk)
    (hpar : ∀ ph ∈ blk.parent_hashes, ph ∈ s.storage.delivered)
    (hqc : ∀ h, blk.qc = some h → s.storage.is_blk_fetched h = true)
    (hn : NoRej s) : NoRej (on_deliver_blk env run blk s) := by
  have hi0 : Inv C (s.log (.on_deliver_blk blk s.storage)) := by
    refine hi.log ⟨hb, ?_, hqc, hi.closed⟩
    intro ph hph
    simpa [EntityStorage.is_blk_delivered] using hpar ph hph
  have hn0 : NoRej (s.log (.on_deliver_blk blk s.storage)) := hn.of_heap rfl rfl
  unfold on_deliver_blk
  simp only
  by_cases hval : env.core_on_deliver_blk (s.log (.on_deliver_blk blk s.storage)).storage blk
      = true
  · simp only [hval, if_true]
    have hi1 : Inv C { (s.log (.on_deliver_blk blk s.storage)) with
        storage := (s.log (.on_deliver_blk blk s.storage)).storage.mark_blk_delivered blk.hash,
        part_parent_size := (s.log (.on_deliver_blk blk s.storage)).part_parent_size
          + blk.parent_hashes.length,
        part_delivered := (s.log (.on_deliver_blk blk s.storage)).part_delivered + 1,
        delivered := (s.log (.on_deliver_blk blk s.storage)).delivered + 1 } := by
      refine hi0.frame rfl rfl (fun _ hh => List.mem_cons_of_mem _ hh) (fun _ _ hh => hh) ?_
        hi0.fetch_tbl hi0.deliv_tbl hi0.cmd_tbl hi0.beat_tbl hi0.trace_ok
      intro hC x hx
      simp only [EntityStorage.mark_blk_delivered, List.mem_cons] at hx
      rcases hx with hx | hx
      · subst hx
        exact ⟨blk, hb, fun ph hph => List.mem_cons_of_mem _ (hpar ph hph)⟩
      · obtain ⟨b', hb1, hb2⟩ := hi.closed hC x hx
        exact ⟨b', hb1, fun ph hph => List.mem_cons_of_mem _ (hb2 ph hph)⟩
    have hn1 : NoRej { (s.log (.on_deliver_blk blk s.storage)) with
        storage := (s.log (.on_deliver_blk blk s.storage)).storage.mark_blk_delivered blk.hash,
        part_parent_size := (s.log (.on_deliver_blk blk s.storage)).part_parent_size
          + blk.parent_hashes.length,
        part_delivered := (s.log (.on_deliver_blk blk s.storage)).part_delivered + 1,
        delivered := (s.log (.on_deliver_blk blk s.storage)).delivered + 1 } :=
      hn.of_heap rfl rfl
    split
    · rename_i pm htf
      have hpm := hi1.deliv_tbl _ (table_find_some_mem htf)
      have hso := SettleOK.of_deliver (.blk blk) hpm.2 (List.mem_cons_self _ _)
      exact (settle_N hrun hrunN hi1 hpm.1 hso (by intro h; cases h) hn1).of_heap rfl rfl
    · exact hn1
  · have hval2 : env.core_on_deliver_blk (s.log (.on_deliver_blk blk s.storage)).storage blk
        = false := by simpa using hval
    simp only [hval2, Bool.false_eq_true, if_false]
    split
    · rename_i pm htf
      have hpm := hi0.deliv_tbl _ (table_find_some_mem htf)
      refine (settle_N hrun hrunN hi0 hpm.1 (o := .rejected) trivial ?_ hn0).of_heap rfl rfl
      intro _ h hpu
      rw [hpm.2] at hpu
      cases hpu
    · exact hn0

theorem on_fetch_cmd_N {C : Prop} {run : Callback → Outcome → HotStuffBase → HotStuffBase}
    (hrun : RunOK C run) (hrunN : RunN C run) {s : HotStuffBase} (hi : Inv C s)
    (hn : NoRej s) (cmd : Command) : NoRej (on_fetch_cmd run cmd s) := by
  unfold on_fetch_cmd
  cases htf : table_find s.cmd_fetch_waiting cmd.hash with
  | none => exact hn
  | some pm =>
    simp only
    have hpm := hi.cmd_tbl _ (table_find_some_mem htf)
    have hso : SettleOK s pm (.fulfilled .null) := by
      refine ⟨?_, ?_, ?_⟩
      · intro x hx; rw [hpm.2] at hx; cases hx
      · intro x hx; rw [hpm.2] at hx; cases hx
      · intro hx; rw [hpm.2] at hx; cases hx
    exact (settle_N hrun hrunN hi hpm.1 hso (by intro h; cases h) hn).of_heap rfl rfl

theorem on_fetch_cmd_fold_N {C : Prop} {run : Callback → Outcome → HotStuffBase → HotStuffBase}
    (hrun : RunOK C run) (hrunN : RunN C run) (cmds : List Command) :
    ∀ s : HotStuffBase, Inv C s → NoRej s →
      NoRej (cmds.foldl (fun acc cmd => on_fetch_cmd run cmd acc) s) := by
  induction cmds with
  | nil => intro s _ hn; exact hn
  | cons c rest ih =>
    intro s hi hn
    exact ih _ (on_fetch_cmd_ok hrun hi c).1 (on_fetch_cmd_N hrun hrunN hi hn c)

theorem on_fetch_blk_N {C : Prop} {run : Callback → Outcome → HotStuffBase → HotStuffBase}
    (hrun : RunOK C run) (hrunN : RunN C run) {s : HotStuffBase} (hi : Inv C s)
    {blk : Block} (hb : s.storage.find_blk blk.hash = some blk) (hn : NoRej s) :
    NoRej (on_fetch_blk run blk s) := by
  unfold on_fetch_blk
  simp only
  have hi1 : Inv C { s with part_fetched := s.part_fetched + 1, fetched := s.fetched + 1 } :=
    hi.frame rfl rfl (fun _ hh => hh) (fun _ _ hh => hh) hi.closed hi.fetch_tbl hi.deliv_tbl
      hi.cmd_tbl hi.beat_tbl hi.trace_ok
  have he1 : Ext s { s with part_fetched := s.part_fetched + 1, fetched := s.fetched + 1 } :=
    Ext.by_frame rfl rfl (fun _ hh => hh) (fun _ _ hh => hh)
  have hn1 : NoRej { s with part_fetched := s.part_fetched + 1, fetched := s.fetched + 1 } :=
    hn.of_heap rfl rfl
  obtain ⟨hi2, he2⟩ := on_fetch_cmd_fold_ok hrun blk.cmds _ hi1
  have hn2 := on_fetch_cmd_fold_N hrun hrunN blk.cmds _ hi1 hn1
  have he12 := he1.trans he2
  split
  · rename_i ctx htf
    have hpm := hi2.fetch_tbl _ (table_find_some_mem htf)
    have hso := SettleOK.of_fetch hpm.2 (he12.blk_kept _ _ hb)
    exact (settle_N hrun hrunN hi2 hpm.1 hso (by intro h; cases h) hn2).of_heap rfl rfl
  · exact hn2

theorem deliver_deps_N {C : Prop} {run : Callback → Outcome → HotStuffBase → HotStuffBase}
    (hrun : RunOK C run) (hrunN : RunN C run) {s : HotStuffBase} (hi : Inv C s)
    (hn : NoRej s) (b : Block) (r : NetAddr) : NoRej (deliver_deps run b r s).1 := by
  unfold deliver_deps
  simp only
  have hq : ∀ q : HotStuffBase × List PId,
      q = (match b.qc with
        | some h => ((async_fetch_blk h (some r) s).1, [(async_fetch_blk h (some r) s).2])
        | none => (s, [])) →
      Inv C q.1 ∧ (∀ x ∈ q.2, x < q.1.next) ∧ NoRej q.1 := by
    intro q hq
    cases hqc : b.qc with
    | none =>
      rw [hqc] at hq; subst hq
      exact ⟨hi, by simp, hn⟩
    | some h =>
      rw [hqc] at hq; subst hq
      obtain ⟨h1, _, h3, _⟩ := async_fetch_blk_ok hi h (some r)
      exact ⟨h1, by simpa using h3, async_fetch_blk_N hn h (some r)⟩
  obtain ⟨q1, q3, q4⟩ := hq _ rfl
  obtain ⟨c1, c2, c3⟩ := collect_ok (C := C)
    (fun phash acc => async_deliver_blk run phash r acc)
    (fun _ t x => x < t.next)
    (fun a s t x _ he hx => Nat.lt_of_lt_of_le hx he.next_le)
    (fun a s hs => by
      obtain ⟨h1, h2, h3, _⟩ := async_deliver_blk_ok hrun hs a r
      exact ⟨h1, h2, h3⟩)
    b.parent_hashes _ q1
  have c4 := collect_keep
    (fun phash acc => async_deliver_blk run phash r acc)
    (fun t => Inv C t ∧ NoRej t)
    (fun a t ht => ⟨(async_deliver_blk_ok hrun ht.1 a r).1,
      async_deliver_blk_N hrunN ht.1 ht.2 a r⟩)
    b.parent_hashes _ ⟨q1, q4⟩
  obtain ⟨_, m2⟩ := forall₂_mem c3
  exact promise_all_N hrun hrunN c1 (l := _ ++ _) (by
    intro x hx
    rcases List.mem_append.1 hx with hx | hx
    · exact Nat.lt_of_lt_of_le (q3 x hx) c2.next_le
    · obtain ⟨a, _, ha⟩ := m2 x hx
      exact ha) c4.2

/-- The callback interpreter rejects no fetch promise, at every depth. -/
theorem run_callback_N {C : Prop} (env : Env) : ∀ n, RunN C (run_callback env n) := by
  intro n
  induction n with
  | zero =>
    intro k o s _ _ hn
    rw [run_callback_zero]
    exact hn
  | succ n ih =>
    have ihA : RunOK C (run_callback env n) := run_callback_ok env n
    intro k o s hi hpre hn
    cases k with
    | deliver_fetched r =>
      cases o with
      | rejected => simp only [run_callback]; exact hn
      | fulfilled v =>
        cases v with
        | null => simp only [run_callback]; exact hn
        | values bs => simp only [run_callback]; exact hn
        | fin f => simp only [run_callback]; exact hn
        | blk b =>
          have hb : s.storage.find_blk b.hash = some b := hpre
          simp only [run_callback]
          obtain ⟨a1, _, a3, a4⟩ := deliver_deps_ok ihA hi hb r
          exact promise_then_N ih a1 a3 a4 (deliver_deps_N ihA ih hi hn b r)
    | deliver_ready b =>
      cases o with
      | rejected => simp only [run_callback]; exact hn
      | fulfilled v =>
        simp only [run_callback]
        exact on_deliver_blk_N env ihA ih hi hpre.1 hpre.2.1 hpre.2.2 hn
    | all_part ret =>
      have hp : ret < s.next ∧ (s.heap ret).purpose = .all := by cases o <;> exact hpre
      cases o with
      | rejected =>
        simp only [run_callback]
        refine settle_N ihA ih hi hp.1 (o := .rejected) trivial ?_ hn
        intro _ h hpu
        rw [hp.2] at hpu
        cases hpu
      | fulfilled v =>
        simp only [run_callback]
        exact all_check_N ihA ih hi hp.1 hp.2 hn
    | receive_proposal prop =>
      cases o with
      | rejected => simp only [run_callback]; exact hn
      | fulfilled v => simp only [run_callback]; exact hn.of_heap rfl rfl
    | receive_vote vote =>
      cases o with
      | rejected => simp only [run_callback]; exact hn
      | fulfilled v => simp only [run_callback]; exact hn.of_heap rfl rfl
    | send_resp_blk replica =>
      cases o with
      | rejected => simp only [run_callback]; exact hn
      | fulfilled v =>
        cases v with
        | values bs => simp only [run_callback]; exact hn.of_heap rfl rfl
        | null => simp only [run_callback]; exact hn
        | blk b => simp only [run_callback]; exact hn
        | fin f => simp only [run_callback]; exact hn
    | propose cmds =>
      cases o with
      | rejected => simp only [run_callback]; exact hn
      | fulfilled v => simp only [run_callback]; exact hn.of_heap rfl rfl
    | send_resp_cmd addr =>
      cases o with
      | rejected => simp only [run_callback]; exact hn
      | fulfilled v =>
        cases v with
        | fin f => simp only [run_callback]; exact hn.of_heap rfl rfl
        | null => simp only [run_callback]; exact hn
        | blk b => simp only [run_callback]; exact hn
        | values bs => simp only [run_callback]; exact hn

theorem init_N (id : ReplicaID) (blk_size : Nat) (proposer : ReplicaID) (st : EntityStorage) :
    NoRej (HotStuffBase.init id blk_size proposer st) := by
  intro p h hp
  exact absurd hp (Nat.not_lt_zero _)

theorem join_two_N {C : Prop} (env : Env) (fuel : Nat) {s : HotStuffBase} (hi : Inv C s)
    (hn : NoRej s) (h1 h2 : Hash) (peer : NetAddr) (k : Callback)
    (hk : ∀ t p, (t.heap p).purpose = .all →
      (∃ q ∈ (t.heap p).parts, (t.heap q).purpose = .deliver h1) →
      (∃ q ∈ (t.heap p).parts, (t.heap q).purpose = .deliver h2) → Attached t p k) :
    NoRej (promise_then (run_callback env fuel)
        (promise_all (run_callback env fuel)
          [(async_deliver_blk (run_callback env fuel) h1 peer s).2,
           (async_deliver_blk (run_callback env fuel) h2 peer
              (async_deliver_blk (run_callback env fuel) h1 peer s).1).2]
          (async_deliver_blk (run_callback env fuel) h2 peer
              (async_deliver_blk (run_callback env fuel) h1 peer s).1).1).2 k
        (promise_all (run_callback env fuel)
          [(async_deliver_blk (run_callback env fuel) h1 peer s).2,
           (async_deliver_blk (run_callback env fuel) h2 peer
              (async_deliver_blk (run_callback env fuel) h1 peer s).1).2]
          (async_deliver_blk (run_callback env fuel) h2 peer
              (async_deliver_blk (run_callback env fuel) h1 peer s).1).1).1) := by
  have hrun := run_callback_ok (C := C) env fuel
  have hrunN := run_callback_N (C := C) env fuel
  obtain ⟨d1, e1, l1, p1⟩ := async_deliver_blk_ok hrun hi h1 peer
  have u1 := async_deliver_blk_N hrunN hi hn h1 peer
  obtain ⟨d2, e2, l2, p2⟩ := async_deliver_blk_ok hrun d1 h2 peer
  have u2 := async_deliver_blk_N hrunN d1 u1 h2 peer
  have hlt : ∀ q ∈ [(async_deliver_blk (run_callback env fuel) h1 peer s).2,
      (async_deliver_blk (run_callback env fuel) h2 peer
        (async_deliver_blk (run_callback env fuel) h1 peer s).1).2],
      q < (async_deliver_blk (run_callback env fuel) h2 peer
        (async_deliver_blk (run_callback env fuel) h1 peer s).1).1.next := by
    intro q hq
    simp only [List.mem_cons, List.mem_singleton, List.mem_nil_iff, or_false] at hq
    rcases hq with hq | hq
    · rw [hq]; exact Nat.lt_of_lt_of_le l1 e2.next_le
    · rw [hq]; exact l2
  obtain ⟨a1, a2, a3, a4, a5⟩ := promise_all_ok hrun d2 hlt
  have au := promise_all_N hrun hrunN d2 hlt u2
  refine promise_then_N hrunN a1 a3 (hk _ _ a4 ?_ ?_) au
  · refine ⟨_, by rw [a5]; exact List.mem_cons_self _ _, ?_⟩
    rw [a2.purpose_eq _ (Nat.lt_of_lt_of_le l1 e2.next_le), e2.purpose_eq _ l1]
    exact p1
  · refine ⟨_, by rw [a5]; exact List.mem_cons_of_mem _ (List.mem_singleton_self _), ?_⟩
    rw [a2.purpose_eq _ l2]
    exact p2

theorem propose_handler_N {C : Prop} (env : Env) (fuel : Nat) {s : HotStuffBase}
    (hi : Inv C s) (hn : NoRej s) (prop : Proposal) (peer : NetAddr) :
    NoRej (propose_handler env fuel prop peer s) := by
  unfold propose_handler
  simp only
  exact join_two_N env fuel (hi.add_blk prop.blk).1 (hn.of_heap rfl rfl) _ _ peer _
    (fun t p h1 h2 h3 => ⟨h1, h2, h3⟩)

theorem vote_handler_N {C : Prop} (env : Env) (fuel : Nat) {s : HotStuffBase}
    (hi : Inv C s) (hn : NoRej s) (vote : Vote) (peer : NetAddr) :
    NoRej (vote_handler env fuel vote peer s) := by
  unfold vote_handler
  simp only
  exact join_two_N env fuel hi hn _ _ peer _ (fun t p _ _ _ => trivial)

theorem req_blk_handler_N {C : Prop} (env : Env) (fuel : Nat) {s : HotStuffBase}
    (hi : Inv C s) (hn : NoRej s) (blk_hashes : List Hash) (replica : NetAddr) :
    NoRej (req_blk_handler env fuel blk_hashes replica s) := by
  have hrun := run_callback_ok (C := C) env fuel
  have hrunN := run_callback_N (C := C) env fuel
  unfold req_blk_handler
  simp only
  obtain ⟨c1, c2, c3⟩ := collect_ok (C := C)
    (fun h acc => async_fetch_blk h none acc)
    (fun _ t x => x < t.next)
    (fun a s t x _ he hx => Nat.lt_of_lt_of_le hx he.next_le)
    (fun a s hs => by
      obtain ⟨h1, h2, h3, _⟩ := async_fetch_blk_ok hs a none
      exact ⟨h1, h2, h3⟩)
    blk_hashes s hi
  have c4 := collect_keep (fun h acc => async_fetch_blk h none acc)
    (fun t => NoRej t) (fun a t ht => async_fetch_blk_N ht a none) blk_hashes s hn
  have hlt : ∀ x ∈ (collect (fun h acc => async_fetch_blk h none acc) blk_hashes s).2,
      x < (collect (fun h acc => async_fetch_blk h none acc) blk_hashes s).1.next := by
    intro x hx
    obtain ⟨a, _, ha⟩ := (forall₂_mem c3).2 x hx
    exact ha
  obtain ⟨a1, a2, a3, a4, a5⟩ := promise_all_ok hrun c1 hlt
  have au := promise_all_N hrun hrunN c1 hlt c4
  exact promise_then_N hrunN a1 a3 (k := .send_resp_blk replica) trivial au

theorem on_fetch_blk_fold_N {C : Prop} {run : Callback → Outcome → HotStuffBase → HotStuffBase}
    (hrun : RunOK C run) (hrunN : RunN C run) (l : List (Option Block)) :
    ∀ s : HotStuffBase, Inv C s → NoRej s →
      (∀ b, some b ∈ l → s.storage.find_blk b.hash = some b) →
      NoRej (l.foldl (fun acc blk =>
        match blk with
        | some b => on_fetch_blk run b acc
        | none => acc) s) := by
  induction l with
  | nil => intro s _ hn _; exact hn
  | cons x rest ih =>
    intro s hi hn hb
    cases x with
    | none =>
      exact ih s hi hn (fun b hb' => hb b (List.mem_cons_of_mem _ hb'))
    | some b =>
      obtain ⟨h1, h2⟩ := on_fetch_blk_ok hrun hi (hb b (List.mem_cons_self _ _))
      have u1 := on_fetch_blk_N hrun hrunN hi (hb b (List.mem_cons_self _ _)) hn
      exact ih _ h1 u1 (fun b' hb' => h2.blk_kept _ _ (hb b' (List.mem_cons_of_mem _ hb')))

theorem resp_blk_handler_N {C : Prop} (env : Env) (fuel : Nat) {s : HotStuffBase}
    (hi : Inv C s) (hn : NoRej s) (payload : List Block) :
    NoRej (resp_blk_handler env fuel payload s) := by
  have hrun := run_callback_ok (C := C) env fuel
  have hrunN := run_callback_N (C := C) env fuel
  unfold resp_blk_handler MsgRespBlock.postponed_parse
  simp only
  obtain ⟨c1, c2, c3⟩ := collect_ok (C := C)
    (fun _blk (acc : HotStuffBase) =>
      if !env.verify _blk then
        ({ acc with storage := (acc.storage.add_blk _blk).1 },
          some (acc.storage.add_blk _blk).2)
      else
        (acc, none))
    (fun _ t x => ∀ b, x = some b → t.storage.find_blk b.hash = some b)
    (fun a s t x _ he hx b hb => he.blk_kept _ _ (hx b hb))
    (fun a s hs => by
      by_cases hv : env.verify a = true
      · simp only [hv, Bool.not_true, Bool.false_eq_true, if_false]
        exact ⟨hs, Ext.refl _, by simp⟩
      · have hv2 : env.verify a = false := by simpa using hv
        simp only [hv2, Bool.not_false, if_true]
        refine ⟨(hs.add_blk a).1, (hs.add_blk a).2, ?_⟩
        intro b hb
        simp only [Option.some.injEq] at hb
        subst hb
        exact add_blk_canonical _ _)
    payload s hi
  have c4 := collect_keep
    (fun _blk (acc : HotStuffBase) =>
      if !env.verify _blk then
        ({ acc with storage := (acc.storage.add_blk _blk).1 },
          some (acc.storage.add_blk _blk).2)
      else
        (acc, none))
    (fun t => NoRej t)
    (fun a t ht => by
      by_cases hv : env.verify a = true
      · simp only [hv, Bool.not_true, Bool.false_eq_true, if_false]
        exact ht
      · have hv2 : env.verify a = false := by simpa using hv
        simp only [hv2, Bool.not_false, if_true]
        exact ht.of_heap rfl rfl)
    payload s hn
  refine on_fetch_blk_fold_N hrun hrunN _ _ c1 c4 ?_
  intro b hb
  obtain ⟨a, _, ha⟩ := (forall₂_mem c3).2 _ hb
  exact ha b rfl

theorem exec_command_N {s : HotStuffBase} (hn : NoRej s) (cmd : Command) :
    NoRej (exec_command cmd s).1 := by
  unfold exec_command
  simp only
  split
  · exact hn.fresh_cell _ (by intro x hx; cases hx)
  · have key : ∀ t : HotStuffBase, NoRej t →
        NoRej (match table_find t.decision_waiting cmd.hash with
          | some pm => (t, pm)
          | none =>
            ({ (t.new_promise (Promise.mk .pending [] [] .other)).1 with
                decision_waiting :=
                  (t.new_promise (Promise.mk .pending [] [] .other)).1.decision_waiting
                    ++ [(cmd.hash, (t.new_promise (Promise.mk .pending [] [] .other)).2)] },
             (t.new_promise (Promise.mk .pending [] [] .other)).2)).1 := by
      intro t ht
      split
      · exact ht
      · exact (ht.fresh_cell (Promise.mk .pending [] [] .other)
          (by intro x hx; cases hx)).of_heap rfl rfl
    apply key
    split
    · have h1 : NoRej { s with
          storage := (s.storage.add_cmd cmd).1,
          cmd_pending := (drain_pending s.blk_size []
            (s.cmd_pending ++ [(s.storage.add_cmd cmd).2])).2 } :=
        hn.of_heap rfl rfl
      exact (h1.fresh_cell (Promise.mk .pending [.propose (drain_pending s.blk_size []
            (s.cmd_pending ++ [(s.storage.add_cmd cmd).2])).1] [] .other)
          (by intro x hx; cases hx)).of_heap rfl rfl
    · exact hn.of_heap rfl rfl

theorem beat_fire_N {C : Prop} (env : Env) (fuel : Nat) {s : HotStuffBase} (hi : Inv C s)
    (hn : NoRej s) : NoRej (beat_fire env fuel s) := by
  have hrun := run_callback_ok (C := C) env fuel
  have hrunN := run_callback_N (C := C) env fuel
  unfold beat_fire
  cases hb : s.beat_waiting with
  | nil => exact hn
  | cons pm rest =>
    simp only
    have hpm := hi.beat_tbl pm (by rw [hb]; exact List.mem_cons_self _ _)
    have hi1 : Inv C { s with beat_waiting := rest } :=
      hi.frame rfl rfl (fun _ hh => hh) (fun _ _ hh => hh) hi.closed hi.fetch_tbl hi.deliv_tbl
        hi.cmd_tbl (fun p hp => hi.beat_tbl p (by rw [hb]; exact List.mem_cons_of_mem _ hp))
        hi.trace_ok
    have hn1 : NoRej { s with beat_waiting := rest } := hn.of_heap rfl rfl
    have hso : SettleOK { s with beat_waiting := rest } pm (.fulfilled .null) := by
      refine ⟨?_, ?_, ?_⟩
      · intro x hx
        have : (s.heap pm).purpose = .deliver x := hx
        rw [hpm.2] at this; cases this
      · intro x hx
        have : (s.heap pm).purpose = .fetch x := hx
        rw [hpm.2] at this; cases this
      · intro hx
        have : (s.heap pm).purpose = .all := hx
        rw [hpm.2] at this; cases this
    exact settle_N hrun hrunN hi1 hpm.1 hso (by intro h; cases h) hn1

theorem step_N {C : Prop} (env : Env) (fuel : Nat) {s : HotStuffBase} (hi : Inv C s)
    (hn : NoRej s) (i : Input) : NoRej (step env fuel s i) := by
  cases i with
  | propose prop peer => exact propose_handler_N env fuel hi hn prop peer
  | vote vote peer => exact vote_handler_N env fuel hi hn vote peer
  | req_blk hs r => exact req_blk_handler_N env fuel hi hn hs r
  | resp_blk payload => exact resp_blk_handler_N env fuel hi hn payload
  | deliver h r => exact async_deliver_blk_N (run_callback_N env fuel) hi hn h r
  | command cmd => exact exec_command_N hn cmd
  | beat => exact beat_fire_N env fuel hi hn
  | set_proposer p => exact hn.of_heap rfl rfl

theorem run_inputs_N {C : Prop} (env : Env) (fuel : Nat) (inputs : List Input) :
    ∀ s : HotStuffBase, Inv C s → NoRej s → NoRej (run_inputs env fuel s inputs) := by
  induction inputs with
  | nil => intro s _ hn; exact hn
  | cons i rest ih => intro s hi hn; exact ih _ (step_ok env fuel hi i) (step_N env fuel hi hn i)

/-! ## A request for blocks is answered -/

theorem Forall₂.of_imp {α β : Type} {R S : α → β → Prop} {l : List α} {m : List β}
    (h : List.Forall₂ R l m) (hi : ∀ a b, a ∈ l → b ∈ m → R a b → S a b) :
    List.Forall₂ S l m := by
  induction h with
  | nil => exact List.Forall₂.nil
  | cons hab _ ih =>
    refine List.Forall₂.cons (hi _ _ (List.mem_cons_self _ _) (List.mem_cons_self _ _) hab) ?_
    exact ih (fun a b ha hb hr =>
      hi a b (List.mem_cons_of_mem _ ha) (List.mem_cons_of_mem _ hb) hr)

theorem Reg.part_lt {r : ReqCtx} {owed : Bool} {s : HotStuffBase} (hr : Reg r owed s)
    {q : PId} (hq : q ∈ (s.heap r.ret).parts) :
    q < s.next ∧ ∃ h, h ∈ r.hashes ∧ (s.heap q).purpose = .fetch h := by
  obtain ⟨h, hh, h1, h2⟩ := (forall₂_mem hr.parts).2 q hq
  exact ⟨h1, h, hh, h2⟩

theorem Reg.part_ne {r : ReqCtx} {owed : Bool} {s : HotStuffBase} (hr : Reg r owed s)
    {q : PId} (hq : q ∈ (s.heap r.ret).parts) : q ≠ r.ret := by
  intro h
  obtain ⟨_, x, _, hx⟩ := hr.part_lt hq
  rw [h, hr.purpose] at hx
  cases hx

/-- A step keeps the invariant of a request when it leaves the joint promise
alone, keeps purpose and state of the parts and their reports, attaches the
report to no other promise, and keeps trace, store and pinned contexts. -/
theorem Reg.of_cells {r : ReqCtx} {owed : Bool} {s t : HotStuffBase} (hr : Reg r owed s)
    (hnext : s.next ≤ t.next)
    (hret : t.heap r.ret = s.heap r.ret)
    (hparts : ∀ q ∈ (s.heap r.ret).parts, (t.heap q).purpose = (s.heap q).purpose
      ∧ (t.heap q).state = (s.heap q).state
      ∧ (Callback.all_part r.ret ∈ (s.heap q).callbacks →
          Callback.all_part r.ret ∈ (t.heap q).callbacks))
    (honly : ∀ p, p < t.next → Callback.all_part r.ret ∈ (t.heap p).callbacks →
      p < s.next ∧ Callback.all_part r.ret ∈ (s.heap p).callbacks)
    (htrace : ∃ evs, t.trace = s.trace ++ evs)
    (hblk : ∀ h b, s.storage.find_blk h = some b → t.storage.find_blk h = some b)
    (hpin : ∀ e ∈ r.ctxs, Pinned s e → Pinned t e) : Reg r owed t := by
  have hres : ∀ q ∈ (s.heap r.ret).parts, is_resolved t q = is_resolved s q := by
    intro q hq
    simp only [is_resolved, (hparts q hq).2.1]
  refine ⟨Nat.lt_of_lt_of_le hr.ret_lt hnext, by rw [hret]; exact hr.purpose, ?_, ?_, ?_, ?_,
    fun e he => hpin e he (hr.pins e he), ?_⟩
  · rw [hret]
    refine Forall₂.of_imp hr.parts ?_
    intro h q _ hq hq2
    exact ⟨Nat.lt_of_lt_of_le hq2.1 hnext, by rw [(hparts q hq).1]; exact hq2.2⟩
  · intro p hp hk
    rw [hret]
    obtain ⟨h1, h2⟩ := honly p hp hk
    exact hr.only_parts p h1 h2
  · obtain ⟨evs, he⟩ := htrace
    rw [he, List.length_append]
    exact Nat.le_trans hr.base_le (Nat.le_add_right _ _)
  · exact fun e he => Nat.lt_of_lt_of_le (hr.ctxs_lt e he) hnext
  · rcases hr.status with h1 | h1
    · left
      obtain ⟨bs, pre, post, a1, a2, a3, a4⟩ := h1
      obtain ⟨evs, he⟩ := htrace
      refine ⟨bs, pre, post ++ evs, by rw [hret]; exact a1, ?_, a3, ?_⟩
      · rw [he, a2]; simp
      · exact Forall₂.of_imp a4 (fun a b _ _ hab => hblk a b hab)
    · right
      obtain ⟨a1, a2, a3, a4⟩ := h1
      refine ⟨by rw [hret]; exact a1, by rw [hret]; exact a2, ?_, ?_⟩
      · intro q hq
        rw [hret] at hq
        rcases a3 q hq with h2 | ⟨h2, h3, h4⟩
        · left; rw [hres q hq]; exact h2
        · right
          exact ⟨by rw [(hparts q hq).2.1]; exact h2, (hparts q hq).2.2 h3, h4⟩
      · intro ho
        obtain ⟨q, hq, hq2⟩ := a4 ho
        exact ⟨q, by rw [hret]; exact hq, by rw [hres q hq]; exact hq2⟩

theorem Reg.of_frame {r : ReqCtx} {owed : Bool} {s t : HotStuffBase} (hr : Reg r owed s)
    (hheap : t.heap = s.heap) (hnext : t.next = s.next)
    (htrace : ∃ evs, t.trace = s.trace ++ evs)
    (hblk : ∀ h b, s.storage.find_blk h = some b → t.storage.find_blk h = some b)
    (htbl : ∀ h c, table_find s.blk_fetch_waiting h = some c →
      ∃ c', table_find t.blk_fetch_waiting h = some c' ∧ c'.pm = c.pm) : Reg r owed t := by
  refine hr.of_cells (Nat.le_of_eq hnext.symm) (by rw [hheap]) ?_ ?_ htrace hblk ?_
  · intro q _
    rw [hheap]
    exact ⟨rfl, rfl, fun h => h⟩
  · intro p hp hk
    rw [hheap] at hk
    rw [hnext] at hp
    exact ⟨hp, hk⟩
  · intro e _ hp
    rcases hp with h1 | ⟨c, h1, h2⟩
    · left; rw [hheap]; exact h1
    · right
      obtain ⟨c', h3, h4⟩ := htbl _ _ h1
      exact ⟨c', h3, h4.trans h2⟩

/-- Steps that touch neither heap nor trace, store or fetch contexts. -/
theorem Reg.untouched {r : ReqCtx} {owed : Bool} {s t : HotStuffBase} (hr : Reg r owed s)
    (hheap : t.heap = s.heap) (hnext : t.next = s.next) (htrace : t.trace = s.trace)
    (hsto : t.storage = s.storage) (htbl : t.blk_fetch_waiting = s.blk_fetch_waiting) :
    Reg r owed t :=
  hr.of_frame hheap hnext ⟨[], by rw [htrace]; simp⟩ (fun _ _ h => by rw [hsto]; exact h)
    (fun _ c hc => ⟨c, by rw [htbl]; exact hc, rfl⟩)

theorem Reg.logged {r : ReqCtx} {owed : Bool} {s : HotStuffBase} (hr : Reg r owed s)
    (e : Event) : Reg r owed (s.log e) :=
  hr.of_frame rfl rfl ⟨[e], rfl⟩ (fun _ _ h => h) (fun _ c hc => ⟨c, hc, rfl⟩)

theorem Reg.born {r : ReqCtx} {owed : Bool} {s : HotStuffBase} (hr : Reg r owed s)
    (c : Promise) (hc : Callback.all_part r.ret ∉ c.callbacks) :
    Reg r owed (s.new_promise c).1 := by
  have hold : ∀ p, p < s.next → (s.new_promise c).1.heap p = s.heap p :=
    fun p hp => new_promise_heap_old s c hp
  refine hr.of_cells (Nat.le_succ _) (hold _ hr.ret_lt) ?_ ?_ ⟨[], by
    show s.trace = s.trace ++ []
    simp⟩ (fun _ _ h => h) ?_
  · intro q hq
    rw [hold q (hr.part_lt hq).1]
    exact ⟨rfl, rfl, fun h => h⟩
  · intro p hp hk
    rw [new_promise_next] at hp
    rcases Nat.lt_succ_iff_lt_or_eq.1 hp with hlt | heq
    · rw [hold p hlt] at hk
      exact ⟨hlt, hk⟩
    · subst heq
      have hcell := new_promise_heap_new s c
      rw [new_promise_snd] at hcell
      rw [hcell] at hk
      exact absurd hk hc
  · intro e he hp
    rcases hp with h1 | h1
    · left; rw [hold _ (hr.ctxs_lt e he)]; exact h1
    · right; exact h1

/-- Rewriting the cell of a promise other than the joint promise: the state
stays, or the promise is pending and no part of the request; the report of
the request is attached to nothing new and stays where it is. -/
theorem Reg.put_cell {r : ReqCtx} {owed : Bool} {s : HotStuffBase} (hr : Reg r owed s)
    (p : PId) (c : Promise) (hne : p ≠ r.ret)
    (hpu : c.purpose = (s.heap p).purpose)
    (hst : c.state = (s.heap p).state
      ∨ ((s.heap p).state = .pending ∧ p ∉ (s.heap r.ret).parts))
    (hcb : Callback.all_part r.ret ∈ c.callbacks →
      Callback.all_part r.ret ∈ (s.heap p).callbacks)
    (hcb2 : p ∈ (s.heap r.ret).parts → Callback.all_part r.ret ∈ (s.heap p).callbacks →
      Callback.all_part r.ret ∈ c.callbacks) :
    Reg r owed (s.set_promise p c) := by
  refine hr.of_cells (Nat.le_refl _) (set_promise_heap_other s p c (Ne.symm hne)) ?_ ?_
    ⟨[], by
      show s.trace = s.trace ++ []
      simp⟩ (fun _ _ h => h) ?_
  · intro q hq
    by_cases hqp : q = p
    · subst hqp
      rw [set_promise_heap_self]
      refine ⟨hpu, ?_, hcb2 hq⟩
      rcases hst with h1 | h1
      · exact h1
      · exact absurd hq h1.2
    · rw [set_promise_heap_other s p c hqp]
      exact ⟨rfl, rfl, fun h => h⟩
  · intro q hq hk
    by_cases hqp : q = p
    · subst hqp
      rw [set_promise_heap_self] at hk
      exact ⟨hq, hcb hk⟩
    · rw [set_promise_heap_other s p c hqp] at hk
      exact ⟨hq, hk⟩
  · intro e _ hp
    by_cases hqp : e.2 = p
    · rcases hst with h1 | h1
      · rcases hp with h2 | h2
        · left
          rw [hqp, set_promise_heap_self, h1, ← hqp]
          exact h2
        · right; exact h2
      · rcases hp with h2 | h2
        · rw [hqp] at h2
          exact absurd h1.1 h2
        · right; exact h2
    · rcases hp with h2 | h2
      · left; rw [set_promise_heap_other s p c hqp]; exact h2
      · right; exact h2

theorem Reg.weaken {r : ReqCtx} {owed : Bool} {s : HotStuffBase} (hr : Reg r owed s) :
    Reg r true s := by
  refine ⟨hr.ret_lt, hr.purpose, hr.parts, hr.only_parts, hr.base_le, hr.ctxs_lt, hr.pins, ?_⟩
  rcases hr.status with h | h
  · exact Or.inl h
  · exact Or.inr ⟨h.1, h.2.1, h.2.2.1, fun hf => by cases hf⟩

/-- Erasing the fetch context of a hash keeps the invariant of a request once
the promises the request waits for under that hash are settled. -/
theorem Reg.drop_entry {r : ReqCtx} {owed : Bool} {s : HotStuffBase} (hr : Reg r owed s)
    (h : Hash) (hd : ∀ e ∈ r.ctxs, e.1 = h → (s.heap e.2).state ≠ .pending) :
    Reg r owed { s with blk_fetch_waiting := table_erase s.blk_fetch_waiting h } := by
  refine hr.of_cells (Nat.le_refl _) rfl (fun q _ => ⟨rfl, rfl, fun x => x⟩)
    (fun p hp hk => ⟨hp, hk⟩) ⟨[], by
      show s.trace = s.trace ++ []
      simp⟩ (fun _ _ x => x) ?_
  intro e he hp
  by_cases heq : e.1 = h
  · left; exact hd e he heq
  · rcases hp with h1 | ⟨c, h1, h2⟩
    · left; exact h1
    · right
      refine ⟨c, ?_, h2⟩
      show table_find (table_erase s.blk_fetch_waiting h) e.1 = some c
      rw [table_find_erase_ne _ _ _ heq]
      exact h1

theorem settle_fold_R {C : Prop} {r : ReqCtx}
    {run : Callback → Outcome → HotStuffBase → HotStuffBase}
    (hrun : RunOK C run) (hrunR : RunR C r run) (p : PId) (o : Outcome) (owed : Bool)
    (cbs : List Callback) :
    ∀ acc : HotStuffBase, Inv C acc → p < acc.next →
      (∀ v, o = .fulfilled v → (acc.heap p).state = .resolved v) →
      (∀ k ∈ cbs, Attached acc p k) → (∀ k ∈ cbs, k ≠ .all_part r.ret) → Reg r owed acc →
      Reg r owed (cbs.foldl (fun a k => run k o a) acc) := by
  induction cbs with
  | nil => intro acc _ _ _ _ _ hn; exact hn
  | cons k rest ih =>
    intro acc hi hp ho ha hk hn
    have hatt := ha k (List.mem_cons_self _ _)
    have hpre : Pre acc k o := Attached_pre hi hp hatt o ho
    obtain ⟨hi2, he2⟩ := hrun k o acc hi hpre
    refine ih (run k o acc) hi2 (Nat.lt_of_lt_of_le hp he2.next_le) ?_ ?_
      (fun k' hk' => hk k' (List.mem_cons_of_mem _ hk'))
      (hrunR k o acc owed hi hpre (hk k (List.mem_cons_self _ _)) hn)
    · intro v hv
      rw [he2.settled p hp (by rw [ho v hv]; simp)]
      exact ho v hv
    · exact fun k' hk' => Attached_mono hi he2 hp (ha k' (List.mem_cons_of_mem _ hk'))

/-- Settling a promise that is neither the joint promise of the request nor
a fetch promise keeps the invariant of the request. -/
theorem settle_R {C : Prop} {r : ReqCtx} {run : Callback → Outcome → HotStuffBase → HotStuffBase}
    (hrun : RunOK C run) (hrunR : RunR C r run) {s : HotStuffBase} (hi : Inv C s) {p : PId}
    (hp : p < s.next) {o : Outcome} (hs : SettleOK s p o) (hne : p ≠ r.ret)
    (hnf : ∀ h, (s.heap p).purpose ≠ .fetch h) {owed : Bool}
    (hn : Reg r owed s) : Reg r owed (settle run p o s) := by
  have hnp : p ∉ (s.heap r.ret).parts := by
    intro hq
    obtain ⟨_, x, _, hx⟩ := hn.part_lt hq
    exact hnf x hx
  unfold settle
  cases hst : (s.heap p).state with
  | resolved v => exact hn
  | rejected => exact hn
  | pending =>
    simp only
    have hi1 : Inv C (s.set_promise p { s.heap p with
        state := o.to_state, callbacks := [] }) := by
      refine hi.set_promise p _ hp rfl rfl (Or.inr ⟨hst, ?_⟩) (by simp)
      intro v hv
      cases o with
      | fulfilled w =>
        simp only [Outcome.to_state, PromiseState.resolved.injEq] at hv
        subst hv; exact hs
      | rejected => simp [Outcome.to_state] at hv
    have he1 : Ext s (s.set_promise p { s.heap p with
        state := o.to_state, callbacks := [] }) :=
      Ext.by_set_promise s p _ rfl rfl (fun h => absurd hst h)
    have hn1 : Reg r owed
        (s.set_promise p { s.heap p with state := o.to_state, callbacks := [] }) :=
      hn.put_cell p _ hne rfl (Or.inr ⟨hst, hnp⟩) (by intro h; cases h)
        (fun h => absurd h hnp)
    refine settle_fold_R hrun hrunR p o owed (s.heap p).callbacks _ hi1 hp ?_ ?_ ?_ hn1
    · intro v hv
      subst hv
      rw [set_promise_heap_self]; rfl
    · exact fun k hk => Attached_mono hi he1 hp (hi.attached p hp k hk)
    · intro k hk hkeq
      subst hkeq
      exact hnp (hn.only_parts p hp hk)

theorem promise_then_R {C : Prop} {r : ReqCtx}
    {run : Callback → Outcome → HotStuffBase → HotStuffBase}
    (hrunR : RunR C r run) {s : HotStuffBase} (hi : Inv C s) {p : PId}
    (hp : p < s.next) {k : Callback} (ha : Attached s p k) (hne : p ≠ r.ret)
    (hk : k ≠ .all_part r.ret) {owed : Bool} (hn : Reg r owed s) :
    Reg r owed (promise_then run p k s) := by
  unfold promise_then
  cases hst : (s.heap p).state with
  | pending =>
    simp only
    refine hn.put_cell p _ hne rfl (Or.inl rfl) ?_ ?_
    · intro h
      simp only [List.mem_append, List.mem_singleton] at h
      rcases h with h | h
      · exact h
      · exact absurd h.symm hk
    · intro _ h
      exact List.mem_append_left _ h
  | resolved v =>
    have hpre := Attached_pre hi hp ha (.fulfilled v) (by intro w hw; cases hw; exact hst)
    exact hrunR k _ s owed hi hpre hk hn
  | rejected =>
    have hpre := Attached_pre hi hp ha .rejected (by intro w hw; cases hw)
    exact hrunR k _ s owed hi hpre hk hn

theorem all_check_R {C : Prop} {r : ReqCtx}
    {run : Callback → Outcome → HotStuffBase → HotStuffBase}
    (hrun : RunOK C run) (hrunR : RunR C r run) {s : HotStuffBase} (hi : Inv C s) {ret : PId}
    (hp : ret < s.next) (hpu : (s.heap ret).purpose = .all) (hne : ret ≠ r.ret) {owed : Bool}
    (hn : Reg r owed s) : Reg r owed (all_check run ret s) := by
  unfold all_check
  split
  · rename_i hall
    have hso : SettleOK s ret
        (.fulfilled (.values (part_values s (s.heap ret).parts))) := by
      refine ⟨?_, ?_, ?_⟩
      · intro h hh; rw [hpu] at hh; cases hh
      · intro h hh; rw [hpu] at hh; cases hh
      · intro _ q hq
        exact List.all_eq_true.1 hall q hq
    exact settle_R hrun hrunR hi hp hso hne (by intro h hh; rw [hpu] at hh; cases hh) hn
  · exact hn

theorem promise_all_fold_R {C : Prop} {r : ReqCtx}
    {run : Callback → Outcome → HotStuffBase → HotStuffBase}
    (hrun : RunOK C run) (hrunR : RunR C r run) (ret : PId) (hne : ret ≠ r.ret) (owed : Bool)
    (l : List PId) :
    ∀ acc : HotStuffBase, Inv C acc → ret < acc.next → (acc.heap ret).purpose = .all →
      (∀ q ∈ l, q < acc.next) → (∀ q ∈ l, q ≠ r.ret) → Reg r owed acc →
      Reg r owed (l.foldl (fun a pm => promise_then run pm (.all_part ret) a) acc) := by
  induction l with
  | nil => intro acc _ _ _ _ _ hn; exact hn
  | cons pm rest ih =>
    intro acc hi hr hpu hq hq2 hn
    have hpm := hq pm (List.mem_cons_self _ _)
    obtain ⟨hi2, he2⟩ := promise_then_ok hrun hi hpm (k := .all_part ret) ⟨hr, hpu⟩
    have hn2 := promise_then_R hrunR hi hpm (k := .all_part ret) ⟨hr, hpu⟩
      (hq2 pm (List.mem_cons_self _ _)) (by
        intro h
        simp only [Callback.all_part.injEq] at h
        exact hne h) hn
    exact ih _ hi2 (Nat.lt_of_lt_of_le hr he2.next_le)
      (by rw [he2.purpose_eq ret hr]; exact hpu)
      (fun q hq' => Nat.lt_of_lt_of_le (hq q (List.mem_cons_of_mem _ hq')) he2.next_le)
      (fun q hq' => hq2 q (List.mem_cons_of_mem _ hq')) hn2

theorem promise_all_snd (run : Callback → Outcome → HotStuffBase → HotStuffBase)
    (l : List PId) (s : HotStuffBase) : (promise_all run l s).2 = s.next := rfl

theorem promise_all_R {C : Prop} {r : ReqCtx}
    {run : Callback → Outcome → HotStuffBase → HotStuffBase}
    (hrun : RunOK C run) (hrunR : RunR C r run) {s : HotStuffBase} (hi : Inv C s)
    {l : List PId} (hq : ∀ q ∈ l, q < s.next) (hq2 : ∀ q ∈ l, q ≠ r.ret) {owed : Bool}
    (hn : Reg r owed s) : Reg r owed (promise_all run l s).1 := by
  have hi1 : Inv C (s.new_promise (Promise.mk .pending [] l .all)).1 :=
    hi.new_promise _ hq (by intro h hh; cases hh) (by intro h v hh; cases hh) (fun _ => rfl)
      (by simp)
  have he1 := Ext.by_new_promise s (Promise.mk .pending [] l .all)
  have hn1 : Reg r owed (s.new_promise (Promise.mk .pending [] l .all)).1 :=
    hn.born _ (by simp)
  have hlt : s.next < (s.new_promise (Promise.mk .pending [] l .all)).1.next :=
    Nat.lt_succ_self _
  have hcell := new_promise_heap_new s (Promise.mk .pending [] l .all)
  rw [new_promise_snd] at hcell
  have hq1 : ∀ q ∈ l, q < (s.new_promise (Promise.mk .pending [] l .all)).1.next :=
    fun q hq' => Nat.lt_of_lt_of_le (hq q hq') he1.next_le
  have hne : s.next ≠ r.ret := Ne.symm (Nat.ne_of_lt hn.ret_lt)
  obtain ⟨hi2, he2⟩ := promise_all_fold_ok hrun s.next l _ hi1 hlt (by rw [hcell]) hq1
  have hn2 := promise_all_fold_R hrun hrunR s.next hne owed l _ hi1 hlt (by rw [hcell]) hq1
    hq2 hn1
  have hlt2 := Nat.lt_of_lt_of_le hlt he2.next_le
  have hpu2 := he2.purpose_eq s.next hlt
  rw [hcell] at hpu2
  exact all_check_R hrun hrunR hi2 hlt2 hpu2 hne hn2

theorem table_find_map_pm (t : List (Hash × BlockFetchContext)) (g : Hash) (rid : NetAddr)
    (h : Hash) (c : BlockFetchContext) (hc : table_find t h = some c) :
    ∃ c', table_find (t.map (fun e =>
        if e.1 == g then (e.1, e.2.add_replica rid) else e)) h = some c' ∧ c'.pm = c.pm := by
  induction t with
  | nil => simp [table_find] at hc
  | cons e rest ih =>
    by_cases he : (e.1 == h) = true
    · have hce : c = e.2 := by
        simp only [table_find, List.find?_cons, he, Option.map_some'] at hc
        exact (Option.some.inj hc).symm
      by_cases hg : (e.1 == g) = true
      · refine ⟨e.2.add_replica rid, ?_, ?_⟩
        · simp only [table_find, List.map_cons, hg, if_true, List.find?_cons, he,
            Option.map_some']
        · rw [hce]
          unfold BlockFetchContext.add_replica
          split <;> rfl
      · refine ⟨e.2, ?_, by rw [hce]⟩
        have hg2 : (e.1 == g) = false := by simpa using hg
        simp only [table_find, List.map_cons, hg2, Bool.false_eq_true, if_false,
          List.find?_cons, he, Option.map_some']
    · have he2 : (e.1 == h) = false := by simpa using he
      have hc2 : table_find rest h = some c := by
        simp only [table_find, List.find?_cons, he2] at hc
        exact hc
      obtain ⟨c', h1, h2⟩ := ih hc2
      refine ⟨c', ?_, h2⟩
      by_cases hg : (e.1 == g) = true
      · simp only [table_find, List.map_cons, hg, if_true, List.find?_cons, he2]
        exact h1
      · have hg2 : (e.1 == g) = false := by simpa using hg
        simp only [table_find, List.map_cons, hg2, Bool.false_eq_true, if_false,
          List.find?_cons, he2]
        exact h1

theorem async_fetch_blk_R {r : ReqCtx} {owed : Bool} {s : HotStuffBase} (hn : Reg r owed s)
    (h : Hash) (rid : Option NetAddr) : Reg r owed (async_fetch_blk h rid s).1 := by
  have hn0 : Reg r owed (s.log (.async_fetch_blk h rid)) := hn.logged _
  unfold async_fetch_blk
  simp only
  cases hfb : (s.log (.async_fetch_blk h rid)).storage.find_blk h with
  | some b => exact hn0.born _ (by simp)
  | none =>
    simp only
    have key : ∀ x : HotStuffBase × BlockFetchContext,
        x = (match table_find (s.log (.async_fetch_blk h rid)).blk_fetch_waiting h with
          | some ctx => ((s.log (.async_fetch_blk h rid)), ctx)
          | none =>
            ({ ((s.log (.async_fetch_blk h rid)).new_promise
                  (Promise.mk .pending [] [] (.fetch h))).1 with
                blk_fetch_waiting :=
                  ((s.log (.async_fetch_blk h rid)).new_promise
                    (Promise.mk .pending [] [] (.fetch h))).1.blk_fetch_waiting
                    ++ [(h, BlockFetchContext.mk ((s.log (.async_fetch_blk h rid)).new_promise
                      (Promise.mk .pending [] [] (.fetch h))).2 [])] },
             BlockFetchContext.mk ((s.log (.async_fetch_blk h rid)).new_promise
                      (Promise.mk .pending [] [] (.fetch h))).2 [])) →
        Reg r owed x.1 := by
      intro x hx
      cases htf : table_find (s.log (.async_fetch_blk h rid)).blk_fetch_waiting h with
      | some ctx =>
        rw [htf] at hx
        subst hx
        exact hn0
      | none =>
        rw [htf] at hx
        subst hx
        refine (hn0.born (Promise.mk .pending [] [] (.fetch h)) (by simp)).of_frame rfl rfl
          ⟨[], (List.append_nil _).symm⟩ (fun _ _ x => x) ?_
        intro g c hc
        exact ⟨c, table_find_append_old _ _ _ _ hc, rfl⟩
    have k1 := key _ rfl
    cases rid with
    | none => exact k1
    | some a =>
      refine k1.of_frame rfl rfl ⟨[], (List.append_nil _).symm⟩ (fun _ _ x => x) ?_
      intro g c hc
      exact table_find_map_pm _ h a g c hc

theorem Reg.ne_of_purpose {r : ReqCtx} {owed : Bool} {s : HotStuffBase} (hr : Reg r owed s)
    {p : PId} (hp : (s.heap p).purpose ≠ .all) : p ≠ r.ret := by
  intro h
  rw [h] at hp
  exact hp hr.purpose

theorem async_deliver_blk_R {C : Prop} {r : ReqCtx}
    {run : Callback → Outcome → HotStuffBase → HotStuffBase}
    (hrunR : RunR C r run) {s : HotStuffBase} (hi : Inv C s) {owed : Bool}
    (hn : Reg r owed s) (h : Hash) (a : NetAddr) : Reg r owed (async_deliver_blk run h a s).1 := by
  unfold async_deliver_blk
  by_cases hd : s.storage.is_blk_delivered h = true
  · simp only [hd, if_true]
    exact hn.born _ (by simp)
  · simp only [hd, if_false, Bool.false_eq_true]
    cases htf : table_find s.blk_delivery_waiting h with
    | some pm => exact hn
    | none =>
      simp only
      have hi1 := hi.new_promise (Promise.mk .pending [] [] (.deliver h))
        (by simp) (by intro x _ hx; exact absurd rfl hx) (by intro x v hx; cases hx)
        (by intro hx; cases hx) (by simp)
      have hc := new_promise_heap_new s (Promise.mk .pending [] [] (.deliver h))
      have hi2 := hi1.insert_delivery (h := h) (q := s.next) (Nat.lt_succ_self _)
        (by rw [← new_promise_snd s, hc])
      have hn1 : Reg r owed (s.new_promise (Promise.mk .pending [] [] (.deliver h))).1 :=
        hn.born _ (by simp)
      have hn2 : Reg r owed { (s.new_promise (Promise.mk .pending [] [] (.deliver h))).1 with
          blk_delivery_waiting :=
            (s.new_promise (Promise.mk .pending [] [] (.deliver h))).1.blk_delivery_waiting
              ++ [(h, s.next)] } := hn1.untouched rfl rfl rfl rfl rfl
      obtain ⟨hi3, he3, hlt3, hpu3⟩ := async_fetch_blk_ok hi2 h (some a)
      have hn3 := async_fetch_blk_R hn2 h (some a)
      exact promise_then_R hrunR hi3 hlt3 (k := .deliver_fetched a) ⟨h, hpu3⟩
        (hn3.ne_of_purpose (by rw [hpu3]; intro hx; cases hx)) (by intro hx; cases hx) hn3

theorem on_deliver_blk_R {C : Prop} {r : ReqCtx}
    {run : Callback → Outcome → HotStuffBase → HotStuffBase}
    (env : Env) (hrun : RunOK C run) (hrunR : RunR C r run) {s : HotStuffBase}
    (hi : Inv C s) {blk : Block}
    (hb : s.storage.find_blk blk.hash = some blk)
    (hpar : ∀ ph ∈ blk.parent_hashes, ph ∈ s.storage.delivered)
    (hqc : ∀ h, blk.qc = some h → s.storage.is_blk_fetched h = true) {owed : Bool}
    (hn : Reg r owed s) : Reg r owed (on_deliver_blk env run blk s) := by
  have hi0 : Inv C (s.log (.on_deliver_blk blk s.storage)) := by
    refine hi.log ⟨hb, ?_, hqc, hi.closed⟩
    intro ph hph
    simpa [EntityStorage.is_blk_delivered] using hpar ph hph
  have hn0 : Reg r owed (s.log (.on_deliver_blk blk s.storage)) := hn.logged _
  unfold on_deliver_blk
  simp only
  by_cases hval : env.core_on_deliver_blk (s.log (.on_deliver_blk blk s.storage)).storage blk
      = true
  · simp only [hval, if_true]
    have hi1 : Inv C { (s.log (.on_deliver_blk blk s.storage)) with
        storage := (s.log (.on_deliver_blk blk s.storage)).storage.mark_blk_delivered blk.hash,
        part_parent_size := (s.log (.on_deliver_blk blk s.storage)).part_parent_size
          + blk.parent_hashes.length,
        part_delivered := (s.log (.on_deliver_blk blk s.storage)).part_delivered + 1,
        delivered := (s.log (.on_deliver_blk blk s.storage)).delivered + 1 } := by
      refine hi0.frame rfl rfl (fun _ hh => List.mem_cons_of_mem _ hh) (fun _ _ hh => hh) ?_
        hi0.fetch_tbl hi0.deliv_tbl hi0.cmd_tbl hi0.beat_tbl hi0.trace_ok
      intro hC x hx
      simp only [EntityStorage.mark_blk_delivered, List.mem_cons] at hx
      rcases hx with hx | hx
      · subst hx
        exact ⟨blk, hb, fun ph hph => List.mem_cons_of_mem _ (hpar ph hph)⟩
      · obtain ⟨b', hb1, hb2⟩ := hi.closed hC x hx
        exact ⟨b', hb1, fun ph hph => List.mem_cons_of_mem _ (hb2 ph hph)⟩
    have hn1 : Reg r owed { (s.log (.on_deliver_blk blk s.storage)) with
        storage := (s.log (.on_deliver_blk blk s.storage)).storage.mark_blk_delivered blk.hash,
        part_parent_size := (s.log (.on_deliver_blk blk s.storage)).part_parent_size
          + blk.parent_hashes.length,
        part_delivered := (s.log (.on_deliver_blk blk s.storage)).part_delivered + 1,
        delivered := (s.log (.on_deliver_blk blk s.storage)).delivered + 1 } :=
      hn0.of_frame rfl rfl ⟨[], (List.append_nil _).symm⟩ (fun _ _ hh => hh)
        (fun _ c hc => ⟨c, hc, rfl⟩)
    split
    · rename_i pm htf
      have hpm := hi1.deliv_tbl _ (table_find_some_mem htf)
      have hso := SettleOK.of_deliver (.blk blk) hpm.2 (List.mem_cons_self _ _)
      exact (settle_R hrun hrunR hi1 hpm.1 hso
        (hn1.ne_of_purpose (by rw [hpm.2]; intro hx; cases hx))
        (by intro x hx; rw [hpm.2] at hx; cases hx) hn1).untouched rfl rfl rfl rfl rfl
    · exact hn1
  · have hval2 : env.core_on_deliver_blk (s.log (.on_deliver_blk blk s.storage)).storage blk
        = false := by simpa using hval
    simp only [hval2, Bool.false_eq_true, if_false]
    split
    · rename_i pm htf
      have hpm := hi0.deliv_tbl _ (table_find_some_mem htf)
      exact (settle_R hrun hrunR hi0 hpm.1 (o := .rejected) trivial
        (hn0.ne_of_purpose (by rw [hpm.2]; intro hx; cases hx))
        (by intro x hx; rw [hpm.2] at hx; cases hx) hn0).untouched rfl rfl rfl rfl rfl
    · exact hn0

theorem on_fetch_cmd_R {C : Prop} {r : ReqCtx}
    {run : Callback → Outcome → HotStuffBase → HotStuffBase}
    (hrun : RunOK C run) (hrunR : RunR C r run) {s : HotStuffBase} (hi : Inv C s)
    {owed : Bool} (hn : Reg r owed s) (cmd : Command) : Reg r owed (on_fetch_cmd run cmd s) := by
  unfold on_fetch_cmd
  cases htf : table_find s.cmd_fetch_waiting cmd.hash with
  | none => exact hn
  | some pm =>
    simp only
    have hpm := hi.cmd_tbl _ (table_find_some_mem htf)
    have hso : SettleOK s pm (.fulfilled .null) := by
      refine ⟨?_, ?_, ?_⟩
      · intro x hx; rw [hpm.2] at hx; cases hx
      · intro x hx; rw [hpm.2] at hx; cases hx
      · intro hx; rw [hpm.2] at hx; cases hx
    exact (settle_R hrun hrunR hi hpm.1 hso
      (hn.ne_of_purpose (by rw [hpm.2]; intro hx; cases hx))
      (by intro x hx; rw [hpm.2] at hx; cases hx) hn).untouched rfl rfl rfl rfl rfl

theorem on_fetch_cmd_fold_R {C : Prop} {r : ReqCtx}
    {run : Callback → Outcome → HotStuffBase → HotStuffBase}
    (hrun : RunOK C run) (hrunR : RunR C r run) (owed : Bool) (cmds : List Command) :
    ∀ s : HotStuffBase, Inv C s → Reg r owed s →
      Reg r owed (cmds.foldl (fun acc cmd => on_fetch_cmd run cmd acc) s) := by
  induction cmds with
  | nil => intro s _ hn; exact hn
  | cons c rest ih =>
    intro s hi hn
    exact ih _ (on_fetch_cmd_ok hrun hi c).1 (on_fetch_cmd_R hrun hrunR hi hn c)

theorem deliver_deps_R {C : Prop} {r : ReqCtx}
    {run : Callback → Outcome → HotStuffBase → HotStuffBase}
    (hrun : RunOK C run) (hrunR : RunR C r run) {s : HotStuffBase} (hi : Inv C s)
    {owed : Bool} (hn : Reg r owed s) (b : Block) (a : NetAddr) :
    Reg r owed (deliver_deps run b a s).1 ∧ (deliver_deps run b a s).2 ≠ r.ret := by
  unfold deliver_deps
  simp only
  have hq : ∀ q : HotStuffBase × List PId,
      q = (match b.qc with
        | some h => ((async_fetch_blk h (some a) s).1, [(async_fetch_blk h (some a) s).2])
        | none => (s, [])) →
      Inv C q.1 ∧ Ext s q.1
        ∧ (∀ x ∈ q.2, x < q.1.next ∧ (q.1.heap x).purpose ≠ .all) ∧ Reg r owed q.1 := by
    intro q hq
    cases hqc : b.qc with
    | none =>
      rw [hqc] at hq; subst hq
      exact ⟨hi, Ext.refl _, by simp, hn⟩
    | some h =>
      rw [hqc] at hq; subst hq
      obtain ⟨h1, h2, h3, h4⟩ := async_fetch_blk_ok hi h (some a)
      refine ⟨h1, h2, ?_, async_fetch_blk_R hn h (some a)⟩
      intro x hx
      simp only [List.mem_singleton] at hx
      subst hx
      exact ⟨h3, by rw [h4]; intro hx; cases hx⟩
  obtain ⟨q1, q2, q3, q4⟩ := hq _ rfl
  obtain ⟨c1, c2, c3⟩ := collect_ok (C := C)
    (fun phash acc => async_deliver_blk run phash a acc)
    (fun ph t x => x < t.next ∧ (t.heap x).purpose = .deliver ph)
    (fun a s t x _ he hx => ⟨Nat.lt_of_lt_of_le hx.1 he.next_le,
      by rw [he.purpose_eq x hx.1]; exact hx.2⟩)
    (fun a s hs => by
      obtain ⟨h1, h2, h3, h4⟩ := async_deliver_blk_ok hrun hs a _
      exact ⟨h1, h2, h3, h4⟩)
    b.parent_hashes _ q1
  have c4 := collect_keep
    (fun phash acc => async_deliver_blk run phash a acc)
    (fun t => Inv C t ∧ Reg r owed t)
    (fun x t ht => ⟨(async_deliver_blk_ok hrun ht.1 x a).1,
      async_deliver_blk_R hrunR ht.1 ht.2 x a⟩)
    b.parent_hashes _ ⟨q1, q4⟩
  obtain ⟨_, m2⟩ := forall₂_mem c3
  refine ⟨promise_all_R hrun hrunR c1 (l := _ ++ _) ?_ ?_ c4.2, ?_⟩
  · intro x hx
    rcases List.mem_append.1 hx with hx | hx
    · exact Nat.lt_of_lt_of_le (q3 x hx).1 c2.next_le
    · obtain ⟨y, _, hy⟩ := m2 x hx
      exact hy.1
  · intro x hx
    rcases List.mem_append.1 hx with hx | hx
    · refine c4.2.ne_of_purpose ?_
      rw [c2.purpose_eq x (q3 x hx).1]
      exact (q3 x hx).2
    · obtain ⟨y, _, hy⟩ := m2 x hx
      exact c4.2.ne_of_purpose (by rw [hy.2]; intro hx; cases hx)
  · rw [promise_all_snd]
    exact Ne.symm (Nat.ne_of_lt (Nat.lt_of_lt_of_le hn.ret_lt (q2.trans c2).next_le))

/-- The callback interpreter keeps the invariant of a request at every depth,
as long as it is not asked to run the report of a part of the request. -/
theorem run_callback_R {C : Prop} {r : ReqCtx} (env : Env) :
    ∀ n, RunR C r (run_callback env n) := by
  intro n
  induction n with
  | zero =>
    intro k o s owed _ _ _ hn
    rw [run_callback_zero]
    exact hn
  | succ n ih =>
    have ihA : RunOK C (run_callback env n) := run_callback_ok env n
    intro k o s owed hi hpre hk hn
    cases k with
    | deliver_fetched a =>
      cases o with
      | rejected => simp only [run_callback]; exact hn
      | fulfilled v =>
        cases v with
        | null => simp only [run_callback]; exact hn
        | values bs => simp only [run_callback]; exact hn
        | fin f => simp only [run_callback]; exact hn
        | blk b =>
          have hb : s.storage.find_blk b.hash = some b := hpre
          simp only [run_callback]
          obtain ⟨a1, _, a3, a4⟩ := deliver_deps_ok ihA hi hb a
          obtain ⟨d1, d2⟩ := deliver_deps_R ihA ih hi hn b a
          exact promise_then_R ih a1 a3 a4 d2 (by intro hx; cases hx) d1
    | deliver_ready b =>
      cases o with
      | rejected => simp only [run_callback]; exact hn
      | fulfilled v =>
        simp only [run_callback]
        exact on_deliver_blk_R env ihA ih hi hpre.1 hpre.2.1 hpre.2.2 hn
    | all_part ret =>
      have hp : ret < s.next ∧ (s.heap ret).purpose = .all := by cases o <;> exact hpre
      have hne : ret ≠ r.ret := by
        intro h
        exact hk (by rw [h])
      cases o with
      | rejected =>
        simp only [run_callback]
        exact settle_R ihA ih hi hp.1 (o := .rejected) trivial hne
          (by intro x hx; rw [hp.2] at hx; cases hx) hn
      | fulfilled v =>
        simp only [run_callback]
        exact all_check_R ihA ih hi hp.1 hp.2 hne hn
    | receive_proposal prop =>
      cases o with
      | rejected => simp only [run_callback]; exact hn
      | fulfilled v => simp only [run_callback]; exact hn.logged _
    | receive_vote vote =>
      cases o with
      | rejected => simp only [run_callback]; exact hn
      | fulfilled v => simp only [run_callback]; exact hn.logged _
    | send_resp_blk replica =>
      cases o with
      | rejected => simp only [run_callback]; exact hn
      | fulfilled v =>
        cases v with
        | values bs => simp only [run_callback]; exact hn.logged _
        | null => simp only [run_callback]; exact hn
        | blk b => simp only [run_callback]; exact hn
        | fin f => simp only [run_callback]; exact hn
    | propose cmds =>
      cases o with
      | rejected => simp only [run_callback]; exact hn
      | fulfilled v => simp only [run_callback]; exact hn.logged _
    | send_resp_cmd addr =>
      cases o with
      | rejected => simp only [run_callback]; exact hn
      | fulfilled v =>
        cases v with
        | fin f => simp only [run_callback]; exact hn.logged _
        | null => simp only [run_callback]; exact hn
        | blk b => simp only [run_callback]; exact hn
        | values bs => simp only [run_callback]; exact hn

/-- When all parts of the request are resolved, their values are the stored
blocks of the requested hashes, in the order of the request. -/
theorem part_values_fetch {C : Prop} {s : HotStuffBase} (hi : Inv C s) {hs : List Hash}
    {ps : List PId}
    (hf : List.Forall₂ (fun h q => q < s.next ∧ (s.heap q).purpose = .fetch h) hs ps) :
    (∀ q ∈ ps, is_resolved s q = true) →
    List.Forall₂ (fun h b => s.storage.find_blk h = some b) hs (part_values s ps) := by
  induction hf with
  | nil => intro _; exact List.Forall₂.nil
  | @cons h q hs' ps' hab _ ih =>
    intro hall
    obtain ⟨v, hv⟩ := (is_resolved_iff s q).1 (hall q (List.mem_cons_self _ _))
    obtain ⟨b, hb, hb2⟩ := hi.fetch_ok q h v hab.1 hab.2 hv
    subst hb
    have hpv : part_values s (q :: ps') = b :: part_values s ps' := by
      simp [part_values, hv]
    rw [hpv]
    exact List.Forall₂.cons hb2 (ih (fun x hx => hall x (List.mem_cons_of_mem _ hx)))

theorem Reg.of_replied {r : ReqCtx} {owed : Bool} {s : HotStuffBase} (hr : Reg r owed s)
    (h : Replied r s) (o : Bool) : Reg r o s :=
  ⟨hr.ret_lt, hr.purpose, hr.parts, hr.only_parts, hr.base_le, hr.ctxs_lt, hr.pins, Or.inl h⟩

/-- The report of the last part: the joint promise of the request resolves
and the continuation of line 273 sends the reply.  A report that is not the
last one changes nothing. -/
theorem all_check_fire_R {C : Prop} {r : ReqCtx} (env : Env) (n : Nat) {s : HotStuffBase}
    (hi : Inv C s) (hn : Reg r true s) :
    Reg r false (all_check (run_callback env (n + 1)) r.ret s) := by
  unfold all_check
  by_cases hall : (s.heap r.ret).parts.all (is_resolved s) = true
  · simp only [hall, if_true]
    rcases hn.status with hrep | hw
    · obtain ⟨bs, pre, post, a1, a2, a3, a4⟩ := hrep
      have : settle (run_callback env (n + 1)) r.ret
          (.fulfilled (.values (part_values s (s.heap r.ret).parts))) s = s := by
        simp only [settle, a1]
      rw [this]
      exact hn.of_replied ⟨bs, pre, post, a1, a2, a3, a4⟩ false
    · obtain ⟨w1, w2, _, _⟩ := hw
      have hall2 := List.all_eq_true.1 hall
      have hset : settle (run_callback env (n + 1)) r.ret
          (.fulfilled (.values (part_values s (s.heap r.ret).parts))) s
          = (s.set_promise r.ret { s.heap r.ret with
              state := .resolved (.values (part_values s (s.heap r.ret).parts)),
              callbacks := [] }).log
              (.send_resp_blk (part_values s (s.heap r.ret).parts) r.replica) := by
        simp only [settle, w1, w2, List.foldl_cons, List.foldl_nil, run_callback,
          Outcome.to_state]
      rw [hset]
      have hself : ((s.set_promise r.ret { s.heap r.ret with
              state := .resolved (.values (part_values s (s.heap r.ret).parts)),
              callbacks := [] }).log
              (.send_resp_blk (part_values s (s.heap r.ret).parts) r.replica)).heap r.ret
          = { s.heap r.ret with
              state := .resolved (.values (part_values s (s.heap r.ret).parts)),
              callbacks := [] } := set_promise_heap_self _ _ _
      have hoth : ∀ q, q ≠ r.ret → ((s.set_promise r.ret { s.heap r.ret with
              state := .resolved (.values (part_values s (s.heap r.ret).parts)),
              callbacks := [] }).log
              (.send_resp_blk (part_values s (s.heap r.ret).parts) r.replica)).heap q
          = s.heap q := fun q hq => set_promise_heap_other _ _ _ hq
      refine ⟨hn.ret_lt, by rw [hself]; exact hn.purpose, ?_, ?_, ?_, hn.ctxs_lt, ?_, Or.inl ?_⟩
      · rw [hself]
        refine Forall₂.of_imp hn.parts ?_
        intro h q _ hq hq2
        refine ⟨hq2.1, ?_⟩
        rw [hoth q (hn.part_ne hq)]
        exact hq2.2
      · intro p hp hk
        rw [hself]
        by_cases hpr : p = r.ret
        · rw [hpr, hself] at hk
          cases hk
        · rw [hoth p hpr] at hk
          exact hn.only_parts p hp hk
      · show r.base ≤ (s.trace ++ [_]).length
        rw [List.length_append]
        exact Nat.le_trans hn.base_le (Nat.le_add_right _ _)
      · intro e he
        by_cases hpr : e.2 = r.ret
        · left
          rw [hpr, hself]
          simp
        · rcases hn.pins e he with h1 | h1
          · left; rw [hoth _ hpr]; exact h1
          · right; exact h1
      · refine ⟨part_values s (s.heap r.ret).parts, s.trace, [], by rw [hself], rfl,
          hn.base_le, ?_⟩
        exact part_values_fetch hi hn.parts hall2
  · simp only [hall, if_false, Bool.false_eq_true]
    rcases hn.status with hrep | hw
    · exact hn.of_replied hrep false
    · refine ⟨hn.ret_lt, hn.purpose, hn.parts, hn.only_parts, hn.base_le, hn.ctxs_lt, hn.pins,
        Or.inr ⟨hw.1, hw.2.1, hw.2.2.1, fun _ => ?_⟩⟩
      by_contra hcon
      apply hall
      rw [List.all_eq_true]
      intro q hq
      by_contra hq2
      exact hcon ⟨q, hq, by simpa using hq2⟩

/-- Resolving a pending promise other than the joint promise of the request.
If the promise is a part of the request its report is owed from now on. -/
theorem Reg.resolve_cell {r : ReqCtx} {owed : Bool} {s : HotStuffBase} (hr : Reg r owed s)
    {p : PId} (hpend : (s.heap p).state = .pending) (hne : p ≠ r.ret) (v : Value) (o : Bool)
    (ho : o = true ∨ (o = owed ∧ Callback.all_part r.ret ∉ (s.heap p).callbacks)) :
    Reg r o (s.set_promise p { s.heap p with state := .resolved v, callbacks := [] }) := by
  have hself : (s.set_promise p { s.heap p with state := .resolved v, callbacks := [] }).heap p
      = { s.heap p with state := .resolved v, callbacks := [] } := set_promise_heap_self _ _ _
  have hoth : ∀ q, q ≠ p →
      (s.set_promise p { s.heap p with state := .resolved v, callbacks := [] }).heap q
        = s.heap q := fun q hq => set_promise_heap_other _ _ _ hq
  have hret := hoth r.ret (Ne.symm hne)
  have hpu : ∀ q,
      ((s.set_promise p { s.heap p with state := .resolved v, callbacks := [] }).heap q).purpose
        = (s.heap q).purpose := by
    intro q
    by_cases hq : q = p
    · rw [hq, hself]
    · rw [hoth q hq]
  refine ⟨hr.ret_lt, by rw [hpu]; exact hr.purpose, ?_, ?_, hr.base_le, hr.ctxs_lt, ?_, ?_⟩
  · rw [hret]
    exact Forall₂.of_imp hr.parts (fun h q _ _ hq2 => ⟨hq2.1, by rw [hpu]; exact hq2.2⟩)
  · intro q hq hk
    rw [hret]
    by_cases hqp : q = p
    · rw [hqp, hself] at hk
      cases hk
    · rw [hoth q hqp] at hk
      exact hr.only_parts q hq hk
  · intro e he
    by_cases hqp : e.2 = p
    · left
      rw [hqp, hself]
      simp
    · rcases hr.pins e he with h1 | h1
      · left; rw [hoth _ hqp]; exact h1
      · right; exact h1
  · rcases hr.status with hrep | hw
    · left
      obtain ⟨bs, pre, post, a1, a2, a3, a4⟩ := hrep
      exact ⟨bs, pre, post, by rw [hret]; exact a1, a2, a3, a4⟩
    · right
      obtain ⟨w1, w2, w3, w4⟩ := hw
      refine ⟨by rw [hret]; exact w1, by rw [hret]; exact w2, ?_, ?_⟩
      · intro q hq
        rw [hret] at hq
        by_cases hqp : q = p
        · left
          rw [hqp]
          simp [is_resolved, hself]
        · rcases w3 q hq with h1 | h1
          · left
            rw [is_resolved_congr _ _ _ (hoth q hqp)]
            exact h1
          · right
            rw [hoth q hqp]
            exact h1
      · intro hof
        rcases ho with h1 | ⟨h1, h2⟩
        · rw [h1] at hof; cases hof
        · obtain ⟨q, hq, hq2⟩ := w4 (by rw [← h1]; exact hof)
          have hqp : q ≠ p := by
            intro hqp
            rw [hqp] at hq
            rcases w3 p hq with h3 | h3
            · rw [(is_resolved_iff s p)] at h3
              obtain ⟨x, hx⟩ := h3
              rw [hpend] at hx
              cases hx
            · exact h2 h3.2.1
          exact ⟨q, by rw [hret]; exact hq, by
            rw [is_resolved_congr _ _ _ (hoth q hqp)]; exact hq2⟩

/-- Running the callbacks of a fetch promise that has just been resolved.
Among them may be reports to the joint promise of the request; after the
first of them the reply is sent or another part is unresolved. -/
theorem settle_fold_part {C : Prop} {r : ReqCtx} (env : Env) (n : Nat) (p : PId) (v : Value)
    (cbs : List Callback) :
    ∀ acc : HotStuffBase, Inv C acc → p < acc.next → (acc.heap p).state = .resolved v →
      (∀ k ∈ cbs, Attached acc p k) → Reg r true acc →
      (Callback.all_part r.ret ∉ cbs → Reg r false acc) →
      Reg r false (cbs.foldl (fun a k => run_callback env (n + 2) k (.fulfilled v) a) acc) := by
  induction cbs with
  | nil => intro acc _ _ _ _ _ h2; exact h2 (by simp)
  | cons k rest ih =>
    intro acc hi hp hst ha h1 h2
    have hrun := run_callback_ok (C := C) env (n + 2)
    have hatt := ha k (List.mem_cons_self _ _)
    have hpre : Pre acc k (.fulfilled v) :=
      Attached_pre hi hp hatt _ (by intro w hw; cases hw; exact hst)
    obtain ⟨hi2, he2⟩ := hrun k _ acc hi hpre
    have hp2 := Nat.lt_of_lt_of_le hp he2.next_le
    have hst2 : ((run_callback env (n + 2) k (.fulfilled v) acc).heap p).state = .resolved v := by
      rw [he2.settled p hp (by rw [hst]; simp)]
      exact hst
    have ha2 : ∀ k' ∈ rest, Attached (run_callback env (n + 2) k (.fulfilled v) acc) p k' :=
      fun k' hk' => Attached_mono hi he2 hp (ha k' (List.mem_cons_of_mem _ hk'))
    by_cases hk : k = .all_part r.ret
    · have hf : Reg r false (run_callback env (n + 2) k (.fulfilled v) acc) := by
        rw [hk, run_all_part_fulfilled]
        exact all_check_fire_R env n hi h1
      exact ih _ hi2 hp2 hst2 ha2 hf.weaken (fun _ => hf)
    · have hR := run_callback_R (C := C) (r := r) env (n + 2)
      refine ih _ hi2 hp2 hst2 ha2 (hR k _ acc true hi hpre hk h1) ?_
      intro hnot
      refine hR k _ acc false hi hpre hk (h2 ?_)
      intro hm
      rcases List.mem_cons.1 hm with h | h
      · exact hk h.symm
      · exact hnot h

/-- Resolving a fetch promise with its block (line 116 of `on_fetch_blk`), at
callback depth two or more, keeps the invariant of the request: if the
promise was the last unresolved part, the reply is sent. -/
theorem settle_fetch_R {C : Prop} {r : ReqCtx} (env : Env) (n : Nat) {s : HotStuffBase}
    (hi : Inv C s) {p : PId} (hp : p < s.next) {h : Hash}
    (hpu : (s.heap p).purpose = .fetch h) {v : Value} (hs : SettleOK s p (.fulfilled v))
    (hn : Reg r false s) :
    Reg r false (settle (run_callback env (n + 2)) p (.fulfilled v) s) := by
  have hne : p ≠ r.ret := hn.ne_of_purpose (by rw [hpu]; intro hx; cases hx)
  unfold settle
  cases hst : (s.heap p).state with
  | resolved w => exact hn
  | rejected => exact hn
  | pending =>
    simp only
    have hi1 : Inv C (s.set_promise p { s.heap p with
        state := (Outcome.fulfilled v).to_state, callbacks := [] }) := by
      refine hi.set_promise p _ hp rfl rfl (Or.inr ⟨hst, ?_⟩) (by simp)
      intro w hw
      simp only [Outcome.to_state, PromiseState.resolved.injEq] at hw
      subst hw; exact hs
    have he1 : Ext s (s.set_promise p { s.heap p with
        state := (Outcome.fulfilled v).to_state, callbacks := [] }) :=
      Ext.by_set_promise s p _ rfl rfl (fun h => absurd hst h)
    refine settle_fold_part env n p v (s.heap p).callbacks _ hi1 hp ?_ ?_
      (hn.resolve_cell hst hne v true (Or.inl rfl))
      (fun hnot => hn.resolve_cell hst hne v false (Or.inr ⟨rfl, hnot⟩))
    · rw [set_promise_heap_self]; rfl
    · exact fun k hk => Attached_mono hi he1 hp (hi.attached p hp k hk)

theorem settle_not_pending {C : Prop} {run : Callback → Outcome → HotStuffBase → HotStuffBase}
    (hrun : RunOK C run) {s : HotStuffBase} (hi : Inv C s) {p : PId} (hp : p < s.next)
    {o : Outcome} (hs : SettleOK s p o) : ((settle run p o s).heap p).state ≠ .pending := by
  unfold settle
  cases hst : (s.heap p).state with
  | resolved w => simp only; rw [hst]; simp
  | rejected => simp only; rw [hst]; simp
  | pending =>
    simp only
    have hi1 : Inv C (s.set_promise p { s.heap p with
        state := o.to_state, callbacks := [] }) := by
      refine hi.set_promise p _ hp rfl rfl (Or.inr ⟨hst, ?_⟩) (by simp)
      intro v hv
      cases o with
      | fulfilled w =>
        simp only [Outcome.to_state, PromiseState.resolved.injEq] at hv
        subst hv; exact hs
      | rejected => simp [Outcome.to_state] at hv
    have he1 : Ext s (s.set_promise p { s.heap p with
        state := o.to_state, callbacks := [] }) :=
      Ext.by_set_promise s p _ rfl rfl (fun h => absurd hst h)
    have hcell : ((s.set_promise p { s.heap p with
        state := o.to_state, callbacks := [] }).heap p).state = o.to_state := by
      rw [set_promise_heap_self]
    have hnp : ((s.set_promise p { s.heap p with
        state := o.to_state, callbacks := [] }).heap p).state ≠ .pending := by
      rw [hcell]
      cases o <;> simp [Outcome.to_state]
    have := settle_fold_ok hrun p o (s.heap p).callbacks _ hi1 hp
      (by
        intro v hv
        subst hv
        rw [set_promise_heap_self]; rfl)
      (fun k hk => Attached_mono hi he1 hp (hi.attached p hp k hk))
    rw [this.2.settled p hp hnp]
    exact hnp

/-- `on_fetch_blk` at callback depth two or more keeps the invariant of the
request. -/
theorem on_fetch_blk_R {C : Prop} {r : ReqCtx} (env : Env) (n : Nat) {s : HotStuffBase}
    (hi : Inv C s) {blk : Block} (hb : s.storage.find_blk blk.hash = some blk)
    (hn : Reg r false s) : Reg r false (on_fetch_blk (run_callback env (n + 2)) blk s) := by
  have hrun := run_callback_ok (C := C) env (n + 2)
  have hrunR := run_callback_R (C := C) (r := r) env (n + 2)
  unfold on_fetch_blk
  simp only
  have hi1 : Inv C { s with part_fetched := s.part_fetched + 1, fetched := s.fetched + 1 } :=
    hi.frame rfl rfl (fun _ hh => hh) (fun _ _ hh => hh) hi.closed hi.fetch_tbl hi.deliv_tbl
      hi.cmd_tbl hi.beat_tbl hi.trace_ok
  have he1 : Ext s { s with part_fetched := s.part_fetched + 1, fetched := s.fetched + 1 } :=
    Ext.by_frame rfl rfl (fun _ hh => hh) (fun _ _ hh => hh)
  have hn1 : Reg r false
      { s with part_fetched := s.part_fetched + 1, fetched := s.fetched + 1 } :=
    hn.untouched rfl rfl rfl rfl rfl
  obtain ⟨hi2, he2⟩ := on_fetch_cmd_fold_ok hrun blk.cmds _ hi1
  have hn2 := on_fetch_cmd_fold_R hrun hrunR false blk.cmds _ hi1 hn1
  have he12 := he1.trans he2
  split
  · rename_i ctx htf
    have hpm := hi2.fetch_tbl _ (table_find_some_mem htf)
    have hso := SettleOK.of_fetch hpm.2 (he12.blk_kept _ _ hb)
    have hn3 := settle_fetch_R env n hi2 hpm.1 hpm.2 hso hn2
    obtain ⟨_, he3⟩ := settle_ok hrun hi2 hpm.1 hso
    refine hn3.drop_entry blk.hash ?_
    intro e he heq
    rcases hn2.pins e he with h1 | ⟨c, h1, h2⟩
    · rw [he3.settled e.2 (hn2.ctxs_lt e he) h1]
      exact h1
    · rw [heq, htf] at h1
      have hc : ctx = c := Option.some.inj h1
      rw [← h2, ← hc]
      exact settle_not_pending hrun hi2 hpm.1 hso
  · exact hn2

theorem on_fetch_blk_fold_R {C : Prop} {r : ReqCtx} (env : Env) (n : Nat)
    (l : List (Option Block)) :
    ∀ s : HotStuffBase, Inv C s → Reg r false s →
      (∀ b, some b ∈ l → s.storage.find_blk b.hash = some b) →
      Reg r false (l.foldl (fun acc blk =>
        match blk with
        | some b => on_fetch_blk (run_callback env (n + 2)) b acc
        | none => acc) s) := by
  have hrun := run_callback_ok (C := C) env (n + 2)
  induction l with
  | nil => intro s _ hn _; exact hn
  | cons x rest ih =>
    intro s hi hn hb
    cases x with
    | none =>
      exact ih s hi hn (fun b hb' => hb b (List.mem_cons_of_mem _ hb'))
    | some b =>
      obtain ⟨h1, h2⟩ := on_fetch_blk_ok hrun hi (hb b (List.mem_cons_self _ _))
      have u1 := on_fetch_blk_R env n hi (hb b (List.mem_cons_self _ _)) hn
      exact ih _ h1 u1 (fun b' hb' => h2.blk_kept _ _ (hb b' (List.mem_cons_of_mem _ hb')))

theorem resp_blk_handler_R {C : Prop} {r : ReqCtx} (env : Env) (n : Nat) {s : HotStuffBase}
    (hi : Inv C s) (hn : Reg r false s) (payload : List Block) :
    Reg r false (resp_blk_handler env (n + 2) payload s) := by
  unfold resp_blk_handler MsgRespBlock.postponed_parse
  simp only
  obtain ⟨c1, c2, c3⟩ := collect_ok (C := C)
    (fun _blk (acc : HotStuffBase) =>
      if !env.verify _blk then
        ({ acc with storage := (acc.storage.add_blk _blk).1 },
          some (acc.storage.add_blk _blk).2)
      else
        (acc, none))
    (fun _ t x => ∀ b, x = some b → t.storage.find_blk b.hash = some b)
    (fun a s t x _ he hx b hb => he.blk_kept _ _ (hx b hb))
    (fun a s hs => by
      by_cases hv : env.verify a = true
      · simp only [hv, Bool.not_true, Bool.false_eq_true, if_false]
        exact ⟨hs, Ext.refl _, by simp⟩
      · have hv2 : env.verify a = false := by simpa using hv
        simp only [hv2, Bool.not_false, if_true]
        refine ⟨(hs.add_blk a).1, (hs.add_blk a).2, ?_⟩
        intro b hb
        simp only [Option.some.injEq] at hb
        subst hb
        exact add_blk_canonical _ _)
    payload s hi
  have c4 := collect_keep
    (fun _blk (acc : HotStuffBase) =>
      if !env.verify _blk then
        ({ acc with storage := (acc.storage.add_blk _blk).1 },
          some (acc.storage.add_blk _blk).2)
      else
        (acc, none))
    (fun t => Reg r false t)
    (fun a t ht => by
      by_cases hv : env.verify a = true
      · simp only [hv, Bool.not_true, Bool.false_eq_true, if_false]
        exact ht
      · have hv2 : env.verify a = false := by simpa using hv
        simp only [hv2, Bool.not_false, if_true]
        exact ht.of_frame rfl rfl ⟨[], (List.append_nil _).symm⟩
          (fun _ _ hh => add_blk_kept _ _ hh) (fun _ c hc => ⟨c, hc, rfl⟩))
    payload s hn
  refine on_fetch_blk_fold_R env n _ _ c1 c4 ?_
  intro b hb
  obtain ⟨a, _, ha⟩ := (forall₂_mem c3).2 _ hb
  exact ha b rfl

theorem join_two_R {C : Prop} {r : ReqCtx} (env : Env) (fuel : Nat) {s : HotStuffBase}
    (hi : Inv C s) {owed : Bool} (hn : Reg r owed s) (h1 h2 : Hash) (peer : NetAddr)
    (k : Callback) (hkr : k ≠ .all_part r.ret)
    (hk : ∀ t p, (t.heap p).purpose = .all →
      (∃ q ∈ (t.heap p).parts, (t.heap q).purpose = .deliver h1) →
      (∃ q ∈ (t.heap p).parts, (t.heap q).purpose = .deliver h2) → Attached t p k) :
    Reg r owed (promise_then (run_callback env fuel)
        (promise_all (run_callback env fuel)
          [(async_deliver_blk (run_callback env fuel) h1 peer s).2,
           (async_deliver_blk (run_callback env fuel) h2 peer
              (async_deliver_blk (run_callback env fuel) h1 peer s).1).2]
          (async_deliver_blk (run_callback env fuel) h2 peer
              (async_deliver_blk (run_callback env fuel) h1 peer s).1).1).2 k
        (promise_all (run_callback env fuel)
          [(async_deliver_blk (run_callback env fuel) h1 peer s).2,
           (async_deliver_blk (run_callback env fuel) h2 peer
              (async_deliver_blk (run_callback env fuel) h1 peer s).1).2]
          (async_deliver_blk (run_callback env fuel) h2 peer
              (async_deliver_blk (run_callback env fuel) h1 peer s).1).1).1) := by
  have hrun := run_callback_ok (C := C) env fuel
  have hrunR := run_callback_R (C := C) (r := r) env fuel
  obtain ⟨d1, e1, l1, p1⟩ := async_deliver_blk_ok hrun hi h1 peer
  have u1 := async_deliver_blk_R hrunR hi hn h1 peer
  obtain ⟨d2, e2, l2, p2⟩ := async_deliver_blk_ok hrun d1 h2 peer
  have u2 := async_deliver_blk_R hrunR d1 u1 h2 peer
  have hlt : ∀ q ∈ [(async_deliver_blk (run_callback env fuel) h1 peer s).2,
      (async_deliver_blk (run_callback env fuel) h2 peer
        (async_deliver_blk (run_callback env fuel) h1 peer s).1).2],
      q < (async_deliver_blk (run_callback env fuel) h2 peer
        (async_deliver_blk (run_callback env fuel) h1 peer s).1).1.next
      ∧ q ≠ r.ret := by
    intro q hq
    simp only [List.mem_cons, List.mem_singleton, List.mem_nil_iff, or_false] at hq
    rcases hq with hq | hq
    · rw [hq]
      refine ⟨Nat.lt_of_lt_of_le l1 e2.next_le, u2.ne_of_purpose ?_⟩
      rw [e2.purpose_eq _ l1, p1]
      intro hx; cases hx
    · rw [hq]
      exact ⟨l2, u2.ne_of_purpose (by rw [p2]; intro hx; cases hx)⟩
  obtain ⟨a1, a2, a3, a4, a5⟩ := promise_all_ok hrun d2 (fun q hq => (hlt q hq).1)
  have au := promise_all_R hrun hrunR d2 (fun q hq => (hlt q hq).1) (fun q hq => (hlt q hq).2) u2
  refine promise_then_R hrunR a1 a3 (hk _ _ a4 ?_ ?_) ?_ hkr au
  · refine ⟨_, by rw [a5]; exact List.mem_cons_self _ _, ?_⟩
    rw [a2.purpose_eq _ (Nat.lt_of_lt_of_le l1 e2.next_le), e2.purpose_eq _ l1]
    exact p1
  · refine ⟨_, by rw [a5]; exact List.mem_cons_of_mem _ (List.mem_singleton_self _), ?_⟩
    rw [a2.purpose_eq _ l2]
    exact p2
  · rw [promise_all_snd]
    exact Ne.symm (Nat.ne_of_lt u2.ret_lt)

theorem propose_handler_R {C : Prop} {r : ReqCtx} (env : Env) (fuel : Nat) {s : HotStuffBase}
    (hi : Inv C s) {owed : Bool} (hn : Reg r owed s) (prop : Proposal) (peer : NetAddr) :
    Reg r owed (propose_handler env fuel prop peer s) := by
  unfold propose_handler
  simp only
  exact join_two_R env fuel (hi.add_blk prop.blk).1
    (hn.of_frame rfl rfl ⟨[], (List.append_nil _).symm⟩ (fun _ _ hh => add_blk_kept _ _ hh)
      (fun _ c hc => ⟨c, hc, rfl⟩)) _ _ peer _ (by intro hx; cases hx)
    (fun t p h1 h2 h3 => ⟨h1, h2, h3⟩)

theorem vote_handler_R {C : Prop} {r : ReqCtx} (env : Env) (fuel : Nat) {s : HotStuffBase}
    (hi : Inv C s) {owed : Bool} (hn : Reg r owed s) (vote : Vote) (peer : NetAddr) :
    Reg r owed (vote_handler env fuel vote peer s) := by
  unfold vote_handler
  simp only
  exact join_two_R env fuel hi hn _ _ peer _ (by intro hx; cases hx) (fun t p _ _ _ => trivial)

/-- Another `MsgReqBlock` leaves the request alone. -/
theorem req_blk_handler_R {C : Prop} {r : ReqCtx} (env : Env) (fuel : Nat) {s : HotStuffBase}
    (hi : Inv C s) {owed : Bool} (hn : Reg r owed s) (blk_hashes : List Hash)
    (replica : NetAddr) : Reg r owed (req_blk_handler env fuel blk_hashes replica s) := by
  have hrun := run_callback_ok (C := C) env fuel
  have hrunR := run_callback_R (C := C) (r := r) env fuel
  unfold req_blk_handler
  simp only
  obtain ⟨c1, c2, c3⟩ := collect_ok (C := C)
    (fun h acc => async_fetch_blk h none acc)
    (fun h t x => x < t.next ∧ (t.heap x).purpose = .fetch h)
    (fun a s t x _ he hx => ⟨Nat.lt_of_lt_of_le hx.1 he.next_le,
      by rw [he.purpose_eq x hx.1]; exact hx.2⟩)
    (fun a s hs => by
      obtain ⟨h1, h2, h3, h4⟩ := async_fetch_blk_ok hs a none
      exact ⟨h1, h2, h3, h4⟩)
    blk_hashes s hi
  have c4 := collect_keep (fun h acc => async_fetch_blk h none acc)
    (fun t => Reg r owed t) (fun a t ht => async_fetch_blk_R ht a none) blk_hashes s hn
  have hlt : ∀ x ∈ (collect (fun h acc => async_fetch_blk h none acc) blk_hashes s).2,
      x < (collect (fun h acc => async_fetch_blk h none acc) blk_hashes s).1.next
        ∧ x ≠ r.ret := by
    intro x hx
    obtain ⟨a, _, ha⟩ := (forall₂_mem c3).2 x hx
    exact ⟨ha.1, c4.ne_of_purpose (by rw [ha.2]; intro hx; cases hx)⟩
  obtain ⟨a1, a2, a3, a4, a5⟩ := promise_all_ok hrun c1 (fun q hq => (hlt q hq).1)
  have au := promise_all_R hrun hrunR c1 (fun q hq => (hlt q hq).1) (fun q hq => (hlt q hq).2) c4
  refine promise_then_R hrunR a1 a3 (k := .send_resp_blk replica) trivial ?_
    (by intro hx; cases hx) au
  rw [promise_all_snd]
  exact Ne.symm (Nat.ne_of_lt c4.ret_lt)

theorem exec_command_R {r : ReqCtx} {owed : Bool} {s : HotStuffBase} (hn : Reg r owed s)
    (cmd : Command) : Reg r owed (exec_command cmd s).1 := by
  have hsto := find_cmd_add_blk_cache s.storage cmd
  have hfb : ∀ h b, s.storage.find_blk h = some b →
      (s.storage.add_cmd cmd).1.find_blk h = some b := by
    intro h b hb
    simp only [EntityStorage.find_blk, hsto.1]
    exact hb
  unfold exec_command
  simp only
  split
  · exact hn.born _ (by simp)
  · have key : ∀ t : HotStuffBase, Reg r owed t →
        Reg r owed (match table_find t.decision_waiting cmd.hash with
          | some pm => (t, pm)
          | none =>
            ({ (t.new_promise (Promise.mk .pending [] [] .other)).1 with
                decision_waiting :=
                  (t.new_promise (Promise.mk .pending [] [] .other)).1.decision_waiting
                    ++ [(cmd.hash, (t.new_promise (Promise.mk .pending [] [] .other)).2)] },
             (t.new_promise (Promise.mk .pending [] [] .other)).2)).1 := by
      intro t ht
      split
      · exact ht
      · exact (ht.born (Promise.mk .pending [] [] .other) (by simp)).untouched rfl rfl rfl rfl rfl
    apply key
    split
    · have h1 : Reg r owed { s with
          storage := (s.storage.add_cmd cmd).1,
          cmd_pending := (drain_pending s.blk_size []
            (s.cmd_pending ++ [(s.storage.add_cmd cmd).2])).2 } :=
        hn.of_frame rfl rfl ⟨[], (List.append_nil _).symm⟩ hfb (fun _ c hc => ⟨c, hc, rfl⟩)
      exact (h1.born (Promise.mk .pending [.propose (drain_pending s.blk_size []
            (s.cmd_pending ++ [(s.storage.add_cmd cmd).2])).1] [] .other)
          (by simp)).untouched rfl rfl rfl rfl rfl
    · exact hn.of_frame rfl rfl ⟨[], (List.append_nil _).symm⟩ hfb (fun _ c hc => ⟨c, hc, rfl⟩)

theorem beat_fire_R {C : Prop} {r : ReqCtx} (env : Env) (fuel : Nat) {s : HotStuffBase}
    (hi : Inv C s) {owed : Bool} (hn : Reg r owed s) : Reg r owed (beat_fire env fuel s) := by
  have hrun := run_callback_ok (C := C) env fuel
  have hrunR := run_callback_R (C := C) (r := r) env fuel
  unfold beat_fire
  cases hb : s.beat_waiting with
  | nil => exact hn
  | cons pm rest =>
    simp only
    have hpm := hi.beat_tbl pm (by rw [hb]; exact List.mem_cons_self _ _)
    have hi1 : Inv C { s with beat_waiting := rest } :=
      hi.frame rfl rfl (fun _ hh => hh) (fun _ _ hh => hh) hi.closed hi.fetch_tbl hi.deliv_tbl
        hi.cmd_tbl (fun p hp => hi.beat_tbl p (by rw [hb]; exact List.mem_cons_of_mem _ hp))
        hi.trace_ok
    have hn1 : Reg r owed { s with beat_waiting := rest } := hn.untouched rfl rfl rfl rfl rfl
    have hpu : ({ s with beat_waiting := rest } : HotStuffBase).heap pm = s.heap pm := rfl
    have hso : SettleOK { s with beat_waiting := rest } pm (.fulfilled .null) := by
      refine ⟨?_, ?_, ?_⟩
      · intro x hx
        have : (s.heap pm).purpose = .deliver x := hx
        rw [hpm.2] at this; cases this
      · intro x hx
        have : (s.heap pm).purpose = .fetch x := hx
        rw [hpm.2] at this; cases this
      · intro hx
        have : (s.heap pm).purpose = .all := hx
        rw [hpm.2] at this; cases this
    refine settle_R hrun hrunR hi1 hpm.1 hso (hn1.ne_of_purpose ?_) ?_ hn1
    · rw [hpu, hpm.2]; intro hx; cases hx
    · intro x hx
      rw [hpu, hpm.2] at hx; cases hx

/-- One turn of the event loop at callback depth two or more keeps the
invariant of the request. -/
theorem step_R {C : Prop} {r : ReqCtx} (env : Env) (n : Nat) {s : HotStuffBase} (hi : Inv C s)
    (hn : Reg r false s) (i : Input) : Reg r false (step env (n + 2) s i) := by
  cases i with
  | propose prop peer => exact propose_handler_R env _ hi hn prop peer
  | vote vote peer => exact vote_handler_R env _ hi hn vote peer
  | req_blk hs a => exact req_blk_handler_R env _ hi hn hs a
  | resp_blk payload => exact resp_blk_handler_R env n hi hn payload
  | deliver h a => exact async_deliver_blk_R (run_callback_R env _) hi hn h a
  | command cmd => exact exec_command_R hn cmd
  | beat => exact beat_fire_R env _ hi hn
  | set_proposer p => exact hn.untouched rfl rfl rfl rfl rfl

theorem run_inputs_R {C : Prop} {r : ReqCtx} (env : Env) (n : Nat) (inputs : List Input) :
    ∀ s : HotStuffBase, Inv C s → Reg r false s →
      Reg r false (run_inputs env (n + 2) s inputs) := by
  induction inputs with
  | nil => intro s _ hn; exact hn
  | cons i rest ih => intro s hi hn; exact ih _ (step_ok env _ hi i) (step_R env n hi hn i)

theorem table_find_append_inv {α : Type} (t : List (Hash × α)) (h g : Hash) (x c : α)
    (hc : table_find (t ++ [(h, x)]) g = some c) :
    table_find t g = some c ∨ (table_find t g = none ∧ g = h ∧ c = x) := by
  cases hf : table_find t g with
  | some c' =>
    left
    rw [table_find_append_old t (h, x) g c' hf] at hc
    exact hc
  | none =>
    right
    refine ⟨rfl, ?_⟩
    have hf' : t.find? (fun e => e.1 == g) = none := by
      simpa [table_find] using hf
    by_cases hg : h = g
    · subst hg
      rw [table_find_append_new t h x hf] at hc
      exact ⟨rfl, (Option.some.inj hc).symm⟩
    · exfalso
      have hg' : (h == g) = false := by simpa using hg
      simp [table_find, List.find?_append, hf', hg'] at hc

/-- One call `async_fetch_blk(h, nullptr)` in a state of the engine: the call
is recorded, store and existing promises are untouched, no existing context
changes, a context is created only for `h` and then without candidate
replica; the promise returned is resolved with the stored block of `h`, or it
is the pending promise of the fetch context of `h`. -/
theorem async_fetch_blk_none_reg {C : Prop} (h : Hash) {s : HotStuffBase} (hi : Inv C s)
    (hn : NoRej s) :
    (async_fetch_blk h none s).1.trace = s.trace ++ [.async_fetch_blk h none]
      ∧ (async_fetch_blk h none s).1.storage = s.storage
      ∧ (∀ p, p < s.next → (async_fetch_blk h none s).1.heap p = s.heap p)
      ∧ (∀ g c, table_find s.blk_fetch_waiting g = some c →
          table_find (async_fetch_blk h none s).1.blk_fetch_waiting g = some c)
      ∧ (∀ g c, table_find (async_fetch_blk h none s).1.blk_fetch_waiting g = some c →
          table_find s.blk_fetch_waiting g = some c
            ∨ (g = h ∧ table_find s.blk_fetch_waiting g = none ∧ c.replica_ids = []))
      ∧ (∀ b, s.storage.find_blk h = some b →
          ((async_fetch_blk h none s).1.heap (async_fetch_blk h none s).2).state
            = .resolved (.blk b))
      ∧ (s.storage.find_blk h = none →
          ((async_fetch_blk h none s).1.heap (async_fetch_blk h none s).2).state = .pending
            ∧ ∃ c, table_find (async_fetch_blk h none s).1.blk_fetch_waiting h = some c
              ∧ c.pm = (async_fetch_blk h none s).2) := by
  cases hb : s.storage.find_blk h with
  | some b =>
    rw [async_fetch_blk_found h none s b hb]
    refine ⟨rfl, rfl, fun p hp => new_promise_heap_old _ _ hp, fun _ _ hc => hc,
      fun _ _ hc => Or.inl hc, ?_, ?_⟩
    · intro b' hb'
      rw [new_promise_heap_new]
      cases hb'
      rfl
    · intro hf
      cases hf
  | none =>
    have hb' : (s.log (.async_fetch_blk h none)).storage.find_blk h = none := hb
    cases htf : table_find s.blk_fetch_waiting h with
    | some ctx =>
      have htf' : table_find (s.log (.async_fetch_blk h none)).blk_fetch_waiting h = some ctx :=
        htf
      have he : async_fetch_blk h none s = (s.log (.async_fetch_blk h none), ctx.pm) := by
        simp only [async_fetch_blk, hb', htf']
      rw [he]
      have hm := hi.fetch_tbl _ (table_find_some_mem htf)
      refine ⟨rfl, rfl, fun _ _ => rfl, fun _ _ hc => hc, fun _ _ hc => Or.inl hc, ?_, ?_⟩
      · intro b' hb'
        cases hb'
      · intro _
        refine ⟨?_, ctx, htf, rfl⟩
        show (s.heap ctx.pm).state = .pending
        cases hst : (s.heap ctx.pm).state with
        | pending => rfl
        | resolved v =>
          obtain ⟨b', _, hb2⟩ := hi.fetch_ok _ _ v hm.1 hm.2 hst
          rw [hb] at hb2
          cases hb2
        | rejected => exact absurd hst (hn _ _ hm.1 hm.2)
    | none =>
      have htf' : table_find (s.log (.async_fetch_blk h none)).blk_fetch_waiting h = none := htf
      have he : async_fetch_blk h none s
          = ({ ((s.log (.async_fetch_blk h none)).new_promise
                  (Promise.mk .pending [] [] (.fetch h))).1 with
                blk_fetch_waiting := s.blk_fetch_waiting
                  ++ [(h, BlockFetchContext.mk s.next [])] }, s.next) := by
        simp only [async_fetch_blk, hb', htf']
        rfl
      rw [he]
      have hcell : ((s.log (.async_fetch_blk h none)).new_promise
          (Promise.mk .pending [] [] (.fetch h))).1.heap s.next
          = Promise.mk .pending [] [] (.fetch h) :=
        new_promise_heap_new (s.log (.async_fetch_blk h none)) _
      refine ⟨rfl, rfl, ?_, ?_, ?_, ?_, ?_⟩
      · intro p hp
        exact new_promise_heap_old (s.log (.async_fetch_blk h none)) _ hp
      · intro g c hc
        exact table_find_append_old _ _ _ _ hc
      · intro g c hc
        rcases table_find_append_inv s.blk_fetch_waiting h g _ c hc with h1 | ⟨h1, h2, h3⟩
        · exact Or.inl h1
        · exact Or.inr ⟨h2, h1, by rw [h3]⟩
      · intro b' hb'
        cases hb'
      · intro _
        refine ⟨?_, _, table_find_append_new _ _ _ htf, rfl⟩
        show (((s.log (.async_fetch_blk h none)).new_promise
          (Promise.mk .pending [] [] (.fetch h))).1.heap s.next).state = .pending
        rw [hcell]

/-- The loop of lines 271-272 in a state of the engine: one promise per
requested hash, in order, resolved with the stored block or pending as the
promise of the fetch context of the hash. -/
theorem collect_fetch_reg {C : Prop} (hashes : List Hash) :
    ∀ s : HotStuffBase, Inv C s → NoRej s →
    ∀ R, R = collect (fun h acc => async_fetch_blk h none acc) hashes s →
    Inv C R.1 ∧ NoRej R.1
      ∧ R.1.trace = s.trace ++ hashes.map (fun h => Event.async_fetch_blk h none)
      ∧ R.1.storage = s.storage
      ∧ s.next ≤ R.1.next
      ∧ (∀ p, p < s.next → R.1.heap p = s.heap p)
      ∧ (∀ g c, table_find s.blk_fetch_waiting g = some c →
          table_find R.1.blk_fetch_waiting g = some c)
      ∧ (∀ g c, table_find R.1.blk_fetch_waiting g = some c →
          table_find s.blk_fetch_waiting g = some c
            ∨ (g ∈ hashes ∧ table_find s.blk_fetch_waiting g = none ∧ c.replica_ids = []))
      ∧ List.Forall₂ (fun h q => q < R.1.next ∧ (R.1.heap q).purpose = .fetch h
          ∧ (∀ b, s.storage.find_blk h = some b → (R.1.heap q).state = .resolved (.blk b))
          ∧ (s.storage.find_blk h = none → (R.1.heap q).state = .pending
              ∧ ∃ c, table_find R.1.blk_fetch_waiting h = some c ∧ c.pm = q)) hashes R.2 := by
  induction hashes with
  | nil =>
    intro s hi hn R hR
    subst hR
    exact ⟨hi, hn, by simp [collect], rfl, Nat.le_refl _, fun _ _ => rfl, fun _ _ hc => hc,
      fun _ _ hc => Or.inl hc, List.Forall₂.nil⟩
  | cons h rest ih =>
    intro s hi hn R hR
    obtain ⟨a1, a2, a3, a4, a5, a6, a7⟩ := async_fetch_blk_none_reg h hi hn
    obtain ⟨b1, b2, b3, b4⟩ := async_fetch_blk_ok hi h none
    have bn := async_fetch_blk_N hn h none
    obtain ⟨i1, i2, i3, i4, i5, i6, i7, i8, i9⟩ := ih (async_fetch_blk h none s).1 b1 bn _ rfl
    have hR1 : R.1 = (collect (fun h acc => async_fetch_blk h none acc) rest
        (async_fetch_blk h none s).1).1 := by rw [hR]; rfl
    have hR2 : R.2 = (async_fetch_blk h none s).2 ::
        (collect (fun h acc => async_fetch_blk h none acc) rest
          (async_fetch_blk h none s).1).2 := by rw [hR]; rfl
    rw [hR1, hR2]
    have hq := i6 _ b3
    refine ⟨i1, i2, ?_, ?_, Nat.le_trans b2.next_le i5, ?_, ?_, ?_, ?_⟩
    · rw [i3, a1]; simp
    · rw [i4, a2]
    · intro p hp
      rw [i6 p (Nat.lt_of_lt_of_le hp b2.next_le)]
      exact a3 p hp
    · intro g c hc
      exact i7 g c (a4 g c hc)
    · intro g c hc
      rcases i8 g c hc with h1 | ⟨h1, h2, h3⟩
      · rcases a5 g c h1 with h4 | ⟨h4, h5, h6⟩
        · exact Or.inl h4
        · exact Or.inr ⟨by rw [h4]; exact List.mem_cons_self _ _, h5, h6⟩
      · refine Or.inr ⟨List.mem_cons_of_mem _ h1, ?_, h3⟩
        cases hf : table_find s.blk_fetch_waiting g with
        | none => rfl
        | some c' =>
          rw [a4 g c' hf] at h2
          cases h2
    · refine List.Forall₂.cons ⟨Nat.lt_of_lt_of_le b3 i5, by rw [hq]; exact b4, ?_, ?_⟩ ?_
      · intro b hb
        rw [hq]
        exact a6 b hb
      · intro hb
        obtain ⟨h1, c, h2, h3⟩ := a7 hb
        exact ⟨by rw [hq]; exact h1, c, i7 _ _ h2, h3⟩
      · refine Forall₂.of_imp i9 ?_
        intro x q _ _ hxq
        refine ⟨hxq.1, hxq.2.1, ?_, ?_⟩
        · intro b hb
          exact hxq.2.2.1 b (by rw [a2]; exact hb)
        · intro hb
          exact hxq.2.2.2 (by rw [a2]; exact hb)

theorem promise_then_pending (run : Callback → Outcome → HotStuffBase → HotStuffBase)
    (p : PId) (k : Callback) (s : HotStuffBase) (h : (s.heap p).state = .pending) :
    promise_then run p k s
      = s.set_promise p { s.heap p with callbacks := (s.heap p).callbacks ++ [k] } := by
  simp only [promise_then, h]

theorem Joining.no_check {l : List PId} {s acc : HotStuffBase} (hj : Joining l s acc)
    (hl : ∀ q ∈ l, q < s.next) {q0 : PId} (hq0 : q0 ∈ l)
    (hpend : (s.heap q0).state = .pending)
    (run : Callback → Outcome → HotStuffBase → HotStuffBase) :
    all_check run s.next acc = acc := by
  unfold all_check
  have : (acc.heap s.next).parts.all (is_resolved acc) = false := by
    rw [hj.cell, List.all_eq_false]
    refine ⟨q0, hq0, ?_⟩
    simp [is_resolved, hj.state_eq q0 (Nat.ne_of_lt (hl q0 hq0)), hpend]
  simp [this]

/-- Attaching the report of `promise::all` to one part while another part is
pending: a pending part gets the report as a callback; for a resolved part
the report runs and finds the joint promise not ready. -/
theorem Joining.attach {l : List PId} {s acc : HotStuffBase} (hj : Joining l s acc)
    (env : Env) (fuel : Nat) (hl : ∀ q ∈ l, q < s.next)
    (hst : ∀ q ∈ l, (s.heap q).state ≠ .rejected) {q0 : PId} (hq0 : q0 ∈ l)
    (hpend : (s.heap q0).state = .pending) {q : PId} (hq : q ∈ l) :
    Joining l s (promise_then (run_callback env fuel) q (.all_part s.next) acc)
      ∧ (∀ p, Callback.all_part s.next ∈ (acc.heap p).callbacks →
          Callback.all_part s.next ∈
            ((promise_then (run_callback env fuel) q (.all_part s.next) acc).heap p).callbacks)
      ∧ ((s.heap q).state = .pending → Callback.all_part s.next ∈
            ((promise_then (run_callback env fuel) q (.all_part s.next) acc).heap q).callbacks) := by
  have hqne : q ≠ s.next := Nat.ne_of_lt (hl q hq)
  have hsq := hj.state_eq q hqne
  unfold promise_then
  cases hs : (acc.heap q).state with
  | pending =>
    simp only
    refine ⟨⟨hj.trace_eq, hj.storage_eq, hj.tbl_eq, hj.next_eq, ?_, ?_, ?_, ?_⟩, ?_, ?_⟩
    · rw [set_promise_heap_other _ _ _ (Ne.symm hqne)]
      exact hj.cell
    · intro p hp
      by_cases hpq : p = q
      · rw [hpq, set_promise_heap_self]
        exact hsq
      · rw [set_promise_heap_other _ _ _ hpq]
        exact hj.state_eq p hp
    · intro p hp
      by_cases hpq : p = q
      · rw [hpq, set_promise_heap_self]
        exact hj.purpose_eq q hqne
      · rw [set_promise_heap_other _ _ _ hpq]
        exact hj.purpose_eq p hp
    · intro p hp hk
      by_cases hpq : p = q
      · left; rw [hpq]; exact hq
      · rw [set_promise_heap_other _ _ _ hpq] at hk
        exact hj.report p hp hk
    · intro p hk
      by_cases hpq : p = q
      · rw [hpq, set_promise_heap_self]
        rw [hpq] at hk
        exact List.mem_append_left _ hk
      · rw [set_promise_heap_other _ _ _ hpq]
        exact hk
    · intro _
      rw [set_promise_heap_self]
      exact List.mem_append_right _ (List.mem_singleton_self _)
  | resolved v =>
    simp only
    have hsame : run_callback env fuel (.all_part s.next) (.fulfilled v) acc = acc := by
      rcases run_all_part env fuel s.next (.fulfilled v) acc with h | ⟨n, w, _, h⟩ | ⟨n, h0, _⟩
      · exact h
      · rw [h]
        exact hj.no_check hl hq0 hpend _
      · cases h0
    rw [hsame]
    refine ⟨hj, fun _ hk => hk, ?_⟩
    intro hp
    rw [← hsq, hs] at hp
    cases hp
  | rejected =>
    exfalso
    rw [hsq] at hs
    exact hst q hq hs

theorem Joining.attach_all {l : List PId} {s : HotStuffBase} (env : Env) (fuel : Nat)
    (hl : ∀ q ∈ l, q < s.next) (hst : ∀ q ∈ l, (s.heap q).state ≠ .rejected) {q0 : PId}
    (hq0 : q0 ∈ l) (hpend : (s.heap q0).state = .pending) (m : List PId) :
    ∀ acc : HotStuffBase, Joining l s acc → (∀ q ∈ m, q ∈ l) →
      Joining l s
          (m.foldl (fun a pm => promise_then (run_callback env fuel) pm (.all_part s.next) a) acc)
        ∧ (∀ p, Callback.all_part s.next ∈ (acc.heap p).callbacks →
            Callback.all_part s.next ∈ ((m.foldl (fun a pm =>
              promise_then (run_callback env fuel) pm (.all_part s.next) a) acc).heap p).callbacks)
        ∧ (∀ q ∈ m, (s.heap q).state = .pending →
            Callback.all_part s.next ∈ ((m.foldl (fun a pm =>
              promise_then (run_callback env fuel) pm (.all_part s.next) a) acc).heap q).callbacks)
    := by
  induction m with
  | nil => intro acc hj _; exact ⟨hj, fun _ hk => hk, by simp⟩
  | cons q rest ih =>
    intro acc hj hm
    obtain ⟨j1, j2, j3⟩ := hj.attach env fuel hl hst hq0 hpend (hm q (List.mem_cons_self _ _))
    obtain ⟨k1, k2, k3⟩ := ih _ j1 (fun x hx => hm x (List.mem_cons_of_mem _ hx))
    rw [List.foldl_cons]
    refine ⟨k1, fun p hk => k2 p (j2 p hk), ?_⟩
    intro x hx hp
    rcases List.mem_cons.1 hx with hx | hx
    · rw [hx]
      exact k2 q (j3 (by rw [← hx]; exact hp))
    · exact k3 x hx hp

/-- Lines 272-273 while one part is pending and none is rejected:
`promise::all(l).then(reply)` records nothing; the joint promise is pending
with the reply continuation as its only callback, and every pending part
reports to it. -/
theorem join_registered (env : Env) (fuel : Nat) (replica : NetAddr) (l : List PId)
    (s : HotStuffBase) (hl : ∀ q ∈ l, q < s.next)
    (hst : ∀ q ∈ l, (s.heap q).state ≠ .rejected) (q0 : PId) (hq0 : q0 ∈ l)
    (hpend : (s.heap q0).state = .pending) :
    ∀ T, T = promise_then (run_callback env fuel) (promise_all (run_callback env fuel) l s).2
        (.send_resp_blk replica) (promise_all (run_callback env fuel) l s).1 →
    T.trace = s.trace ∧ T.storage = s.storage ∧ T.blk_fetch_waiting = s.blk_fetch_waiting
      ∧ T.next = s.next + 1
      ∧ T.heap s.next = Promise.mk .pending [.send_resp_blk replica] l .all
      ∧ (∀ p, p ≠ s.next → (T.heap p).state = (s.heap p).state
          ∧ (T.heap p).purpose = (s.heap p).purpose
          ∧ (Callback.all_part s.next ∈ (T.heap p).callbacks →
              p ∈ l ∨ Callback.all_part s.next ∈ (s.heap p).callbacks))
      ∧ (∀ q ∈ l, (s.heap q).state = .pending →
          Callback.all_part s.next ∈ (T.heap q).callbacks) := by
  intro T hT
  have hcell := new_promise_heap_new s (Promise.mk .pending [] l .all)
  rw [new_promise_snd] at hcell
  have hj0 : Joining l s (s.new_promise (Promise.mk .pending [] l .all)).1 := by
    refine ⟨rfl, rfl, rfl, rfl, hcell, ?_, ?_, ?_⟩
    · intro p hp
      simp [HotStuffBase.new_promise, hp]
    · intro p hp
      simp [HotStuffBase.new_promise, hp]
    · intro p hp hk
      right
      simpa [HotStuffBase.new_promise, hp] using hk
  obtain ⟨j1, _, j3⟩ := Joining.attach_all env fuel hl hst hq0 hpend l _ hj0 (fun _ h => h)
  have hpa : promise_all (run_callback env fuel) l s
      = (l.foldl (fun a pm => promise_then (run_callback env fuel) pm (.all_part s.next) a)
          (s.new_promise (Promise.mk .pending [] l .all)).1, s.next) := by
    have h := j1.no_check hl hq0 hpend (run_callback env fuel)
    exact congrArg (fun x => (x, s.next)) h
  have hT2 : T = (l.foldl (fun a pm =>
        promise_then (run_callback env fuel) pm (.all_part s.next) a)
        (s.new_promise (Promise.mk .pending [] l .all)).1).set_promise s.next
      (Promise.mk .pending [.send_resp_blk replica] l .all) := by
    rw [hT, hpa]
    show promise_then (run_callback env fuel) s.next (.send_resp_blk replica) _ = _
    rw [promise_then_pending _ _ _ _ (by rw [j1.cell]), j1.cell]
    rfl
  rw [hT2]
  refine ⟨j1.trace_eq, j1.storage_eq, j1.tbl_eq, j1.next_eq, set_promise_heap_self _ _ _, ?_, ?_⟩
  · intro p hp
    rw [set_promise_heap_other _ _ _ hp]
    exact ⟨j1.state_eq p hp, j1.purpose_eq p hp, j1.report p hp⟩
  · intro q hq hp
    rw [set_promise_heap_other _ _ _ (Nat.ne_of_lt (hl q hq))]
    exact j3 q hq hp

theorem forall₂_zip {α β : Type} {R : α → β → Prop} {l : List α} {m : List β}
    (h : List.Forall₂ R l m) : ∀ e ∈ l.zip m, R e.1 e.2 := by
  induction h with
  | nil => intro e he; simp at he
  | cons hab _ ih =>
    intro e he
    rw [List.zip_cons_cons] at he
    rcases List.mem_cons.1 he with he | he
    · rw [he]; exact hab
    · exact ih e he

theorem forall₂_mem_zip {α β : Type} {R : α → β → Prop} {l : List α} {m : List β}
    (h : List.Forall₂ R l m) : ∀ b ∈ m, ∃ a, (a, b) ∈ l.zip m ∧ R a b := by
  induction h with
  | nil => intro b hb; simp at hb
  | cons hab _ ih =>
    intro b hb
    rw [List.zip_cons_cons]
    rcases List.mem_cons.1 hb with hb | hb
    · subst hb
      exact ⟨_, List.mem_cons_self _ _, hab⟩
    · obtain ⟨a, ha, hr⟩ := ih b hb
      exact ⟨a, List.mem_cons_of_mem _ ha, hr⟩

theorem mem_zip_left {α β : Type} {l : List α} {m : List β} {e : α × β} (he : e ∈ l.zip m) :
    e.1 ∈ l ∧ e.2 ∈ m := by
  induction l generalizing m with
  | nil => simp at he
  | cons a l ih =>
    cases m with
    | nil => simp at he
    | cons b m =>
      rw [List.zip_cons_cons] at he
      rcases List.mem_cons.1 he with he | he
      · rw [he]; exact ⟨List.mem_cons_self _ _, List.mem_cons_self _ _⟩
      · exact ⟨List.mem_cons_of_mem _ (ih he).1, List.mem_cons_of_mem _ (ih he).2⟩

theorem filterMap_of_forall₂ (st : EntityStorage) {hs : List Hash} {bs : List Block}
    (h : List.Forall₂ (fun x b => st.find_blk x = some b) hs bs) :
    hs.filterMap st.find_blk = bs ∧ ∀ x ∈ hs, st.is_blk_fetched x = true := by
  induction h with
  | nil => exact ⟨rfl, by simp⟩
  | cons hab _ ih =>
    refine ⟨by simp only [List.filterMap_cons, hab, ih.1], ?_⟩
    intro x hx
    rcases List.mem_cons.1 hx with hx | hx
    · rw [hx]; simp [EntityStorage.is_blk_fetched, hab]
    · exact ih.2 x hx

/-- What `req_blk_handler` leaves behind when a requested hash is missing
from the store of a state of the engine: no reply, the fetch contexts, and the
registered reply. -/
theorem req_blk_handler_registers {C : Prop} (env : Env) (fuel : Nat) (blk_hashes : List Hash)
    (replica : NetAddr) {s : HotStuffBase} (hi : Inv C s) (hn : NoRej s)
    (hmiss : ∃ h ∈ blk_hashes, s.storage.find_blk h = none) :
    ∀ R, R = collect (fun h acc => async_fetch_blk h none acc) blk_hashes s →
    ∀ T, T = req_blk_handler env fuel blk_hashes replica s →
    T.trace = s.trace ++ blk_hashes.map (fun h => Event.async_fetch_blk h none)
      ∧ T.storage = s.storage
      ∧ (∀ g c, table_find s.blk_fetch_waiting g = some c →
          table_find T.blk_fetch_waiting g = some c)
      ∧ (∀ g c, table_find T.blk_fetch_waiting g = some c →
          table_find s.blk_fetch_waiting g = some c
            ∨ (g ∈ blk_hashes ∧ table_find s.blk_fetch_waiting g = none ∧ c.replica_ids = []))
      ∧ T.heap R.1.next = Promise.mk .pending [.send_resp_blk replica] R.2 .all
      ∧ List.Forall₂ (fun h q => (T.heap q).purpose = .fetch h
          ∧ (∀ b, s.storage.find_blk h = some b → (T.heap q).state = .resolved (.blk b))
          ∧ (s.storage.find_blk h = none → (T.heap q).state = .pending
              ∧ Callback.all_part R.1.next ∈ (T.heap q).callbacks
              ∧ ∃ c, table_find T.blk_fetch_waiting h = some c ∧ c.pm = q)) blk_hashes R.2
      ∧ Reg (ReqCtx.mk replica blk_hashes
          ((blk_hashes.zip R.2).filter (fun e => !(s.storage.is_blk_fetched e.1)))
          T.trace.length R.1.next) false T := by
  intro R hR T hT
  obtain ⟨c1, c2, c3, c4, c5, c6, c7, c8, c9⟩ := collect_fetch_reg blk_hashes s hi hn R hR
  obtain ⟨h0, hh0, hf0⟩ := hmiss
  obtain ⟨q0, hq0, hq0r⟩ := (forall₂_mem c9).1 h0 hh0
  have hpend0 := (hq0r.2.2.2 hf0).1
  have hl : ∀ q ∈ R.2, q < R.1.next := by
    intro q hq
    obtain ⟨a, _, ha⟩ := (forall₂_mem c9).2 q hq
    exact ha.1
  have hst : ∀ q ∈ R.2, (R.1.heap q).state ≠ .rejected := by
    intro q hq
    obtain ⟨a, _, ha⟩ := (forall₂_mem c9).2 q hq
    exact c2 q a ha.1 ha.2.1
  have hT' : T = promise_then (run_callback env fuel)
      (promise_all (run_callback env fuel) R.2 R.1).2 (.send_resp_blk replica)
      (promise_all (run_callback env fuel) R.2 R.1).1 := by
    rw [hT, hR]; rfl
  obtain ⟨j1, j2, j3, j4, j5, j6, j7⟩ :=
    join_registered env fuel replica R.2 R.1 hl hst q0 hq0 hpend0 T hT'
  have hne : ∀ q ∈ R.2, q ≠ R.1.next := fun q hq => Nat.ne_of_lt (hl q hq)
  have hparts : (T.heap R.1.next).parts = R.2 := by rw [j5]
  refine ⟨by rw [j1, c3], by rw [j2, c4], ?_, ?_, j5, ?_, ?_⟩
  · intro g c hc
    rw [j3]; exact c7 g c hc
  · intro g c hc
    rw [j3] at hc; exact c8 g c hc
  · refine Forall₂.of_imp c9 ?_
    intro h q _ hq hr
    obtain ⟨e1, e2, _⟩ := j6 q (hne q hq)
    refine ⟨by rw [e2]; exact hr.2.1, ?_, ?_⟩
    · intro b hb
      rw [e1]; exact hr.2.2.1 b hb
    · intro hb
      obtain ⟨f1, c, f2, f3⟩ := hr.2.2.2 hb
      exact ⟨by rw [e1]; exact f1, j7 q hq f1, c, by rw [j3]; exact f2, f3⟩
  · refine ⟨?_, ?_, ?_, ?_, ?_, ?_, ?_, Or.inr ⟨?_, ?_, ?_, ?_⟩⟩
    · show R.1.next < T.next
      rw [j4]; exact Nat.lt_succ_self _
    · show (T.heap R.1.next).purpose = .all
      rw [j5]
    · show List.Forall₂ (fun h q => q < T.next ∧ (T.heap q).purpose = .fetch h) blk_hashes
        (T.heap R.1.next).parts
      rw [hparts]
      refine Forall₂.of_imp c9 ?_
      intro h q _ hq hr
      refine ⟨?_, ?_⟩
      · rw [j4]; exact Nat.lt_succ_of_lt hr.1
      · rw [(j6 q (hne q hq)).2.1]; exact hr.2.1
    · show ∀ p, p < T.next → Callback.all_part R.1.next ∈ (T.heap p).callbacks →
        p ∈ (T.heap R.1.next).parts
      intro p hp hk
      rw [hparts]
      by_cases hpr : p = R.1.next
      · rw [hpr, j5] at hk
        simp at hk
      · rcases (j6 p hpr).2.2 hk with h1 | h1
        · exact h1
        · have hp1 : p < R.1.next := by
            rw [j4] at hp
            rcases Nat.lt_succ_iff_lt_or_eq.1 hp with h2 | h2
            · exact h2
            · exact absurd h2 hpr
          have := c1.attached p hp1 _ h1
          exact absurd this.1 (Nat.lt_irrefl _)
    · show T.trace.length ≤ T.trace.length
      exact Nat.le_refl _
    · intro e he
      show e.2 < T.next
      have hz := (List.mem_filter.1 he).1
      rw [j4]
      exact Nat.lt_succ_of_lt (hl _ (mem_zip_left hz).2)
    · intro e he
      obtain ⟨hz, hf⟩ := List.mem_filter.1 he
      have hr := forall₂_zip c9 e hz
      have hfb : s.storage.find_blk e.1 = none := by
        simpa [EntityStorage.is_blk_fetched] using hf
      obtain ⟨_, c, f2, f3⟩ := hr.2.2.2 hfb
      right
      exact ⟨c, by rw [j3]; exact f2, f3⟩
    · show (T.heap R.1.next).state = .pending
      rw [j5]
    · show (T.heap R.1.next).callbacks = [.send_resp_blk replica]
      rw [j5]
    · show ∀ q ∈ (T.heap R.1.next).parts, is_resolved T q = true
        ∨ ((T.heap q).state = .pending ∧ Callback.all_part R.1.next ∈ (T.heap q).callbacks
            ∧ ∃ h, (h, q) ∈ (blk_hashes.zip R.2).filter
                (fun e => !(s.storage.is_blk_fetched e.1)))
      intro q hq
      rw [hparts] at hq
      obtain ⟨h, hz, hr⟩ := forall₂_mem_zip c9 q hq
      obtain ⟨e1, _, _⟩ := j6 q (hne q hq)
      cases hfb : s.storage.find_blk h with
      | some b =>
        left
        rw [is_resolved_iff]
        exact ⟨_, by rw [e1]; exact hr.2.2.1 b hfb⟩
      | none =>
        right
        obtain ⟨f1, _⟩ := hr.2.2.2 hfb
        refine ⟨by rw [e1]; exact f1, j7 q hq f1, h, List.mem_filter.2 ⟨hz, ?_⟩⟩
        simp [EntityStorage.is_blk_fetched, hfb]
    · intro _
      show ∃ q ∈ (T.heap R.1.next).parts, is_resolved T q = false
      rw [hparts]
      refine ⟨q0, hq0, ?_⟩
      simp [is_resolved, (j6 q0 (hne q0 hq0)).1, hpend0]

/-- What the invariant of a request says about a state: the joint promise
is resolved and the reply has been sent after the handler returned, with the
stored blocks of the requested hashes in request order; or the joint promise
is pending with the reply
continuation registered and a fetch context the request waits for is still
in `blk_fetch_waiting`. -/
theorem Reg.outcome {r : ReqCtx} {s : HotStuffBase} (hr : Reg r false s) :
    ((s.heap r.ret).state = .resolved (.values (r.hashes.filterMap s.storage.find_blk))
        ∧ ∃ pre post, s.trace
          = pre ++ Event.send_resp_blk (r.hashes.filterMap s.storage.find_blk) r.replica :: post
        ∧ r.base ≤ pre.length
        ∧ (r.hashes.filterMap s.storage.find_blk).map Block.hash = r.hashes)
      ∨ ((s.heap r.ret).state = .pending
        ∧ (s.heap r.ret).callbacks = [.send_resp_blk r.replica]
        ∧ ∃ e ∈ r.ctxs, table_find s.blk_fetch_waiting e.1 ≠ none) := by
  rcases hr.status with h | h
  · left
    obtain ⟨bs, pre, post, a1, a2, a3, a4⟩ := h
    obtain ⟨f1, f2⟩ := filterMap_of_forall₂ s.storage a4
    exact ⟨by rw [f1]; exact a1, pre, post, by rw [f1]; exact a2, a3,
      filterMap_find_blk_hash _ _ f2⟩
  · right
    obtain ⟨w1, w2, w3, w4⟩ := h
    obtain ⟨q, hq, hq2⟩ := w4 rfl
    refine ⟨w1, w2, ?_⟩
    rcases w3 q hq with h1 | ⟨h1, _, x, hx⟩
    · rw [h1] at hq2; cases hq2
    · refine ⟨(x, q), hx, ?_⟩
      rcases hr.pins _ hx with h2 | ⟨c, h2, _⟩
      · exact absurd h1 h2
      · show table_find s.blk_fetch_waiting x ≠ none
        rw [h2]; simp

/-! ## No fetch context is created for a stored block -/

theorem Gone.keep {h : Hash} {s t : HotStuffBase} (hg : Gone h s)
    (hsto : t.storage.is_blk_fetched h = s.storage.is_blk_fetched h)
    (htbl : t.blk_fetch_waiting = s.blk_fetch_waiting) : Gone h t :=
  ⟨by rw [hsto]; exact hg.1, by rw [htbl]; exact hg.2⟩

theorem table_find_append_none {α : Type} (t : List (Hash × α)) (e : Hash × α) (h : Hash)
    (hn : table_find t h = none) (he : e.1 ≠ h) : table_find (t ++ [e]) h = none := by
  rw [table_find_eq_none] at hn ⊢
  intro x hx
  rcases List.mem_append.1 hx with hx | hx
  · exact hn x hx
  · rw [List.mem_singleton.1 hx]; exact he

theorem table_find_map_none (t : List (Hash × BlockFetchContext)) (g : Hash) (rid : NetAddr)
    (h : Hash) (hn : table_find t h = none) :
    table_find (t.map (fun e =>
      if e.1 == g then (e.1, e.2.add_replica rid) else e)) h = none := by
  rw [table_find_eq_none] at hn ⊢
  intro x hx
  obtain ⟨y, hy, hxy⟩ := List.mem_map.1 hx
  have h1 : x.1 = y.1 := by
    rw [← hxy]
    split <;> rfl
  rw [h1]
  exact hn y hy

theorem table_find_erase_none {α : Type} (t : List (Hash × α)) (g h : Hash)
    (hn : table_find t h = none) : table_find (table_erase t g) h = none := by
  rw [table_find_eq_none] at hn ⊢
  intro x hx
  exact hn x (table_erase_mem hx)

theorem settle_fold_G {C : Prop} {h : Hash}
    {run : Callback → Outcome → HotStuffBase → HotStuffBase}
    (hrun : RunOK C run) (hrunG : RunG C h run) (p : PId) (o : Outcome) (cbs : List Callback) :
    ∀ acc : HotStuffBase, Inv C acc → p < acc.next →
      (∀ v, o = .fulfilled v → (acc.heap p).state = .resolved v) →
      (∀ k ∈ cbs, Attached acc p k) → Gone h acc →
      Gone h (cbs.foldl (fun a k => run k o a) acc) := by
  induction cbs with
  | nil => intro acc _ _ _ _ hn; exact hn
  | cons k rest ih =>
    intro acc hi hp ho ha hn
    have hatt := ha k (List.mem_cons_self _ _)
    have hpre : Pre acc k o := Attached_pre hi hp hatt o ho
    obtain ⟨hi2, he2⟩ := hrun k o acc hi hpre
    refine ih (run k o acc) hi2 (Nat.lt_of_lt_of_le hp he2.next_le) ?_ ?_
      (hrunG k o acc hi hpre hn)
    · intro v hv
      rw [he2.settled p hp (by rw [ho v hv]; simp)]
      exact ho v hv
    · exact fun k' hk' => Attached_mono hi he2 hp (ha k' (List.mem_cons_of_mem _ hk'))

theorem settle_G {C : Prop} {h : Hash} {run : Callback → Outcome → HotStuffBase → HotStuffBase}
    (hrun : RunOK C run) (hrunG : RunG C h run) {s : HotStuffBase} (hi : Inv C s) {p : PId}
    (hp : p < s.next) {o : Outcome} (hs : SettleOK s p o)
    (hn : Gone h s) : Gone h (settle run p o s) := by
  unfold settle
  cases hst : (s.heap p).state with
  | resolved v => exact hn
  | rejected => exact hn
  | pending =>
    simp only
    have hi1 : Inv C (s.set_promise p { s.heap p with
        state := o.to_state, callbacks := [] }) := by
      refine hi.set_promise p _ hp rfl rfl (Or.inr ⟨hst, ?_⟩) (by simp)
      intro v hv
      cases o with
      | fulfilled w =>
        simp only [Outcome.to_state, PromiseState.resolved.injEq] at hv
        subst hv; exact hs
      | rejected => simp [Outcome.to_state] at hv
    have he1 : Ext s (s.set_promise p { s.heap p with
        state := o.to_state, callbacks := [] }) :=
      Ext.by_set_promise s p _ rfl rfl (fun h => absurd hst h)
    have hn1 : Gone h (s.set_promise p { s.heap p with state := o.to_state, callbacks := [] }) :=
      hn.keep rfl rfl
    refine settle_fold_G hrun hrunG p o (s.heap p).callbacks _ hi1 hp ?_ ?_ hn1
    · intro v hv
      subst hv
      rw [set_promise_heap_self]; rfl
    · exact fun k hk => Attached_mono hi he1 hp (hi.attached p hp k hk)

theorem promise_then_G {C : Prop} {h : Hash}
    {run : Callback → Outcome → HotStuffBase → HotStuffBase}
    (hrunG : RunG C h run) {s : HotStuffBase} (hi : Inv C s) {p : PId}
    (hp : p < s.next) {k : Callback} (ha : Attached s p k) (hn : Gone h s) :
    Gone h (promise_then run p k s) := by
  unfold promise_then
  cases hst : (s.heap p).state with
  | pending => exact hn.keep rfl rfl
  | resolved v =>
    have hpre := Attached_pre hi hp ha (.fulfilled v) (by intro w hw; cases hw; exact hst)
    exact hrunG k _ s hi hpre hn
  | rejected =>
    have hpre := Attached_pre hi hp ha .rejected (by intro w hw; cases hw)
    exact hrunG k _ s hi hpre hn

theorem all_check_G {C : Prop} {h : Hash}
    {run : Callback → Outcome → HotStuffBase → HotStuffBase}
    (hrun : RunOK C run) (hrunG : RunG C h run) {s : HotStuffBase} (hi : Inv C s) {ret : PId}
    (hp : ret < s.next) (hpu : (s.heap ret).purpose = .all) (hn : Gone h s) :
    Gone h (all_check run ret s) := by
  unfold all_check
  split
  · rename_i hall
    have hso : SettleOK s ret
        (.fulfilled (.values (part_values s (s.heap ret).parts))) := by
      refine ⟨?_, ?_, ?_⟩
      · intro x hh; rw [hpu] at hh; cases hh
      · intro x hh; rw [hpu] at hh; cases hh
      · intro _ q hq
        exact List.all_eq_true.1 hall q hq
    exact settle_G hrun hrunG hi hp hso hn
  · exact hn

theorem promise_all_fold_G {C : Prop} {h : Hash}
    {run : Callback → Outcome → HotStuffBase → HotStuffBase}
    (hrun : RunOK C run) (hrunG : RunG C h run) (ret : PId) (l : List PId) :
    ∀ acc : HotStuffBase, Inv C acc → ret < acc.next → (acc.heap ret).purpose = .all →
      (∀ q ∈ l, q < acc.next) → Gone h acc →
      Gone h (l.foldl (fun a pm => promise_then run pm (.all_part ret) a) acc) := by
  induction l with
  | nil => intro acc _ _ _ _ hn; exact hn
  | cons pm rest ih =>
    intro acc hi hr hpu hq hn
    have hpm := hq pm (List.mem_cons_self _ _)
    obtain ⟨hi2, he2⟩ := promise_then_ok hrun hi hpm (k := .all_part ret) ⟨hr, hpu⟩
    have hn2 := promise_then_G hrunG hi hpm (k := .all_part ret) ⟨hr, hpu⟩ hn
    exact ih _ hi2 (Nat.lt_of_lt_of_le hr he2.next_le)
      (by rw [he2.purpose_eq ret hr]; exact hpu)
      (fun q hq' => Nat.lt_of_lt_of_le (hq q (List.mem_cons_of_mem _ hq')) he2.next_le) hn2

theorem promise_all_G {C : Prop} {h : Hash}
    {run : Callback → Outcome → HotStuffBase → HotStuffBase}
    (hrun : RunOK C run) (hrunG : RunG C h run) {s : HotStuffBase} (hi : Inv C s)
    {l : List PId} (hq : ∀ q ∈ l, q < s.next) (hn : Gone h s) :
    Gone h (promise_all run l s).1 := by
  have hi1 : Inv C (s.new_promise (Promise.mk .pending [] l .all)).1 :=
    hi.new_promise _ hq (by intro x hh; cases hh) (by intro x v hh; cases hh) (fun _ => rfl)
      (by simp)
  have he1 := Ext.by_new_promise s (Promise.mk .pending [] l .all)
  have hn1 : Gone h (s.new_promise (Promise.mk .pending [] l .all)).1 := hn.keep rfl rfl
  have hlt : s.next < (s.new_promise (Promise.mk .pending [] l .all)).1.next :=
    Nat.lt_succ_self _
  have hcell := new_promise_heap_new s (Promise.mk .pending [] l .all)
  rw [new_promise_snd] at hcell
  have hq1 : ∀ q ∈ l, q < (s.new_promise (Promise.mk .pending [] l .all)).1.next :=
    fun q hq' => Nat.lt_of_lt_of_le (hq q hq') he1.next_le
  obtain ⟨hi2, he2⟩ := promise_all_fold_ok hrun s.next l _ hi1 hlt (by rw [hcell]) hq1
  have hn2 := promise_all_fold_G hrun hrunG s.next l _ hi1 hlt (by rw [hcell]) hq1 hn1
  have hlt2 := Nat.lt_of_lt_of_le hlt he2.next_le
  have hpu2 := he2.purpose_eq s.next hlt
  rw [hcell] at hpu2
  exact all_check_G hrun hrunG hi2 hlt2 hpu2 hn2

/-- `async_fetch_blk` creates a fetch context only for a hash that is not
stored. -/
theorem async_fetch_blk_G {h : Hash} {s : HotStuffBase} (hn : Gone h s) (x : Hash)
    (rid : Option NetAddr) : Gone h (async_fetch_blk x rid s).1 := by
  have hn0 : Gone h (s.log (.async_fetch_blk x rid)) := hn.keep rfl rfl
  unfold async_fetch_blk
  simp only
  cases hfb : (s.log (.async_fetch_blk x rid)).storage.find_blk x with
  | some b => exact hn0.keep rfl rfl
  | none =>
    simp only
    have hxh : x ≠ h := by
      intro hx
      have h1 := hn0.1
      rw [← hx] at h1
      simp [EntityStorage.is_blk_fetched, hfb] at h1
    have key : ∀ y : HotStuffBase × BlockFetchContext,
        y = (match table_find (s.log (.async_fetch_blk x rid)).blk_fetch_waiting x with
          | some ctx => ((s.log (.async_fetch_blk x rid)), ctx)
          | none =>
            ({ ((s.log (.async_fetch_blk x rid)).new_promise
                  (Promise.mk .pending [] [] (.fetch x))).1 with
                blk_fetch_waiting :=
                  ((s.log (.async_fetch_blk x rid)).new_promise
                    (Promise.mk .pending [] [] (.fetch x))).1.blk_fetch_waiting
                    ++ [(x, BlockFetchContext.mk ((s.log (.async_fetch_blk x rid)).new_promise
                      (Promise.mk .pending [] [] (.fetch x))).2 [])] },
             BlockFetchContext.mk ((s.log (.async_fetch_blk x rid)).new_promise
                      (Promise.mk .pending [] [] (.fetch x))).2 [])) →
        Gone h y.1 := by
      intro y hy
      cases htf : table_find (s.log (.async_fetch_blk x rid)).blk_fetch_waiting x with
      | some ctx =>
        rw [htf] at hy
        subst hy
        exact hn0
      | none =>
        rw [htf] at hy
        subst hy
        exact ⟨hn0.1, table_find_append_none _ _ _ hn0.2 hxh⟩
    have k1 := key _ rfl
    cases rid with
    | none => exact k1
    | some a => exact ⟨k1.1, table_find_map_none _ x a h k1.2⟩

theorem async_deliver_blk_G {C : Prop} {h : Hash}
    {run : Callback → Outcome → HotStuffBase → HotStuffBase}
    (hrunG : RunG C h run) {s : HotStuffBase} (hi : Inv C s) (hn : Gone h s) (x : Hash)
    (a : NetAddr) : Gone h (async_deliver_blk run x a s).1 := by
  unfold async_deliver_blk
  by_cases hd : s.storage.is_blk_delivered x = true
  · simp only [hd, if_true]
    exact hn.keep rfl rfl
  · simp only [hd, if_false, Bool.false_eq_true]
    cases htf : table_find s.blk_delivery_waiting x with
    | some pm => exact hn
    | none =>
      simp only
      have hi1 := hi.new_promise (Promise.mk .pending [] [] (.deliver x))
        (by simp) (by intro y _ hy; exact absurd rfl hy) (by intro y v hy; cases hy)
        (by intro hy; cases hy) (by simp)
      have hc := new_promise_heap_new s (Promise.mk .pending [] [] (.deliver x))
      have hi2 := hi1.insert_delivery (h := x) (q := s.next) (Nat.lt_succ_self _)
        (by rw [← new_promise_snd s, hc])
      have hn2 : Gone h { (s.new_promise (Promise.mk .pending [] [] (.deliver x))).1 with
          blk_delivery_waiting :=
            (s.new_promise (Promise.mk .pending [] [] (.deliver x))).1.blk_delivery_waiting
              ++ [(x, s.next)] } := hn.keep rfl rfl
      obtain ⟨hi3, he3, hlt3, hpu3⟩ := async_fetch_blk_ok hi2 x (some a)
      have hn3 := async_fetch_blk_G hn2 x (some a)
      exact promise_then_G hrunG hi3 hlt3 (k := .deliver_fetched a) ⟨x, hpu3⟩ hn3

theorem on_deliver_blk_G {C : Prop} {h : Hash}
    {run : Callback → Outcome → HotStuffBase → HotStuffBase}
    (env : Env) (hrun : RunOK C run) (hrunG : RunG C h run) {s : HotStuffBase}
    (hi : Inv C s) {blk : Block}
    (hb : s.storage.find_blk blk.hash = some blk)
    (hpar : ∀ ph ∈ blk.parent_hashes, ph ∈ s.storage.delivered)
    (hqc : ∀ x, blk.qc = some x → s.storage.is_blk_fetched x = true)
    (hn : Gone h s) : Gone h (on_deliver_blk env run blk s) := by
  have hi0 : Inv C (s.log (.on_deliver_blk blk s.storage)) := by
    refine hi.log ⟨hb, ?_, hqc, hi.closed⟩
    intro ph hph
    simpa [EntityStorage.is_blk_delivered] using hpar ph hph
  have hn0 : Gone h (s.log (.on_deliver_blk blk s.storage)) := hn.keep rfl rfl
  unfold on_deliver_blk
  simp only
  by_cases hval : env.core_on_deliver_blk (s.log (.on_deliver_blk blk s.storage)).storage blk
      = true
  · simp only [hval, if_true]
    have hi1 : Inv C { (s.log (.on_deliver_blk blk s.storage)) with
        storage := (s.log (.on_deliver_blk blk s.storage)).storage.mark_blk_delivered blk.hash,
        part_parent_size := (s.log (.on_deliver_blk blk s.storage)).part_parent_size
          + blk.parent_hashes.length,
        part_delivered := (s.log (.on_deliver_blk blk s.storage)).part_delivered + 1,
        delivered := (s.log (.on_deliver_blk blk s.storage)).delivered + 1 } := by
      refine hi0.frame rfl rfl (fun _ hh => List.mem_cons_of_mem _ hh) (fun _ _ hh => hh) ?_
        hi0.fetch_tbl hi0.deliv_tbl hi0.cmd_tbl hi0.beat_tbl hi0.trace_ok
      intro hC x hx
      simp only [EntityStorage.mark_blk_delivered, List.mem_cons] at hx
      rcases hx with hx | hx
      · subst hx
        exact ⟨blk, hb, fun ph hph => List.mem_cons_of_mem _ (hpar ph hph)⟩
      · obtain ⟨b', hb1, hb2⟩ := hi.closed hC x hx
        exact ⟨b', hb1, fun ph hph => List.mem_cons_of_mem _ (hb2 ph hph)⟩
    have hn1 : Gone h { (s.log (.on_deliver_blk blk s.storage)) with
        storage := (s.log (.on_deliver_blk blk s.storage)).storage.mark_blk_delivered blk.hash,
        part_parent_size := (s.log (.on_deliver_blk blk s.storage)).part_parent_size
          + blk.parent_hashes.length,
        part_delivered := (s.log (.on_deliver_blk blk s.storage)).part_delivered + 1,
        delivered := (s.log (.on_deliver_blk blk s.storage)).delivered + 1 } :=
      hn.keep rfl rfl
    split
    · rename_i pm htf
      have hpm := hi1.deliv_tbl _ (table_find_some_mem htf)
      have hso := SettleOK.of_deliver (.blk blk) hpm.2 (List.mem_cons_self _ _)
      exact (settle_G hrun hrunG hi1 hpm.1 hso hn1).keep rfl rfl
    · exact hn1
  · have hval2 : env.core_on_deliver_blk (s.log (.on_deliver_blk blk s.storage)).storage blk
        = false := by simpa using hval
    simp only [hval2, Bool.false_eq_true, if_false]
    split
    · rename_i pm htf
      have hpm := hi0.deliv_tbl _ (table_find_some_mem htf)
      exact (settle_G hrun hrunG hi0 hpm.1 (o := .rejected) trivial hn0).keep rfl rfl
    · exact hn0

theorem on_fetch_cmd_G {C : Prop} {h : Hash}
    {run : Callback → Outcome → HotStuffBase → HotStuffBase}
    (hrun : RunOK C run) (hrunG : RunG C h run) {s : HotStuffBase} (hi : Inv C s)
    (hn : Gone h s) (cmd : Command) : Gone h (on_fetch_cmd run cmd s) := by
  unfold on_fetch_cmd
  cases htf : table_find s.cmd_fetch_waiting cmd.hash with
  | none => exact hn
  | some pm =>
    simp only
    have hpm := hi.cmd_tbl _ (table_find_some_mem htf)
    have hso : SettleOK s pm (.fulfilled .null) := by
      refine ⟨?_, ?_, ?_⟩
      · intro x hx; rw [hpm.2] at hx; cases hx
      · intro x hx; rw [hpm.2] at hx; cases hx
      · intro hx; rw [hpm.2] at hx; cases hx
    exact (settle_G hrun hrunG hi hpm.1 hso hn).keep rfl rfl

theorem on_fetch_cmd_fold_G {C : Prop} {h : Hash}
    {run : Callback → Outcome → HotStuffBase → HotStuffBase}
    (hrun : RunOK C run) (hrunG : RunG C h run) (cmds : List Command) :
    ∀ s : HotStuffBase, Inv C s → Gone h s →
      Gone h (cmds.foldl (fun acc cmd => on_fetch_cmd run cmd acc) s) := by
  induction cmds with
  | nil => intro s _ hn; exact hn
  | cons c rest ih =>
    intro s hi hn
    exact ih _ (on_fetch_cmd_ok hrun hi c).1 (on_fetch_cmd_G hrun hrunG hi hn c)

theorem deliver_deps_G {C : Prop} {h : Hash}
    {run : Callback → Outcome → HotStuffBase → HotStuffBase}
    (hrun : RunOK C run) (hrunG : RunG C h run) {s : HotStuffBase} (hi : Inv C s)
    (hn : Gone h s) (b : Block) (a : NetAddr) : Gone h (deliver_deps run b a s).1 := by
  unfold deliver_deps
  simp only
  have hq : ∀ q : HotStuffBase × List PId,
      q = (match b.qc with
        | some x => ((async_fetch_blk x (some a) s).1, [(async_fetch_blk x (some a) s).2])
        | none => (s, [])) →
      Inv C q.1 ∧ (∀ x ∈ q.2, x < q.1.next) ∧ Gone h q.1 := by
    intro q hq
    cases hqc : b.qc with
    | none =>
      rw [hqc] at hq; subst hq
      exact ⟨hi, by simp, hn⟩
    | some x =>
      rw [hqc] at hq; subst hq
      obtain ⟨h1, _, h3, _⟩ := async_fetch_blk_ok hi x (some a)
      exact ⟨h1, by simpa using h3, async_fetch_blk_G hn x (some a)⟩
  obtain ⟨q1, q3, q4⟩ := hq _ rfl
  obtain ⟨c1, c2, c3⟩ := collect_ok (C := C)
    (fun phash acc => async_deliver_blk run phash a acc)
    (fun _ t x => x < t.next)
    (fun a s t x _ he hx => Nat.lt_of_lt_of_le hx he.next_le)
    (fun x s hs => by
      obtain ⟨h1, h2, h3, _⟩ := async_deliver_blk_ok hrun hs x a
      exact ⟨h1, h2, h3⟩)
    b.parent_hashes _ q1
  have c4 := collect_keep
    (fun phash acc => async_deliver_blk run phash a acc)
    (fun t => Inv C t ∧ Gone h t)
    (fun x t ht => ⟨(async_deliver_blk_ok hrun ht.1 x a).1,
      async_deliver_blk_G hrunG ht.1 ht.2 x a⟩)
    b.parent_hashes _ ⟨q1, q4⟩
  obtain ⟨_, m2⟩ := forall₂_mem c3
  exact promise_all_G hrun hrunG c1 (l := _ ++ _) (by
    intro x hx
    rcases List.mem_append.1 hx with hx | hx
    · exact Nat.lt_of_lt_of_le (q3 x hx) c2.next_le
    · obtain ⟨y, _, hy⟩ := m2 x hx
      exact hy) c4.2

/-- The callback interpreter creates no fetch context for a stored block, at
every depth. -/
theorem run_callback_G {C : Prop} {h : Hash} (env : Env) : ∀ n, RunG C h (run_callback env n) := by
  intro n
  induction n with
  | zero =>
    intro k o s _ _ hn
    rw [run_callback_zero]
    exact hn
  | succ n ih =>
    have ihA : RunOK C (run_callback env n) := run_callback_ok env n
    intro k o s hi hpre hn
    cases k with
    | deliver_fetched a =>
      cases o with
      | rejected => simp only [run_callback]; exact hn
      | fulfilled v =>
        cases v with
        | null => simp only [run_callback]; exact hn
        | values bs => simp only [run_callback]; exact hn
        | fin f => simp only [run_callback]; exact hn
        | blk b =>
          have hb : s.storage.find_blk b.hash = some b := hpre
          simp only [run_callback]
          obtain ⟨a1, _, a3, a4⟩ := deliver_deps_ok ihA hi hb a
          exact promise_then_G ih a1 a3 a4 (deliver_deps_G ihA ih hi hn b a)
    | deliver_ready b =>
      cases o with
      | rejected => simp only [run_callback]; exact hn
      | fulfilled v =>
        simp only [run_callback]
        exact on_deliver_blk_G env ihA ih hi hpre.1 hpre.2.1 hpre.2.2 hn
    | all_part ret =>
      have hp : ret < s.next ∧ (s.heap ret).purpose = .all := by cases o <;> exact hpre
      cases o with
      | rejected =>
        simp only [run_callback]
        exact settle_G ihA ih hi hp.1 (o := .rejected) trivial hn
      | fulfilled v =>
        simp only [run_callback]
        exact all_check_G ihA ih hi hp.1 hp.2 hn
    | receive_proposal prop =>
      cases o with
      | rejected => simp only [run_callback]; exact hn
      | fulfilled v => simp only [run_callback]; exact hn.keep rfl rfl
    | receive_vote vote =>
      cases o with
      | rejected => simp only [run_callback]; exact hn
      | fulfilled v => simp only [run_callback]; exact hn.keep rfl rfl
    | send_resp_blk replica =>
      cases o with
      | rejected => simp only [run_callback]; exact hn
      | fulfilled v =>
        cases v with
        | values bs => simp only [run_callback]; exact hn.keep rfl rfl
        | null => simp only [run_callback]; exact hn
        | blk b => simp only [run_callback]; exact hn
        | fin f => simp only [run_callback]; exact hn
    | propose cmds =>
      cases o with
      | rejected => simp only [run_callback]; exact hn
      | fulfilled v => simp only [run_callback]; exact hn.keep rfl rfl
    | send_resp_cmd addr =>
      cases o with
      | rejected => simp only [run_callback]; exact hn
      | fulfilled v =>
        cases v with
        | fin f => simp only [run_callback]; exact hn.keep rfl rfl
        | null => simp only [run_callback]; exact hn
        | blk b => simp only [run_callback]; exact hn
        | values bs => simp only [run_callback]; exact hn

theorem on_fetch_blk_G {C : Prop} {h : Hash}
    {run : Callback → Outcome → HotStuffBase → HotStuffBase}
    (hrun : RunOK C run) (hrunG : RunG C h run) {s : HotStuffBase} (hi : Inv C s)
    {blk : Block} (hb : s.storage.find_blk blk.hash = some blk) (hn : Gone h s) :
    Gone h (on_fetch_blk run blk s) := by
  unfold on_fetch_blk
  simp only
  have hi1 : Inv C { s with part_fetched := s.part_fetched + 1, fetched := s.fetched + 1 } :=
    hi.frame rfl rfl (fun _ hh => hh) (fun _ _ hh => hh) hi.closed hi.fetch_tbl hi.deliv_tbl
      hi.cmd_tbl hi.beat_tbl hi.trace_ok
  have he1 : Ext s { s with part_fetched := s.part_fetched + 1, fetched := s.fetched + 1 } :=
    Ext.by_frame rfl rfl (fun _ hh => hh) (fun _ _ hh => hh)
  have hn1 : Gone h { s with part_fetched := s.part_fetched + 1, fetched := s.fetched + 1 } :=
    hn.keep rfl rfl
  obtain ⟨hi2, he2⟩ := on_fetch_cmd_fold_ok hrun blk.cmds _ hi1
  have hn2 := on_fetch_cmd_fold_G hrun hrunG blk.cmds _ hi1 hn1
  have he12 := he1.trans he2
  split
  · rename_i ctx htf
    have hpm := hi2.fetch_tbl _ (table_find_some_mem htf)
    have hso := SettleOK.of_fetch hpm.2 (he12.blk_kept _ _ hb)
    have hn3 := settle_G hrun hrunG hi2 hpm.1 hso hn2
    exact ⟨hn3.1, table_find_erase_none _ _ _ hn3.2⟩
  · exact hn2

/-- After `on_fetch_blk(blk)` the block is stored and no fetch context waits
for it: the context, if any, was resolved and erased (lines 113-118). -/
theorem on_fetch_blk_gone {C : Prop} {run : Callback → Outcome → HotStuffBase → HotStuffBase}
    (hrun : RunOK C run) {s : HotStuffBase} (hi : Inv C s)
    {blk : Block} (hb : s.storage.find_blk blk.hash = some blk) :
    Gone blk.hash (on_fetch_blk run blk s) := by
  obtain ⟨_, he⟩ := on_fetch_blk_ok hrun hi hb
  refine ⟨by simp [EntityStorage.is_blk_fetched, he.blk_kept _ _ hb], ?_⟩
  unfold on_fetch_blk
  simp only
  split
  · exact table_find_erase_self _ _
  · rename_i htf
    exact htf

theorem on_fetch_blk_fold_G {C : Prop} {h : Hash}
    {run : Callback → Outcome → HotStuffBase → HotStuffBase}
    (hrun : RunOK C run) (hrunG : RunG C h run) (l : List (Option Block)) :
    ∀ s : HotStuffBase, Inv C s → Gone h s →
      (∀ b, some b ∈ l → s.storage.find_blk b.hash = some b) →
      Gone h (l.foldl (fun acc blk =>
        match blk with
        | some b => on_fetch_blk run b acc
        | none => acc) s) := by
  induction l with
  | nil => intro s _ hn _; exact hn
  | cons x rest ih =>
    intro s hi hn hb
    cases x with
    | none =>
      exact ih s hi hn (fun b hb' => hb b (List.mem_cons_of_mem _ hb'))
    | some b =>
      obtain ⟨h1, h2⟩ := on_fetch_blk_ok hrun hi (hb b (List.mem_cons_self _ _))
      have u1 := on_fetch_blk_G hrun hrunG hi (hb b (List.mem_cons_self _ _)) hn
      exact ih _ h1 u1 (fun b' hb' => h2.blk_kept _ _ (hb b' (List.mem_cons_of_mem _ hb')))

/-- After the loop of `resp_blk_handler` no fetch context waits for a block
the loop has passed to `on_fetch_blk`. -/
theorem on_fetch_blk_fold_gone {C : Prop} (env : Env) (fuel : Nat) (l : List (Option Block)) :
    ∀ s : HotStuffBase, Inv C s →
      (∀ b, some b ∈ l → s.storage.find_blk b.hash = some b) →
      ∀ c, some c ∈ l →
      Gone c.hash (l.foldl (fun acc blk =>
        match blk with
        | some b => on_fetch_blk (run_callback env fuel) b acc
        | none => acc) s) := by
  have hrun := run_callback_ok (C := C) env fuel
  induction l with
  | nil => intro s _ _ c hc; simp at hc
  | cons x rest ih =>
    intro s hi hb c hc
    cases x with
    | none =>
      have hc' : some c ∈ rest := by
        rcases List.mem_cons.1 hc with h | h
        · cases h
        · exact h
      exact ih s hi (fun b hb' => hb b (List.mem_cons_of_mem _ hb')) c hc'
    | some b =>
      obtain ⟨h1, h2⟩ := on_fetch_blk_ok hrun hi (hb b (List.mem_cons_self _ _))
      have hb2 : ∀ b', some b' ∈ rest →
          (on_fetch_blk (run_callback env fuel) b s).storage.find_blk b'.hash = some b' :=
        fun b' hb' => h2.blk_kept _ _ (hb b' (List.mem_cons_of_mem _ hb'))
      by_cases hcr : some c ∈ rest
      · exact ih _ h1 hb2 c hcr
      · have hcb : c = b := by
          rcases List.mem_cons.1 hc with h | h
          · exact Option.some.inj h
          · exact absurd h hcr
        rw [hcb]
        exact on_fetch_blk_fold_G hrun (run_callback_G env fuel) rest _ h1
          (on_fetch_blk_gone hrun hi (hb b (List.mem_cons_self _ _))) hb2

theorem add_blk_hash (st : EntityStorage) (b : Block) : (st.add_blk b).2.hash = b.hash := by
  unfold EntityStorage.add_blk
  cases hf : st.find_blk b.hash with
  | some c => exact find_blk_hash hf
  | none => rfl

/-- After `resp_blk_handler` no fetch context waits for the hash of a block
of the payload that `postponed_parse` kept (line 56 keeps the blocks for
which `Block::verify` fails). -/
theorem resp_blk_handler_gone {C : Prop} (env : Env) (fuel : Nat) {s : HotStuffBase}
    (hi : Inv C s) (payload : List Block) {b : Block} (hb : b ∈ payload)
    (hv : env.verify b = false) : Gone b.hash (resp_blk_handler env fuel payload s) := by
  unfold resp_blk_handler MsgRespBlock.postponed_parse
  simp only
  obtain ⟨c1, c2, c3⟩ := collect_ok (C := C)
    (fun _blk (acc : HotStuffBase) =>
      if !env.verify _blk then
        ({ acc with storage := (acc.storage.add_blk _blk).1 },
          some (acc.storage.add_blk _blk).2)
      else
        (acc, none))
    (fun a t x => (∀ b, x = some b → t.storage.find_blk b.hash = some b)
      ∧ (env.verify a = false → ∃ c, x = some c ∧ c.hash = a.hash))
    (fun a s t x _ he hx => ⟨fun b hb => he.blk_kept _ _ (hx.1 b hb), hx.2⟩)
    (fun a s hs => by
      by_cases hv : env.verify a = true
      · simp only [hv, Bool.not_true, Bool.false_eq_true, if_false]
        exact ⟨hs, Ext.refl _, by simp, by simp⟩
      · have hv2 : env.verify a = false := by simpa using hv
        simp only [hv2, Bool.not_false, if_true]
        refine ⟨(hs.add_blk a).1, (hs.add_blk a).2, ?_, ?_⟩
        · intro b hb
          simp only [Option.some.injEq] at hb
          subst hb
          exact add_blk_canonical _ _
        · intro _
          exact ⟨_, rfl, add_blk_hash _ _⟩)
    payload s hi
  obtain ⟨x, hx, hx1, hx2⟩ := (forall₂_mem c3).1 b hb
  obtain ⟨c, hc, hch⟩ := hx2 hv
  rw [← hch]
  refine on_fetch_blk_fold_gone env fuel _ _ c1 ?_ c (by rw [← hc]; exact hx)
  intro b' hb'
  obtain ⟨a, _, ha⟩ := (forall₂_mem c3).2 _ hb'
  exact ha.1 b' rfl

/-- C7 as amended: when every requested hash is in the block store,
`req_blk_handler` replies at once with the stored blocks of the requested
hashes, in request order, and creates no fetch context.  When some requested
hash is not in the store of a replica that was started and has processed any
inputs, nothing is skipped and the handler sends nothing: it records only its
calls of `async_fetch_blk` and leaves the store alone; the existing fetch
contexts are unchanged and a context is created only for requested hashes,
without candidate replica; the joint promise of line 272 is pending with the
continuation of line 273 (send `MsgRespBlock` to the requester) as its only
callback, over one promise per requested hash in request order, resolved with
the stored block or pending as the promise of the fetch context of the hash
and reporting to the joint promise.  Whatever the replica processes next (at
callback depth two or more), either the joint promise is resolved and the
reply has been sent after the request, carrying the stored blocks of all
requested hashes in request order, or the
joint promise is still pending with the reply continuation registered and a
requested hash that was missing still has its fetch context in
`blk_fetch_waiting`.  The reply has been sent as soon as the replica has
processed a `MsgRespBlock` that carries, for every requested hash that was
missing, a block that `postponed_parse` keeps (line 56 keeps the blocks for
which `Block::verify` fails). -/
theorem req_blk_handler_reply (env : Env) (fuel : Nat) (blk_hashes : List Hash)
    (replica : NetAddr) (s : HotStuffBase) :
    ((∀ h ∈ blk_hashes, s.storage.is_blk_fetched h = true) →
        (req_blk_handler env (fuel + 1) blk_hashes replica s).trace
            = s.trace ++ blk_hashes.map (fun h => Event.async_fetch_blk h none)
              ++ [.send_resp_blk (blk_hashes.filterMap s.storage.find_blk) replica]
          ∧ (blk_hashes.filterMap s.storage.find_blk).map Block.hash = blk_hashes
          ∧ (req_blk_handler env (fuel + 1) blk_hashes replica s).blk_fetch_waiting
            = s.blk_fetch_waiting)
      ∧ (∀ (id : ReplicaID) (blk_size : Nat) (proposer : ReplicaID) (st : EntityStorage)
          (fuel0 : Nat) (inputs : List Input) (T : HotStuffBase),
          s = run_inputs env fuel0 (HotStuffBase.init id blk_size proposer st) inputs →
          T = req_blk_handler env fuel blk_hashes replica s →
          (∃ h ∈ blk_hashes, s.storage.is_blk_fetched h = false) →
          T.trace = s.trace ++ blk_hashes.map (fun h => Event.async_fetch_blk h none)
            ∧ T.storage = s.storage
            ∧ (∀ g c, table_find s.blk_fetch_waiting g = some c →
                table_find T.blk_fetch_waiting g = some c)
            ∧ (∀ g c, table_find T.blk_fetch_waiting g = some c →
                table_find s.blk_fetch_waiting g = some c
                  ∨ (g ∈ blk_hashes ∧ table_find s.blk_fetch_waiting g = none
                      ∧ c.replica_ids = []))
            ∧ (∃ ret : PId,
                (T.heap ret).state = .pending
                  ∧ (T.heap ret).callbacks = [.send_resp_blk replica]
                  ∧ List.Forall₂ (fun h q => (T.heap q).purpose = .fetch h
                      ∧ (∀ b, s.storage.find_blk h = some b →
                          (T.heap q).state = .resolved (.blk b))
                      ∧ (s.storage.find_blk h = none → (T.heap q).state = .pending
                          ∧ Callback.all_part ret ∈ (T.heap q).callbacks
                          ∧ ∃ c, table_find T.blk_fetch_waiting h = some c ∧ c.pm = q))
                      blk_hashes (T.heap ret).parts
                  ∧ ∀ (n : Nat) (more : List Input) (U : HotStuffBase),
                      U = run_inputs env (n + 2) T more →
                      ((U.heap ret).state
                            = .resolved (.values (blk_hashes.filterMap U.storage.find_blk))
                          ∧ ∃ pre post, U.trace = pre
                            ++ Event.send_resp_blk (blk_hashes.filterMap U.storage.find_blk)
                                replica :: post
                          ∧ T.trace.length ≤ pre.length
                          ∧ (blk_hashes.filterMap U.storage.find_blk).map Block.hash
                            = blk_hashes)
                        ∨ ((U.heap ret).state = .pending
                          ∧ (U.heap ret).callbacks = [.send_resp_blk replica]
                          ∧ ∃ h ∈ blk_hashes, s.storage.is_blk_fetched h = false
                              ∧ table_find U.blk_fetch_waiting h ≠ none))
            ∧ ∀ (n : Nat) (more : List Input) (payload : List Block) (U : HotStuffBase),
                U = run_inputs env (n + 2) T (more ++ [.resp_blk payload]) →
                (∀ h ∈ blk_hashes, s.storage.is_blk_fetched h = false →
                  ∃ b ∈ payload, b.hash = h ∧ env.verify b = false) →
                ∃ pre post, U.trace = pre
                      ++ Event.send_resp_blk (blk_hashes.filterMap U.storage.find_blk)
                          replica :: post
                    ∧ T.trace.length ≤ pre.length
                    ∧ (blk_hashes.filterMap U.storage.find_blk).map Block.hash
                      = blk_hashes) := by
  constructor
  · intro hall
    obtain ⟨i1, i2, i3, _, _, _, i7, i8⟩ := collect_fetch_found blk_hashes s hall
    have hpa := promise_all_resolved env fuel _ _ i7
    refine ⟨?_, filterMap_find_blk_hash _ _ hall, ?_⟩
    · simp only [req_blk_handler, hpa, promise_then, set_promise_heap_self, run_send_resp_blk,
        i8]
      simp only [HotStuffBase.log, HotStuffBase.set_promise, HotStuffBase.new_promise, i1]
    · simp only [req_blk_handler, hpa, promise_then, set_promise_heap_self, run_send_resp_blk]
      simp only [HotStuffBase.log, HotStuffBase.set_promise, HotStuffBase.new_promise, i3]
  · intro id blk_size proposer st fuel0 inputs T hs hT hmiss
    have hi0 : Inv False (HotStuffBase.init id blk_size proposer st) :=
      init_ok id blk_size proposer st (fun hf => hf.elim)
    have hi : Inv False s := by
      rw [hs]; exact run_inputs_ok env fuel0 inputs _ hi0
    have hn : NoRej s := by
      rw [hs]; exact run_inputs_N env fuel0 inputs _ hi0 (init_N id blk_size proposer st)
    have hmiss' : ∃ h ∈ blk_hashes, s.storage.find_blk h = none := by
      obtain ⟨h, hh, hf⟩ := hmiss
      exact ⟨h, hh, by simpa [EntityStorage.is_blk_fetched] using hf⟩
    obtain ⟨e1, e2, e3, e4, e5, e6, e7⟩ :=
      req_blk_handler_registers env fuel blk_hashes replica hi hn hmiss' _ rfl T hT
    have hiT : Inv False T := by
      rw [hT]; exact req_blk_handler_ok env fuel hi blk_hashes replica
    refine ⟨e1, e2, e3, e4, ⟨_, by rw [e5], by rw [e5], by rw [e5]; exact e6, ?_⟩, ?_⟩
    · intro n more U hU
      have hR := run_inputs_R env n more T hiT e7
      rw [← hU] at hR
      rcases hR.outcome with ⟨a0, pre, post, a1, a2, a3⟩ | ⟨b1, b2, e, he, b3⟩
      · exact Or.inl ⟨a0, pre, post, a1, a2, a3⟩
      · refine Or.inr ⟨b1, b2, e.1, ?_, ?_, b3⟩
        · exact (mem_zip_left (List.mem_filter.1 he).1).1
        · simpa using (List.mem_filter.1 he).2
    · intro n more payload U hU hcov
      have hX : Inv False (run_inputs env (n + 2) T more) := run_inputs_ok env _ more T hiT
      have hUeq : U = resp_blk_handler env (n + 2) payload (run_inputs env (n + 2) T more) := by
        rw [hU]
        simp only [run_inputs, List.foldl_append, List.foldl_cons, List.foldl_nil, step]
      have hR := run_inputs_R env n (more ++ [.resp_blk payload]) T hiT e7
      rw [← hU] at hR
      rcases hR.outcome with ⟨_, pre, post, a1, a2, a3⟩ | ⟨_, _, e, he, b3⟩
      · exact ⟨pre, post, a1, a2, a3⟩
      · exfalso
        obtain ⟨b, hb, hbh, hv⟩ := hcov e.1 (mem_zip_left (List.mem_filter.1 he).1).1
          (by simpa using (List.mem_filter.1 he).2)
        have hg := resp_blk_handler_gone env (n + 2) hX payload hb hv
        rw [← hUeq, hbh] at hg
        exact b3 hg.2

/-- Witness of C7 as amended.  Asked for the stored hash 0 the sample replica
replies at once with genesis.  Asked for 0 and the unknown hash 1 it records
its two calls of `async_fetch_blk` and nothing else, with the reply to
replica 7 registered; after a beat of the pacemaker the joint promise is
still pending and a requested hash still has its fetch context; once the
replica has processed a `MsgRespBlock` with block 1 the reply has been sent,
after the request, with the blocks of both hashes. -/
theorem req_blk_handler_reply_witness :
    (∀ h ∈ [0], sample_proposer.storage.is_blk_fetched h = true)
      ∧ (req_blk_handler sample_env 1 [0] 7 sample_proposer).trace
        = [.async_fetch_blk 0 none, .send_resp_blk [genesis] 7]
      ∧ sample_proposer = run_inputs reject1_env 3 (HotStuffBase.init 0 2 0 genesis_store) []
      ∧ (∃ h ∈ [0, 1], sample_proposer.storage.is_blk_fetched h = false)
      ∧ (∀ h ∈ [0, 1], sample_proposer.storage.is_blk_fetched h = false →
          ∃ b ∈ [sample_blk1], b.hash = h ∧ reject1_env.verify b = false)
      ∧ (req_blk_handler reject1_env 3 [0, 1] 7 sample_proposer).trace
        = [.async_fetch_blk 0 none, .async_fetch_blk 1 none]
      ∧ (∃ ret : PId,
          ((req_blk_handler reject1_env 3 [0, 1] 7 sample_proposer).heap ret).callbacks
              = [.send_resp_blk 7]
            ∧ ((run_inputs reject1_env 3
                  (req_blk_handler reject1_env 3 [0, 1] 7 sample_proposer) [.beat]).heap ret).state
              = .pending
            ∧ ∃ h ∈ [0, 1], table_find (run_inputs reject1_env 3
                (req_blk_handler reject1_env 3 [0, 1] 7 sample_proposer)
                [.beat]).blk_fetch_waiting h ≠ none)
      ∧ ∃ pre post,
          (run_inputs reject1_env 3 (req_blk_handler reject1_env 3 [0, 1] 7 sample_proposer)
              ([] ++ [.resp_blk [sample_blk1]])).trace
            = pre ++ Event.send_resp_blk [genesis, sample_blk1] 7 :: post
          ∧ 2 ≤ pre.length := by
  have hcov : ∀ h ∈ [0, 1], sample_proposer.storage.is_blk_fetched h = false →
      ∃ b ∈ [sample_blk1], b.hash = h ∧ reject1_env.verify b = false := by decide
  refine ⟨by decide,
    ((req_blk_handler_reply sample_env 0 [0] 7 sample_proposer).1 (by decide)).1.trans
      (by decide), rfl, ⟨1, by decide, by decide⟩, hcov, ?_⟩
  obtain ⟨t1, _, _, _, ⟨ret, _, t3, _, t5⟩, t6⟩ :=
    (req_blk_handler_reply reject1_env 3 [0, 1] 7 sample_proposer).2 0 2 0 genesis_store 3 []
      _ rfl rfl ⟨1, by decide, by decide⟩
  refine ⟨t1.trans (by decide), ⟨ret, t3, ?_⟩, ?_⟩
  · rcases t5 1 [.beat] _ rfl with ⟨_, pre, post, a1, _, _⟩ | ⟨b1, _, h, hh, _, b3⟩
    · exfalso
      have htr : (run_inputs reject1_env 3
          (req_blk_handler reject1_env 3 [0, 1] 7 sample_proposer) [.beat]).trace
          = [.async_fetch_blk 0 none, .async_fetch_blk 1 none] := by decide
      rw [htr] at a1
      have hm : Event.send_resp_blk ([0, 1].filterMap (run_inputs reject1_env 3
          (req_blk_handler reject1_env 3 [0, 1] 7 sample_proposer)
          [.beat]).storage.find_blk) 7
          ∈ [Event.async_fetch_blk 0 none, Event.async_fetch_blk 1 none] := by
        rw [a1]
        simp
      simp at hm
    · exact ⟨b1, h, hh, b3⟩
  obtain ⟨pre, post, a1, a2, _⟩ := t6 1 [] [sample_blk1] _ rfl hcov
  refine ⟨pre, post, a1.trans ?_, ?_⟩
  · have hv : [0, 1].filterMap (run_inputs reject1_env 3
        (req_blk_handler reject1_env 3 [0, 1] 7 sample_proposer)
        ([] ++ [.resp_blk [sample_blk1]])).storage.find_blk = [genesis, sample_blk1] := by
      decide
    rw [hv]
  · have hlen : (req_blk_handler reject1_env 3 [0, 1] 7 sample_proposer).trace.length = 2 := by
      decide
    rw [hlen] at a2
    exact a2

end HotStuff
